import Mathlib

/-!
Object-to-column marshalling of parquet-go (`marshal/marshal.go`).

A shallow embedding of the marshalling engine: the traversal node pool, the
six dispatch variants, the explicit-stack traversal of `MarshalStruct` and the
table setup, followed by theorems about them.

Conventions of the embedding.

* A `*Node` is the number of the pool slot that holds the node.  `NewNodeBuf`
  and `GetNode` allocate one `Node` per slot and never replace it, so slot
  numbers and node pointers correspond one to one.  All reads and writes of
  node fields go through the pool, which keeps the in-place updates of the
  source (`node.DL++`, `newNode.Val = ...`) visible to later reads.
* A `reflect.Value` is a `Val`; the word a value occupies in an `interface{}`
  is an `Option Val`.
* A Go `panic` is the `error` case of `Except PanicVal`.
* `int32` arithmetic wraps (`wrapInt32`).
* Go maps are association lists; a `range` over a map visits the list in order,
  which is one of the orders the Go runtime may choose.
* `MarshalStruct` is embedded for `isProto = false`, the value `Marshal` passes.
  The two branches guarded by `isProto` need `ParquetTimestamp` and the proto
  enum accessor, which are declared in other files of the package.
-/

namespace marshal

/-! ## Panics and errors -/

/-- A Go `error` value, identified by its message. -/
structure GoError where
  msg : String
deriving DecidableEq, Repr

/-- The value carried by a Go `panic`: a string, an `error`, or anything else. -/
inductive PanicVal where
  | str (s : String)
  | err (e : GoError)
  | other
deriving DecidableEq, Repr

/-- The runtime error raised by dereferencing a nil pointer. -/
def nilDereference : PanicVal :=
  .err ⟨"runtime error: invalid memory address or nil pointer dereference"⟩

/-- The runtime error raised by indexing a slice outside its bounds. -/
def indexOutOfRange : PanicVal :=
  .err ⟨"runtime error: index out of range"⟩

/-- The `*reflect.ValueError` raised when a `reflect.Value` method is called on
a value of the wrong kind; it implements `error`. -/
def valueError (method kind : String) : PanicVal :=
  .err ⟨"reflect: call of " ++ method ++ " on " ++ kind ++ " Value"⟩

/-! ## Machine integers -/

/-- Reduction of an integer to the `int32` range, as Go's `int32` arithmetic
and conversions do. -/
def wrapInt32 (x : Int) : Int :=
  (x + 2147483648) % 4294967296 - 2147483648

/-! ## Runtime values (`reflect.Value`) -/

/-- The kinds of `reflect.Kind` that the engine tells apart. -/
inductive Kind where
  | Invalid | Bool | Int | String | Uintptr | UnsafePointer | Ptr | Interface
  | Struct | Slice | Map
deriving DecidableEq, Repr

/-- A `reflect.Value`.  `invalid` is the zero Value.  `bytes` is a slice whose
element kind is `Uint8` (its content given as the string `string(b)`), `slice`
a slice of any other element kind.  A map lists its entries in the order in
which `MapKeys` returns the keys.  Arrays, channels and functions are outside
the modelled fragment, as are the names of unexported struct fields. -/
inductive Val where
  | invalid
  | bool (b : Bool)
  | int (n : Int)
  | str (s : String)
  | uintptr (n : Nat)
  | UnsafePointer (isNil : Bool)
  | ptr (elem : Option Val)
  | iface (elem : Option Val)
  | struct (fields : List (String × Val))
  | bytes (b : String)
  | slice (elems : List Val)
  | map (entries : List (Val × Val))

instance : Inhabited Val := ⟨Val.invalid⟩

/-- The content of a Go `interface{}`: nil or a dynamic value. -/
abbrev AnyVal := Option Val

mutual
/-- Number of constructors of a value other than the zero Value: the measure
from which the traversal of one record takes its fuel. -/
def Val.size : Val → Nat
  | .invalid => 0
  | .bool _ => 1
  | .int _ => 1
  | .str _ => 1
  | .uintptr _ => 1
  | .UnsafePointer _ => 1
  | .ptr none => 1
  | .ptr (some v) => 1 + v.size
  | .iface none => 1
  | .iface (some v) => 1 + v.size
  | .struct fs => 1 + sizeFields fs
  | .bytes _ => 1
  | .slice es => 1 + sizeElems es
  | .map es => 1 + sizeEntries es
/-- Total size of the field values of a struct. -/
def sizeFields : List (String × Val) → Nat
  | [] => 0
  | (_, v) :: r => v.size + sizeFields r
/-- Total size of the elements of a slice. -/
def sizeElems : List Val → Nat
  | [] => 0
  | v :: r => v.size + sizeElems r
/-- Total size of the keys and values of a map. -/
def sizeEntries : List (Val × Val) → Nat
  | [] => 0
  | (k, v) :: r => k.size + v.size + sizeEntries r
end

/-- `reflect.Value.IsValid`. -/
def Val.IsValid : Val → Bool
  | .invalid => false
  | _ => true

/-- `reflect.Value.Kind` (for a valid value also `v.Type().Kind()`); named
`GetKind` to keep it apart from the type of kinds. -/
def Val.GetKind : Val → Kind
  | .invalid => .Invalid
  | .bool _ => .Bool
  | .int _ => .Int
  | .str _ => .String
  | .uintptr _ => .Uintptr
  | .UnsafePointer _ => .UnsafePointer
  | .ptr _ => .Ptr
  | .iface _ => .Interface
  | .struct _ => .Struct
  | .bytes _ => .Slice
  | .slice _ => .Slice
  | .map _ => .Map

/-- `reflect.Value.IsNil`: defined on pointers, interfaces, slices and maps, a
panic on every other kind and on the zero Value.  A nil slice or map is not
told apart from an empty one; the engine never asks for it. -/
def Val.IsNil : Val → Except PanicVal Bool
  | .ptr e => .ok e.isNone
  | .iface e => .ok e.isNone
  | .UnsafePointer b => .ok b
  | .bytes _ => .ok false
  | .slice _ => .ok false
  | .map _ => .ok false
  | .invalid => .error (valueError "reflect.Value.IsNil" "zero")
  | .bool _ => .error (valueError "reflect.Value.IsNil" "bool")
  | .int _ => .error (valueError "reflect.Value.IsNil" "int")
  | .str _ => .error (valueError "reflect.Value.IsNil" "string")
  | .uintptr _ => .error (valueError "reflect.Value.IsNil" "uintptr")
  | .struct _ => .error (valueError "reflect.Value.IsNil" "struct")

/-- `reflect.Value.Elem`: the value an interface holds or a pointer points to,
the zero Value when that is nil, a panic on every other kind. -/
def Val.Elem : Val → Except PanicVal Val
  | .ptr (some v) => .ok v
  | .ptr none => .ok .invalid
  | .iface (some v) => .ok v
  | .iface none => .ok .invalid
  | _ => .error (valueError "reflect.Value.Elem" "non-pointer")

/-- `reflect.Value.String` (named `KeyString` to keep it apart from the type of
strings): the string itself for a string, and a string of
the form `<T Value>` for any other value, where the model writes the kind for
the type `T`. -/
def Val.KeyString : Val → String
  | .str s => s
  | .invalid => "<invalid Value>"
  | .bool _ => "<bool Value>"
  | .int _ => "<int Value>"
  | .uintptr _ => "<uintptr Value>"
  | .UnsafePointer _ => "<unsafe.Pointer Value>"
  | .ptr _ => "<ptr Value>"
  | .iface _ => "<interface Value>"
  | .struct _ => "<struct Value>"
  | .bytes _ => "<[]uint8 Value>"
  | .slice _ => "<slice Value>"
  | .map _ => "<map Value>"

/-- `v.Type().NumField()`: a panic unless `v` is a struct. -/
def Val.NumField : Val → Except PanicVal Nat
  | .struct fs => .ok fs.length
  | _ => .error (.str "reflect: NumField of non-struct type")

/-- `v.Type().Field(j).Name`. -/
def Val.FieldName (v : Val) (j : Nat) : Except PanicVal String :=
  match v with
  | .struct fs =>
    match fs[j]? with
    | some f => .ok f.1
    | none => .error (.str "reflect: Field index out of bounds")
  | _ => .error (.str "reflect: Field of non-struct type")

/-- `reflect.Value.Field`. -/
def Val.Field (v : Val) (j : Nat) : Except PanicVal Val :=
  match v with
  | .struct fs =>
    match fs[j]? with
    | some f => .ok f.2
    | none => .error (.str "reflect: Field index out of range")
  | _ => .error (valueError "reflect.Value.Field" "non-struct")

/-- `reflect.Value.Len`, which the engine takes of slices of non-byte
elements only. -/
def Val.Len : Val → Except PanicVal Nat
  | .slice es => .ok es.length
  | .bytes b => .ok b.utf8ByteSize
  | .map es => .ok es.length
  | .str s => .ok s.utf8ByteSize
  | _ => .error (valueError "reflect.Value.Len" "non-slice")

/-- `v.Type().Kind()`: `Type` panics on the zero Value. -/
def Val.TypeKind (v : Val) : Except PanicVal Kind :=
  if v.IsValid then .ok v.GetKind else .error (valueError "reflect.Value.Type" "zero")

/-- `string(v.Bytes())`: a panic unless `v` is a slice of bytes. -/
def Val.Bytes : Val → Except PanicVal String
  | .bytes b => .ok b
  | _ => .error (valueError "reflect.Value.Bytes" "non-byte slice")

/-- `reflect.Value.Index` on a slice of non-byte elements. -/
def Val.Index (v : Val) (j : Nat) : Except PanicVal Val :=
  match v with
  | .slice es =>
    match es[j]? with
    | some e => .ok e
    | none => .error (.str "reflect: slice index out of range")
  | _ => .error (valueError "reflect.Value.Index" "non-slice")

/-- `reflect.Value.MapKeys`. -/
def Val.MapKeys : Val → Except PanicVal (List Val)
  | .map es => .ok (es.map Prod.fst)
  | _ => .error (valueError "reflect.Value.MapKeys" "non-map")

/-- The value `v.MapIndex(keys[j])` for `keys = v.MapKeys()`.  A Go map holds
each key once, so the lookup of the `j`-th key yields the value stored with
it. -/
def Val.MapIndexOfKey (v : Val) (j : Nat) : Except PanicVal Val :=
  match v with
  | .map es =>
    match es[j]? with
    | some e => .ok e.2
    | none => .ok .invalid
  | _ => .error (valueError "reflect.Value.MapIndex" "non-map")

/-- Whether the static type of a value is a slice of bytes:
`v.Type().Elem().Kind() == reflect.Uint8` on a slice. -/
def Val.elemIsUint8 : Val → Bool
  | .bytes _ => true
  | _ => false

/-- `v.Interface()` of a valid value. -/
def Val.Interface (v : Val) : AnyVal :=
  match v with
  | .iface e => e
  | v => some v

/-! ## Schema (packages `parquet`, `schema`, `common`) -/

/-- `parquet.Type`, the physical types. -/
inductive ParquetType where
  | BOOLEAN | INT32 | INT64 | INT96 | FLOAT | DOUBLE | BYTE_ARRAY
  | FIXED_LEN_BYTE_ARRAY
deriving DecidableEq, Repr

/-- `parquet.FieldRepetitionType`. -/
inductive FieldRepetitionType where
  | REQUIRED | OPTIONAL | REPEATED
deriving DecidableEq, Repr

/-- The fields of `parquet.SchemaElement` that the engine reads; each is a
pointer in the source, nil being `none`.  `Typ` is the field `Type`.  The converted type is kept as its
number. -/
structure SchemaElement where
  Typ : Option ParquetType
  RepetitionType : Option FieldRepetitionType
  NumChildren : Option Int
  ConvertedType : Option Nat
deriving DecidableEq, Repr

/-- Modelled from the spec: the accessor `GetNumChildren` is generated code of
package `parquet`, which is not in this file; a leaf path is a schema path with
no further children, so an unset count reads as 0. -/
def SchemaElement.GetNumChildren (e : SchemaElement) : Int :=
  e.NumChildren.getD 0

/-- Modelled from the spec: the accessor `GetRepetitionType` is generated code
of package `parquet`; an unset repetition kind reads as the first kind,
`REQUIRED`. -/
def SchemaElement.GetRepetitionType (e : SchemaElement) : FieldRepetitionType :=
  e.RepetitionType.getD .REQUIRED

/-- Modelled from the spec: the accessor `IsSetConvertedType` is generated code
of package `parquet`; it tells whether the schema attaches a logical conversion
to the path. -/
def SchemaElement.IsSetConvertedType (e : SchemaElement) : Bool :=
  e.ConvertedType.isSome

/-- `schema.PathMapType`: a node of the schema path tree, with its path and
its children by name. -/
inductive PathMapType where
  | mk (Path : String) (Children : List (String × PathMapType))

/-- The `Path` field of a path tree node. -/
def PathMapType.Path : PathMapType → String
  | .mk p _ => p

/-- The `Children` field of a path tree node. -/
def PathMapType.Children : PathMapType → List (String × PathMapType)
  | .mk _ c => c

/-- The map lookup `pm.Children[name]`. -/
def PathMapType.child (pm : PathMapType) (name : String) : Option PathMapType :=
  pm.Children.lookup name

/-- The part of `schema.SchemaHandler` the engine reads.  `MapIndex` and
`IndexMap` are Go maps (a missing key reads as the zero value).  The two level
functions are the methods `MaxDefinitionLevel` and `MaxRepetitionLevel`, which
are defined in package `schema`; the engine discards their error result, so
they are taken as functions from a path to a level. -/
structure SchemaHandler where
  SchemaElements : List SchemaElement
  MapIndex : List (String × Int)
  IndexMap : List (Int × String)
  PathMap : Option PathMapType
  Infos : List String
  MaxDefinitionLevel : List String → Int
  MaxRepetitionLevel : List String → Int

/-- The lookup `schemaHandler.MapIndex[path]`; 0 for a missing path. -/
def SchemaHandler.mapIndex (sh : SchemaHandler) (path : String) : Int :=
  (sh.MapIndex.lookup path).getD 0

/-- The lookup `schemaHandler.IndexMap[i]`; the empty string for a missing
index. -/
def SchemaHandler.indexMap (sh : SchemaHandler) (i : Int) : String :=
  (sh.IndexMap.lookup i).getD ""

/-- The indexing `schemaHandler.SchemaElements[i]` with an `int32` index: a
panic outside the bounds. -/
def SchemaHandler.element (sh : SchemaHandler) (i : Int) : Except PanicVal SchemaElement :=
  if i < 0 then .error indexOutOfRange
  else
    match sh.SchemaElements[i.toNat]? with
    | some e => .ok e
    | none => .error indexOutOfRange

/-- Modelled from the spec: the constant `common.PAR_GO_PATH_DELIMITER` is
declared in package `common`; the spec describes schema paths as
slash-delimited. -/
def PAR_GO_PATH_DELIMITER : String := "/"

/-- The components of a character sequence between the occurrences of a
non-empty separator; `skip` counts the characters of a separator still to be
passed over, `cur` holds the current component in reverse. -/
def splitChars (sep : List Char) : List Char → Nat → List Char → List String
  | [], _, cur => [String.mk cur.reverse]
  | _ :: rest, skip + 1, cur => splitChars sep rest skip cur
  | ch :: rest, 0, cur =>
    if sep ≠ [] ∧ sep.isPrefixOf (ch :: rest) then
      String.mk cur.reverse :: splitChars sep rest (sep.length - 1) []
    else splitChars sep rest 0 (ch :: cur)

/-- Modelled from the spec: `common.StrToPath` is defined in package `common`;
it splits a delimited path string into its components. -/
def StrToPath (path : String) : List String :=
  splitChars PAR_GO_PATH_DELIMITER.data path.data 0 []

/-- Modelled from the spec: `common.IsChildPath` is defined in package `common`;
`child` is a descendant of `parent` when it is `parent` itself or continues it
past a delimiter. -/
def IsChildPath (parent child : String) : Bool :=
  parent.data.isPrefixOf child.data &&
    (child.data.length == parent.data.length ||
      PAR_GO_PATH_DELIMITER.data.isPrefixOf (child.data.drop parent.data.length))

/-- The functions of other packages that the engine calls and whose code is not
in this file: `schema.IsInternalField`, `schema.IsPointerGoTypeKind` and the
coercion `types.InterfaceToParquetType`, which may panic. -/
structure Collaborators where
  IsInternalField : String → Bool
  IsPointerGoTypeKind : Kind → Bool
  InterfaceToParquetType : AnyVal → Option ParquetType → Except PanicVal AnyVal

/-! ## Destination columns (`layout.Table`) -/

/-- The fields of `layout.Table` that the engine writes. -/
structure Table where
  Path : List String
  MaxDefinitionLevel : Int
  MaxRepetitionLevel : Int
  RepetitionType : FieldRepetitionType
  Schema : Option SchemaElement
  Info : Option String
  Values : List AnyVal
  DefinitionLevels : List Int
  RepetitionLevels : List Int

/-- Modelled from the spec: `layout.NewEmptyTable` is defined in package
`layout`; it yields a column with no metadata and no entries. -/
def NewEmptyTable : Table :=
  { Path := [], MaxDefinitionLevel := 0, MaxRepetitionLevel := 0,
    RepetitionType := .REQUIRED, Schema := none, Info := none,
    Values := [], DefinitionLevels := [], RepetitionLevels := [] }

/-- The Go map `map[string]*layout.Table`, one table per key. -/
abbrev TableMap := List (String × Table)

/-- The assignment `tableMap[key] = table`: replaces the table of an existing
key, adds the key otherwise. -/
def TableMap.insert : TableMap → String → Table → TableMap
  | [], key, table => [(key, table)]
  | (k, t) :: rest, key, table =>
    if k = key then (k, table) :: rest else (k, t) :: TableMap.insert rest key table

/-- One `append` to each of the three parallel arrays of a table. -/
def Table.append (t : Table) (v : AnyVal) (dl rl : Int) : Table :=
  { t with Values := t.Values ++ [v],
           DefinitionLevels := t.DefinitionLevels ++ [dl],
           RepetitionLevels := t.RepetitionLevels ++ [rl] }

/-- The three appends on `table := res[path]`: a nil dereference when the map
has no table for the path. -/
def TableMap.appendAt : TableMap → String → AnyVal → Int → Int → Except PanicVal TableMap
  | [], _, _, _, _ => .error nilDereference
  | (k, t) :: rest, path, v, dl, rl =>
    if k = path then .ok ((k, t.append v dl rl) :: rest)
    else
      match TableMap.appendAt rest path v dl rl with
      | .ok rest1 => .ok ((k, t) :: rest1)
      | .error p => .error p

/-- The lookup `res[path]`. -/
def TableMap.get? : TableMap → String → Option Table
  | [], _ => none
  | (k, t) :: rest, path => if k = path then some t else TableMap.get? rest path

/-- The loop `for key, table := range res` of the null propagation: one null
entry in every table whose key is a child path of `path`. -/
def TableMap.appendNullBelow (res : TableMap) (path : String) (dl rl : Int) : TableMap :=
  res.map fun kt => if IsChildPath path kt.1 then (kt.1, kt.2.append none dl rl) else kt

/-! ## Traversal nodes and the node pool -/

/-- The struct `Node`: a value, its place in the schema path tree, and its
repetition and definition levels (`int32`). -/
structure Node where
  Val : Val
  PathMap : Option PathMapType
  RL : Int
  DL : Int

/-- The node `new(Node)`: every field at its zero value. -/
def zeroNode : Node :=
  { Val := .invalid, PathMap := none, RL := 0, DL := 0 }

/-- The struct `NodeBufType`: `Buf` lists the nodes that the slots point to,
slot by slot. -/
structure NodeBufType where
  Index : Int
  Buf : List Node

/-- The node a slot points to (`*p` for the pointer `p`). -/
def NodeBufType.node (nbt : NodeBufType) (p : Nat) : Node :=
  (nbt.Buf[p]?).getD zeroNode

/-- A write to fields of the node a slot points to. -/
def NodeBufType.update (nbt : NodeBufType) (p : Nat) (f : Node → Node) : NodeBufType :=
  { nbt with Buf := nbt.Buf.set p (f (nbt.node p)) }

/-- `NewNodeBuf(ln)`: `ln` fresh nodes and the cursor at 0; `make` panics on a
negative length. -/
def NewNodeBuf (ln : Int) : Except PanicVal NodeBufType :=
  if ln < 0 then .error (.err ⟨"runtime error: makeslice: len out of range"⟩)
  else .ok { Index := 0, Buf := List.replicate ln.toNat zeroNode }

/-- `GetNode`: grows `Buf` by one fresh node when the cursor has reached its
length, advances the cursor and returns the slot `Buf[Index-1]`; the indexing
panics outside the bounds of `Buf`. -/
def NodeBufType.GetNode (nbt : NodeBufType) : Except PanicVal (NodeBufType × Nat) :=
  let buf := if nbt.Index ≥ nbt.Buf.length then nbt.Buf ++ [zeroNode] else nbt.Buf
  let index := nbt.Index + 1
  if 0 ≤ index - 1 ∧ index - 1 < buf.length then
    .ok ({ Index := index, Buf := buf }, (index - 1).toNat)
  else .error indexOutOfRange

/-- `Reset`: the cursor back to 0. -/
def NodeBufType.Reset (nbt : NodeBufType) : NodeBufType :=
  { nbt with Index := 0 }

/-! ## The dispatch variants -/

/-- `(*ParquetPtr).Marshal`. -/
def ParquetPtr.Marshal (node : Nat) (nodeBuf : NodeBufType) (stack : List Nat) :
    Except PanicVal (NodeBufType × List Nat) := do
  let isNil ← (nodeBuf.node node).Val.IsNil
  if isNil then
    return (nodeBuf, stack)
  let elem ← (nodeBuf.node node).Val.Elem
  let nodeBuf := nodeBuf.update node fun n => { n with Val := elem }
  let nodeBuf := nodeBuf.update node fun n => { n with DL := wrapInt32 (n.DL + 1) }
  return (nodeBuf, stack ++ [node])

/-- `(*ParquetInterface).Marshal`. -/
def ParquetInterface.Marshal (node : Nat) (nodeBuf : NodeBufType) (stack : List Nat) :
    Except PanicVal (NodeBufType × List Nat) := do
  let isNil ← (nodeBuf.node node).Val.IsNil
  if isNil then
    return (nodeBuf, stack)
  let elem ← (nodeBuf.node node).Val.Elem
  let nodeBuf := nodeBuf.update node fun n => { n with Val := elem }
  return (nodeBuf, stack ++ [node])

/-- The field loop of `(*ParquetStruct).Marshal`, with `n` iterations left and
`j` the field index. -/
def ParquetStruct.loop (c : Collaborators) (node : Nat) :
    Nat → Nat → NodeBufType → List Nat → Except PanicVal (NodeBufType × List Nat)
  | 0, _, nodeBuf, stack => .ok (nodeBuf, stack)
  | n + 1, j, nodeBuf, stack => do
    let name ← (nodeBuf.node node).Val.FieldName j
    if c.IsInternalField name then
      ParquetStruct.loop c node n (j + 1) nodeBuf stack
    else
      let (nodeBuf, newNode) ← nodeBuf.GetNode
      match (nodeBuf.node node).PathMap with
      | none => .error nilDereference
      | some pathMap =>
        match pathMap.child name with
        | none =>
          let nodeBuf := nodeBuf.update newNode fun x => { x with PathMap := none }
          ParquetStruct.loop c node n (j + 1) nodeBuf stack
        | some child => do
          let nodeBuf := nodeBuf.update newNode fun x => { x with PathMap := some child }
          let v ← (nodeBuf.node node).Val.Field j
          let nodeBuf := nodeBuf.update newNode fun x => { x with Val := v }
          let nodeBuf := nodeBuf.update newNode fun x => { x with RL := (nodeBuf.node node).RL }
          let nodeBuf := nodeBuf.update newNode fun x => { x with DL := (nodeBuf.node node).DL }
          ParquetStruct.loop c node n (j + 1) nodeBuf (stack ++ [newNode])

/-- `(*ParquetStruct).Marshal`. -/
def ParquetStruct.Marshal (c : Collaborators) (node : Nat) (nodeBuf : NodeBufType)
    (stack : List Nat) : Except PanicVal (NodeBufType × List Nat) := do
  let numField ← (nodeBuf.node node).Val.NumField
  ParquetStruct.loop c node numField 0 nodeBuf stack

/-- The assignment `missingKeys[k] = b` on the map `missingKeys`. -/
def setMissing : List (String × Bool) → String → Bool → List (String × Bool)
  | [], k, b => [(k, b)]
  | (k1, b1) :: rest, k, b =>
    if k1 = k then (k1, b) :: rest else (k1, b1) :: setMissing rest k b

/-- The first loop of `(*ParquetMapStruct).Marshal`: every schema child without
children of its own is entered as missing. -/
def ParquetMapStruct.initMissing :
    List (String × PathMapType) → List (String × Bool) → List (String × Bool)
  | [], missingKeys => missingKeys
  | (k, typ) :: rest, missingKeys =>
    if typ.Children.length = 0 then
      ParquetMapStruct.initMissing rest (setMissing missingKeys k true)
    else ParquetMapStruct.initMissing rest missingKeys

/-- The key loop of `(*ParquetMapStruct).Marshal`; the first argument is
`j + 1` for the key index `j`, which runs downwards. -/
def ParquetMapStruct.loop (sh : SchemaHandler) (node : Nat) (keys : List Val) :
    Nat → NodeBufType → List Nat → List (String × Bool) →
    Except PanicVal (NodeBufType × List Nat × List (String × Bool))
  | 0, nodeBuf, stack, missingKeys => .ok (nodeBuf, stack, missingKeys)
  | j + 1, nodeBuf, stack, missingKeys => do
    let key ← match keys[j]? with
      | some key => pure key
      | none => .error indexOutOfRange
    let (nodeBuf, newNode) ← nodeBuf.GetNode
    let k := key.KeyString
    match (nodeBuf.node node).PathMap with
    | none => .error nilDereference
    | some pathMap =>
      match pathMap.child k with
      | none =>
        let nodeBuf := nodeBuf.update newNode fun x => { x with PathMap := none }
        ParquetMapStruct.loop sh node keys j nodeBuf stack missingKeys
      | some child => do
        let nodeBuf := nodeBuf.update newNode fun x => { x with PathMap := some child }
        let missingKeys := setMissing missingKeys k false
        let v ← (nodeBuf.node node).Val.MapIndexOfKey j
        let nodeBuf := nodeBuf.update newNode fun x => { x with RL := (nodeBuf.node node).RL }
        let nodeBuf := nodeBuf.update newNode fun x => { x with DL := (nodeBuf.node node).DL }
        let kind ← v.TypeKind
        if kind = Kind.Interface then
          let elem ← v.Elem
          let nodeBuf := nodeBuf.update newNode fun x => { x with Val := elem }
          if (nodeBuf.node newNode).Val.IsValid then
            match (nodeBuf.node newNode).PathMap with
            | none => .error nilDereference
            | some newPathMap => do
              let e ← sh.element (sh.mapIndex newPathMap.Path)
              match e.RepetitionType with
              | none => .error nilDereference
              | some rt =>
                if rt ≠ FieldRepetitionType.REQUIRED then
                  let nodeBuf := nodeBuf.update newNode fun x =>
                    { x with DL := wrapInt32 (x.DL + 1) }
                  ParquetMapStruct.loop sh node keys j nodeBuf (stack ++ [newNode]) missingKeys
                else
                  ParquetMapStruct.loop sh node keys j nodeBuf (stack ++ [newNode]) missingKeys
          else
            ParquetMapStruct.loop sh node keys j nodeBuf (stack ++ [newNode]) missingKeys
        else
          let nodeBuf := nodeBuf.update newNode fun x => { x with Val := v }
          ParquetMapStruct.loop sh node keys j nodeBuf (stack ++ [newNode]) missingKeys

/-- The last loop of `(*ParquetMapStruct).Marshal`: one node holding
`reflect.ValueOf(null)`, the zero Value, for every key still missing. -/
def ParquetMapStruct.fill (node : Nat) :
    List (String × Bool) → NodeBufType → List Nat → Except PanicVal (NodeBufType × List Nat)
  | [], nodeBuf, stack => .ok (nodeBuf, stack)
  | (k, isMissing) :: rest, nodeBuf, stack =>
    if isMissing then do
      let (nodeBuf, newNode) ← nodeBuf.GetNode
      match (nodeBuf.node node).PathMap with
      | none => .error nilDereference
      | some pathMap =>
        let nodeBuf := nodeBuf.update newNode fun x => { x with PathMap := pathMap.child k }
        let nodeBuf := nodeBuf.update newNode fun x => { x with Val := Val.invalid }
        let nodeBuf := nodeBuf.update newNode fun x => { x with RL := (nodeBuf.node node).RL }
        let nodeBuf := nodeBuf.update newNode fun x => { x with DL := (nodeBuf.node node).DL }
        ParquetMapStruct.fill node rest nodeBuf (stack ++ [newNode])
    else ParquetMapStruct.fill node rest nodeBuf stack

/-- `(*ParquetMapStruct).Marshal`. -/
def ParquetMapStruct.Marshal (sh : SchemaHandler) (node : Nat) (nodeBuf : NodeBufType)
    (stack : List Nat) : Except PanicVal (NodeBufType × List Nat) := do
  let keys ← (nodeBuf.node node).Val.MapKeys
  if keys.length ≤ 0 then
    return (nodeBuf, stack)
  match (nodeBuf.node node).PathMap with
  | none => .error nilDereference
  | some pathMap => do
    let missingKeys := ParquetMapStruct.initMissing pathMap.Children []
    let (nodeBuf, stack, missingKeys) ←
      ParquetMapStruct.loop sh node keys keys.length nodeBuf stack missingKeys
    ParquetMapStruct.fill node missingKeys nodeBuf stack

/-- The element loop of `(*ParquetSlice).Marshal`; the first argument is
`j + 1` for the element index `j`, which runs downwards. -/
def ParquetSlice.loop (node : Nat) (pathMap : Option PathMapType) (rlNow : Int) :
    Nat → NodeBufType → List Nat → Except PanicVal (NodeBufType × List Nat)
  | 0, nodeBuf, stack => .ok (nodeBuf, stack)
  | j + 1, nodeBuf, stack => do
    let (nodeBuf, newNode) ← nodeBuf.GetNode
    let nodeBuf := nodeBuf.update newNode fun x => { x with PathMap := pathMap }
    let v ← (nodeBuf.node node).Val.Index j
    let nodeBuf := nodeBuf.update newNode fun x => { x with Val := v }
    let rl := if j = 0 then (nodeBuf.node node).RL else rlNow
    let nodeBuf := nodeBuf.update newNode fun x => { x with RL := rl }
    let nodeBuf := nodeBuf.update newNode fun x =>
      { x with DL := wrapInt32 ((nodeBuf.node node).DL + 1) }
    ParquetSlice.loop node pathMap rlNow j nodeBuf (stack ++ [newNode])

/-- The list-wrapper resolution of `(*ParquetSlice).Marshal`: the path tree
node and the path string of the elements. -/
def ParquetSlice.resolve (sh : SchemaHandler) (nodePathMap : PathMapType) :
    Except PanicVal (Option PathMapType × String) := do
  let path := nodePathMap.Path
  let e ← sh.element (sh.mapIndex nodePathMap.Path)
  match e.RepetitionType with
  | none => .error nilDereference
  | some rt =>
    if rt ≠ FieldRepetitionType.REPEATED then
      match nodePathMap.child "List" with
      | none => .error nilDereference
      | some list =>
        .ok (list.child "Element",
          path ++ PAR_GO_PATH_DELIMITER ++ "List" ++ PAR_GO_PATH_DELIMITER ++ "Element")
    else .ok (some nodePathMap, path)

/-- `(*ParquetSlice).Marshal`. -/
def ParquetSlice.Marshal (sh : SchemaHandler) (node : Nat) (nodeBuf : NodeBufType)
    (stack : List Nat) : Except PanicVal (NodeBufType × List Nat) := do
  let ln ← (nodeBuf.node node).Val.Len
  match (nodeBuf.node node).PathMap with
  | none => .error nilDereference
  | some nodePathMap => do
    let (pathMap, path) ← ParquetSlice.resolve sh nodePathMap
    if ln ≤ 0 then
      return (nodeBuf, stack)
    let rlNow := sh.MaxRepetitionLevel (StrToPath path)
    ParquetSlice.loop node pathMap rlNow ln nodeBuf stack

/-- The entry loop of `(*ParquetMap).Marshal`; the first argument is `j + 1`
for the key index `j`, which runs downwards. -/
def ParquetMap.loop (node : Nat) (keys : List Val) (rlNow : Int) :
    Nat → NodeBufType → List Nat → Except PanicVal (NodeBufType × List Nat)
  | 0, nodeBuf, stack => .ok (nodeBuf, stack)
  | j + 1, nodeBuf, stack => do
    let key ← match keys[j]? with
      | some key => pure key
      | none => .error indexOutOfRange
    let value ← (nodeBuf.node node).Val.MapIndexOfKey j
    let (nodeBuf, newNode) ← nodeBuf.GetNode
    let keyPathMap ← match (nodeBuf.node node).PathMap with
      | none => .error nilDereference
      | some pathMap =>
        match pathMap.child "Key_value" with
        | none => .error nilDereference
        | some kv => pure (kv.child "Key")
    let nodeBuf := nodeBuf.update newNode fun x => { x with PathMap := keyPathMap }
    let nodeBuf := nodeBuf.update newNode fun x => { x with Val := key }
    let nodeBuf := nodeBuf.update newNode fun x =>
      { x with DL := wrapInt32 ((nodeBuf.node node).DL + 1) }
    let rl := if j = 0 then (nodeBuf.node node).RL else rlNow
    let nodeBuf := nodeBuf.update newNode fun x => { x with RL := rl }
    let stack := stack ++ [newNode]
    let (nodeBuf, newNode) ← nodeBuf.GetNode
    let valuePathMap ← match (nodeBuf.node node).PathMap with
      | none => .error nilDereference
      | some pathMap =>
        match pathMap.child "Key_value" with
        | none => .error nilDereference
        | some kv => pure (kv.child "Value")
    let nodeBuf := nodeBuf.update newNode fun x => { x with PathMap := valuePathMap }
    let nodeBuf := nodeBuf.update newNode fun x => { x with Val := value }
    let nodeBuf := nodeBuf.update newNode fun x =>
      { x with DL := wrapInt32 ((nodeBuf.node node).DL + 1) }
    let rl := if j = 0 then (nodeBuf.node node).RL else rlNow
    let nodeBuf := nodeBuf.update newNode fun x => { x with RL := rl }
    ParquetMap.loop node keys rlNow j nodeBuf (stack ++ [newNode])

/-- `(*ParquetMap).Marshal`. -/
def ParquetMap.Marshal (sh : SchemaHandler) (node : Nat) (nodeBuf : NodeBufType)
    (stack : List Nat) : Except PanicVal (NodeBufType × List Nat) := do
  match (nodeBuf.node node).PathMap with
  | none => .error nilDereference
  | some nodePathMap => do
    let path := nodePathMap.Path ++ PAR_GO_PATH_DELIMITER ++ "Key_value"
    let keys ← (nodeBuf.node node).Val.MapKeys
    if keys.length ≤ 0 then
      return (nodeBuf, stack)
    let rlNow := sh.MaxRepetitionLevel (StrToPath path)
    ParquetMap.loop node keys rlNow keys.length nodeBuf stack

/-! ## Table setup -/

/-- The loop shared by `setupTableMap` and `InitMarshal`, over the schema
elements from index `i` on: one empty table for every element without
children, stored under the path of its index. -/
def fillTableMap (sh : SchemaHandler) :
    List SchemaElement → Nat → TableMap → Except PanicVal TableMap
  | [], _, tableMap => .ok tableMap
  | schema :: rest, i, tableMap => do
    let pathStr := sh.indexMap (wrapInt32 i)
    let numChildren := schema.GetNumChildren
    if numChildren = 0 then
      let table := NewEmptyTable
      let table := { table with Path := StrToPath pathStr }
      let table := { table with MaxDefinitionLevel := sh.MaxDefinitionLevel table.Path }
      let table := { table with MaxRepetitionLevel := sh.MaxRepetitionLevel table.Path }
      let table := { table with RepetitionType := schema.GetRepetitionType }
      let element ← sh.element (sh.mapIndex pathStr)
      let table := { table with Schema := some element }
      let info ← match sh.Infos[i]? with
        | some info => pure info
        | none => .error indexOutOfRange
      let table := { table with Info := some info }
      let table := { table with Values := [], DefinitionLevels := [], RepetitionLevels := [] }
      fillTableMap sh rest (i + 1) (tableMap.insert pathStr table)
    else fillTableMap sh rest (i + 1) tableMap

/-- `setupTableMap`; `numElements` is only the capacity of the empty arrays. -/
def setupTableMap (sh : SchemaHandler) (_numElements : Nat) : Except PanicVal TableMap :=
  fillTableMap sh sh.SchemaElements 0 []

/-- `InitMarshal`: the table map of `setupTableMap`, a node pool of one slot,
and the same loop over the schema elements once more.  The first result of the
source, the reflected batch, is the argument `srcInterface` itself. -/
def InitMarshal (srcInterface : List AnyVal) (sh : SchemaHandler) :
    Except PanicVal (NodeBufType × TableMap) := do
  let res ← setupTableMap sh srcInterface.length
  let nodeBuf ← NewNodeBuf 1
  let res ← fillTableMap sh sh.SchemaElements 0 res
  return (nodeBuf, res)

/-! ## The traversal engine -/

/-- The variables of the traversal loop of `MarshalStruct`. -/
structure State where
  nodeBuf : NodeBufType
  stack : List Nat
  res : TableMap

/-- The six implementations of the interface `Marshaler`. -/
inductive Marshaler where
  | ParquetPtr | ParquetStruct | ParquetSlice | ParquetMapStruct | ParquetMap
  | ParquetInterface
deriving DecidableEq, Repr

/-- The call `m.Marshal(node, nodeBuf, stack)`. -/
def Marshaler.Marshal (c : Collaborators) (sh : SchemaHandler) (m : Marshaler) (node : Nat)
    (nodeBuf : NodeBufType) (stack : List Nat) : Except PanicVal (NodeBufType × List Nat) :=
  match m with
  | .ParquetPtr => ParquetPtr.Marshal node nodeBuf stack
  | .ParquetStruct => ParquetStruct.Marshal c node nodeBuf stack
  | .ParquetSlice => ParquetSlice.Marshal sh node nodeBuf stack
  | .ParquetMapStruct => ParquetMapStruct.Marshal sh node nodeBuf stack
  | .ParquetMap => ParquetMap.Marshal sh node nodeBuf stack
  | .ParquetInterface => ParquetInterface.Marshal node nodeBuf stack

/-- The classification of a popped node: the variant to dispatch to, or `none`
for a terminal node. -/
def classify (sh : SchemaHandler) (node : Node) : Except PanicVal (Option Marshaler) := do
  let tk ← if node.Val.IsValid then node.Val.TypeKind else pure Kind.Interface
  if tk = Kind.Ptr ∨ tk = Kind.UnsafePointer ∨ tk = Kind.Uintptr then
    return some .ParquetPtr
  else if tk = Kind.Struct then
    return some .ParquetStruct
  else if tk = Kind.Slice ∧ node.Val.elemIsUint8 = false then
    return some .ParquetSlice
  else if tk = Kind.Map then
    match node.PathMap with
    | none => .error nilDereference
    | some pathMap => do
      let schemaIndex := sh.mapIndex pathMap.Path
      let sele ← sh.element schemaIndex
      if !sele.IsSetConvertedType then
        return some .ParquetMapStruct
      else
        return some .ParquetMap
  else if tk = Kind.Interface then
    return some .ParquetInterface
  else
    return none

/-- The value that the terminal branch appends for a node value: the value as
an `interface{}`, a byte slice read as a string when the physical type is
`BYTE_ARRAY`, then coerced to the physical type. -/
def leafValue (c : Collaborators) (val : Val) (schemaDefinition : SchemaElement) :
    Except PanicVal AnyVal := do
  let v : AnyVal := if val.IsValid then val.Interface else none
  match schemaDefinition.Typ with
  | none => .error nilDereference
  | some typ => do
    let v ← if typ = ParquetType.BYTE_ARRAY then do
          let kind ← val.TypeKind
          if kind = Kind.Slice then do
            let b ← val.Bytes
            pure (some (Val.str b))
          else pure v
        else pure v
    c.InterfaceToParquetType v schemaDefinition.Typ

/-- The terminal branch of the traversal loop: coercion of the value and one
entry in the table of the node's path. -/
def emitLeaf (c : Collaborators) (sh : SchemaHandler) (node : Node) (res : TableMap) :
    Except PanicVal TableMap := do
  match node.PathMap with
  | none => .error nilDereference
  | some pathMap => do
    let schemaIndex := sh.mapIndex pathMap.Path
    let schemaDefinition ← sh.element schemaIndex
    let value ← leafValue c node.Val schemaDefinition
    res.appendAt pathMap.Path value node.DL node.RL

/-- The null propagation of the traversal loop, for a node whose variant
pushed nothing. -/
def propagateNull (sh : SchemaHandler) (node : Node) (res : TableMap) :
    Except PanicVal TableMap := do
  match node.PathMap with
  | none => .error nilDereference
  | some pathMap => do
    let path := pathMap.Path
    let index := sh.mapIndex path
    let element ← sh.element index
    let numChildren := element.GetNumChildren
    if numChildren > 0 then
      return res.appendNullBelow path node.DL node.RL
    else
      res.appendAt path none node.DL node.RL

/-- One iteration of the loop `for len(stack) > 0` on a non-empty stack. -/
def step (c : Collaborators) (sh : SchemaHandler) (s : State) : Except PanicVal State :=
  match s.stack.getLast? with
  | none => .ok s
  | some node => do
    let stack := s.stack.dropLast
    match ← classify sh (s.nodeBuf.node node) with
    | none => do
      let res ← emitLeaf c sh (s.nodeBuf.node node) s.res
      return { nodeBuf := s.nodeBuf, stack := stack, res := res }
    | some m => do
      let oldLen := stack.length
      let (nodeBuf, stack) ← m.Marshal c sh node s.nodeBuf stack
      if stack.length = oldLen then
        let res ← propagateNull sh (nodeBuf.node node) s.res
        return { nodeBuf := nodeBuf, stack := stack, res := res }
      else
        return { nodeBuf := nodeBuf, stack := stack, res := s.res }

/-- The loop `for len(stack) > 0`, run for at most `fuel` iterations; `none`
when the stack is still non-empty after that. -/
def traverse (c : Collaborators) (sh : SchemaHandler) : Nat → State → Option (Except PanicVal State)
  | 0, s => if s.stack = [] then some (.ok s) else none
  | fuel + 1, s =>
    if s.stack = [] then some (.ok s)
    else
      match step c sh s with
      | .error p => some (.error p)
      | .ok s1 => traverse c sh fuel s1

/-- The seeding of the root node of one record: the pool reset, the first node
taken from it, and the record stripped of its interface and pointer wrapper. -/
def seedRoot (c : Collaborators) (sh : SchemaHandler) (record : AnyVal) (nodeBuf : NodeBufType)
    (res : TableMap) : Except PanicVal State := do
  let nodeBuf := nodeBuf.Reset
  let (nodeBuf, node) ← nodeBuf.GetNode
  let nodeBuf := nodeBuf.update node fun x => { x with Val := Val.iface record }
  let nodeBuf ←
    if (nodeBuf.node node).Val.GetKind = Kind.Interface then do
      let elem ← (Val.iface record).Elem
      pure (nodeBuf.update node fun x => { x with Val := elem })
    else pure nodeBuf
  let nodeBuf ←
    if c.IsPointerGoTypeKind (nodeBuf.node node).Val.GetKind then do
      let elem ← (nodeBuf.node node).Val.Elem
      pure (nodeBuf.update node fun x => { x with Val := elem })
    else pure nodeBuf
  let nodeBuf := nodeBuf.update node fun x => { x with PathMap := sh.PathMap }
  return { nodeBuf := nodeBuf, stack := [] ++ [node], res := res }

/-- The fuel given to the traversal of one record: one more than the size of
the value of its root node. -/
def recordFuel (s : State) : Nat :=
  match s.stack.getLast? with
  | none => 0
  | some node => (s.nodeBuf.node node).Val.size + 1

/-- The loop over the records of `MarshalStruct`. -/
def marshalRecords (c : Collaborators) (sh : SchemaHandler) :
    List AnyVal → NodeBufType → TableMap → Option (Except PanicVal (NodeBufType × TableMap))
  | [], nodeBuf, res => some (.ok (nodeBuf, res))
  | record :: rest, nodeBuf, res =>
    match seedRoot c sh record nodeBuf res with
    | .error p => some (.error p)
    | .ok s =>
      match traverse c sh (recordFuel s) s with
      | none => none
      | some (.error p) => some (.error p)
      | some (.ok s1) => marshalRecords c sh rest s1.nodeBuf s1.res

/-- The two results of `MarshalStruct`: the table map, nil being `none`, and
the error, nil being `none`. -/
structure MarshalResult where
  tb : Option TableMap
  err : Option GoError

/-- The deferred function of `MarshalStruct`: the error made of a recovered
panic value. -/
def recoverError : PanicVal → GoError
  | .str x => ⟨x⟩
  | .err x => x
  | .other => ⟨"unkown error"⟩

/-- `MarshalStruct` with `isProto = false`.  The result is `none` only if the
fuel of some record does not suffice for its traversal. -/
def MarshalStruct (c : Collaborators) (srcInterface : List AnyVal) (sh : SchemaHandler) :
    Option MarshalResult :=
  match InitMarshal srcInterface sh with
  | .error p => some { tb := none, err := some (recoverError p) }
  | .ok (nodeBuf, res) =>
    match marshalRecords c sh srcInterface nodeBuf res with
    | none => none
    | some (.error p) => some { tb := none, err := some (recoverError p) }
    | some (.ok (_, res1)) => some { tb := some res1, err := none }

/-- `Marshal`. -/
def Marshal (c : Collaborators) (srcInterface : List AnyVal) (sh : SchemaHandler) :
    Option MarshalResult :=
  MarshalStruct c srcInterface sh

/-! ## Properties of destination columns -/

/-- The three parallel arrays of a table have one length. -/
def Table.Aligned (t : Table) : Prop :=
  t.Values.length = t.DefinitionLevels.length ∧
    t.DefinitionLevels.length = t.RepetitionLevels.length

/-- Every table of a table map is aligned. -/
def TableMap.Aligned (res : TableMap) : Prop :=
  ∀ kt ∈ res, Table.Aligned kt.2

/-- A table after some appends: the same metadata, and equally many values,
definition levels and repetition levels added at the end. -/
def Table.Extends (t t1 : Table) : Prop :=
  ∃ vs dls rls, vs.length = dls.length ∧ dls.length = rls.length ∧
    t1 = { t with Values := t.Values ++ vs, DefinitionLevels := t.DefinitionLevels ++ dls,
                  RepetitionLevels := t.RepetitionLevels ++ rls }

/-- A table map after some appends: the same keys in the same places, each
table extended. -/
def TableMap.Extends (res res1 : TableMap) : Prop :=
  List.Forall₂ (fun a b => a.1 = b.1 ∧ Table.Extends a.2 b.2) res res1

/-- A table as the setup creates it for a key: no entries, and the maximum
levels of the key's path. -/
def Table.FreshFor (sh : SchemaHandler) (kt : String × Table) : Prop :=
  kt.2.Values = [] ∧ kt.2.DefinitionLevels = [] ∧ kt.2.RepetitionLevels = [] ∧
    kt.2.MaxDefinitionLevel = sh.MaxDefinitionLevel (StrToPath kt.1) ∧
    kt.2.MaxRepetitionLevel = sh.MaxRepetitionLevel (StrToPath kt.1)

/-- The keys of a table map. -/
def TableMap.keys (res : TableMap) : List String :=
  res.map Prod.fst

/-- A leaf path of the schema: the path `IndexMap[int32(i)]` of a schema
element `i` without children. -/
def SchemaHandler.IsLeafPath (sh : SchemaHandler) (path : String) : Prop :=
  ∃ (i : Nat) (e : SchemaElement), sh.SchemaElements[i]? = some e ∧ e.GetNumChildren = 0 ∧
    sh.indexMap (wrapInt32 i) = path

/-- The table map of a successful call, and the empty map for any other
result. -/
def tablesOf (r : Option MarshalResult) : TableMap :=
  match r with
  | some { tb := some res, err := none } => res
  | _ => []

/-- The entries of the column of a path in the result of a call: its values,
definition levels and repetition levels; `none` unless the call succeeded and
the path has a column. -/
def column (r : Option MarshalResult) (path : String) :
    Option (List AnyVal × List Int × List Int) :=
  match r with
  | some { tb := some res, err := none } =>
    (res.get? path).map fun t => (t.Values, t.DefinitionLevels, t.RepetitionLevels)
  | _ => none

/-! ## Pool and stack invariants -/

/-- The cursor of a pool lies within its buffer. -/
def NodeBufType.Valid (nbt : NodeBufType) : Prop :=
  0 ≤ nbt.Index ∧ nbt.Index ≤ nbt.Buf.length


/-- The effect of a dispatch variant that takes fresh slots from the pool
`nodeBuf` and pushes some of them on `stack`, leaving the pool `nodeBuf1` and
the stack `stack1`: the cursor stays within the buffer and does not go back,
the nodes below the old cursor are untouched, the pushed slots are fresh,
increasing and hold the nodes `content`, and a property `P` that held of the
node in every slot still holds of the node in every slot. -/
structure Pushes (P : Node → Prop) (nodeBuf : NodeBufType) (stack : List Nat)
    (nodeBuf1 : NodeBufType) (stack1 : List Nat) (content : List Node) : Prop where
  valid : nodeBuf1.Valid
  index_le : nodeBuf.Index ≤ nodeBuf1.Index
  frame : ∀ q, q < nodeBuf.Index.toNat → nodeBuf1.node q = nodeBuf.node q
  levels : (∀ n ∈ nodeBuf.Buf, P n) → ∀ n ∈ nodeBuf1.Buf, P n
  slots : ∃ slots, stack1 = stack ++ slots ∧ slots.map nodeBuf1.node = content ∧
    slots.Pairwise (· < ·) ∧ ∀ q ∈ slots, nodeBuf.Index.toNat ≤ q ∧ q < nodeBuf1.Index.toNat

/-- The nodes that the struct variant pushes for a list of fields of a node
with the path tree node `pathMap` and the levels `(d, r)`: one node for every
field whose name is not internal and is a child of `pathMap`, in the order of
the fields. -/
def structChildren (c : Collaborators) (pathMap : Option PathMapType) (r d : Int) :
    List (String × Val) → List Node
  | [] => []
  | (name, v) :: rest =>
    if c.IsInternalField name then structChildren c pathMap r d rest
    else
      match pathMap.bind fun pm => pm.child name with
      | none => structChildren c pathMap r d rest
      | some child => Node.mk v (some child) r d :: structChildren c pathMap r d rest

/-- The nodes that the sequence variant pushes for the elements `j - 1` down to
0 of a node at levels `(d, r)`, in the order in which it pushes them. -/
def sliceChildren (pathMap : Option PathMapType) (rlNow r d : Int) (elems : List Val) :
    Nat → List Node
  | 0 => []
  | j + 1 =>
    Node.mk (elems.getD j Val.invalid) pathMap (if j = 0 then r else rlNow) (wrapInt32 (d + 1)) ::
      sliceChildren pathMap rlNow r d elems j

/-- The effect of the dispatch of the popped node `p` to any variant, from
the pool `nodeBuf` and the stack `stack` below the node: the cursor stays
within the buffer and does not go back, every other node below the old cursor
is untouched, the pushed slots are distinct, each either `p` itself or a fresh
slot, `p` is untouched when nothing is pushed and keeps its repetition level
in any case, and when `P0` held of the node in every slot, `P` holds of the
node in every slot. -/
structure Dispatched (P0 P : Node → Prop) (p : Nat) (nodeBuf : NodeBufType) (stack : List Nat)
    (nodeBuf1 : NodeBufType) (stack1 : List Nat) : Prop where
  valid : nodeBuf1.Valid
  index_le : nodeBuf.Index ≤ nodeBuf1.Index
  frame : ∀ q, q ≠ p → q < nodeBuf.Index.toNat → nodeBuf1.node q = nodeBuf.node q
  levels : (∀ n ∈ nodeBuf.Buf, P0 n) → ∀ n ∈ nodeBuf1.Buf, P n
  added : ∃ added, stack1 = stack ++ added ∧ added.Nodup ∧
    (∀ q ∈ added, q = p ∨ nodeBuf.Index.toNat ≤ q) ∧ (∀ q ∈ added, q < nodeBuf1.Index.toNat) ∧
    (added = [] → nodeBuf1.node p = nodeBuf.node p)
  keepRL : (nodeBuf1.node p).RL = (nodeBuf.node p).RL

/-- The levels in every column satisfy two properties: `TR` relates the key
of the column to its repetition levels, and `TD` holds of its definition
levels. -/
def TableMap.Levels (TR : String → Int → Prop) (TD : Int → Prop) (res : TableMap) : Prop :=
  ∀ kt ∈ res, (∀ dl ∈ kt.2.DefinitionLevels, TD dl) ∧ ∀ rl ∈ kt.2.RepetitionLevels, TR kt.1 rl

/-- Properties of nodes and of levels that one iteration of the traversal
maintains.  When the popped node has the property `P0`, every node that its
variant writes has the property `P`, one clause for each kind of node that a
variant writes; and the levels that the iteration enters into a column, from a
terminal node or by the null propagation, are related to the key of the column
by `TR` and have the property `TD`. -/
structure NodeRule (sh : SchemaHandler) (P0 P : Node → Prop) (TR : String → Int → Prop)
    (TD : Int → Prop) : Prop where
  zero : P zeroNode
  mono : ∀ n, P0 n → P n
  skip : ∀ n, P n → P { n with PathMap := none }
  ptr : ∀ w pm r d, P0 (Node.mk (.ptr (some w)) pm r d) →
    P (Node.mk w pm r (wrapInt32 (d + 1)))
  iface : ∀ w pm r d, P0 (Node.mk (.iface (some w)) pm r d) → P (Node.mk w pm r d)
  field : ∀ fs pm r d v name child, P0 (Node.mk (.struct fs) (some pm) r d) →
    pm.child name = some child → P (Node.mk v (some child) r d)
  elem : ∀ es pm r d pathMap path e rl, P0 (Node.mk (.slice es) (some pm) r d) →
    ParquetSlice.resolve sh pm = .ok (pathMap, path) →
    (rl = r ∨ rl = sh.MaxRepetitionLevel (StrToPath path)) →
    P (Node.mk e pathMap rl (wrapInt32 (d + 1)))
  entry : ∀ es pm r d kv name v rl, P0 (Node.mk (.map es) (some pm) r d) →
    pm.child "Key_value" = some kv →
    (rl = r ∨ rl = sh.MaxRepetitionLevel
      (StrToPath (pm.Path ++ PAR_GO_PATH_DELIMITER ++ "Key_value"))) →
    P (Node.mk v (kv.child name) rl (wrapInt32 (d + 1)))
  value : ∀ es pm r d v k child dl, P0 (Node.mk (.map es) (some pm) r d) →
    pm.child k = some child → (dl = d ∨ dl = wrapInt32 (d + 1)) →
    P (Node.mk v (some child) r dl)
  missing : ∀ es pm r d k, P0 (Node.mk (.map es) (some pm) r d) →
    P (Node.mk Val.invalid (pm.child k) r d)
  emit : ∀ n pm, P0 n → n.PathMap = some pm → TR pm.Path n.RL ∧ TD n.DL
  null : ∀ n pm key, P0 n → n.PathMap = some pm → IsChildPath pm.Path key = true →
    TR key n.RL ∧ TD n.DL

/-- The invariant of the traversal: the cursor of the pool lies within its
buffer, the stack holds distinct slots below the cursor, the node in every
slot of the pool has the property `P`, and the levels in every column have
the properties `TR` and `TD`. -/
structure State.Inv (P : Node → Prop) (TR : String → Int → Prop) (TD : Int → Prop)
    (s : State) : Prop where
  valid : s.nodeBuf.Valid
  below : ∀ p ∈ s.stack, p < s.nodeBuf.Index.toNat
  nodup : s.stack.Nodup
  levels : ∀ n ∈ s.nodeBuf.Buf, P n
  tables : s.res.Levels TR TD

mutual
/-- A well-formed path tree, for the leaf paths `keys`: at every node the
maximum repetition level of its path is not negative and not above that of
any leaf path below it, and every child has the path of its parent extended
by its name and a maximum repetition level not below that of its parent. -/
def PathMapType.WF (sh : SchemaHandler) (keys : List String) : PathMapType → Prop
  | .mk path children =>
    0 ≤ sh.MaxRepetitionLevel (StrToPath path) ∧
    (∀ key ∈ keys, IsChildPath path key = true →
      sh.MaxRepetitionLevel (StrToPath path) ≤ sh.MaxRepetitionLevel (StrToPath key)) ∧
    PathMapType.WFChildren sh keys path children
/-- The children of a well-formed path tree node with the path `path`. -/
def PathMapType.WFChildren (sh : SchemaHandler) (keys : List String) (path : String) :
    List (String × PathMapType) → Prop
  | [] => True
  | (name, child) :: rest =>
    child.Path = path ++ PAR_GO_PATH_DELIMITER ++ name ∧
    sh.MaxRepetitionLevel (StrToPath path) ≤ sh.MaxRepetitionLevel (StrToPath child.Path) ∧
    child.WF sh keys ∧ PathMapType.WFChildren sh keys path rest
end

/-- A node within bounds, for a schema with the leaf paths `keys`: its
definition level lies between 0 and `B`, and when it has a path tree node,
that node is well formed and the repetition level of the node lies between 0
and the maximum repetition level of its path. -/
def Node.Bounded (sh : SchemaHandler) (keys : List String) (B : Int) (n : Node) : Prop :=
  (0 ≤ n.DL ∧ n.DL ≤ B) ∧
    ∀ pm, n.PathMap = some pm → pm.WF sh keys ∧ 0 ≤ n.RL ∧
      n.RL ≤ sh.MaxRepetitionLevel (StrToPath pm.Path)

/-- The repetition levels that a column of a schema with the leaf paths `keys`
may hold: not negative, and at most the maximum repetition level of the path
of the column when that is one of the leaf paths. -/
def RepetitionBound (sh : SchemaHandler) (keys : List String) (key : String) (rl : Int) :
    Prop :=
  0 ≤ rl ∧ (key ∈ keys → rl ≤ sh.MaxRepetitionLevel (StrToPath key))

/-- A definition level between 0 and `B`. -/
def DefinitionBound (B : Int) (dl : Int) : Prop :=
  0 ≤ dl ∧ dl ≤ B

/-- The values that the classification sends to a variant. -/
def Marshaler.Accepts : Marshaler → Val → Prop
  | .ParquetPtr, v => (∃ e, v = .ptr e) ∨ (∃ b, v = .UnsafePointer b) ∨ (∃ n, v = .uintptr n)
  | .ParquetStruct, v => ∃ fs, v = .struct fs
  | .ParquetSlice, v => ∃ es, v = .slice es
  | .ParquetMapStruct, v => ∃ es, v = .map es
  | .ParquetMap, v => ∃ es, v = .map es
  | .ParquetInterface, v => (∃ e, v = .iface e) ∨ v = .invalid

/-! ## Runs of the traversal loop -/

/-- The body of the traversal loop iterated `n` times. -/
def steps (c : Collaborators) (sh : SchemaHandler) : Nat → State → Except PanicVal State
  | 0, s => .ok s
  | n + 1, s =>
    match step c sh s with
    | .error p => .error p
    | .ok s1 => steps c sh n s1

/-- The values that are terminal for the traversal: scalars and byte slices. -/
def Val.IsTerminal : Val → Bool
  | .bool _ => true
  | .int _ => true
  | .str _ => true
  | .bytes _ => true
  | _ => false

/-- A table with the given values, definition levels and repetition levels
added at the end of its arrays. -/
def Table.appendAll (t : Table) (vs : List AnyVal) (dls rls : List Int) : Table :=
  { t with Values := t.Values ++ vs, DefinitionLevels := t.DefinitionLevels ++ dls,
           RepetitionLevels := t.RepetitionLevels ++ rls }

/-- A table map with the table of one path replaced by its image under `f`. -/
def TableMap.modifyAt : TableMap → String → (Table → Table) → TableMap
  | [], _, _ => []
  | (k, t) :: rest, path, f =>
    if k = path then (k, f t) :: rest else (k, t) :: TableMap.modifyAt rest path f

/-- A value behind `n` nested non-nil pointers. -/
def ptrChain : Nat → Val → Val
  | 0, v => v
  | n + 1, v => .ptr (some (ptrChain n v))

/-! ## Scenario data -/

/-- Modelled from the spec: stand-ins for the functions of packages `schema`
and `types` in the scenarios.  No field name is internal, the pointer kinds
are the nullable-reference kinds, and the coercion keeps a value that already
has its physical representation (nil stays nil). -/
def scenarioCollaborators : Collaborators :=
  { IsInternalField := fun _ => false,
    IsPointerGoTypeKind := fun k => k = Kind.Ptr ∨ k = Kind.UnsafePointer ∨ k = Kind.Uintptr,
    InterfaceToParquetType := fun v _ => .ok v }

/-- A level function given by a table of paths; 0 for a path not listed. -/
def levelTable (t : List (List String × Int)) (path : List String) : Int :=
  (t.lookup path).getD 0

/-- The path tree node of the element leaf of `Tags` in scenario A. -/
def pathMapAElement : PathMapType :=
  .mk "Parquet_go_root/Tags/List/Element" []

/-- The path tree node of `Tags` in scenario A. -/
def pathMapATags : PathMapType :=
  .mk "Parquet_go_root/Tags" [
    ("List", .mk "Parquet_go_root/Tags/List" [("Element", pathMapAElement)])]

/-- The path tree of scenario A. -/
def pathMapA : PathMapType :=
  .mk "Parquet_go_root" [
    ("Name", .mk "Parquet_go_root/Name" []),
    ("Tags", pathMapATags)]

/-- The schema of scenario A, `{name: required string, tags: optional repeated
string}` in the list-wrapper encoding: `Tags` optional, `List` repeated,
`Element` required, so that the element leaf has maximum definition level 2
and maximum repetition level 1. -/
def schemaA : SchemaHandler :=
  { SchemaElements := [
      ⟨none, some .REQUIRED, some 2, none⟩,
      ⟨some .BYTE_ARRAY, some .REQUIRED, none, some 0⟩,
      ⟨none, some .OPTIONAL, some 1, some 3⟩,
      ⟨none, some .REPEATED, some 1, none⟩,
      ⟨some .BYTE_ARRAY, some .REQUIRED, none, some 0⟩],
    MapIndex := [("Parquet_go_root", 0), ("Parquet_go_root/Name", 1),
      ("Parquet_go_root/Tags", 2), ("Parquet_go_root/Tags/List", 3),
      ("Parquet_go_root/Tags/List/Element", 4)],
    IndexMap := [(0, "Parquet_go_root"), (1, "Parquet_go_root/Name"),
      (2, "Parquet_go_root/Tags"), (3, "Parquet_go_root/Tags/List"),
      (4, "Parquet_go_root/Tags/List/Element")],
    PathMap := some pathMapA,
    Infos := ["Parquet_go_root", "Name", "Tags", "List", "Element"],
    MaxDefinitionLevel := levelTable [
      (["Parquet_go_root", "Tags"], 1),
      (["Parquet_go_root", "Tags", "List"], 2),
      (["Parquet_go_root", "Tags", "List", "Element"], 2)],
    MaxRepetitionLevel := levelTable [
      (["Parquet_go_root", "Tags", "List"], 1),
      (["Parquet_go_root", "Tags", "List", "Element"], 1)] }

/-- The batch of scenario A: two struct records whose `Tags` field is a
non-nil pointer to a slice of strings. -/
def batchA : List AnyVal := [
  some (.struct [("Name", .str "a"), ("Tags", .ptr (some (.slice [.str "x", .str "y"])))]),
  some (.struct [("Name", .str "b"), ("Tags", .ptr (some (.slice [])))])]

/-- The result of a computation that did not panic, and a default otherwise. -/
def okOr {α : Type} (d : α) (x : Except PanicVal α) : α :=
  match x with
  | .ok a => a
  | .error _ => d

/-- The node pool and the table map that `InitMarshal` builds in scenario A. -/
def initA : NodeBufType × TableMap :=
  okOr ({ Index := 0, Buf := [] }, []) (InitMarshal batchA schemaA)

/-- The traversal state after the root of the first record of scenario A has
been seeded. -/
def stateA0 : State :=
  okOr { nodeBuf := initA.1, stack := [], res := initA.2 }
    (seedRoot scenarioCollaborators schemaA batchA.head?.join initA.1 initA.2)

/-- The traversal state after the first iteration on the first record of
scenario A. -/
def stateA1 : State :=
  okOr stateA0 (step scenarioCollaborators schemaA stateA0)

/-- The traversal state after the whole first record of scenario A. -/
def stateA2 : State :=
  match traverse scenarioCollaborators schemaA (recordFuel stateA0) stateA0 with
  | some (.ok s) => s
  | _ => stateA0

/-- The traversal state of the first record of scenario A after two
iterations: the root struct and the pointer of `Tags` have been dispatched,
and the slice of `Tags` is on top of the stack. -/
def stateASlice : State :=
  okOr stateA0 (steps scenarioCollaborators schemaA 2 stateA0)

/-- The empty column of the element leaf of `Tags` in scenario A. -/
def tableAElement : Table :=
  (initA.2.get? "Parquet_go_root/Tags/List/Element").getD NewEmptyTable

/-- The path tree of scenario B. -/
def pathMapB : PathMapType :=
  .mk "Parquet_go_root" [
    ("Props", .mk "Parquet_go_root/Props" [
      ("A", .mk "Parquet_go_root/Props/A" []),
      ("B", .mk "Parquet_go_root/Props/B" [])])]

/-- The schema of scenario B: `Props` is a group without logical-map
conversion whose children `A` and `B` are optional integer leaves. -/
def schemaB : SchemaHandler :=
  { SchemaElements := [
      ⟨none, some .REQUIRED, some 1, none⟩,
      ⟨none, some .REQUIRED, some 2, none⟩,
      ⟨some .INT64, some .OPTIONAL, none, none⟩,
      ⟨some .INT64, some .OPTIONAL, none, none⟩],
    MapIndex := [("Parquet_go_root", 0), ("Parquet_go_root/Props", 1),
      ("Parquet_go_root/Props/A", 2), ("Parquet_go_root/Props/B", 3)],
    IndexMap := [(0, "Parquet_go_root"), (1, "Parquet_go_root/Props"),
      (2, "Parquet_go_root/Props/A"), (3, "Parquet_go_root/Props/B")],
    PathMap := some pathMapB,
    Infos := ["Parquet_go_root", "Props", "A", "B"],
    MaxDefinitionLevel := levelTable [
      (["Parquet_go_root", "Props", "A"], 1),
      (["Parquet_go_root", "Props", "B"], 1)],
    MaxRepetitionLevel := levelTable [] }

/-- The batch of scenario B: one struct record whose field `Props` is the map
`{"A": 1}` of type `map[string]int64`. -/
def batchB : List AnyVal := [
  some (.struct [("Props", .map [(.str "A", .int 1)])])]

/-- The path tree of scenario C. -/
def pathMapC : PathMapType :=
  .mk "Parquet_go_root" [
    ("Id", .mk "Parquet_go_root/Id" []),
    ("Items", .mk "Parquet_go_root/Items" [
      ("A", .mk "Parquet_go_root/Items/A" []),
      ("B", .mk "Parquet_go_root/Items/B" [])])]

/-- The schema of scenario C: a scalar leaf `Id` and a repeated group `Items`
with the two leaves `A` and `B`. -/
def schemaC : SchemaHandler :=
  { SchemaElements := [
      ⟨none, some .REQUIRED, some 2, none⟩,
      ⟨some .INT64, some .REQUIRED, none, none⟩,
      ⟨none, some .REPEATED, some 2, none⟩,
      ⟨some .BYTE_ARRAY, some .REQUIRED, none, some 0⟩,
      ⟨some .INT64, some .REQUIRED, none, none⟩],
    MapIndex := [("Parquet_go_root", 0), ("Parquet_go_root/Id", 1),
      ("Parquet_go_root/Items", 2), ("Parquet_go_root/Items/A", 3),
      ("Parquet_go_root/Items/B", 4)],
    IndexMap := [(0, "Parquet_go_root"), (1, "Parquet_go_root/Id"),
      (2, "Parquet_go_root/Items"), (3, "Parquet_go_root/Items/A"),
      (4, "Parquet_go_root/Items/B")],
    PathMap := some pathMapC,
    Infos := ["Parquet_go_root", "Id", "Items", "A", "B"],
    MaxDefinitionLevel := levelTable [
      (["Parquet_go_root", "Items"], 1),
      (["Parquet_go_root", "Items", "A"], 1),
      (["Parquet_go_root", "Items", "B"], 1)],
    MaxRepetitionLevel := levelTable [
      (["Parquet_go_root", "Items"], 1),
      (["Parquet_go_root", "Items", "A"], 1),
      (["Parquet_go_root", "Items", "B"], 1)] }

/-- The batch of scenario C: one record, a nil pointer to a struct. -/
def batchC : List AnyVal := [some (.ptr none)]

/-- The levels `(DL, RL)` with which the root node of record `i` of a batch
starts its traversal: the records before it are marshalled, the root of
record `i` is seeded, and the levels of the node on the stack are read.
`none` when the batch has no record `i` or an earlier step fails. -/
def rootLevels (c : Collaborators) (sh : SchemaHandler) (srcInterface : List AnyVal)
    (i : Nat) : Option (Int × Int) :=
  match InitMarshal srcInterface sh, srcInterface[i]? with
  | .ok (nodeBuf, res), some record =>
    match marshalRecords c sh (srcInterface.take i) nodeBuf res with
    | some (.ok (nodeBuf1, res1)) =>
      match seedRoot c sh record nodeBuf1 res1 with
      | .ok s =>
        match s.stack.getLast? with
        | some node => some ((s.nodeBuf.node node).DL, (s.nodeBuf.node node).RL)
        | none => none
      | .error _ => none
    | _ => none
  | _, _ => none

/-- A batch of two equal records, each a non-nil pointer to a non-nil pointer
to a struct with the field `Name` and a nil `Tags`. -/
def batchPtrPtr : List AnyVal := [
  some (.ptr (some (.ptr (some (.struct [("Name", .str "a"), ("Tags", .ptr none)]))))),
  some (.ptr (some (.ptr (some (.struct [("Name", .str "a"), ("Tags", .ptr none)])))))]

/-- The path tree node of the leaf `Note` of the optional-leaf schema. -/
def pathMapNote : PathMapType :=
  .mk "Parquet_go_root/Note" []

/-- A schema with one optional string leaf `Note`, of maximum definition
level 1. -/
def schemaNote : SchemaHandler :=
  { SchemaElements := [
      ⟨none, some .REQUIRED, some 1, none⟩,
      ⟨some .BYTE_ARRAY, some .OPTIONAL, none, some 0⟩],
    MapIndex := [("Parquet_go_root", 0), ("Parquet_go_root/Note", 1)],
    IndexMap := [(0, "Parquet_go_root"), (1, "Parquet_go_root/Note")],
    PathMap := some (.mk "Parquet_go_root" [("Note", pathMapNote)]),
    Infos := ["Parquet_go_root", "Note"],
    MaxDefinitionLevel := levelTable [(["Parquet_go_root", "Note"], 1)],
    MaxRepetitionLevel := levelTable [] }

/-- A batch for the optional-leaf schema: `Note` present in the first record
and nil in the second. -/
def batchNote : List AnyVal := [
  some (.struct [("Note", .ptr (some (.str "n")))]),
  some (.struct [("Note", .ptr none)])]

/-- The traversal state in which the field node of `Note` of a record of the
optional-leaf schema is on top of the stack: the root is seeded on a fresh
pool and table map, and the root struct is dispatched. -/
def stateNote (record : AnyVal) : State :=
  match InitMarshal batchNote schemaNote with
  | .ok (nodeBuf, res) =>
    match seedRoot scenarioCollaborators schemaNote record nodeBuf res with
    | .ok s => okOr s (step scenarioCollaborators schemaNote s)
    | .error _ => { nodeBuf := nodeBuf, stack := [], res := res }
  | .error _ => { nodeBuf := { Index := 0, Buf := [] }, stack := [], res := [] }

/-- The empty column of the leaf `Note` of the optional-leaf schema. -/
def tableNote : Table :=
  ((stateNote none).res.get? "Parquet_go_root/Note").getD NewEmptyTable

/-- A batch for the schema of scenario A in which the field of the required
leaf `Name` holds a non-nil pointer to a string. -/
def batchNamePtr : List AnyVal := [
  some (.struct [("Name", .ptr (some (.str "a"))), ("Tags", .ptr none)])]

/-- The first column of the result of marshalling `batchNamePtr`, the column of
`Name`. -/
def columnNamePtr : String × Table :=
  (tablesOf (Marshal scenarioCollaborators batchNamePtr schemaA)).headD ("", NewEmptyTable)

/-! ## Coverage of a column by a record -/

/-- The number of entries of the column of `key`; 0 when there is no such
column. -/
def TableMap.entries (res : TableMap) (key : String) : Nat :=
  match res.get? key with
  | some t => t.Values.length
  | none => 0

/-- The null propagation from a node at the path tree node `pm` writes into the
column of `key`: the schema element of the path of `pm` has children and `key`
is a child path of that path, or it has none and `key` is that path. -/
def NullReaches (sh : SchemaHandler) (pm : PathMapType) (key : String) : Prop :=
  ∃ e, sh.element (sh.mapIndex pm.Path) = .ok e ∧
    if e.GetNumChildren > 0 then IsChildPath pm.Path key = true else pm.Path = key

/-! ## Sequences of calls on the node pool -/

/-- A call on a node pool: `GetNode()` or `Reset()`. -/
inductive PoolCall where
  | GetNode
  | Reset
deriving DecidableEq, Repr

/-- A sequence of calls on a node pool, in order.  The second component lists
the slots that the `GetNode` calls since the last `Reset` (or since the start)
have returned, in the order of the calls. -/
def runPoolCalls : NodeBufType → List Nat → List PoolCall →
    Except PanicVal (NodeBufType × List Nat)
  | nbt, handed, [] => .ok (nbt, handed)
  | nbt, handed, .GetNode :: rest =>
    match nbt.GetNode with
    | .ok (nbt1, slot) => runPoolCalls nbt1 (handed ++ [slot]) rest
    | .error e => .error e
  | nbt, _, .Reset :: rest => runPoolCalls nbt.Reset [] rest

/-! ## Further scenario data -/

/-- The traversal state of the second record of scenario A, marshalled on its
own, after two iterations: the root struct and the pointer of `Tags` have been
dispatched, and the empty slice of `Tags` is on top of the stack. -/
def stateAEmpty : State :=
  match seedRoot scenarioCollaborators schemaA (batchA.getD 1 none) initA.1 initA.2 with
  | .ok s => okOr s (steps scenarioCollaborators schemaA 2 s)
  | .error _ => stateA0

/-! ## The nodes that the map variants push -/

/-- The nodes that the map variant pushes for the entries `j - 1` down to 0 of
a node at levels `(d, r)` whose path tree node has the child `kv` named
`Key_value`, in the order in which it pushes them: for every entry its key
node, then its value node. -/
def mapChildren (kv : PathMapType) (rlNow r d : Int) (es : List (Val × Val)) : Nat → List Node
  | 0 => []
  | j + 1 =>
    Node.mk (es.getD j (Val.invalid, Val.invalid)).1 (kv.child "Key")
        (if j = 0 then r else rlNow) (wrapInt32 (d + 1)) ::
      Node.mk (es.getD j (Val.invalid, Val.invalid)).2 (kv.child "Value")
        (if j = 0 then r else rlNow) (wrapInt32 (d + 1)) ::
      mapChildren kv rlNow r d es j

/-- The path tree node of the key leaf of the logical map scenario. -/
def pathMapMKey : PathMapType :=
  .mk "Parquet_go_root/Props/Key_value/Key" []

/-- The path tree node of the value leaf of the logical map scenario. -/
def pathMapMValue : PathMapType :=
  .mk "Parquet_go_root/Props/Key_value/Value" []

/-- The path tree node `Key_value` of the logical map scenario. -/
def pathMapMKeyValue : PathMapType :=
  .mk "Parquet_go_root/Props/Key_value" [("Key", pathMapMKey), ("Value", pathMapMValue)]

/-- The path tree node of `Props` in the logical map scenario. -/
def pathMapMProps : PathMapType :=
  .mk "Parquet_go_root/Props" [("Key_value", pathMapMKeyValue)]

/-- The path tree of the logical map scenario. -/
def pathMapM : PathMapType :=
  .mk "Parquet_go_root" [("Props", pathMapMProps)]

/-- The schema of the logical map scenario, `{props: map<string, int64>}` with
the logical-map conversion: `Props` carries the converted type `MAP` (1),
`Key_value` is repeated with the converted type `MAP_KEY_VALUE` (2), and `Key`
and `Value` are required leaves with the maximum levels 1 and 1. -/
def schemaM : SchemaHandler :=
  { SchemaElements := [
      ⟨none, some .REQUIRED, some 1, none⟩,
      ⟨none, some .REQUIRED, some 1, some 1⟩,
      ⟨none, some .REPEATED, some 2, some 2⟩,
      ⟨some .BYTE_ARRAY, some .REQUIRED, none, some 0⟩,
      ⟨some .INT64, some .REQUIRED, none, none⟩],
    MapIndex := [("Parquet_go_root", 0), ("Parquet_go_root/Props", 1),
      ("Parquet_go_root/Props/Key_value", 2), ("Parquet_go_root/Props/Key_value/Key", 3),
      ("Parquet_go_root/Props/Key_value/Value", 4)],
    IndexMap := [(0, "Parquet_go_root"), (1, "Parquet_go_root/Props"),
      (2, "Parquet_go_root/Props/Key_value"), (3, "Parquet_go_root/Props/Key_value/Key"),
      (4, "Parquet_go_root/Props/Key_value/Value")],
    PathMap := some pathMapM,
    Infos := ["Parquet_go_root", "Props", "Key_value", "Key", "Value"],
    MaxDefinitionLevel := levelTable [
      (["Parquet_go_root", "Props", "Key_value"], 1),
      (["Parquet_go_root", "Props", "Key_value", "Key"], 1),
      (["Parquet_go_root", "Props", "Key_value", "Value"], 1)],
    MaxRepetitionLevel := levelTable [
      (["Parquet_go_root", "Props", "Key_value"], 1),
      (["Parquet_go_root", "Props", "Key_value", "Key"], 1),
      (["Parquet_go_root", "Props", "Key_value", "Value"], 1)] }

/-- A batch for the logical map scenario: one struct record whose field
`Props` is the map `{"a": 1, "b": 2}`, its keys returned in the order `a`,
`b`. -/
def batchM : List AnyVal := [
  some (.struct [("Props", .map [(.str "a", .int 1), (.str "b", .int 2)])])]

/-- The batch of `batchM` with the keys of the same map returned in the order
`b`, `a`. -/
def batchMSwapped : List AnyVal := [
  some (.struct [("Props", .map [(.str "b", .int 2), (.str "a", .int 1)])])]

/-- The traversal state of the record of `batchM` after one iteration: the
root struct has been dispatched and the map of `Props` is on top of the
stack. -/
def stateM : State :=
  match InitMarshal batchM schemaM with
  | .ok (nodeBuf, res) =>
    match seedRoot scenarioCollaborators schemaM (batchM.getD 0 none) nodeBuf res with
    | .ok s => okOr s (step scenarioCollaborators schemaM s)
    | .error _ => { nodeBuf := nodeBuf, stack := [], res := res }
  | .error _ => { nodeBuf := { Index := 0, Buf := [] }, stack := [], res := [] }

/-- The empty column of a path in the logical map scenario. -/
def tableM (path : String) : Table :=
  (stateM.res.get? path).getD NewEmptyTable

/-- The node that the key loop of `(*ParquetMapStruct).Marshal` fills for a key
whose name is the schema child `child` and whose stored value is `v`, under a
map node at the levels `(d, r)`: the body of the loop after the lookup of the
child. -/
def mapStructChild (sh : SchemaHandler) (child : PathMapType) (r d : Int) (v : Val) :
    Except PanicVal Node := do
  let kind ← v.TypeKind
  if kind = Kind.Interface then
    let elem ← v.Elem
    if elem.IsValid then
      let e ← sh.element (sh.mapIndex child.Path)
      match e.RepetitionType with
      | none => .error nilDereference
      | some rt =>
        if rt ≠ FieldRepetitionType.REQUIRED then
          pure (Node.mk elem (some child) r (wrapInt32 (d + 1)))
        else pure (Node.mk elem (some child) r d)
    else pure (Node.mk elem (some child) r d)
  else pure (Node.mk v (some child) r d)

/-- The entries `j - 1` down to 0 of a map whose key names are schema children
of `pm`, each with its child, in the order in which the key loop of
`(*ParquetMapStruct).Marshal` visits them. -/
def presentEntries (pm : PathMapType) (es : List (Val × Val)) (j : Nat) :
    List ((Val × Val) × PathMapType) :=
  (es.take j).reverse.filterMap fun e => (pm.child e.1.KeyString).map fun child => (e, child)

/-- The nodes that the last loop of `(*ParquetMapStruct).Marshal` pushes for a
map `missingKeys`: one node holding the zero Value for every key that is still
entered as missing. -/
def missingChildren (pm : PathMapType) (r d : Int) : List (String × Bool) → List Node
  | [] => []
  | (k, isMissing) :: rest =>
    if isMissing then Node.mk Val.invalid (pm.child k) r d :: missingChildren pm r d rest
    else missingChildren pm r d rest


/-- The path tree node of `Props` in scenario B, with the leaf children `A`
and `B`. -/
def pathMapBProps : PathMapType :=
  .mk "Parquet_go_root/Props" [
    ("A", .mk "Parquet_go_root/Props/A" []),
    ("B", .mk "Parquet_go_root/Props/B" [])]

/-- The traversal state of the first record of a batch after one iteration,
with the root struct dispatched, under the schema of scenario B. -/
def stateBAfterRoot (batch : List AnyVal) : State :=
  match InitMarshal batch schemaB with
  | .ok (nodeBuf, res) =>
    match seedRoot scenarioCollaborators schemaB (batch.getD 0 none) nodeBuf res with
    | .ok s => okOr s (step scenarioCollaborators schemaB s)
    | .error _ => { nodeBuf := nodeBuf, stack := [], res := res }
  | .error _ => { nodeBuf := { Index := 0, Buf := [] }, stack := [], res := [] }

/-- The traversal state of the record of scenario B after one iteration: the
map `{"A": 1}` of `Props` is on top of the stack. -/
def stateBMap : State :=
  stateBAfterRoot batchB

/-- A batch for the schema of scenario B whose field `Props` is the map
`{"A": 1, "B": nil}` of type `map[string]interface{}`. -/
def batchBDyn : List AnyVal := [
  some (.struct [("Props", .map [(.str "A", .iface (some (.int 1))), (.str "B", .iface none)])])]

/-- The traversal state of the record of `batchBDyn` after one iteration: the
map of `Props` is on top of the stack. -/
def stateBDyn : State :=
  stateBAfterRoot batchBDyn

/-! ## The measure of the traversal loop -/

/-- The total size of the values of the nodes in the slots of a stack. -/
def sumSizes (nodeBuf : NodeBufType) (stack : List Nat) : Nat :=
  (stack.map fun q => (nodeBuf.node q).Val.size).sum

/-- The measure of the traversal loop: the total size of the values of the
nodes on the stack. -/
def stackSize (s : State) : Nat :=
  sumSizes s.nodeBuf s.stack

/-- The total size of the values of a list of nodes. -/
def contentSize (l : List Node) : Nat :=
  (l.map fun n => n.Val.size).sum

/-! ## The order of iteration of the table map -/

/-- Two table maps that hold the same tables under the same keys, each key
once: they differ at most in the order in which `range` visits them. -/
def TableMap.SameTables (res res1 : TableMap) : Prop :=
  res.Perm res1 ∧ res.keys.Nodup

/-- Two results of the loop over the records that agree up to the order of the
table map: the same fault, or the same node pool and the same tables; running
out of fuel agrees with running out of fuel only. -/
def SameOutcome :
    Option (Except PanicVal (NodeBufType × TableMap)) →
    Option (Except PanicVal (NodeBufType × TableMap)) → Prop
  | some (.ok (nodeBuf, res)), some (.ok (nodeBuf1, res1)) =>
    nodeBuf = nodeBuf1 ∧ res.SameTables res1
  | some (.error p), some (.error p1) => p = p1
  | none, none => True
  | _, _ => False

/-- The node pool and the table map that `InitMarshal` builds in scenario B. -/
def initB : NodeBufType × TableMap :=
  okOr ({ Index := 0, Buf := [] }, []) (InitMarshal batchB schemaB)

/-- A value at a path tree node covers the column of `key`: the traversal of
the value, once it goes through, writes into that column.  A scalar covers the
column of its own path.  A nil pointer, a nil interface, an empty slice, an
empty map, a struct none of whose fields is pushed and a non-empty
struct-shaped map for which nothing is pushed cover the columns that the null
propagation reaches.  A non-nil pointer or interface covers what its element
covers, a struct what one of its pushed fields covers, and a slice what one
of its elements covers at the resolved element node.  A logical map covers
what the key of one of its entries covers at `Key_value/Key` and what the
value of one of its entries covers at `Key_value/Value`; a struct-shaped map
covers what the value of an entry whose key is a schema child covers at that
child, the value a dynamic wrapper holds standing for the wrapper. -/
inductive Covers (c : Collaborators) (sh : SchemaHandler) (key : String) :
    Val → Option PathMapType → Prop
  | scalar (v : Val) (pm : PathMapType) : v.IsTerminal = true → pm.Path = key →
      Covers c sh key v (some pm)
  | nilPtr (pm : PathMapType) : NullReaches sh pm key → Covers c sh key (.ptr none) (some pm)
  | nilIface (pm : PathMapType) : NullReaches sh pm key →
      Covers c sh key (.iface none) (some pm)
  | ptr (w : Val) (pm : Option PathMapType) : Covers c sh key w pm →
      Covers c sh key (.ptr (some w)) pm
  | iface (w : Val) (pm : Option PathMapType) : Covers c sh key w pm →
      Covers c sh key (.iface (some w)) pm
  | noField (fs : List (String × Val)) (pm : PathMapType) :
      (∀ f ∈ fs, c.IsInternalField f.1 = true ∨ pm.child f.1 = none) →
      NullReaches sh pm key → Covers c sh key (.struct fs) (some pm)
  | field (fs : List (String × Val)) (pm child : PathMapType) (name : String) (v : Val) :
      (name, v) ∈ fs → c.IsInternalField name = false → pm.child name = some child →
      Covers c sh key v (some child) → Covers c sh key (.struct fs) (some pm)
  | emptySlice (pm : PathMapType) : NullReaches sh pm key →
      Covers c sh key (.slice []) (some pm)
  | elem (es : List Val) (pm : PathMapType) (pathMap : Option PathMapType) (path : String)
      (w : Val) : ParquetSlice.resolve sh pm = .ok (pathMap, path) → w ∈ es →
      Covers c sh key w pathMap → Covers c sh key (.slice es) (some pm)
  | nilUnsafePointer (pm : PathMapType) : NullReaches sh pm key →
      Covers c sh key (.UnsafePointer true) (some pm)
  | emptyMap (pm : PathMapType) : NullReaches sh pm key →
      Covers c sh key (.map []) (some pm)
  | mapKey (es : List (Val × Val)) (pm kv : PathMapType) (sele : SchemaElement) (k v : Val) :
      sh.element (sh.mapIndex pm.Path) = .ok sele → sele.IsSetConvertedType = true →
      pm.child "Key_value" = some kv → (k, v) ∈ es →
      Covers c sh key k (kv.child "Key") → Covers c sh key (.map es) (some pm)
  | mapValue (es : List (Val × Val)) (pm kv : PathMapType) (sele : SchemaElement)
      (k v : Val) :
      sh.element (sh.mapIndex pm.Path) = .ok sele → sele.IsSetConvertedType = true →
      pm.child "Key_value" = some kv → (k, v) ∈ es →
      Covers c sh key v (kv.child "Value") → Covers c sh key (.map es) (some pm)
  | mapEntry (es : List (Val × Val)) (pm child : PathMapType) (sele : SchemaElement)
      (k v : Val) :
      sh.element (sh.mapIndex pm.Path) = .ok sele → sele.IsSetConvertedType = false →
      (k, v) ∈ es → pm.child k.KeyString = some child → v.GetKind ≠ Kind.Interface →
      Covers c sh key v (some child) → Covers c sh key (.map es) (some pm)
  | mapEntryDynamic (es : List (Val × Val)) (pm child : PathMapType) (sele : SchemaElement)
      (k w : Val) :
      sh.element (sh.mapIndex pm.Path) = .ok sele → sele.IsSetConvertedType = false →
      (k, .iface (some w)) ∈ es → pm.child k.KeyString = some child →
      Covers c sh key w (some child) → Covers c sh key (.map es) (some pm)
  | mapNoEntry (es : List (Val × Val)) (pm : PathMapType) (sele : SchemaElement) :
      sh.element (sh.mapIndex pm.Path) = .ok sele → sele.IsSetConvertedType = false →
      (∀ e ∈ es, pm.child e.1.KeyString = none) →
      (∀ kc ∈ pm.Children, kc.2.Children.length ≠ 0) →
      NullReaches sh pm key → Covers c sh key (.map es) (some pm)

/-- The value of the root node of a record: the record with its interface and
pointer wrapper stripped. -/
def rootValue (c : Collaborators) (record : AnyVal) : Except PanicVal Val := do
  let val := Val.iface record
  let val ← if val.GetKind = Kind.Interface then val.Elem else pure val
  if c.IsPointerGoTypeKind val.GetKind then val.Elem else pure val

/-- A batch for the schema of scenario A whose record is a struct without the
field `Tags`. -/
def batchNoTags : List AnyVal := [some (.struct [("Name", .str "a")])]

/-- A batch for the schema of scenario B whose field `Props` is the map
`{"A": 1, "B": 2}` of type `map[string]int64`: both declared keys are
present. -/
def batchBBoth : List AnyVal := [
  some (.struct [("Props", .map [(.str "A", .int 1), (.str "B", .int 2)])])]

/-- A batch for the optional-leaf schema whose field `Note` holds a string
itself, not a pointer to one. -/
def batchNotePlain : List AnyVal := [some (.struct [("Note", .str "n")])]

/-- The traversal state of a record of scenario A whose field `Tags` is a nil
pointer, after one iteration: the root struct has been dispatched and the node
of `Tags` is on top of the stack, above that of `Name`. -/
def stateATagsNil : State :=
  match InitMarshal batchNamePtr schemaA with
  | .ok (nodeBuf, res) =>
    match seedRoot scenarioCollaborators schemaA
        (some (.struct [("Name", .str "a"), ("Tags", .ptr none)])) nodeBuf res with
    | .ok s => okOr s (step scenarioCollaborators schemaA s)
    | .error _ => { nodeBuf := nodeBuf, stack := [], res := res }
  | .error _ => { nodeBuf := { Index := 0, Buf := [] }, stack := [], res := [] }

/-! ## Results of the `Except` monad -/

theorem except_bind_eq_ok {ε α β : Type} {x : Except ε α} {f : α → Except ε β} {b : β} :
    (x >>= f) = .ok b ↔ ∃ a, x = .ok a ∧ f a = .ok b := by
  cases x with
  | error e => simp [bind, Except.bind]
  | ok a => simp [bind, Except.bind]

/-! ## Appends keep the shape of the table map -/

theorem Table.table_extends_refl (t : Table) : Table.Extends t t :=
  ⟨[], [], [], rfl, rfl, by simp⟩

theorem Table.table_extends_trans {a b c : Table} (h1 : Table.Extends a b) (h2 : Table.Extends b c) :
    Table.Extends a c := by
  obtain ⟨v1, d1, r1, hv1, hd1, rfl⟩ := h1
  obtain ⟨v2, d2, r2, hv2, hd2, rfl⟩ := h2
  exact ⟨v1 ++ v2, d1 ++ d2, r1 ++ r2, by simp [hv1, hv2], by simp [hd1, hd2], by simp⟩

theorem Table.extends_append (t : Table) (v : AnyVal) (dl rl : Int) :
    Table.Extends t (t.append v dl rl) :=
  ⟨[v], [dl], [rl], rfl, rfl, rfl⟩

theorem Table.table_aligned_of_extends {t t1 : Table} (h : Table.Extends t t1) (ha : t.Aligned) :
    t1.Aligned := by
  obtain ⟨vs, dls, rls, hv, hd, rfl⟩ := h
  obtain ⟨h1, h2⟩ := ha
  constructor
  · simp [h1, hv]
  · simp [h2, hd]

theorem TableMap.extends_refl (res : TableMap) : TableMap.Extends res res := by
  induction res with
  | nil => exact List.Forall₂.nil
  | cons a r ih => exact List.Forall₂.cons ⟨rfl, Table.table_extends_refl _⟩ ih

theorem TableMap.extends_trans {a b c : TableMap} (h1 : TableMap.Extends a b)
    (h2 : TableMap.Extends b c) : TableMap.Extends a c := by
  induction h1 generalizing c with
  | nil => cases h2; exact List.Forall₂.nil
  | cons hab _ ih =>
    cases h2 with
    | cons hbc h2r =>
      exact List.Forall₂.cons ⟨hab.1.trans hbc.1, Table.table_extends_trans hab.2 hbc.2⟩ (ih h2r)

theorem TableMap.extends_appendAt {res res1 : TableMap} {path : String} {v : AnyVal}
    {dl rl : Int} (h : TableMap.appendAt res path v dl rl = .ok res1) :
    TableMap.Extends res res1 := by
  induction res generalizing res1 with
  | nil => simp [TableMap.appendAt] at h
  | cons a r ih =>
    obtain ⟨k, t⟩ := a
    simp only [TableMap.appendAt] at h
    split at h
    · cases h
      exact List.Forall₂.cons ⟨rfl, Table.extends_append _ _ _ _⟩ (TableMap.extends_refl _)
    · split at h
      · cases h
        rename_i r1 hr
        exact List.Forall₂.cons ⟨rfl, Table.table_extends_refl _⟩ (ih hr)
      · cases h

theorem TableMap.extends_appendNullBelow (res : TableMap) (path : String) (dl rl : Int) :
    TableMap.Extends res (res.appendNullBelow path dl rl) := by
  induction res with
  | nil => exact List.Forall₂.nil
  | cons a r ih =>
    simp only [TableMap.appendNullBelow, List.map_cons]
    refine List.Forall₂.cons ?_ ih
    split
    · exact ⟨rfl, Table.extends_append _ _ _ _⟩
    · exact ⟨rfl, Table.table_extends_refl _⟩

theorem TableMap.aligned_of_extends {res res1 : TableMap} (h : TableMap.Extends res res1)
    (ha : res.Aligned) : res1.Aligned := by
  induction h with
  | nil => exact ha
  | cons hab _ ih =>
    intro kt hkt
    rcases List.mem_cons.1 hkt with rfl | hmem
    · exact Table.table_aligned_of_extends hab.2 (ha _ (List.mem_cons_self _ _))
    · exact ih (fun x hx => ha x (List.mem_cons_of_mem _ hx)) kt hmem

theorem TableMap.keys_of_extends {res res1 : TableMap} (h : TableMap.Extends res res1) :
    res1.keys = res.keys := by
  induction h with
  | nil => rfl
  | cons hab _ ih =>
    simp only [TableMap.keys, List.map_cons] at ih ⊢
    rw [ih, hab.1]

theorem emitLeaf_extends {c : Collaborators} {sh : SchemaHandler} {node : Node}
    {res res1 : TableMap} (h : emitLeaf c sh node res = .ok res1) :
    TableMap.Extends res res1 := by
  unfold emitLeaf at h
  simp only [bind, Except.bind, pure, Except.pure] at h
  repeat' split at h
  all_goals
    first
    | exact TableMap.extends_appendAt h
    | cases h

theorem propagateNull_extends {sh : SchemaHandler} {node : Node} {res res1 : TableMap}
    (h : propagateNull sh node res = .ok res1) : TableMap.Extends res res1 := by
  unfold propagateNull at h
  simp only [bind, Except.bind, pure, Except.pure] at h
  repeat' split at h
  all_goals
    first
    | exact TableMap.extends_appendAt h
    | (cases h; exact TableMap.extends_appendNullBelow _ _ _ _)
    | cases h

theorem step_extends {c : Collaborators} {sh : SchemaHandler} {s s1 : State}
    (h : step c sh s = .ok s1) : TableMap.Extends s.res s1.res := by
  unfold step at h
  simp only [bind, Except.bind, pure, Except.pure] at h
  repeat' split at h
  all_goals
    first
    | (cases h; exact TableMap.extends_refl _)
    | (cases h; exact emitLeaf_extends (by assumption))
    | (cases h; exact propagateNull_extends (by assumption))
    | cases h

theorem traverse_extends {c : Collaborators} {sh : SchemaHandler} (fuel : Nat) {s s1 : State}
    (h : traverse c sh fuel s = some (.ok s1)) : TableMap.Extends s.res s1.res := by
  induction fuel generalizing s with
  | zero =>
    simp only [traverse] at h
    split at h
    · cases h; exact TableMap.extends_refl _
    · cases h
  | succ n ih =>
    simp only [traverse] at h
    split at h
    · cases h; exact TableMap.extends_refl _
    · split at h
      · cases h
      · rename_i s2 hs2
        exact TableMap.extends_trans (step_extends hs2) (ih h)

theorem seedRoot_res {c : Collaborators} {sh : SchemaHandler} {record : AnyVal}
    {nodeBuf : NodeBufType} {res : TableMap} {s : State}
    (h : seedRoot c sh record nodeBuf res = .ok s) : s.res = res := by
  unfold seedRoot at h
  simp only [bind, Except.bind, pure, Except.pure] at h
  repeat' split at h
  all_goals
    first
    | (cases h; rfl)
    | cases h

theorem marshalRecords_extends {c : Collaborators} {sh : SchemaHandler} (records : List AnyVal)
    {nodeBuf nodeBuf1 : NodeBufType} {res res1 : TableMap}
    (h : marshalRecords c sh records nodeBuf res = some (.ok (nodeBuf1, res1))) :
    TableMap.Extends res res1 := by
  induction records generalizing nodeBuf res with
  | nil =>
    simp only [marshalRecords] at h
    cases h
    exact TableMap.extends_refl _
  | cons r rest ih =>
    simp only [marshalRecords] at h
    split at h
    · cases h
    · rename_i s hs
      split at h
      · cases h
      · cases h
      · rename_i s1 hs1
        have h1 := traverse_extends _ hs1
        rw [seedRoot_res hs] at h1
        exact TableMap.extends_trans h1 (ih h)

/-! ## The table setup -/

theorem TableMap.mem_keys_insert (tm : TableMap) (k : String) (t : Table) (k1 : String) :
    k1 ∈ (tm.insert k t).keys ↔ k1 = k ∨ k1 ∈ tm.keys := by
  induction tm with
  | nil => simp [TableMap.insert, TableMap.keys]
  | cons a r ih =>
    obtain ⟨ka, ta⟩ := a
    simp only [TableMap.insert]
    split
    · rename_i hk
      subst hk
      simp [TableMap.keys]
    · simp only [TableMap.keys, List.map_cons, List.mem_cons] at ih ⊢
      rw [ih]
      tauto

theorem TableMap.nodup_keys_insert (tm : TableMap) (k : String) (t : Table)
    (h : tm.keys.Nodup) : (tm.insert k t).keys.Nodup := by
  induction tm with
  | nil => simp [TableMap.insert, TableMap.keys]
  | cons a r ih =>
    obtain ⟨ka, ta⟩ := a
    simp only [TableMap.insert]
    split
    · simpa [TableMap.keys] using h
    · rename_i hk
      have h1 : ka ∉ TableMap.keys r ∧ (TableMap.keys r).Nodup := by
        simpa [TableMap.keys] using h
      have h2 : (TableMap.keys ((ka, ta) :: TableMap.insert r k t)) =
          ka :: TableMap.keys (TableMap.insert r k t) := rfl
      rw [h2, List.nodup_cons]
      refine ⟨?_, ih h1.2⟩
      rw [TableMap.mem_keys_insert]
      rintro (h3 | h3)
      · exact hk h3
      · exact h1.1 h3

theorem TableMap.forall_insert {P : String × Table → Prop} (tm : TableMap) (k : String)
    (t : Table) (h : ∀ kt ∈ tm, P kt) (hk : P (k, t)) : ∀ kt ∈ tm.insert k t, P kt := by
  induction tm with
  | nil =>
    intro kt hkt
    simp only [TableMap.insert, List.mem_singleton] at hkt
    rw [hkt]; exact hk
  | cons a r ih =>
    obtain ⟨ka, ta⟩ := a
    intro kt hkt
    simp only [TableMap.insert] at hkt
    split at hkt
    · rename_i hka
      rcases List.mem_cons.1 hkt with rfl | hmem
      · rw [hka]; exact hk
      · exact h kt (List.mem_cons_of_mem _ hmem)
    · rcases List.mem_cons.1 hkt with rfl | hmem
      · exact h _ (List.mem_cons_self _ _)
      · exact ih (fun x hx => h x (List.mem_cons_of_mem _ hx)) kt hmem

theorem fillTableMap_spec (sh : SchemaHandler) (elems : List SchemaElement) (i : Nat)
    (tm tm1 : TableMap) (h : fillTableMap sh elems i tm = .ok tm1) :
    (∀ k, k ∈ tm1.keys ↔ k ∈ tm.keys ∨ ∃ (j : Nat) (e : SchemaElement), elems[j]? = some e ∧
      e.GetNumChildren = 0 ∧ sh.indexMap (wrapInt32 ((i + j : Nat) : Int)) = k) ∧
    (tm.keys.Nodup → tm1.keys.Nodup) ∧
    ((∀ kt ∈ tm, Table.FreshFor sh kt) → ∀ kt ∈ tm1, Table.FreshFor sh kt) := by
  induction elems generalizing i tm with
  | nil =>
    simp only [fillTableMap] at h
    cases h
    simp
  | cons e rest ih =>
    simp only [fillTableMap, bind, Except.bind, pure, Except.pure] at h
    split at h
    · rename_i hleaf
      split at h
      · cases h
      · split at h
        · obtain ⟨ih1, ih2, ih3⟩ := ih _ _ h
          refine ⟨?_, ?_, ?_⟩
          · intro k
            rw [ih1, TableMap.mem_keys_insert]
            constructor
            · rintro ((h1 | h1) | ⟨j, e1, hj, he1, hk⟩)
              · exact Or.inr ⟨0, e, by simp, hleaf, by simpa using h1.symm⟩
              · exact Or.inl h1
              · exact Or.inr ⟨j + 1, e1, by simpa using hj, he1, by
                  rw [← hk]; congr 2; omega⟩
            · rintro (h1 | ⟨j, e1, hj, he1, hk⟩)
              · exact Or.inl (Or.inr h1)
              · cases j with
                | zero =>
                  exact Or.inl (Or.inl (by simpa using hk.symm))
                | succ j =>
                  exact Or.inr ⟨j, e1, by simpa using hj, he1, by
                    rw [← hk]; congr 2; omega⟩
          · intro hn
            exact ih2 (TableMap.nodup_keys_insert _ _ _ hn)
          · intro hf
            exact ih3 (TableMap.forall_insert _ _ _ hf ⟨rfl, rfl, rfl, rfl, rfl⟩)
        · cases h
    · rename_i hleaf
      obtain ⟨ih1, ih2, ih3⟩ := ih _ _ h
      refine ⟨?_, ih2, ih3⟩
      intro k
      rw [ih1]
      constructor
      · rintro (h1 | ⟨j, e1, hj, he1, hk⟩)
        · exact Or.inl h1
        · exact Or.inr ⟨j + 1, e1, by simpa using hj, he1, by
            rw [← hk]; congr 2; omega⟩
      · rintro (h1 | ⟨j, e1, hj, he1, hk⟩)
        · exact Or.inl h1
        · cases j with
          | zero =>
            simp only [List.getElem?_cons_zero, Option.some.injEq] at hj
            subst hj
            exact absurd he1 hleaf
          | succ j =>
            exact Or.inr ⟨j, e1, by simpa using hj, he1, by
              rw [← hk]; congr 2; omega⟩

theorem InitMarshal_spec {srcInterface : List AnyVal} {sh : SchemaHandler}
    {nodeBuf : NodeBufType} {res : TableMap}
    (h : InitMarshal srcInterface sh = .ok (nodeBuf, res)) :
    (∀ k, k ∈ res.keys ↔ sh.IsLeafPath k) ∧ res.keys.Nodup ∧
      (∀ kt ∈ res, Table.FreshFor sh kt) ∧
      nodeBuf = { Index := 0, Buf := [zeroNode] } := by
  unfold InitMarshal setupTableMap at h
  simp only [bind, Except.bind, pure, Except.pure] at h
  split at h
  · cases h
  · rename_i res0 h0
    split at h
    · cases h
    · rename_i nb hnb
      split at h
      · cases h
      · rename_i res1 h1
        cases h
        obtain ⟨a1, a2, a3⟩ := fillTableMap_spec _ _ _ _ _ h0
        obtain ⟨b1, b2, b3⟩ := fillTableMap_spec _ _ _ _ _ h1
        have hleaf : ∀ k, (∃ (j : Nat) (e : SchemaElement), sh.SchemaElements[j]? = some e ∧
            e.GetNumChildren = 0 ∧ sh.indexMap (wrapInt32 ((0 + j : Nat) : Int)) = k) ↔
            sh.IsLeafPath k := by
          intro k
          simp [SchemaHandler.IsLeafPath]
        refine ⟨?_, b2 (a2 (by simp [TableMap.keys])), b3 (a3 (by simp)), ?_⟩
        · intro k
          rw [b1, a1, hleaf]
          simp [TableMap.keys]
        · simp only [NewNodeBuf] at hnb
          split at hnb
          · cases hnb
          · cases hnb
            rfl

theorem Table.table_meta_of_extends {t t1 : Table} (h : Table.Extends t t1) :
    t1.MaxDefinitionLevel = t.MaxDefinitionLevel ∧
      t1.MaxRepetitionLevel = t.MaxRepetitionLevel := by
  obtain ⟨vs, dls, rls, _, _, rfl⟩ := h
  exact ⟨rfl, rfl⟩

theorem TableMap.meta_of_extends {res res1 : TableMap} (h : TableMap.Extends res res1)
    {f g : String → Int}
    (hm : ∀ kt ∈ res, kt.2.MaxDefinitionLevel = f kt.1 ∧ kt.2.MaxRepetitionLevel = g kt.1) :
    ∀ kt ∈ res1, kt.2.MaxDefinitionLevel = f kt.1 ∧ kt.2.MaxRepetitionLevel = g kt.1 := by
  induction h with
  | nil => exact hm
  | cons hab _ ih =>
    intro kt hkt
    rcases List.mem_cons.1 hkt with rfl | hmem
    · have h0 := hm _ (List.mem_cons_self _ _)
      have h1 := Table.table_meta_of_extends hab.2
      rw [← hab.1, h1.1, h1.2]
      exact h0
    · exact ih (fun x hx => hm x (List.mem_cons_of_mem _ hx)) kt hmem

theorem MarshalStruct_ok {c : Collaborators} {srcInterface : List AnyVal} {sh : SchemaHandler}
    {res : TableMap} (h : MarshalStruct c srcInterface sh = some { tb := some res, err := none }) :
    ∃ nodeBuf res0 nodeBuf1, InitMarshal srcInterface sh = .ok (nodeBuf, res0) ∧
      marshalRecords c sh srcInterface nodeBuf res0 = some (.ok (nodeBuf1, res)) := by
  unfold MarshalStruct at h
  split at h
  · cases h
  · rename_i nb res0 h0
    split at h
    · cases h
    · cases h
    · rename_i nb1 res1 h1
      cases h
      exact ⟨nb, res0, nb1, h0, h1⟩

/-- C1: in the table map of a successful `MarshalStruct` every column has as
many values as definition levels and as repetition levels; the table map that
`InitMarshal` builds has the property, every iteration of the traversal loop
keeps it, and so does the traversal of a record. -/
theorem columns_aligned (c : Collaborators) (sh : SchemaHandler) (srcInterface : List AnyVal) :
    (∀ res, MarshalStruct c srcInterface sh = some { tb := some res, err := none } →
      res.Aligned) ∧
    (∀ nodeBuf res, InitMarshal srcInterface sh = .ok (nodeBuf, res) → res.Aligned) ∧
    (∀ s s1, s.res.Aligned → step c sh s = .ok s1 → s1.res.Aligned) ∧
    (∀ fuel s s1, s.res.Aligned → traverse c sh fuel s = some (.ok s1) → s1.res.Aligned) := by
  have hinit : ∀ nodeBuf res, InitMarshal srcInterface sh = .ok (nodeBuf, res) →
      res.Aligned := by
    intro nodeBuf res h kt hkt
    obtain ⟨h1, h2, h3, _⟩ := (InitMarshal_spec h).2.2.1 kt hkt
    simp [Table.Aligned, h1, h2, h3]
  refine ⟨?_, hinit, ?_, ?_⟩
  · intro res h
    obtain ⟨nb, res0, nb1, h0, h1⟩ := MarshalStruct_ok h
    exact TableMap.aligned_of_extends (marshalRecords_extends _ h1) (hinit _ _ h0)
  · intro s s1 ha h
    exact TableMap.aligned_of_extends (step_extends h) ha
  · intro fuel s s1 ha h
    exact TableMap.aligned_of_extends (traverse_extends fuel h) ha

/-- C5: the keys of the table map of a successful `MarshalStruct` are exactly
the leaf paths of the schema, each once, whatever the records; every column
carries the maximum definition and repetition level of its path; and for the
empty batch every column has no entries. -/
theorem table_keys_are_leaf_paths (c : Collaborators) (sh : SchemaHandler)
    (srcInterface : List AnyVal) (res : TableMap)
    (h : MarshalStruct c srcInterface sh = some { tb := some res, err := none }) :
    (∀ k, k ∈ res.keys ↔ sh.IsLeafPath k) ∧ res.keys.Nodup ∧
    (∀ kt ∈ res, kt.2.MaxDefinitionLevel = sh.MaxDefinitionLevel (StrToPath kt.1) ∧
      kt.2.MaxRepetitionLevel = sh.MaxRepetitionLevel (StrToPath kt.1)) ∧
    (srcInterface = [] → ∀ kt ∈ res, kt.2.Values = [] ∧ kt.2.DefinitionLevels = [] ∧
      kt.2.RepetitionLevels = []) := by
  obtain ⟨nb, res0, nb1, h0, h1⟩ := MarshalStruct_ok h
  obtain ⟨i1, i2, i3, _⟩ := InitMarshal_spec h0
  have hext := marshalRecords_extends _ h1
  have hkeys := TableMap.keys_of_extends hext
  refine ⟨?_, ?_, ?_, ?_⟩
  · intro k
    rw [hkeys]; exact i1 k
  · rw [hkeys]; exact i2
  · exact @TableMap.meta_of_extends _ _ hext (fun k => sh.MaxDefinitionLevel (StrToPath k))
      (fun k => sh.MaxRepetitionLevel (StrToPath k))
      (fun kt hkt => ⟨(i3 kt hkt).2.2.2.1, (i3 kt hkt).2.2.2.2⟩)
  · intro hsrc kt hkt
    subst hsrc
    simp only [marshalRecords] at h1
    cases h1
    exact ⟨(i3 kt hkt).1, (i3 kt hkt).2.1, (i3 kt hkt).2.2.1⟩

/-- Witness of `columns_aligned` on scenario A: the result of the call, the
table map after the setup, and the states after one iteration and after the
first record are aligned. -/
theorem columns_aligned_witness :
    (tablesOf (MarshalStruct scenarioCollaborators batchA schemaA)).Aligned ∧
      initA.2.Aligned ∧ stateA1.res.Aligned ∧ stateA2.res.Aligned :=
  have h := columns_aligned scenarioCollaborators schemaA batchA
  have h0 : initA.2.Aligned := h.2.1 initA.1 initA.2 rfl
  ⟨h.1 _ rfl, h0, h.2.2.1 stateA0 stateA1 h0 rfl,
    h.2.2.2 (recordFuel stateA0) stateA0 stateA2 h0 rfl⟩

/-- Witness of `table_keys_are_leaf_paths` on the schema of scenario A and the
empty batch. -/
theorem table_keys_are_leaf_paths_witness :
    (∀ k, k ∈ (tablesOf (MarshalStruct scenarioCollaborators [] schemaA)).keys ↔
      schemaA.IsLeafPath k) ∧
    (tablesOf (MarshalStruct scenarioCollaborators [] schemaA)).keys.Nodup ∧
    (∀ kt ∈ tablesOf (MarshalStruct scenarioCollaborators [] schemaA),
      kt.2.MaxDefinitionLevel = schemaA.MaxDefinitionLevel (StrToPath kt.1) ∧
      kt.2.MaxRepetitionLevel = schemaA.MaxRepetitionLevel (StrToPath kt.1)) ∧
    (∀ kt ∈ tablesOf (MarshalStruct scenarioCollaborators [] schemaA),
      kt.2.Values = [] ∧ kt.2.DefinitionLevels = [] ∧ kt.2.RepetitionLevels = []) :=
  have h := table_keys_are_leaf_paths scenarioCollaborators schemaA []
    (tablesOf (MarshalStruct scenarioCollaborators [] schemaA)) rfl
  ⟨h.1, h.2.1, h.2.2.1, h.2.2.2 rfl⟩

/-- C2: scenario A.  `Marshal` succeeds; the column of `Name` holds the values
"a", "b" with definition levels 0, 0 and repetition levels 0, 0; the column of
the element leaf of `Tags`, whose maximum levels are 2 and 1, holds "x", "y",
null with definition levels 2, 2, 1 and repetition levels 0, 1, 0. -/
theorem scenario_A_columns :
    (∃ res, Marshal scenarioCollaborators batchA schemaA =
      some { tb := some res, err := none }) ∧
    column (Marshal scenarioCollaborators batchA schemaA) "Parquet_go_root/Name" =
      some ([some (.str "a"), some (.str "b")], [0, 0], [0, 0]) ∧
    column (Marshal scenarioCollaborators batchA schemaA)
        "Parquet_go_root/Tags/List/Element" =
      some ([some (.str "x"), some (.str "y"), none], [2, 2, 1], [0, 1, 0]) ∧
    schemaA.MaxDefinitionLevel (StrToPath "Parquet_go_root/Tags/List/Element") = 2 ∧
    schemaA.MaxRepetitionLevel (StrToPath "Parquet_go_root/Tags/List/Element") = 1 :=
  ⟨⟨_, rfl⟩, rfl, rfl, rfl, rfl⟩

/-- C8 (the code at the failing input): in a batch of two equal records, each a
pointer to a pointer to a struct, the root node of the first record starts at
definition level 0 and the root node of the second record starts at definition
level 1, the level that the pointer dispatch of the first record left in the
pool slot; the columns of the two equal records differ accordingly. -/
theorem root_level_carried_over :
    rootLevels scenarioCollaborators schemaA batchPtrPtr 0 = some (0, 0) ∧
    rootLevels scenarioCollaborators schemaA batchPtrPtr 1 = some (1, 0) ∧
    column (Marshal scenarioCollaborators batchPtrPtr schemaA) "Parquet_go_root/Name" =
      some ([some (.str "a"), some (.str "a")], [1, 2], [0, 0]) :=
  ⟨rfl, rfl, rfl⟩

/-- C9 (the code at the failing input): in scenario C, a nil pointer at the
batch root, whenever `schema.IsPointerGoTypeKind` holds of the pointer kind, so
that the root is stripped to the zero Value, `Marshal` returns no table map and
the error of the panic that `IsNil` raises on the zero Value. -/
theorem scenario_C_fails (c : Collaborators) (hptr : c.IsPointerGoTypeKind Kind.Ptr = true) :
    Marshal c batchC schemaC = some (MarshalResult.mk none
      (some ⟨"reflect: call of reflect.Value.IsNil on zero Value"⟩)) := by
  have hc : c = Collaborators.mk c.IsInternalField
      (fun k => if k = Kind.Ptr then true else c.IsPointerGoTypeKind k)
      c.InterfaceToParquetType := by
    cases c
    simp only [Collaborators.mk.injEq, true_and, and_true]
    funext k
    by_cases hk : k = Kind.Ptr
    · simp_all
    · simp [hk]
  rw [hc]
  rfl

/-- Witness of `scenario_C_fails` with the collaborators of the scenarios. -/
theorem scenario_C_fails_witness :
    Marshal scenarioCollaborators batchC schemaC = some (MarshalResult.mk none
      (some ⟨"reflect: call of reflect.Value.IsNil on zero Value"⟩)) :=
  scenario_C_fails scenarioCollaborators rfl

/-- C10 (the code at the failing input): in scenario B, the map `{"A": 1}`
under a schema that declares the leaves `A` and `B`, whenever the field name
`Props` is not internal and `schema.IsPointerGoTypeKind` does not hold of the
struct kind, `Marshal` returns no table map and the error of the panic that
`IsNil` raises on the zero Value of the node made for the missing key `B`. -/
theorem scenario_B_fails (c : Collaborators) (hint : c.IsInternalField "Props" = false)
    (hptr : c.IsPointerGoTypeKind Kind.Struct = false) :
    Marshal c batchB schemaB = some (MarshalResult.mk none
      (some ⟨"reflect: call of reflect.Value.IsNil on zero Value"⟩)) := by
  have hc : c = Collaborators.mk
      (fun n => if n = "Props" then false else c.IsInternalField n)
      (fun k => if k = Kind.Struct then false else c.IsPointerGoTypeKind k)
      c.InterfaceToParquetType := by
    cases c
    simp only [Collaborators.mk.injEq, true_and, and_true]
    constructor
    · funext n
      by_cases hn : n = "Props"
      · simp_all
      · simp [hn]
    · funext k
      by_cases hk : k = Kind.Struct
      · simp_all
      · simp [hk]
  rw [hc]
  rfl

/-- Witness of `scenario_B_fails` with the collaborators of the scenarios. -/
theorem scenario_B_fails_witness :
    Marshal scenarioCollaborators batchB schemaB = some (MarshalResult.mk none
      (some ⟨"reflect: call of reflect.Value.IsNil on zero Value"⟩)) :=
  scenario_B_fails scenarioCollaborators rfl rfl

/-! ## The node pool -/

theorem NodeBufType.node_update_self (nbt : NodeBufType) (p : Nat) (f : Node → Node)
    (h : p < nbt.Buf.length) : (nbt.update p f).node p = f (nbt.node p) := by
  simp [NodeBufType.update, NodeBufType.node, List.getElem?_set, h]

theorem NodeBufType.node_update_ne (nbt : NodeBufType) (p q : Nat) (f : Node → Node)
    (h : q ≠ p) : (nbt.update p f).node q = nbt.node q := by
  simp [NodeBufType.update, NodeBufType.node, List.getElem?_set, Ne.symm h]

@[simp] theorem NodeBufType.update_Index (nbt : NodeBufType) (p : Nat) (f : Node → Node) :
    (nbt.update p f).Index = nbt.Index := rfl

@[simp] theorem NodeBufType.update_length (nbt : NodeBufType) (p : Nat) (f : Node → Node) :
    (nbt.update p f).Buf.length = nbt.Buf.length := by
  simp [NodeBufType.update]

theorem NodeBufType.update_valid (nbt : NodeBufType) (p : Nat) (f : Node → Node)
    (h : nbt.Valid) : (nbt.update p f).Valid := by
  simpa [NodeBufType.Valid] using h

theorem NodeBufType.GetNode_spec (nbt : NodeBufType) (h : nbt.Valid) :
    ∃ nbt1, nbt.GetNode = .ok (nbt1, nbt.Index.toNat) ∧ nbt1.Index = nbt.Index + 1 ∧
      nbt1.Valid ∧ nbt.Index.toNat < nbt1.Buf.length ∧ (∀ p, nbt1.node p = nbt.node p) := by
  obtain ⟨h0, h1⟩ := h
  unfold NodeBufType.GetNode
  by_cases hge : nbt.Index ≥ nbt.Buf.length
  · have heq : nbt.Index = nbt.Buf.length := le_antisymm h1 hge
    refine ⟨{ Index := nbt.Index + 1, Buf := nbt.Buf ++ [zeroNode] }, ?_, rfl, ?_, ?_, ?_⟩
    · simp [hge, heq]
    · constructor
      · simp only; omega
      · simp only [List.length_append, List.length_singleton]; push_cast; omega
    · simp only [List.length_append, List.length_singleton]; omega
    · intro p
      simp only [NodeBufType.node]
      by_cases hp : p < nbt.Buf.length
      · rw [List.getElem?_append_left hp]
      · rw [List.getElem?_append_right (by omega)]
        have : nbt.Buf[p]? = none := List.getElem?_eq_none (by omega)
        rw [this]
        cases hq : p - nbt.Buf.length with
        | zero => simp
        | succ n => simp
  · have hlt : nbt.Index < nbt.Buf.length := by omega
    refine ⟨{ Index := nbt.Index + 1, Buf := nbt.Buf }, ?_, rfl, ?_, ?_, ?_⟩
    · simp [hge, hlt, h0]
    · constructor
      · simp only; omega
      · simp only; omega
    · simp only; omega
    · intro p; rfl

theorem NodeBufType.update_update (nbt : NodeBufType) (p : Nat) (f g : Node → Node) :
    (nbt.update p f).update p g = nbt.update p (fun x => g (f x)) := by
  by_cases h : p < nbt.Buf.length
  · simp [NodeBufType.update, NodeBufType.node, List.getElem?_set, h]
  · have h1 : nbt.Buf.set p (f (nbt.node p)) = nbt.Buf := List.set_eq_of_length_le (by omega)
    have h2 : ∀ x, nbt.Buf.set p x = nbt.Buf := fun x => List.set_eq_of_length_le (by omega)
    simp [NodeBufType.update, h2]

/-! ## The sequence variant -/

theorem ParquetSlice.loop_spec (node : Nat) (pathMap : Option PathMapType) (rlNow : Int)
    (elems : List Val) (pm : Option PathMapType) (r d : Int) (j : Nat) :
    ∀ (nodeBuf : NodeBufType) (stack : List Nat), nodeBuf.Valid →
      node < nodeBuf.Index.toNat → j ≤ elems.length →
      nodeBuf.node node = { Val := Val.slice elems, PathMap := pm, RL := r, DL := d } →
      ∃ nodeBuf1, ParquetSlice.loop node pathMap rlNow j nodeBuf stack =
          .ok (nodeBuf1, stack ++ (List.range j).map (fun i => nodeBuf.Index.toNat + i)) ∧
        nodeBuf1.Valid ∧ nodeBuf1.Index = nodeBuf.Index + j ∧
        (∀ p, p < nodeBuf.Index.toNat → nodeBuf1.node p = nodeBuf.node p) ∧
        (∀ i, i < j → nodeBuf1.node (nodeBuf.Index.toNat + i) =
          { Val := elems.getD (j - 1 - i) Val.invalid, PathMap := pathMap,
            RL := if j - 1 - i = 0 then r else rlNow, DL := wrapInt32 (d + 1) }) := by
  induction j with
  | zero =>
    intro nodeBuf stack hv hn hj hN
    exact ⟨nodeBuf, by simp [ParquetSlice.loop], hv, by simp, fun p _ => rfl,
      fun i hi => absurd hi (Nat.not_lt_zero _)⟩
  | succ j ih =>
    intro nodeBuf stack hv hn hj hN
    obtain ⟨nb1, hget, hidx, hv1, hlen, hsame⟩ := nodeBuf.GetNode_spec hv
    have hne : node ≠ nodeBuf.Index.toNat := by omega
    obtain ⟨e, he⟩ : ∃ e, elems[j]? = some e := by
      have : j < elems.length := by omega
      exact ⟨elems[j], by simp [this]⟩
    simp only [ParquetSlice.loop, hget, bind, Except.bind, pure, Except.pure]
    simp only [NodeBufType.node_update_ne _ _ _ _ hne, hsame, hN, Val.Index, he,
      NodeBufType.update_update]
    generalize hp : nodeBuf.Index.toNat = p at *
    generalize hnb2 : nb1.update p (fun _ =>
      Node.mk e pathMap (if j = 0 then r else rlNow) (wrapInt32 (d + 1))) = nb2
    have hnb2v : nb2.Valid := by
      rw [← hnb2]; exact NodeBufType.update_valid _ _ _ hv1
    have hnb2i : nb2.Index = nodeBuf.Index + 1 := by
      rw [← hnb2]; simp [hidx]
    have hnb2other : ∀ q, q ≠ p → nb2.node q = nodeBuf.node q := by
      intro q hq
      rw [← hnb2, NodeBufType.node_update_ne _ _ _ _ hq, hsame]
    have hnb2p : nb2.node p =
        Node.mk e pathMap (if j = 0 then r else rlNow) (wrapInt32 (d + 1)) := by
      rw [← hnb2, NodeBufType.node_update_self _ _ _ hlen]
    have hi2 : nb2.Index.toNat = p + 1 := by
      rw [hnb2i, ← hp]; have := hv.1; omega
    obtain ⟨nb3, hloop, hv3, hidx3, hsame3, hnew3⟩ :=
      ih nb2 (stack ++ [p]) hnb2v (by omega) (by omega) (by
        rw [hnb2other node hne]; exact hN)
    refine ⟨nb3, ?_, hv3, ?_, ?_, ?_⟩
    · rw [hloop, hi2]
      simp only [List.append_assoc, List.singleton_append, List.range_succ_eq_map,
        List.map_cons, List.map_map, Nat.add_zero]
      congr 4
      apply List.map_congr_left
      intro i _
      simp only [Function.comp]
      omega
    · rw [hidx3, hnb2i]; push_cast; omega
    · intro q hq
      rw [hsame3 q (by omega), hnb2other q (by omega)]
    · intro i hi
      cases i with
      | zero =>
        rw [Nat.add_zero, hsame3 p (by omega), hnb2p]
        simp only [Nat.add_sub_cancel, Nat.sub_zero]
        rw [List.getD_eq_getElem?_getD, he]
        rfl
      | succ i =>
        have := hnew3 i (by omega)
        rw [hi2] at this
        rw [show p + (i + 1) = p + 1 + i by omega, this]
        have h1 : j + 1 - 1 - (i + 1) = j - 1 - i := by omega
        rw [h1]

/-! ## Lookups and updates of the table map -/

theorem TableMap.appendAt_of_get? {res : TableMap} {path : String} {t : Table}
    (h : res.get? path = some t) (v : AnyVal) (dl rl : Int) :
    res.appendAt path v dl rl = .ok (res.modifyAt path fun x => x.append v dl rl) := by
  induction res with
  | nil => simp [TableMap.get?] at h
  | cons a r ih =>
    obtain ⟨k, ta⟩ := a
    simp only [TableMap.get?] at h
    simp only [TableMap.appendAt, TableMap.modifyAt]
    split
    · rfl
    · rename_i hk
      simp only [hk, if_false] at h
      rw [ih h]

theorem TableMap.get?_modifyAt_self (res : TableMap) (path : String) (f : Table → Table) :
    (res.modifyAt path f).get? path = (res.get? path).map f := by
  induction res with
  | nil => rfl
  | cons a r ih =>
    obtain ⟨k, ta⟩ := a
    simp only [TableMap.modifyAt]
    split
    · rename_i hk
      simp [TableMap.get?, hk]
    · rename_i hk
      simp [TableMap.get?, hk, ih]

theorem TableMap.get?_modifyAt_ne (res : TableMap) (path key : String) (f : Table → Table)
    (h : key ≠ path) : (res.modifyAt path f).get? key = res.get? key := by
  induction res with
  | nil => rfl
  | cons a r ih =>
    obtain ⟨k, ta⟩ := a
    simp only [TableMap.modifyAt]
    split
    · rename_i hk
      have : k ≠ key := by rw [hk]; exact Ne.symm h
      simp [TableMap.get?, this]
    · simp [TableMap.get?, ih]

theorem TableMap.modifyAt_modifyAt (res : TableMap) (path : String) (f g : Table → Table) :
    (res.modifyAt path f).modifyAt path g = res.modifyAt path (fun x => g (f x)) := by
  induction res with
  | nil => rfl
  | cons a r ih =>
    obtain ⟨k, ta⟩ := a
    simp only [TableMap.modifyAt]
    split
    · rename_i hk
      simp [TableMap.modifyAt, hk]
    · rename_i hk
      simp [TableMap.modifyAt, hk, ih]

theorem TableMap.modifyAt_id (res : TableMap) (path : String) (f : Table → Table)
    (h : ∀ x, f x = x) : res.modifyAt path f = res := by
  induction res with
  | nil => rfl
  | cons a r ih =>
    obtain ⟨k, ta⟩ := a
    simp only [TableMap.modifyAt]
    split
    · rw [h]
    · rw [ih]

/-! ## Iterations of the loop body -/

theorem traverse_of_step {c : Collaborators} {sh : SchemaHandler} {s s1 : State}
    (hne : s.stack ≠ []) (h : step c sh s = .ok s1) (fuel : Nat) :
    traverse c sh (fuel + 1) s = traverse c sh fuel s1 := by
  simp [traverse, hne, h]

theorem steps_succ_of_step {c : Collaborators} {sh : SchemaHandler} {s s1 : State}
    (h : step c sh s = .ok s1) (n : Nat) : steps c sh (n + 1) s = steps c sh n s1 := by
  simp [steps, h]

/-! ## Terminal nodes -/

theorem classify_terminal (sh : SchemaHandler) (node : Node) (h : node.Val.IsTerminal = true) :
    classify sh node = .ok none := by
  unfold classify
  cases hv : node.Val <;> simp [hv, Val.IsTerminal] at h <;>
    simp [Val.IsValid, Val.TypeKind, Val.GetKind, Val.elemIsUint8, bind, Except.bind,
      pure, Except.pure]

theorem step_terminal (c : Collaborators) (sh : SchemaHandler) (s : State) {rest : List Nat}
    {p : Nat} {v : Val} {pe : PathMapType} {rl dl : Int} {se : SchemaElement} {cv : AnyVal}
    {t : Table} (hstack : s.stack = rest ++ [p])
    (hnode : s.nodeBuf.node p = Node.mk v (some pe) rl dl)
    (hterm : v.IsTerminal = true)
    (hse : sh.element (sh.mapIndex pe.Path) = .ok se)
    (hcv : leafValue c v se = .ok cv)
    (ht : s.res.get? pe.Path = some t) :
    step c sh s = .ok (State.mk s.nodeBuf rest
      (s.res.modifyAt pe.Path fun x => x.append cv dl rl)) := by
  unfold step
  rw [hstack, List.getLast?_concat]
  simp only [List.dropLast_concat, bind, Except.bind, pure, Except.pure]
  rw [classify_terminal sh _ (by rw [hnode]; exact hterm)]
  simp only [emitLeaf, hnode, hse, hcv, bind, Except.bind,
    TableMap.appendAt_of_get? ht]

theorem Table.appendAll_append (t : Table) (v : AnyVal) (dl rl : Int) (vs : List AnyVal)
    (dls rls : List Int) :
    (t.append v dl rl).appendAll vs dls rls = t.appendAll (v :: vs) (dl :: dls) (rl :: rls) := by
  simp [Table.append, Table.appendAll]

theorem steps_terminal_run (c : Collaborators) (sh : SchemaHandler) (rest : List Nat)
    {pe : PathMapType} {se : SchemaElement} {nodeBuf : NodeBufType}
    (hse : sh.element (sh.mapIndex pe.Path) = .ok se)
    (ps : List Nat) (entries : List (AnyVal × Int × Int))
    (hall : List.Forall₂ (fun p e => ∃ v, nodeBuf.node p = Node.mk v (some pe) e.2.2 e.2.1 ∧
        v.IsTerminal = true ∧ leafValue c v se = .ok e.1) ps entries) :
    ∀ (res : TableMap), (res.get? pe.Path).isSome = true →
      steps c sh ps.length (State.mk nodeBuf (rest ++ ps.reverse) res) =
        .ok (State.mk nodeBuf rest
          (res.modifyAt pe.Path fun t => t.appendAll (entries.map (·.1))
            (entries.map (·.2.1)) (entries.map (·.2.2)))) ∧
        ∀ fuel, traverse c sh (fuel + ps.length) (State.mk nodeBuf (rest ++ ps.reverse) res) =
          traverse c sh fuel (State.mk nodeBuf rest
            (res.modifyAt pe.Path fun t => t.appendAll (entries.map (·.1))
              (entries.map (·.2.1)) (entries.map (·.2.2)))) := by
  induction hall with
  | nil =>
    intro res _
    have hid : res.modifyAt pe.Path (fun t => t.appendAll [] [] []) = res :=
      TableMap.modifyAt_id _ _ _ (by intro x; simp [Table.appendAll])
    simp only [List.reverse_nil, List.append_nil, List.map_nil, hid, List.length_nil, steps,
      Nat.add_zero]
    exact ⟨trivial, fun _ => trivial⟩
  | @cons p e ps1 es1 hpe _ ih =>
    intro res hsome
    obtain ⟨v, hnode, hterm, hcv⟩ := hpe
    obtain ⟨t, ht⟩ := Option.isSome_iff_exists.1 hsome
    have hstack1 : (State.mk nodeBuf (rest ++ (p :: ps1).reverse) res).stack =
        (rest ++ ps1.reverse) ++ [p] := by
      simp
    have hstep := step_terminal c sh (State.mk nodeBuf (rest ++ (p :: ps1).reverse) res)
      hstack1 hnode hterm hse hcv ht
    have hne : (State.mk nodeBuf (rest ++ (p :: ps1).reverse) res).stack ≠ [] := by
      rw [hstack1]; simp
    obtain ⟨ih1, ih2⟩ := ih (res.modifyAt pe.Path fun x => x.append e.1 e.2.1 e.2.2) (by
        simp [TableMap.get?_modifyAt_self, ht])
    simp only [TableMap.modifyAt_modifyAt, Table.appendAll_append] at ih1 ih2
    constructor
    · rw [List.length_cons, steps_succ_of_step hstep]
      exact ih1
    · intro fuel
      rw [List.length_cons, ← Nat.add_assoc, traverse_of_step hne hstep]
      exact ih2 fuel

theorem classify_slice (sh : SchemaHandler) (node : Node) (elems : List Val)
    (h : node.Val = .slice elems) : classify sh node = .ok (some .ParquetSlice) := by
  unfold classify
  simp [h, Val.IsValid, Val.TypeKind, Val.GetKind, Val.elemIsUint8, bind, Except.bind,
      pure, Except.pure]

theorem range_map_reverse {α : Type} (f : Nat → α) (k : Nat) :
    ((List.range k).map f).reverse = (List.range k).map (fun m => f (k - 1 - m)) := by
  apply List.ext_getElem
  · simp
  · intro i h1 h2
    simp only [List.length_reverse, List.length_map, List.length_range] at h1
    simp only [List.getElem_reverse, List.getElem_map, List.getElem_range, List.length_map,
      List.length_range]

theorem step_slice (c : Collaborators) (sh : SchemaHandler) {s : State} {rest : List Nat}
    {n : Nat} {elems : List Val} {pm : PathMapType} {pathMap : Option PathMapType}
    {path : String} {r d : Int}
    (hstack : s.stack = rest ++ [n]) (hvalid : s.nodeBuf.Valid)
    (hn : n < s.nodeBuf.Index.toNat)
    (hnode : s.nodeBuf.node n = Node.mk (.slice elems) (some pm) r d)
    (hk : 1 ≤ elems.length)
    (hres : ParquetSlice.resolve sh pm = .ok (pathMap, path)) :
    ∃ nodeBuf1, step c sh s = .ok (State.mk nodeBuf1
        (rest ++ (List.range elems.length).map (fun i => s.nodeBuf.Index.toNat + i)) s.res) ∧
      nodeBuf1.Valid ∧ nodeBuf1.Index = s.nodeBuf.Index + elems.length ∧
      (∀ p, p < s.nodeBuf.Index.toNat → nodeBuf1.node p = s.nodeBuf.node p) ∧
      (∀ i, i < elems.length → nodeBuf1.node (s.nodeBuf.Index.toNat + i) =
        Node.mk (elems.getD (elems.length - 1 - i) Val.invalid) pathMap
          (if elems.length - 1 - i = 0 then r else sh.MaxRepetitionLevel (StrToPath path))
          (wrapInt32 (d + 1))) := by
  obtain ⟨nb1, hloop, hv1, hi1, hsame, hnew⟩ :=
    ParquetSlice.loop_spec n pathMap (sh.MaxRepetitionLevel (StrToPath path)) elems (some pm)
      r d elems.length s.nodeBuf rest hvalid hn (le_refl _) hnode
  refine ⟨nb1, ?_, hv1, hi1, hsame, hnew⟩
  unfold step
  rw [hstack, List.getLast?_concat]
  simp only [List.dropLast_concat, bind, Except.bind, pure, Except.pure]
  rw [classify_slice sh _ elems (by rw [hnode])]
  have hpos : ¬ elems.length ≤ 0 := by omega
  simp only [Marshaler.Marshal, ParquetSlice.Marshal, hnode, Val.Len, hres, bind, Except.bind,
    pure, Except.pure, hpos, if_false, hloop]
  have hlen : ¬ (rest ++ (List.range elems.length).map
      (fun i => s.nodeBuf.Index.toNat + i)).length = rest.length := by
    simp only [List.length_append, List.length_map, List.length_range]; omega
  simp only [hlen, if_false]

theorem range_map_getD {α : Type} (l : List α) (d : α) :
    (List.range l.length).map (fun m => l.getD m d) = l := by
  apply List.ext_getElem
  · simp
  · intro i h1 h2
    simp [List.getD_eq_getElem?_getD, h2]

theorem range_map_const {α : Type} (k : Nat) (a : α) :
    (List.range k).map (fun _ => a) = List.replicate k a := by
  apply List.ext_getElem
  · simp
  · intro i h1 h2
    simp

theorem range_map_first {α : Type} (k : Nat) (a b : α) (hk : 1 ≤ k) :
    (List.range k).map (fun m => if m = 0 then a else b) = a :: List.replicate (k - 1) b := by
  apply List.ext_getElem
  · simp; omega
  · intro i h1 h2
    cases i with
    | zero => simp
    | succ i => simp

/-- C3: a sequence node with `k ≥ 1` terminal elements at levels `(d, r)` is
dispatched and its elements are emitted in the next `k + 1` iterations of the
traversal loop: the stack below the node is left as it was, the column of the
resolved element path gains exactly `k` entries, the coerced elements in their
original order, each with definition level `d + 1` (in `int32` arithmetic), the
first with repetition level `r` and the later ones with the maximum repetition
level of the resolved element path, and no other column changes. -/
theorem slice_elements_emitted (c : Collaborators) (sh : SchemaHandler) (s : State)
    (rest : List Nat) (n : Nat) (elems : List Val) (pm pe : PathMapType) (path : String)
    (r d : Int) (se : SchemaElement) (cvs : List AnyVal) (t : Table)
    (hstack : s.stack = rest ++ [n]) (hvalid : s.nodeBuf.Valid)
    (hn : n < s.nodeBuf.Index.toNat)
    (hnode : s.nodeBuf.node n = Node.mk (.slice elems) (some pm) r d)
    (hk : 1 ≤ elems.length)
    (hres : ParquetSlice.resolve sh pm = .ok (some pe, path))
    (hse : sh.element (sh.mapIndex pe.Path) = .ok se)
    (hscalar : ∀ e ∈ elems, e.IsTerminal = true)
    (hcv : List.Forall₂ (fun e cv => leafValue c e se = .ok cv) elems cvs)
    (ht : s.res.get? pe.Path = some t) :
    ∃ s1, steps c sh (elems.length + 1) s = .ok s1 ∧
      (∀ fuel, traverse c sh (fuel + (elems.length + 1)) s = traverse c sh fuel s1) ∧
      s1.stack = rest ∧
      s1.res.get? pe.Path = some (t.appendAll cvs
        (List.replicate elems.length (wrapInt32 (d + 1)))
        (r :: List.replicate (elems.length - 1) (sh.MaxRepetitionLevel (StrToPath path)))) ∧
      (∀ key, key ≠ pe.Path → s1.res.get? key = s.res.get? key) := by
  obtain ⟨nb1, hstep, hv1, hi1, hsame, hnew⟩ :=
    step_slice c sh hstack hvalid hn hnode hk hres
  have hlen := hcv.length_eq
  set k := elems.length with hkdef
  set base := s.nodeBuf.Index.toNat with hbase
  set rlNow := sh.MaxRepetitionLevel (StrToPath path) with hrl
  have hps : ((List.range k).map (fun m => base + (k - 1 - m))).reverse =
      (List.range k).map (fun i => base + i) := by
    rw [← range_map_reverse (fun i => base + i) k, List.reverse_reverse]
  have hall : List.Forall₂ (fun p e => ∃ v, nb1.node p = Node.mk v (some pe) e.2.2 e.2.1 ∧
      v.IsTerminal = true ∧ leafValue c v se = .ok e.1)
      ((List.range k).map (fun m => base + (k - 1 - m)))
      ((List.range k).map (fun m => (cvs.getD m none, wrapInt32 (d + 1),
        if m = 0 then r else rlNow))) := by
    rw [List.forall₂_map_left_iff, List.forall₂_map_right_iff, List.forall₂_same]
    intro m hm
    have hm : m < k := List.mem_range.1 hm
    have hm1 : m < elems.length := hm
    have hm2 : m < cvs.length := by omega
    refine ⟨elems[m], ?_, hscalar _ (List.getElem_mem _), ?_⟩
    · rw [hnew (k - 1 - m) (by omega)]
      have h1 : k - 1 - (k - 1 - m) = m := by omega
      rw [h1, List.getD_eq_getElem _ _ hm1]
    · have := List.Forall₂.get hcv hm1 hm2
      simp only [List.get_eq_getElem] at this
      rw [this, List.getD_eq_getElem _ _ hm2]
  obtain ⟨hrun1, hrun2⟩ := steps_terminal_run c sh rest hse _ _ hall s.res
    (by rw [ht]; rfl)
  rw [hps] at hrun1 hrun2
  simp only [List.length_map, List.length_range, List.map_map] at hrun1 hrun2
  have hne : s.stack ≠ [] := by rw [hstack]; simp
  refine ⟨State.mk nb1 rest (s.res.modifyAt pe.Path fun t =>
    t.appendAll ((List.range k).map ((fun x => x.1) ∘ fun m => (cvs.getD m none, wrapInt32 (d + 1),
        if m = 0 then r else rlNow)))
      ((List.range k).map ((fun x => x.2.1) ∘ fun m => (cvs.getD m none, wrapInt32 (d + 1),
        if m = 0 then r else rlNow)))
      ((List.range k).map ((fun x => x.2.2) ∘ fun m => (cvs.getD m none, wrapInt32 (d + 1),
        if m = 0 then r else rlNow)))), ?_, ?_, rfl, ?_, ?_⟩
  · rw [steps_succ_of_step hstep]; exact hrun1
  · intro fuel
    rw [← Nat.add_assoc, traverse_of_step hne hstep]; exact hrun2 fuel
  · simp only [TableMap.get?_modifyAt_self, ht, Option.map_some', Function.comp_def]
    have e1 : (List.range k).map (fun m => cvs.getD m none) = cvs := by
      rw [hlen]; exact range_map_getD cvs none
    have e2 : (List.range k).map (fun _ : Nat => wrapInt32 (d + 1)) =
        List.replicate k (wrapInt32 (d + 1)) := range_map_const _ _
    have e3 : (List.range k).map (fun m => if m = 0 then r else rlNow) =
        r :: List.replicate (k - 1) rlNow := range_map_first _ _ _ hk
    rw [e1, e2, e3]
  · intro key hkey
    exact TableMap.get?_modifyAt_ne _ _ _ _ hkey

/-- Witness of `slice_elements_emitted`: the slice `["x", "y"]` of the first
record of scenario A, on top of the stack at levels `(1, 0)`. -/
theorem slice_elements_emitted_witness :
    ∃ s1, steps scenarioCollaborators schemaA 3 stateASlice = .ok s1 ∧
      (∀ fuel, traverse scenarioCollaborators schemaA (fuel + 3) stateASlice =
        traverse scenarioCollaborators schemaA fuel s1) ∧
      s1.stack = [1] ∧
      s1.res.get? "Parquet_go_root/Tags/List/Element" = some (tableAElement.appendAll
        [some (.str "x"), some (.str "y")] [2, 2] [0, 1]) ∧
      (∀ key, key ≠ "Parquet_go_root/Tags/List/Element" →
        s1.res.get? key = stateASlice.res.get? key) :=
  slice_elements_emitted scenarioCollaborators schemaA stateASlice [1] 2
    [.str "x", .str "y"] pathMapATags pathMapAElement "Parquet_go_root/Tags/List/Element" 0 1
    ⟨some .BYTE_ARRAY, some .REQUIRED, none, some 0⟩ [some (.str "x"), some (.str "y")]
    tableAElement rfl ⟨by decide, by decide⟩ (by decide) rfl (by decide) rfl rfl
    (by intro e he; simp at he; rcases he with rfl | rfl <;> rfl)
    (List.Forall₂.cons rfl (List.Forall₂.cons rfl List.Forall₂.nil)) rfl

/-! ## The pointer variant -/

theorem wrapInt32_eq {x : Int} (h1 : -2147483648 ≤ x) (h2 : x ≤ 2147483647) :
    wrapInt32 x = x := by
  unfold wrapInt32
  omega

theorem classify_ptr (sh : SchemaHandler) (node : Node) (e : Option Val)
    (h : node.Val = .ptr e) : classify sh node = .ok (some .ParquetPtr) := by
  unfold classify
  simp [h, Val.IsValid, Val.TypeKind, Val.GetKind, bind, Except.bind, pure, Except.pure]

theorem NodeBufType.lt_length_of_node {nbt : NodeBufType} {p : Nat} {n : Node}
    (h : nbt.node p = n) (hv : n.Val.IsValid = true) : p < nbt.Buf.length := by
  by_contra hlt
  have hnone : nbt.Buf[p]? = none := List.getElem?_eq_none (by omega)
  simp only [NodeBufType.node, hnone, Option.getD_none] at h
  rw [← h] at hv
  simp [zeroNode, Val.IsValid] at hv

theorem NodeBufType.update_congr (nbt : NodeBufType) (p : Nat) (f g : Node → Node)
    (h : f (nbt.node p) = g (nbt.node p)) : nbt.update p f = nbt.update p g := by
  simp [NodeBufType.update, h]

theorem step_ptr (c : Collaborators) (sh : SchemaHandler) {s : State} {rest : List Nat}
    {p : Nat} {v : Val} {pm : Option PathMapType} {rl dl : Int}
    (hstack : s.stack = rest ++ [p])
    (hnode : s.nodeBuf.node p = Node.mk (.ptr (some v)) pm rl dl) :
    step c sh s = .ok (State.mk
      (s.nodeBuf.update p fun _ => Node.mk v pm rl (wrapInt32 (dl + 1))) (rest ++ [p]) s.res) := by
  have hlt : p < s.nodeBuf.Buf.length := NodeBufType.lt_length_of_node hnode rfl
  unfold step
  rw [hstack, List.getLast?_concat]
  simp only [List.dropLast_concat, bind, Except.bind, pure, Except.pure]
  rw [classify_ptr sh _ (some v) (by rw [hnode])]
  simp only [Marshaler.Marshal, ParquetPtr.Marshal, hnode, Val.IsNil, Val.Elem, bind,
    Except.bind, pure, Except.pure, Option.isNone_some, NodeBufType.update_update]
  simp only [Bool.false_eq_true, if_false, List.length_append, List.length_singleton,
    Nat.add_one_ne_zero, add_right_eq_self, hnode]
  rw [NodeBufType.update_congr _ p _ (fun _ => Node.mk v pm rl (wrapInt32 (dl + 1)))
    (by rw [hnode])]

theorem step_ptr_nil_leaf (c : Collaborators) (sh : SchemaHandler) {s : State}
    {rest : List Nat} {p : Nat} {pe : PathMapType} {rl dl : Int} {se : SchemaElement}
    {t : Table} (hstack : s.stack = rest ++ [p])
    (hnode : s.nodeBuf.node p = Node.mk (.ptr none) (some pe) rl dl)
    (hse : sh.element (sh.mapIndex pe.Path) = .ok se) (hleaf : se.GetNumChildren = 0)
    (ht : s.res.get? pe.Path = some t) :
    step c sh s = .ok (State.mk s.nodeBuf rest
      (s.res.modifyAt pe.Path fun x => x.append none dl rl)) := by
  unfold step
  rw [hstack, List.getLast?_concat]
  simp only [List.dropLast_concat, bind, Except.bind, pure, Except.pure]
  rw [classify_ptr sh _ none (by rw [hnode])]
  simp only [Marshaler.Marshal, ParquetPtr.Marshal, hnode, Val.IsNil, bind,
    Except.bind, pure, Except.pure, Option.isNone_none, if_true, propagateNull, hse, hleaf,
    gt_iff_lt, lt_self_iff_false, if_false, TableMap.appendAt_of_get? ht]

theorem ptrChain_present_run {c : Collaborators} {sh : SchemaHandler} {rest : List Nat}
    {p : Nat} {v : Val} {pe : PathMapType} {r : Int} {se : SchemaElement} {cv : AnyVal}
    (hterm : v.IsTerminal = true)
    (hse : sh.element (sh.mapIndex pe.Path) = .ok se)
    (hcv : leafValue c v se = .ok cv) (n : Nat) :
    ∀ (s : State) (d : Int), s.stack = rest ++ [p] →
      s.nodeBuf.node p = Node.mk (ptrChain n v) (some pe) r d →
      (s.res.get? pe.Path).isSome = true →
      -2147483648 ≤ d → d + n ≤ 2147483647 →
      ∃ s1, steps c sh (n + 1) s = .ok s1 ∧
        (∀ fuel, traverse c sh (fuel + (n + 1)) s = traverse c sh fuel s1) ∧
        s1.stack = rest ∧
        s1.res = s.res.modifyAt pe.Path fun x => x.append cv (d + n) r := by
  induction n with
  | zero =>
    intro s d hstack hnode hsome _ _
    obtain ⟨t, ht⟩ := Option.isSome_iff_exists.1 hsome
    have hstep := step_terminal c sh s hstack hnode hterm hse hcv ht
    have hne : s.stack ≠ [] := by rw [hstack]; simp
    refine ⟨_, by rw [steps_succ_of_step hstep]; rfl, ?_, rfl, ?_⟩
    · intro fuel
      exact traverse_of_step hne hstep fuel
    · simp
  | succ n ih =>
    intro s d hstack hnode hsome h1 h2
    have hstep := step_ptr c sh hstack hnode
    have hlt : p < s.nodeBuf.Buf.length := NodeBufType.lt_length_of_node hnode rfl
    have hne : s.stack ≠ [] := by rw [hstack]; simp
    have hw : wrapInt32 (d + 1) = d + 1 := wrapInt32_eq (by omega) (by push_cast at h2; omega)
    obtain ⟨s1, hs1, htr, hst, hres⟩ := ih (State.mk
      (s.nodeBuf.update p fun _ => Node.mk (ptrChain n v) (some pe) r (wrapInt32 (d + 1)))
      (rest ++ [p]) s.res) (d + 1) rfl (by
      simp only [NodeBufType.node_update_self _ _ _ hlt, hw]) hsome (by omega)
      (by push_cast at h2; omega)
    refine ⟨s1, by rw [steps_succ_of_step hstep]; exact hs1, ?_, hst, ?_⟩
    · intro fuel
      rw [← Nat.add_assoc, traverse_of_step hne hstep]
      exact htr fuel
    · rw [hres]
      simp only
      congr 1
      funext x
      congr 1
      push_cast
      omega

theorem ptrChain_absent_run {c : Collaborators} {sh : SchemaHandler} {rest : List Nat}
    {p : Nat} {pe : PathMapType} {r : Int} {se : SchemaElement}
    (hse : sh.element (sh.mapIndex pe.Path) = .ok se) (hleaf : se.GetNumChildren = 0)
    (j : Nat) :
    ∀ (s : State) (d : Int), s.stack = rest ++ [p] →
      s.nodeBuf.node p = Node.mk (ptrChain j (.ptr none)) (some pe) r d →
      (s.res.get? pe.Path).isSome = true →
      -2147483648 ≤ d → d + j ≤ 2147483647 →
      ∃ s1, steps c sh (j + 1) s = .ok s1 ∧
        (∀ fuel, traverse c sh (fuel + (j + 1)) s = traverse c sh fuel s1) ∧
        s1.stack = rest ∧
        s1.res = s.res.modifyAt pe.Path fun x => x.append none (d + j) r := by
  induction j with
  | zero =>
    intro s d hstack hnode hsome _ _
    obtain ⟨t, ht⟩ := Option.isSome_iff_exists.1 hsome
    have hstep := step_ptr_nil_leaf c sh hstack hnode hse hleaf ht
    have hne : s.stack ≠ [] := by rw [hstack]; simp
    refine ⟨_, by rw [steps_succ_of_step hstep]; rfl, ?_, rfl, ?_⟩
    · intro fuel
      exact traverse_of_step hne hstep fuel
    · simp
  | succ n ih =>
    intro s d hstack hnode hsome h1 h2
    have hstep := step_ptr c sh hstack hnode
    have hlt : p < s.nodeBuf.Buf.length := NodeBufType.lt_length_of_node hnode rfl
    have hne : s.stack ≠ [] := by rw [hstack]; simp
    have hw : wrapInt32 (d + 1) = d + 1 := wrapInt32_eq (by omega) (by push_cast at h2; omega)
    obtain ⟨s1, hs1, htr, hst, hres⟩ := ih (State.mk
      (s.nodeBuf.update p fun _ => Node.mk (ptrChain n (.ptr none)) (some pe) r (wrapInt32 (d + 1)))
      (rest ++ [p]) s.res) (d + 1) rfl (by
      simp only [NodeBufType.node_update_self _ _ _ hlt, hw]) hsome (by omega)
      (by push_cast at h2; omega)
    refine ⟨s1, by rw [steps_succ_of_step hstep]; exact hs1, ?_, hst, ?_⟩
    · intro fuel
      rw [← Nat.add_assoc, traverse_of_step hne hstep]
      exact htr fuel
    · rw [hres]
      simp only
      congr 1
      funext x
      congr 1
      push_cast
      omega

/-! ## Variants that take nodes from the pool -/

theorem Pushes.pushes_refl (P : Node → Prop) (nodeBuf : NodeBufType) (stack : List Nat)
    (h : nodeBuf.Valid) : Pushes P nodeBuf stack nodeBuf stack [] :=
  ⟨h, le_refl _, fun _ _ => rfl, fun h => h, [], by simp, rfl, List.Pairwise.nil, by simp⟩

theorem Pushes.trans {P : Node → Prop} {nb nb2 nb1 : NodeBufType} {s s2 s1 : List Nat}
    {c1 c2 : List Node} (hv : nb.Valid) (h1 : Pushes P nb s nb2 s2 c1)
    (h2 : Pushes P nb2 s2 nb1 s1 c2) : Pushes P nb s nb1 s1 (c1 ++ c2) := by
  obtain ⟨sl1, hs1, hc1, hp1, hr1⟩ := h1.slots
  obtain ⟨sl2, hs2, hc2, hp2, hr2⟩ := h2.slots
  have hi2 := h1.valid.1
  have hi0 := hv.1
  refine ⟨h2.valid, le_trans h1.index_le h2.index_le, ?_, fun h => h2.levels (h1.levels h),
    sl1 ++ sl2, ?_, ?_, ?_, ?_⟩
  · intro q hq
    have hle := h1.index_le
    rw [h2.frame q (by omega), h1.frame q hq]
  · rw [hs2, hs1, List.append_assoc]
  · rw [List.map_append, hc2, ← hc1]
    congr 1
    apply List.map_congr_left
    intro q hq
    exact h2.frame q (hr1 q hq).2
  · rw [List.pairwise_append]
    refine ⟨hp1, hp2, ?_⟩
    intro a ha b hb
    have := (hr1 a ha).2
    have := (hr2 b hb).1
    omega
  · intro q hq
    have hle1 := h1.index_le
    have hle2 := h2.index_le
    rcases List.mem_append.1 hq with hq | hq
    · have := hr1 q hq
      omega
    · have := hr2 q hq
      omega

theorem NodeBufType.node_mem (nbt : NodeBufType) (q : Nat) (h : q < nbt.Buf.length) :
    nbt.node q ∈ nbt.Buf := by
  simp only [NodeBufType.node, List.getElem?_eq_getElem h, Option.getD_some]
  exact List.getElem_mem _

theorem NodeBufType.update_all {P : Node → Prop} (nbt : NodeBufType) (q : Nat)
    (f : Node → Node) (hf : ∀ x, P x → P (f x)) (h : ∀ n ∈ nbt.Buf, P n) :
    ∀ n ∈ (nbt.update q f).Buf, P n := by
  intro n hn
  simp only [NodeBufType.update] at hn
  by_cases hq : q < nbt.Buf.length
  · rcases List.mem_or_eq_of_mem_set hn with hmem | heq
    · exact h n hmem
    · rw [heq]
      exact hf _ (h _ (nbt.node_mem q hq))
  · rw [List.set_eq_of_length_le (by omega)] at hn
    exact h n hn

theorem NodeBufType.GetNode_buf {nbt nbt1 : NodeBufType} {q : Nat}
    (hget : nbt.GetNode = .ok (nbt1, q)) :
    nbt1.Buf = nbt.Buf ∨ nbt1.Buf = nbt.Buf ++ [zeroNode] := by
  unfold NodeBufType.GetNode at hget
  by_cases h1 : nbt.Index ≥ nbt.Buf.length
  · simp only [h1, if_true] at hget
    split at hget
    · cases hget; exact Or.inr rfl
    · cases hget
  · simp only [h1, if_false] at hget
    split at hget
    · cases hget; exact Or.inl rfl
    · cases hget

theorem NodeBufType.GetNode_all {P : Node → Prop} (hz : P zeroNode) {nbt nbt1 : NodeBufType}
    {q : Nat} (hget : nbt.GetNode = .ok (nbt1, q)) (h : ∀ n ∈ nbt.Buf, P n) :
    ∀ n ∈ nbt1.Buf, P n := by
  intro n hn
  rcases NodeBufType.GetNode_buf hget with hb | hb
  · rw [hb] at hn; exact h n hn
  · rw [hb] at hn
    rcases List.mem_append.1 hn with hmem | hmem
    · exact h n hmem
    · simp only [List.mem_singleton] at hmem
      rw [hmem]
      exact hz

/-- One iteration of a variant loop: a node is taken from the pool and written
to, and is pushed. -/
theorem Pushes.pushed {P : Node → Prop} (hz : P zeroNode) {nbt nbt1 : NodeBufType}
    (stack : List Nat) (hv : nbt.Valid) (hget : nbt.GetNode = .ok (nbt1, nbt.Index.toNat))
    (hidx : nbt1.Index = nbt.Index + 1) (hv1 : nbt1.Valid)
    (hlen : nbt.Index.toNat < nbt1.Buf.length) (hsame : ∀ p, nbt1.node p = nbt.node p)
    (f : Node → Node) (hf : ∀ x, P x → P (f x)) :
    Pushes P nbt stack (nbt1.update nbt.Index.toNat f) (stack ++ [nbt.Index.toNat])
      [f (nbt.node nbt.Index.toNat)] := by
  have h0 := hv.1
  refine ⟨NodeBufType.update_valid _ _ _ hv1, by simp [hidx], ?_, ?_, [nbt.Index.toNat], rfl,
    ?_, List.pairwise_singleton _ _, ?_⟩
  · intro q hq
    rw [NodeBufType.node_update_ne _ _ _ _ (by omega), hsame]
  · intro h
    exact NodeBufType.update_all _ _ _ hf (NodeBufType.GetNode_all hz hget h)
  · simp [NodeBufType.node_update_self _ _ _ hlen, hsame]
  · intro q hq
    simp only [List.mem_singleton] at hq
    simp only [NodeBufType.update_Index, hidx]
    omega

/-- One iteration of a variant loop: a node is taken from the pool and written
to, and is not pushed. -/
theorem Pushes.skipped {P : Node → Prop} (hz : P zeroNode) {nbt nbt1 : NodeBufType}
    (stack : List Nat) (hv : nbt.Valid) (hget : nbt.GetNode = .ok (nbt1, nbt.Index.toNat))
    (hidx : nbt1.Index = nbt.Index + 1) (hv1 : nbt1.Valid)
    (hsame : ∀ p, nbt1.node p = nbt.node p)
    (f : Node → Node) (hf : ∀ x, P x → P (f x)) :
    Pushes P nbt stack (nbt1.update nbt.Index.toNat f) stack [] := by
  have h0 := hv.1
  refine ⟨NodeBufType.update_valid _ _ _ hv1, by simp [hidx], ?_, ?_, [], by simp, rfl,
    List.Pairwise.nil, by simp⟩
  · intro q hq
    rw [NodeBufType.node_update_ne _ _ _ _ (by omega), hsame]
  · intro h
    exact NodeBufType.update_all _ _ _ hf (NodeBufType.GetNode_all hz hget h)

theorem ParquetStruct.struct_loop_pushes (c : Collaborators) (P : Node → Prop)
    (hz : P zeroNode) (hskip : ∀ x, P x → P { x with PathMap := none }) (p : Nat)
    (fs : List (String × Val)) (pm : Option PathMapType) (r d : Int)
    (hpush : ∀ v pmv name child, pm = some pmv → pmv.child name = some child →
      P (Node.mk v (some child) r d)) (n : Nat) :
    ∀ (j : Nat) (nodeBuf : NodeBufType) (stack : List Nat) (nodeBuf1 : NodeBufType)
      (stack1 : List Nat), nodeBuf.Valid → p < nodeBuf.Index.toNat →
      nodeBuf.node p = Node.mk (.struct fs) pm r d → j + n = fs.length →
      ParquetStruct.loop c p n j nodeBuf stack = .ok (nodeBuf1, stack1) →
      Pushes P nodeBuf stack nodeBuf1 stack1
        (structChildren c pm r d (fs.drop j)) := by
  induction n with
  | zero =>
    intro j nb stack nb1 stack1 hv hp hN hj h
    simp only [ParquetStruct.loop] at h
    cases h
    have : fs.drop j = [] := List.drop_eq_nil_of_le (by omega)
    rw [this]
    exact Pushes.pushes_refl _ nb stack hv
  | succ n ih =>
    intro j nb stack nb1 stack1 hv hp hN hj h
    have hjlt : j < fs.length := by omega
    have hdrop : fs.drop j = fs[j] :: fs.drop (j + 1) := List.drop_eq_getElem_cons hjlt
    obtain ⟨⟨name, v⟩, hf⟩ : ∃ nv, fs[j] = nv := ⟨_, rfl⟩
    have hget? : fs[j]? = some (name, v) := by rw [List.getElem?_eq_getElem hjlt, hf]
    rw [hdrop, hf]
    simp only [ParquetStruct.loop, hN, Val.FieldName, hget?, bind, Except.bind] at h
    simp only [structChildren]
    split at h
    · rename_i hint
      simp only [hint, if_true]
      exact ih (j + 1) nb stack nb1 stack1 hv hp hN (by omega) h
    · rename_i hint
      simp only [hint, Bool.false_eq_true, if_false]
      obtain ⟨nbg, hget, hidx, hvg, hlen, hsame⟩ := nb.GetNode_spec hv
      have hne : p ≠ nb.Index.toNat := by omega
      have h0 := hv.1
      simp only [hget, hsame, hN] at h
      cases pm with
      | none => simp at h
      | some pmv =>
        simp only [Option.some_bind]
        cases hch : pmv.child name with
        | none =>
          simp only [hch] at h
          have h1 := Pushes.skipped hz stack hv hget hidx hvg hsame
            (fun x => { x with PathMap := none }) hskip
          have h2 := ih (j + 1) _ stack nb1 stack1 h1.valid
            (by simp only [NodeBufType.update_Index, hidx]; omega)
            (by rw [NodeBufType.node_update_ne _ _ _ _ hne, hsame, hN]) (by omega) h
          simpa using Pushes.trans hv h1 h2
        | some child =>
          simp only [hch, NodeBufType.node_update_ne _ _ _ _ hne, hsame, hN, Val.Field, hget?,
            NodeBufType.update_update] at h
          have h1 := Pushes.pushed hz stack hv hget hidx hvg hlen hsame
            (fun _ => Node.mk v (some child) r d) (fun _ _ => hpush v pmv name child rfl hch)
          have h2 := ih (j + 1) _ (stack ++ [nb.Index.toNat]) nb1 stack1 h1.valid
            (by simp only [NodeBufType.update_Index, hidx]; omega)
            (by rw [NodeBufType.node_update_ne _ _ _ _ hne, hsame, hN]) (by omega) h
          simpa using Pushes.trans hv h1 h2

theorem ParquetSlice.slice_loop_pushes (P : Node → Prop) (hz : P zeroNode) (p : Nat)
    (pathMap : Option PathMapType) (rlNow : Int) (elems : List Val)
    (pm : Option PathMapType) (r d : Int)
    (hpush : ∀ e rl, rl = r ∨ rl = rlNow → P (Node.mk e pathMap rl (wrapInt32 (d + 1))))
    (j : Nat) :
    ∀ (nodeBuf : NodeBufType) (stack : List Nat) (nodeBuf1 : NodeBufType)
      (stack1 : List Nat), nodeBuf.Valid → p < nodeBuf.Index.toNat →
      nodeBuf.node p = Node.mk (.slice elems) pm r d →
      ParquetSlice.loop p pathMap rlNow j nodeBuf stack = .ok (nodeBuf1, stack1) →
      Pushes P nodeBuf stack nodeBuf1 stack1
        (sliceChildren pathMap rlNow r d elems j) := by
  induction j with
  | zero =>
    intro nb stack nb1 stack1 hv hp hN h
    simp only [ParquetSlice.loop] at h
    cases h
    exact Pushes.pushes_refl _ nb stack hv
  | succ j ih =>
    intro nb stack nb1 stack1 hv hp hN h
    obtain ⟨nbg, hget, hidx, hvg, hlen, hsame⟩ := nb.GetNode_spec hv
    have hne : p ≠ nb.Index.toNat := by omega
    have h0 := hv.1
    simp only [ParquetSlice.loop, hget, bind, Except.bind, pure, Except.pure,
      NodeBufType.node_update_ne _ _ _ _ hne, hsame, hN, Val.Index] at h
    cases he : elems[j]? with
    | none => simp [he] at h
    | some e =>
      simp only [he, NodeBufType.update_update] at h
      have h1 := Pushes.pushed hz stack hv hget hidx hvg hlen hsame
        (fun _ => Node.mk e pathMap (if j = 0 then r else rlNow) (wrapInt32 (d + 1)))
        (fun _ _ => hpush e _ (by by_cases hj : j = 0 <;> simp [hj]))
      have h2 := ih _ (stack ++ [nb.Index.toNat]) nb1 stack1 h1.valid
        (by simp only [NodeBufType.update_Index, hidx]; omega)
        (by rw [NodeBufType.node_update_ne _ _ _ _ hne, hsame, hN]) h
      have h3 := Pushes.trans hv h1 h2
      simp only [sliceChildren, List.getD_eq_getElem?_getD, he, Option.getD_some]
      simpa using h3

theorem NodeBufType.GetNode_ok {nbt nbt1 : NodeBufType} {q : Nat} (hv : nbt.Valid)
    (hget : nbt.GetNode = .ok (nbt1, q)) :
    q = nbt.Index.toNat ∧ nbt.GetNode = .ok (nbt1, nbt.Index.toNat) ∧
      nbt1.Index = nbt.Index + 1 ∧ nbt1.Valid ∧ nbt.Index.toNat < nbt1.Buf.length ∧
      ∀ p, nbt1.node p = nbt.node p := by
  obtain ⟨nbg, hg, h1, h2, h3, h4⟩ := nbt.GetNode_spec hv
  rw [hg] at hget
  cases hget
  exact ⟨rfl, hg, h1, h2, h3, h4⟩

theorem ParquetMap.map_loop_pushes (P : Node → Prop) (hz : P zeroNode) (p : Nat)
    (keys : List Val) (rlNow : Int) (es : List (Val × Val))
    (pm : Option PathMapType) (r d : Int)
    (hpush : ∀ v pmv kv name rl, pm = some pmv → pmv.child "Key_value" = some kv →
      rl = r ∨ rl = rlNow → P (Node.mk v (kv.child name) rl (wrapInt32 (d + 1))))
    (j : Nat) :
    ∀ (nodeBuf : NodeBufType) (stack : List Nat) (nodeBuf1 : NodeBufType)
      (stack1 : List Nat), nodeBuf.Valid → p < nodeBuf.Index.toNat →
      nodeBuf.node p = Node.mk (.map es) pm r d →
      ParquetMap.loop p keys rlNow j nodeBuf stack = .ok (nodeBuf1, stack1) →
      ∃ content, Pushes P nodeBuf stack nodeBuf1 stack1 content := by
  induction j with
  | zero =>
    intro nb stack nb1 stack1 hv hp hN h
    simp only [ParquetMap.loop] at h
    cases h
    exact ⟨_, Pushes.pushes_refl _ nb stack hv⟩
  | succ j ih =>
    intro nb stack nb1 stack1 hv hp hN h
    obtain ⟨nbg, hget, hidx, hvg, hlen, hsame⟩ := nb.GetNode_spec hv
    have hne : p ≠ nb.Index.toNat := by omega
    have h0 := hv.1
    have hrl2 : (if j = 0 then r else rlNow) = r ∨ (if j = 0 then r else rlNow) = rlNow := by
      by_cases hj : j = 0 <;> simp [hj]
    simp only [ParquetMap.loop, bind, Except.bind, pure, Except.pure, hN, Val.MapIndexOfKey] at h
    cases hk : keys[j]? with
    | none => simp [hk] at h
    | some key =>
      simp only [hk, hget, hsame, hN] at h
      cases pm with
      | none =>
        exfalso
        revert h
        split <;> simp
      | some pmv =>
        cases hkv : pmv.child "Key_value" with
        | none =>
          exfalso
          revert h
          simp only [hkv]
          split <;> simp
        | some kv =>
          simp only [hkv, NodeBufType.node_update_ne _ _ _ _ hne, hsame, hN,
            NodeBufType.update_update] at h
          generalize hvalue : (match es[j]? with
            | some e => e.2
            | none => Val.invalid) = value at h
          have hval : (match es[j]? with
              | some e => (Except.ok e.2 : Except PanicVal Val)
              | none => Except.ok Val.invalid) = Except.ok value := by
            rw [← hvalue]; split <;> rfl
          simp only [hval] at h
          have h1 := Pushes.pushed hz stack hv hget hidx hvg hlen hsame
            (fun _ => Node.mk key (kv.child "Key") (if j = 0 then r else rlNow)
              (wrapInt32 (d + 1)))
            (fun _ _ => hpush _ pmv kv _ _ rfl hkv hrl2)
          have hN2 : (nbg.update nb.Index.toNat fun _ =>
              Node.mk key (kv.child "Key") (if j = 0 then r else rlNow)
                (wrapInt32 (d + 1))).node p =
              Node.mk (.map es) (some pmv) r d := by
            rw [NodeBufType.node_update_ne _ _ _ _ hne, hsame, hN]
          split at h
          · cases h
          · rename_i _ qq heq
            obtain ⟨nbg2, q2⟩ := qq
            obtain ⟨hq2, hget2, hidx2, hvg2, hlen2, hsame2⟩ :=
              NodeBufType.GetNode_ok h1.valid heq
            subst hq2
            have hne2 : p ≠ (nbg.update nb.Index.toNat fun _ =>
              Node.mk key (kv.child "Key") (if j = 0 then r else rlNow)
                (wrapInt32 (d + 1))).Index.toNat := by
              simp only [NodeBufType.update_Index, hidx]
              omega
            simp only [hsame2, hN2, hkv, NodeBufType.node_update_ne _ _ _ _ hne2,
              NodeBufType.update_update] at h
            have h2 := Pushes.pushed hz (stack ++ [nb.Index.toNat]) h1.valid hget2 hidx2 hvg2
              hlen2 hsame2
              (fun _ => Node.mk value (kv.child "Value") (if j = 0 then r else rlNow)
                (wrapInt32 (d + 1)))
              (fun _ _ => hpush _ pmv kv _ _ rfl hkv hrl2)
            obtain ⟨c3, h3⟩ := ih _ _ nb1 stack1 h2.valid
              (by simp only [NodeBufType.update_Index, hidx2, hidx]; omega)
              (by rw [NodeBufType.node_update_ne _ _ _ _ hne2, hsame2, hN2]) h
            exact ⟨_, Pushes.trans hv (Pushes.trans hv h1 h2) h3⟩

theorem ParquetMapStruct.mapStruct_loop_pushes (sh : SchemaHandler) (P : Node → Prop)
    (hz : P zeroNode) (hskip : ∀ x, P x → P { x with PathMap := none }) (p : Nat)
    (keys : List Val) (es : List (Val × Val))
    (pm : Option PathMapType) (r d : Int)
    (hpush : ∀ v pmv k child dl, pm = some pmv → pmv.child k = some child →
      dl = d ∨ dl = wrapInt32 (d + 1) → P (Node.mk v (some child) r dl)) (j : Nat) :
    ∀ (nodeBuf : NodeBufType) (stack : List Nat) (missingKeys : List (String × Bool))
      (nodeBuf1 : NodeBufType) (stack1 : List Nat) (missingKeys1 : List (String × Bool)),
      nodeBuf.Valid → p < nodeBuf.Index.toNat →
      nodeBuf.node p = Node.mk (.map es) pm r d →
      ParquetMapStruct.loop sh p keys j nodeBuf stack missingKeys =
        .ok (nodeBuf1, stack1, missingKeys1) →
      ∃ content, Pushes P nodeBuf stack nodeBuf1 stack1 content := by
  induction j with
  | zero =>
    intro nb stack mk nb1 stack1 mk1 hv hp hN h
    simp only [ParquetMapStruct.loop] at h
    cases h
    exact ⟨_, Pushes.pushes_refl _ nb stack hv⟩
  | succ j ih =>
    intro nb stack mk nb1 stack1 mk1 hv hp hN h
    obtain ⟨nbg, hget, hidx, hvg, hlen, hsame⟩ := nb.GetNode_spec hv
    have hne : p ≠ nb.Index.toNat := by omega
    have h0 := hv.1
    simp only [ParquetMapStruct.loop, bind, Except.bind, pure, Except.pure] at h
    cases hk : keys[j]? with
    | none => simp [hk] at h
    | some key =>
      simp only [hk, hget, hsame, hN] at h
      cases pm with
      | none => simp at h
      | some pmv =>
        simp only at h
        cases hch : pmv.child key.KeyString with
        | none =>
          simp only [hch] at h
          have h1 := Pushes.skipped hz stack hv hget hidx hvg hsame
            (fun x => { x with PathMap := none }) hskip
          obtain ⟨c2, h2⟩ := ih _ stack _ nb1 stack1 mk1 h1.valid
            (by simp only [NodeBufType.update_Index, hidx]; omega)
            (by rw [NodeBufType.node_update_ne _ _ _ _ hne, hsame, hN]) h
          exact ⟨_, Pushes.trans hv h1 h2⟩
        | some child =>
          simp only [hch, NodeBufType.node_update_ne _ _ _ _ hne, hsame, hN,
            NodeBufType.update_update, NodeBufType.node_update_self _ _ _ hlen] at h
          repeat' split at h
          all_goals
            first
            | cases h
            | (obtain ⟨c2, h2⟩ := ih _ _ _ nb1 stack1 mk1
                (NodeBufType.update_valid _ _ _ hvg)
                (by simp only [NodeBufType.update_Index, hidx]; omega)
                (by rw [NodeBufType.node_update_ne _ _ _ _ hne, hsame, hN]) h
               exact ⟨_, Pushes.trans hv (Pushes.pushed hz stack hv hget hidx hvg hlen hsame _
                (by
                  intro x hx
                  first
                  | exact hpush _ pmv _ child _ rfl hch (Or.inl rfl)
                  | exact hpush _ pmv _ child _ rfl hch (Or.inr rfl))) h2⟩)

theorem ParquetMapStruct.fill_pushes (P : Node → Prop) (hz : P zeroNode)
    (p : Nat) (v : Val) (pm : Option PathMapType) (r d : Int)
    (hpush : ∀ pmv k, pm = some pmv → P (Node.mk Val.invalid (pmv.child k) r d))
    (missingKeys : List (String × Bool)) :
    ∀ (nodeBuf : NodeBufType) (stack : List Nat) (nodeBuf1 : NodeBufType)
      (stack1 : List Nat), nodeBuf.Valid → p < nodeBuf.Index.toNat →
      nodeBuf.node p = Node.mk v pm r d →
      ParquetMapStruct.fill p missingKeys nodeBuf stack = .ok (nodeBuf1, stack1) →
      ∃ content, Pushes P nodeBuf stack nodeBuf1 stack1 content := by
  induction missingKeys with
  | nil =>
    intro nb stack nb1 stack1 hv hp hN h
    simp only [ParquetMapStruct.fill] at h
    cases h
    exact ⟨_, Pushes.pushes_refl _ nb stack hv⟩
  | cons a rest ih =>
    obtain ⟨k, isMissing⟩ := a
    intro nb stack nb1 stack1 hv hp hN h
    simp only [ParquetMapStruct.fill, bind, Except.bind] at h
    split at h
    · obtain ⟨nbg, hget, hidx, hvg, hlen, hsame⟩ := nb.GetNode_spec hv
      have hne : p ≠ nb.Index.toNat := by omega
      have h0 := hv.1
      simp only [hget, hsame, hN] at h
      cases pm with
      | none => simp at h
      | some pmv =>
        simp only [NodeBufType.node_update_ne _ _ _ _ hne, hsame, hN,
          NodeBufType.update_update] at h
        obtain ⟨c2, h2⟩ := ih _ _ nb1 stack1 (NodeBufType.update_valid _ _ _ hvg)
          (by simp only [NodeBufType.update_Index, hidx]; omega)
          (by rw [NodeBufType.node_update_ne _ _ _ _ hne, hsame, hN]) h
        exact ⟨_, Pushes.trans hv (Pushes.pushed hz stack hv hget hidx hvg hlen hsame _
          (by intro _ _; exact hpush pmv k rfl)) h2⟩
    · exact ih nb stack nb1 stack1 hv hp hN h

theorem Dispatched.of_pushes {P0 P : Node → Prop} {p : Nat} {nb nb1 : NodeBufType}
    {stack stack1 : List Nat} {content : List Node} (hmono : ∀ n, P0 n → P n)
    (hp : p < nb.Index.toNat) (h : Pushes P nb stack nb1 stack1 content) :
    Dispatched P0 P p nb stack nb1 stack1 := by
  obtain ⟨slots, hs, _, hpw, hr⟩ := h.slots
  refine ⟨h.valid, h.index_le, fun q _ hq => h.frame q hq, ?_, ⟨slots, hs, ?_, ?_, ?_, ?_⟩, ?_⟩
  · intro hl
    exact h.levels fun n hn => hmono n (hl n hn)
  · exact hpw.imp (fun hab => Nat.ne_of_lt hab)
  · intro q hq; exact Or.inr (hr q hq).1
  · intro q hq; exact (hr q hq).2
  · intro _; exact h.frame p hp
  · rw [h.frame p hp]

theorem classify_some_val {sh : SchemaHandler} {node : Node} {m : Marshaler}
    (h : classify sh node = .ok (some m)) : m.Accepts node.Val := by
  unfold classify at h
  cases hv : node.Val <;>
    simp [hv, Val.IsValid, Val.TypeKind, Val.GetKind, Val.elemIsUint8, bind, Except.bind,
      pure, Except.pure] at h
  all_goals try (subst h; simp [Marshaler.Accepts])
  all_goals
    split at h
    · cases h
    · split at h
      · cases h
      · split at h <;> (simp at h; subst h; simp [Marshaler.Accepts])

theorem Dispatched.dispatched_refl {P0 P : Node → Prop} (hmono : ∀ n, P0 n → P n) (p : Nat)
    (nb : NodeBufType) (stack : List Nat) (hv : nb.Valid) :
    Dispatched P0 P p nb stack nb stack :=
  ⟨hv, le_refl _, fun _ _ _ => rfl, fun hl n hn => hmono n (hl n hn),
    ⟨[], by simp, List.nodup_nil, by simp, by simp, fun _ => rfl⟩, rfl⟩

theorem Dispatched.in_place {P0 P : Node → Prop} (hmono : ∀ n, P0 n → P n) {p : Nat}
    {nb : NodeBufType} (stack : List Nat)
    (hv : nb.Valid) (hp : p < nb.Index.toNat) (f : Node → Node)
    (hf : P0 (nb.node p) → P (f (nb.node p)))
    (hrl : (f (nb.node p)).RL = (nb.node p).RL) :
    Dispatched P0 P p nb stack (nb.update p f) (stack ++ [p]) := by
  have hplen : p < nb.Buf.length := by
    have := hv.2; have := hv.1; omega
  refine ⟨NodeBufType.update_valid _ _ _ hv, le_refl _, ?_, ?_, ⟨[p], rfl,
    List.nodup_singleton _, by simp, by simpa using hp, by simp⟩,
    by rw [NodeBufType.node_update_self _ _ _ hplen, hrl]⟩
  · intro q hq _
    exact NodeBufType.node_update_ne _ _ _ _ hq
  · intro hl n hn
    simp only [NodeBufType.update] at hn
    by_cases hq : p < nb.Buf.length
    · rcases List.mem_or_eq_of_mem_set hn with hmem | heq
      · exact hmono n (hl n hmem)
      · rw [heq]
        exact hf (hl _ (nb.node_mem p hq))
    · rw [List.set_eq_of_length_le (by omega)] at hn
      exact hmono n (hl n hn)

theorem Marshal_dispatched (c : Collaborators) (sh : SchemaHandler) {P0 P : Node → Prop}
    {TR : String → Int → Prop} {TD : Int → Prop} (rule : NodeRule sh P0 P TR TD)
    {m : Marshaler} {p : Nat} {nb nb1 : NodeBufType} {stack stack1 : List Nat}
    (hv : nb.Valid) (hp : p < nb.Index.toNat) (hall : ∀ n ∈ nb.Buf, P0 n)
    (hcls : classify sh (nb.node p) = .ok (some m))
    (h : m.Marshal c sh p nb stack = .ok (nb1, stack1)) :
    Dispatched P0 P p nb stack nb1 stack1 := by
  have hplen : p < nb.Buf.length := by
    have := hv.2; have := hv.1; omega
  have hlvp : P0 (nb.node p) := hall _ (nb.node_mem p hplen)
  have hval := classify_some_val hcls
  have hmono := rule.mono
  have hz := rule.zero
  obtain ⟨⟨v, pm, r, d⟩, hN⟩ : ∃ N, nb.node p = N := ⟨_, rfl⟩
  rw [hN] at hval
  simp only at hval
  cases m with
  | ParquetPtr =>
    simp only [Marshaler.Accepts] at hval
    simp only [Marshaler.Marshal, ParquetPtr.Marshal, hN, bind, Except.bind, pure,
      Except.pure, NodeBufType.update_update] at h
    rcases hval with ⟨e, rfl⟩ | ⟨b, rfl⟩ | ⟨n, rfl⟩
    · cases e with
      | none =>
        simp [Val.IsNil] at h
        obtain ⟨rfl, rfl⟩ := h
        exact Dispatched.dispatched_refl hmono p nb stack hv
      | some w =>
        simp [Val.IsNil, Val.Elem] at h
        obtain ⟨rfl, rfl⟩ := h
        exact Dispatched.in_place hmono stack hv hp _
          (by rw [hN]; exact rule.ptr w pm r d) (by rw [hN])
    · cases b with
      | true =>
        simp [Val.IsNil] at h
        obtain ⟨rfl, rfl⟩ := h
        exact Dispatched.dispatched_refl hmono p nb stack hv
      | false => simp [Val.IsNil, Val.Elem] at h
    · simp [Val.IsNil] at h
  | ParquetInterface =>
    simp only [Marshaler.Accepts] at hval
    simp only [Marshaler.Marshal, ParquetInterface.Marshal, hN, bind, Except.bind, pure,
      Except.pure] at h
    rcases hval with ⟨e, rfl⟩ | rfl
    · cases e with
      | none =>
        simp [Val.IsNil] at h
        obtain ⟨rfl, rfl⟩ := h
        exact Dispatched.dispatched_refl hmono p nb stack hv
      | some w =>
        simp [Val.IsNil, Val.Elem] at h
        obtain ⟨rfl, rfl⟩ := h
        exact Dispatched.in_place hmono stack hv hp _
          (by rw [hN]; exact rule.iface w pm r d) (by rw [hN])
    · simp [Val.IsNil] at h
  | ParquetStruct =>
    simp only [Marshaler.Accepts] at hval
    obtain ⟨fs, rfl⟩ := hval
    rw [hN] at hlvp
    simp only [Marshaler.Marshal, ParquetStruct.Marshal, hN, Val.NumField, bind,
      Except.bind] at h
    exact Dispatched.of_pushes hmono hp (ParquetStruct.struct_loop_pushes c P hz rule.skip p fs pm r d
      (by
        intro v pmv name child hpm hch
        subst hpm
        exact rule.field fs pmv r d v name child hlvp hch)
      fs.length 0 nb stack nb1 stack1 hv hp hN (by simp) h)
  | ParquetSlice =>
    simp only [Marshaler.Accepts] at hval
    obtain ⟨es, rfl⟩ := hval
    rw [hN] at hlvp
    simp only [Marshaler.Marshal, ParquetSlice.Marshal, hN, Val.Len, bind, Except.bind, pure,
      Except.pure] at h
    cases pm with
    | none => simp at h
    | some pmv =>
      simp only at h
      split at h
      · cases h
      · rename_i x res hres
        obtain ⟨pathMap, path⟩ := res
        split at h
        · cases h
          exact Dispatched.dispatched_refl hmono p nb stack hv
        · exact Dispatched.of_pushes hmono hp (ParquetSlice.slice_loop_pushes P hz p _ _ es
            (some pmv) r d
            (fun e rl hrl => rule.elem es pmv r d pathMap path e rl hlvp hres hrl)
            es.length nb stack nb1 stack1 hv hp hN h)
  | ParquetMap =>
    simp only [Marshaler.Accepts] at hval
    obtain ⟨es, rfl⟩ := hval
    rw [hN] at hlvp
    simp only [Marshaler.Marshal, ParquetMap.Marshal, hN, Val.MapKeys, bind, Except.bind, pure,
      Except.pure] at h
    cases pm with
    | none => simp at h
    | some pmv =>
      simp only at h
      split at h
      · cases h
        exact Dispatched.dispatched_refl hmono p nb stack hv
      · obtain ⟨content, hpush⟩ := ParquetMap.map_loop_pushes P hz p _ _ es
          (some pmv) r d
          (by
            intro v pmv1 kv name rl hpm hkv hrl
            cases hpm
            exact rule.entry es pmv r d kv name v rl hlvp hkv hrl)
          _ nb stack nb1 stack1 hv hp hN h
        exact Dispatched.of_pushes hmono hp hpush
  | ParquetMapStruct =>
    simp only [Marshaler.Accepts] at hval
    obtain ⟨es, rfl⟩ := hval
    rw [hN] at hlvp
    simp only [Marshaler.Marshal, ParquetMapStruct.Marshal, hN, Val.MapKeys, bind, Except.bind,
      pure, Except.pure] at h
    split at h
    · cases h
      exact Dispatched.dispatched_refl hmono p nb stack hv
    · cases pm with
      | none => simp at h
      | some pmv =>
        simp only at h
        split at h
        · cases h
        · rename_i x res heq
          obtain ⟨nb2, stack2, mk2⟩ := res
          obtain ⟨c1, hp1⟩ := ParquetMapStruct.mapStruct_loop_pushes sh P hz rule.skip p _ es (some pmv)
            r d
            (by
              intro v pmv1 k child dl hpm hch hdl
              cases hpm
              exact rule.value es pmv r d v k child dl hlvp hch hdl)
            _ nb stack _ nb2 stack2 mk2 hv hp hN heq
          have h0 := hv.1
          have hle := hp1.index_le
          obtain ⟨c2, hp2⟩ := ParquetMapStruct.fill_pushes P hz p (.map es) (some pmv) r d
            (by
              intro pmv1 k hpm
              cases hpm
              exact rule.missing es pmv r d k hlvp)
            mk2 nb2 stack2 nb1 stack1 hp1.valid (by omega)
            (by rw [hp1.frame p hp, hN]) h
          exact Dispatched.of_pushes hmono hp (Pushes.trans hv hp1 hp2)

/-! ## The invariant of the traversal -/

theorem step_cases {c : Collaborators} {sh : SchemaHandler} {s s1 : State} {rest : List Nat}
    {p : Nat} (hstack : s.stack = rest ++ [p]) (h : step c sh s = .ok s1) :
    (classify sh (s.nodeBuf.node p) = .ok none ∧
      ∃ res1, emitLeaf c sh (s.nodeBuf.node p) s.res = .ok res1 ∧
        s1 = State.mk s.nodeBuf rest res1) ∨
    (∃ m nb1 stack1, classify sh (s.nodeBuf.node p) = .ok (some m) ∧
      m.Marshal c sh p s.nodeBuf rest = .ok (nb1, stack1) ∧
      ((stack1.length = rest.length ∧
          ∃ res1, propagateNull sh (nb1.node p) s.res = .ok res1 ∧
            s1 = State.mk nb1 stack1 res1) ∨
        (stack1.length ≠ rest.length ∧ s1 = State.mk nb1 stack1 s.res))) := by
  unfold step at h
  rw [hstack, List.getLast?_concat] at h
  simp only [List.dropLast_concat, bind, Except.bind, pure, Except.pure] at h
  split at h
  · cases h
  · rename_i x cls hcls
    cases cls with
    | none =>
      simp only at h
      split at h
      · cases h
      · rename_i y res1 hres
        cases h
        exact Or.inl ⟨hcls, res1, hres, rfl⟩
    | some m =>
      simp only at h
      split at h
      · cases h
      · rename_i y r hm
        obtain ⟨nb1, stack1⟩ := r
        simp only at h
        split at h
        · rename_i hlen
          split at h
          · cases h
          · rename_i z res1 hres
            cases h
            exact Or.inr ⟨m, nb1, stack1, hcls, hm, Or.inl ⟨hlen, res1, hres, rfl⟩⟩
        · rename_i hlen
          cases h
          exact Or.inr ⟨m, nb1, stack1, hcls, hm, Or.inr ⟨hlen, rfl⟩⟩

theorem TableMap.levels_mono {TR : String → Int → Prop} {D D1 : Int → Prop} {res : TableMap}
    (h : res.Levels TR D) (hD : ∀ d, D d → D1 d) : res.Levels TR D1 := by
  intro kt hkt
  obtain ⟨h1, h2⟩ := h kt hkt
  exact ⟨fun dl hdl => hD dl (h1 dl hdl), h2⟩

theorem Table.levels_append {R D : Int → Prop} {t : Table} {v : AnyVal} {dl rl : Int}
    (h : (∀ x ∈ t.DefinitionLevels, D x) ∧ ∀ x ∈ t.RepetitionLevels, R x)
    (hdl : D dl) (hrl : R rl) :
    (∀ x ∈ (t.append v dl rl).DefinitionLevels, D x) ∧
      ∀ x ∈ (t.append v dl rl).RepetitionLevels, R x := by
  constructor
  · intro x hx
    simp only [Table.append, List.mem_append, List.mem_singleton] at hx
    rcases hx with hx | rfl
    · exact h.1 x hx
    · exact hdl
  · intro x hx
    simp only [Table.append, List.mem_append, List.mem_singleton] at hx
    rcases hx with hx | rfl
    · exact h.2 x hx
    · exact hrl

theorem TableMap.levels_appendAt {TR : String → Int → Prop} {D : Int → Prop}
    {res res1 : TableMap} {path : String}
    {v : AnyVal} {dl rl : Int} (h : res.Levels TR D) (hdl : D dl) (hrl : TR path rl)
    (happ : res.appendAt path v dl rl = .ok res1) : res1.Levels TR D := by
  induction res generalizing res1 with
  | nil => simp [TableMap.appendAt] at happ
  | cons a r ih =>
    obtain ⟨k, t⟩ := a
    simp only [TableMap.appendAt] at happ
    split at happ
    · rename_i hk
      cases happ
      intro kt hkt
      rcases List.mem_cons.1 hkt with rfl | hmem
      · exact Table.levels_append (h _ (List.mem_cons_self _ _)) hdl (by rw [hk]; exact hrl)
      · exact h kt (List.mem_cons_of_mem _ hmem)
    · split at happ
      · cases happ
        rename_i r1 hr
        intro kt hkt
        rcases List.mem_cons.1 hkt with rfl | hmem
        · exact h _ (List.mem_cons_self _ _)
        · exact ih (fun x hx => h x (List.mem_cons_of_mem _ hx)) hr kt hmem
      · cases happ

theorem TableMap.levels_appendNullBelow {TR : String → Int → Prop} {D : Int → Prop}
    {res : TableMap} (path : String)
    {dl rl : Int} (h : res.Levels TR D) (hdl : D dl)
    (hrl : ∀ key, IsChildPath path key = true → TR key rl) :
    (res.appendNullBelow path dl rl).Levels TR D := by
  intro kt hkt
  simp only [TableMap.appendNullBelow, List.mem_map] at hkt
  obtain ⟨a, ha, rfl⟩ := hkt
  split
  · rename_i hc
    exact Table.levels_append (h a ha) hdl (hrl _ hc)
  · exact h a ha

theorem emitLeaf_levels {c : Collaborators} {sh : SchemaHandler} {node : Node}
    {TR : String → Int → Prop} {D : Int → Prop} {res res1 : TableMap}
    (hres : res.Levels TR D)
    (hn : ∀ pm, node.PathMap = some pm → TR pm.Path node.RL ∧ D node.DL)
    (h : emitLeaf c sh node res = .ok res1) : res1.Levels TR D := by
  unfold emitLeaf at h
  cases hpm : node.PathMap with
  | none => simp [hpm] at h
  | some pm =>
    obtain ⟨h1, h2⟩ := hn pm hpm
    simp only [hpm, bind, Except.bind, pure, Except.pure] at h
    repeat' split at h
    all_goals
      first
      | exact TableMap.levels_appendAt hres h2 h1 h
      | cases h

theorem propagateNull_levels {sh : SchemaHandler} {node : Node}
    {TR : String → Int → Prop} {D : Int → Prop}
    {res res1 : TableMap} (hres : res.Levels TR D)
    (hn : ∀ pm, node.PathMap = some pm → TR pm.Path node.RL ∧ D node.DL)
    (hnull : ∀ pm key, node.PathMap = some pm → IsChildPath pm.Path key = true →
      TR key node.RL ∧ D node.DL)
    (h : propagateNull sh node res = .ok res1) : res1.Levels TR D := by
  unfold propagateNull at h
  cases hpm : node.PathMap with
  | none => simp [hpm] at h
  | some pm =>
    obtain ⟨h1, h2⟩ := hn pm hpm
    simp only [hpm, bind, Except.bind, pure, Except.pure] at h
    repeat' split at h
    all_goals
      first
      | exact TableMap.levels_appendAt hres h2 h1 h
      | (cases h
         exact TableMap.levels_appendNullBelow _ hres h2 (fun key hk => (hnull pm key hpm hk).1))
      | cases h

theorem step_inv (c : Collaborators) (sh : SchemaHandler) {P0 P : Node → Prop}
    {TR : String → Int → Prop} {TD0 TD : Int → Prop} (rule : NodeRule sh P0 P TR TD)
    (tmono : ∀ d, TD0 d → TD d)
    {s s1 : State} {rest : List Nat} {p : Nat} (hstack : s.stack = rest ++ [p])
    (hinv : s.Inv P0 TR TD0) (h : step c sh s = .ok s1) :
    s1.Inv P TR TD ∧ (∀ q ∈ rest, s1.nodeBuf.node q = s.nodeBuf.node q) ∧
      (∃ added, s1.stack = rest ++ added) ∧
      (∀ q, q < s.nodeBuf.Index.toNat → (s1.nodeBuf.node q).RL = (s.nodeBuf.node q).RL) ∧
      s.nodeBuf.Index ≤ s1.nodeBuf.Index := by
  have hp : p < s.nodeBuf.Index.toNat := hinv.below p (by rw [hstack]; simp)
  have hrest : ∀ q ∈ rest, q < s.nodeBuf.Index.toNat := fun q hq =>
    hinv.below q (by rw [hstack]; exact List.mem_append_left _ hq)
  have hnd : (rest ++ [p]).Nodup := by rw [← hstack]; exact hinv.nodup
  have hnd1 : rest.Nodup := (List.nodup_append.1 hnd).1
  have hpn : p ∉ rest := by
    intro hmem
    exact (List.nodup_append.1 hnd).2.2 hmem (List.mem_singleton_self p)
  have hplen : p < s.nodeBuf.Buf.length := by
    have := hinv.valid.2; have := hinv.valid.1; omega
  have hlvp : P0 (s.nodeBuf.node p) := hinv.levels _ (s.nodeBuf.node_mem p hplen)
  have htab : s.res.Levels TR TD := TableMap.levels_mono hinv.tables tmono
  rcases step_cases hstack h with ⟨_, res1, hres, rfl⟩ | ⟨m, nb1, stack1, hcls, hm, hcase⟩
  · refine ⟨⟨hinv.valid, hrest, hnd1, fun n hn => rule.mono n (hinv.levels n hn), ?_⟩,
      fun _ _ => rfl, ⟨[], by simp⟩, fun _ _ => rfl, le_refl _⟩
    exact emitLeaf_levels htab (fun pm hpm => rule.emit _ pm hlvp hpm) hres
  · have hd := Marshal_dispatched c sh rule hinv.valid hp hinv.levels hcls hm
    obtain ⟨added, hadd, hnda, horig, hlt, hempty⟩ := hd.added
    have hle := hd.index_le
    have h0 := hinv.valid.1
    have hframe : ∀ q ∈ rest, nb1.node q = s.nodeBuf.node q := fun q hq =>
      hd.frame q (fun hqp => hpn (hqp ▸ hq)) (hrest q hq)
    have hbelow : ∀ q ∈ stack1, q < nb1.Index.toNat := by
      intro q hq
      rw [hadd] at hq
      rcases List.mem_append.1 hq with hq | hq
      · have := hrest q hq; omega
      · exact hlt q hq
    have hnodup : stack1.Nodup := by
      rw [hadd, List.nodup_append]
      refine ⟨hnd1, hnda, ?_⟩
      intro a ha hb
      rcases horig a hb with rfl | hge
      · exact hpn ha
      · have := hrest a ha; omega
    have hkeep : ∀ q, q < s.nodeBuf.Index.toNat →
        (nb1.node q).RL = (s.nodeBuf.node q).RL := by
      intro q hq
      by_cases hqp : q = p
      · rw [hqp]; exact hd.keepRL
      · rw [hd.frame q hqp hq]
    rcases hcase with ⟨hlen, res1, hres, rfl⟩ | ⟨_, rfl⟩
    · have hadd0 : added = [] := by
        rw [hadd, List.length_append] at hlen
        exact List.length_eq_zero.1 (by omega)
      refine ⟨⟨hd.valid, hbelow, hnodup, hd.levels hinv.levels, ?_⟩, hframe, ⟨added, hadd⟩,
        hkeep, hle⟩
      rw [hempty hadd0] at hres
      exact propagateNull_levels htab (fun pm hpm => rule.emit _ pm hlvp hpm)
        (fun pm key hpm hk => rule.null _ pm key hlvp hpm hk) hres
    · exact ⟨⟨hd.valid, hbelow, hnodup, hd.levels hinv.levels, htab⟩, hframe, ⟨added, hadd⟩,
        hkeep, hle⟩

theorem State.inv_mono {P P1 : Node → Prop} {TR : String → Int → Prop} {TD TD1 : Int → Prop}
    {s : State} (h : s.Inv P TR TD) (hP : ∀ n, P n → P1 n) (hD : ∀ d, TD d → TD1 d) :
    s.Inv P1 TR TD1 :=
  ⟨h.valid, h.below, h.nodup, fun n hn => hP n (h.levels n hn),
    TableMap.levels_mono h.tables hD⟩

theorem nodeRule_trivial (sh : SchemaHandler) :
    NodeRule sh (fun _ => True) (fun _ => True) (fun _ _ => True) (fun _ => True) :=
  ⟨trivial, fun _ _ => trivial, fun _ _ => trivial, fun _ _ _ _ _ => trivial,
    fun _ _ _ _ _ => trivial, fun _ _ _ _ _ _ _ _ _ => trivial,
    fun _ _ _ _ _ _ _ _ _ _ _ => trivial, fun _ _ _ _ _ _ _ _ _ _ _ => trivial,
    fun _ _ _ _ _ _ _ _ _ _ _ => trivial, fun _ _ _ _ _ _ => trivial,
    fun _ _ _ _ => ⟨trivial, trivial⟩, fun _ _ _ _ _ _ => ⟨trivial, trivial⟩⟩

/-! ## Well-formed path trees -/

theorem PathMapType.wf_self {sh : SchemaHandler} {keys : List String} {pm : PathMapType}
    (h : pm.WF sh keys) :
    0 ≤ sh.MaxRepetitionLevel (StrToPath pm.Path) ∧
      ∀ key ∈ keys, IsChildPath pm.Path key = true →
        sh.MaxRepetitionLevel (StrToPath pm.Path) ≤ sh.MaxRepetitionLevel (StrToPath key) := by
  cases pm with
  | mk path children =>
    simp only [PathMapType.WF] at h
    exact ⟨h.1, h.2.1⟩

theorem PathMapType.wfChildren_lookup {sh : SchemaHandler} {keys : List String} {path : String}
    {children : List (String × PathMapType)} {name : String} {child : PathMapType}
    (h : PathMapType.WFChildren sh keys path children)
    (hl : children.lookup name = some child) :
    child.Path = path ++ PAR_GO_PATH_DELIMITER ++ name ∧
      sh.MaxRepetitionLevel (StrToPath path) ≤ sh.MaxRepetitionLevel (StrToPath child.Path) ∧
      child.WF sh keys := by
  induction children with
  | nil => simp at hl
  | cons a rest ih =>
    obtain ⟨k, v⟩ := a
    simp only [PathMapType.WFChildren] at h
    simp only [List.lookup_cons] at hl
    split at hl
    · rename_i heq
      cases hl
      have hk : name = k := by simpa using heq
      subst hk
      exact ⟨h.1, h.2.1, h.2.2.1⟩
    · exact ih h.2.2.2 hl

theorem PathMapType.wf_child {sh : SchemaHandler} {keys : List String} {pm child : PathMapType}
    {name : String} (h : pm.WF sh keys) (hc : pm.child name = some child) :
    child.Path = pm.Path ++ PAR_GO_PATH_DELIMITER ++ name ∧
      sh.MaxRepetitionLevel (StrToPath pm.Path) ≤
        sh.MaxRepetitionLevel (StrToPath child.Path) ∧
      child.WF sh keys := by
  cases pm with
  | mk path children =>
    simp only [PathMapType.WF] at h
    exact PathMapType.wfChildren_lookup h.2.2 hc

theorem ParquetSlice.resolve_spec {sh : SchemaHandler} {pm : PathMapType}
    {pathMap : Option PathMapType} {path : String}
    (h : ParquetSlice.resolve sh pm = .ok (pathMap, path)) :
    (pathMap = some pm ∧ path = pm.Path) ∨
      ∃ list, pm.child "List" = some list ∧ pathMap = list.child "Element" ∧
        path = pm.Path ++ PAR_GO_PATH_DELIMITER ++ "List" ++ PAR_GO_PATH_DELIMITER ++
          "Element" := by
  unfold ParquetSlice.resolve at h
  simp only [bind, Except.bind, pure, Except.pure] at h
  repeat' split at h
  all_goals
    first
    | (cases h
       exact Or.inl ⟨rfl, rfl⟩)
    | (cases h
       exact Or.inr ⟨_, by assumption, rfl, rfl⟩)
    | cases h

theorem nodeRule_bounded (sh : SchemaHandler) (keys : List String) (B : Int) (hB : 0 ≤ B)
    (hB1 : B + 1 ≤ 2147483647) :
    NodeRule sh (Node.Bounded sh keys B) (Node.Bounded sh keys (B + 1))
      (RepetitionBound sh keys) (DefinitionBound (B + 1)) := by
  have hw : ∀ d : Int, 0 ≤ d ∧ d ≤ B → wrapInt32 (d + 1) = d + 1 := fun d hd =>
    wrapInt32_eq (by omega) (by omega)
  refine ⟨?_, ?_, ?_, ?_, ?_, ?_, ?_, ?_, ?_, ?_, ?_, ?_⟩
  · exact ⟨⟨le_refl _, by show (0 : Int) ≤ B + 1; omega⟩, fun pm hpm => by cases hpm⟩
  · intro n hn
    exact ⟨⟨hn.1.1, by have := hn.1.2; omega⟩, hn.2⟩
  · intro n hn
    exact ⟨hn.1, fun pm hpm => by cases hpm⟩
  · intro w pm r d hn
    obtain ⟨hd, hp⟩ := hn
    simp only at hd hp
    refine ⟨?_, hp⟩
    simp only
    rw [hw d hd]
    omega
  · intro w pm r d hn
    obtain ⟨hd, hp⟩ := hn
    simp only at hd hp
    exact ⟨⟨hd.1, le_trans hd.2 (by omega)⟩, hp⟩
  · intro fs pm r d v name child hn hch
    obtain ⟨hd, hp⟩ := hn
    simp only at hd hp
    obtain ⟨hwf, hr0, hr1⟩ := hp pm rfl
    obtain ⟨_, hle, hcwf⟩ := PathMapType.wf_child hwf hch
    refine ⟨⟨hd.1, le_trans hd.2 (by omega)⟩, ?_⟩
    intro pm1 hpm1
    simp only [Option.some.injEq] at hpm1
    subst hpm1
    exact ⟨hcwf, hr0, le_trans hr1 hle⟩
  · intro es pm r d pathMap path e rl hn hres hrl
    obtain ⟨hd, hp⟩ := hn
    simp only at hd hp
    obtain ⟨hwf, hr0, hr1⟩ := hp pm rfl
    refine ⟨by simp only; rw [hw d hd]; omega, ?_⟩
    intro pm1 hpm1
    simp only at hpm1
    rcases ParquetSlice.resolve_spec hres with ⟨h1, h2⟩ | ⟨list, hlist, h1, h2⟩
    · rw [h1] at hpm1
      simp only [Option.some.injEq] at hpm1
      subst hpm1
      subst h2
      have h0 := (PathMapType.wf_self hwf).1
      refine ⟨hwf, ?_, ?_⟩
      · rcases hrl with rfl | rfl
        · exact hr0
        · exact h0
      · rcases hrl with rfl | rfl
        · exact hr1
        · exact le_refl _
    · obtain ⟨hlp, hle1, hlwf⟩ := PathMapType.wf_child hwf hlist
      rw [h1] at hpm1
      obtain ⟨hep, hle2, hewf⟩ := PathMapType.wf_child hlwf hpm1
      have hpath : path = pm1.Path := by rw [h2, hep, hlp]
      have h0 := (PathMapType.wf_self hewf).1
      refine ⟨hewf, ?_, ?_⟩
      · rcases hrl with rfl | rfl
        · exact hr0
        · rw [hpath]; exact h0
      · rcases hrl with rfl | rfl
        · exact le_trans hr1 (le_trans hle1 hle2)
        · rw [hpath]
  · intro es pm r d kv name v rl hn hkv hrl
    obtain ⟨hd, hp⟩ := hn
    simp only at hd hp
    obtain ⟨hwf, hr0, hr1⟩ := hp pm rfl
    refine ⟨by simp only; rw [hw d hd]; omega, ?_⟩
    intro pm1 hpm1
    simp only at hpm1
    obtain ⟨hkp, hle1, hkwf⟩ := PathMapType.wf_child hwf hkv
    obtain ⟨hxp, hle2, hxwf⟩ := PathMapType.wf_child hkwf hpm1
    have h0 := (PathMapType.wf_self hkwf).1
    refine ⟨hxwf, ?_, ?_⟩
    · rcases hrl with rfl | rfl
      · exact hr0
      · rw [← hkp]; exact h0
    · rcases hrl with rfl | rfl
      · exact le_trans hr1 (le_trans hle1 hle2)
      · rw [← hkp]; exact hle2
  · intro es pm r d v k child dl hn hch hdl
    obtain ⟨hd, hp⟩ := hn
    simp only at hd hp
    obtain ⟨hwf, hr0, hr1⟩ := hp pm rfl
    obtain ⟨_, hle, hcwf⟩ := PathMapType.wf_child hwf hch
    refine ⟨?_, ?_⟩
    · simp only
      rcases hdl with rfl | rfl
      · exact ⟨hd.1, le_trans hd.2 (by omega)⟩
      · rw [hw d hd]; omega
    · intro pm1 hpm1
      simp only [Option.some.injEq] at hpm1
      subst hpm1
      exact ⟨hcwf, hr0, le_trans hr1 hle⟩
  · intro es pm r d k hn
    obtain ⟨hd, hp⟩ := hn
    simp only at hd hp
    obtain ⟨hwf, hr0, hr1⟩ := hp pm rfl
    refine ⟨⟨hd.1, le_trans hd.2 (by omega)⟩, ?_⟩
    intro pm1 hpm1
    simp only at hpm1
    obtain ⟨_, hle, hcwf⟩ := PathMapType.wf_child hwf hpm1
    exact ⟨hcwf, hr0, le_trans hr1 hle⟩
  · intro n pm hn hpm
    obtain ⟨hd, hp⟩ := hn
    obtain ⟨hwf, hr0, hr1⟩ := hp pm hpm
    exact ⟨⟨hr0, fun _ => hr1⟩, hd.1, le_trans hd.2 (by omega)⟩
  · intro n pm key hn hpm hck
    obtain ⟨hd, hp⟩ := hn
    obtain ⟨hwf, hr0, hr1⟩ := hp pm hpm
    exact ⟨⟨hr0, fun hk => le_trans hr1 ((PathMapType.wf_self hwf).2 key hk hck)⟩,
      hd.1, le_trans hd.2 (by omega)⟩

/-! ## The bounds along the traversal -/

theorem Node.bounded_mono {sh : SchemaHandler} {keys : List String} {B B1 : Int} (h : B ≤ B1)
    (n : Node) (hn : n.Bounded sh keys B) : n.Bounded sh keys B1 :=
  ⟨⟨hn.1.1, le_trans hn.1.2 h⟩, hn.2⟩

theorem definitionBound_mono {B B1 : Int} (h : B ≤ B1) (d : Int) (hd : DefinitionBound B d) :
    DefinitionBound B1 d :=
  ⟨hd.1, le_trans hd.2 h⟩

theorem traverse_bounded (c : Collaborators) (sh : SchemaHandler) (keys : List String)
    (fuel : Nat) :
    ∀ (B : Int) (s s1 : State), 0 ≤ B → B + fuel ≤ 2147483647 →
      s.Inv (Node.Bounded sh keys B) (RepetitionBound sh keys) (DefinitionBound B) →
      0 < s.nodeBuf.Index → (s.nodeBuf.node 0).RL = 0 →
      traverse c sh fuel s = some (.ok s1) →
      s1.Inv (Node.Bounded sh keys (B + fuel)) (RepetitionBound sh keys)
          (DefinitionBound (B + fuel)) ∧
        0 < s1.nodeBuf.Index ∧ (s1.nodeBuf.node 0).RL = 0 := by
  induction fuel with
  | zero =>
    intro B s s1 _ _ hinv hi hr h
    simp only [traverse] at h
    split at h
    · cases h
      exact ⟨by simpa using hinv, hi, hr⟩
    · cases h
  | succ n ih =>
    intro B s s1 hB hB1 hinv hi hr h
    simp only [traverse] at h
    split at h
    · cases h
      exact ⟨State.inv_mono hinv (Node.bounded_mono (by push_cast; omega))
        (definitionBound_mono (by push_cast; omega)), hi, hr⟩
    · rename_i hne
      split at h
      · cases h
      · rename_i s2 hs2
        obtain ⟨rest, p, hstack⟩ : ∃ rest p, s.stack = rest ++ [p] :=
          ⟨s.stack.dropLast, s.stack.getLast hne, (List.dropLast_append_getLast hne).symm⟩
        obtain ⟨h2, _, _, hkeep, hle⟩ := step_inv c sh
          (nodeRule_bounded sh keys B hB (by push_cast at hB1; omega))
          (definitionBound_mono (by omega)) hstack hinv hs2
        have h3 := ih (B + 1) s2 s1 (by omega) (by push_cast at hB1 ⊢; omega) h2
          (by omega) (by rw [hkeep 0 (by omega), hr]) h
        have e : B + 1 + (n : Int) = B + ((n + 1 : Nat) : Int) := by push_cast; omega
        rw [← e]
        exact h3

theorem Val.size_elem {v w : Val} (h : v.Elem = .ok w) : w.size + 1 ≤ v.size := by
  cases v <;> simp [Val.Elem] at h
  case ptr e =>
    cases e <;> simp [Val.Elem] at h <;> subst h <;> simp [Val.size]
    omega
  case iface e =>
    cases e <;> simp [Val.Elem] at h <;> subst h <;> simp [Val.size]
    omega

theorem NodeBufType.update_all_at {P : Node → Prop} (nbt : NodeBufType) (q : Nat)
    (f : Node → Node) (hf : P (nbt.node q) → P (f (nbt.node q))) (h : ∀ n ∈ nbt.Buf, P n) :
    ∀ n ∈ (nbt.update q f).Buf, P n := by
  intro n hn
  simp only [NodeBufType.update] at hn
  by_cases hq : q < nbt.Buf.length
  · rcases List.mem_or_eq_of_mem_set hn with hmem | heq
    · exact h n hmem
    · rw [heq]
      exact hf (h _ (nbt.node_mem q hq))
  · rw [List.set_eq_of_length_le (by omega)] at hn
    exact h n hn

theorem seedRoot_inv (c : Collaborators) (sh : SchemaHandler) {P : Node → Prop}
    {TR : String → Int → Prop} {TD : Int → Prop} (hz : P zeroNode)
    {record : AnyVal} {nodeBuf : NodeBufType} {res : TableMap} {s : State}
    (hroot : ∀ v, P (nodeBuf.node 0) →
      P { nodeBuf.node 0 with Val := v, PathMap := sh.PathMap })
    (hpool : ∀ n ∈ nodeBuf.Buf, P n) (hres : res.Levels TR TD)
    (h : seedRoot c sh record nodeBuf res = .ok s) :
    s.Inv P TR TD ∧ recordFuel s ≤ (Val.iface record).size ∧ s.res = res ∧ s.stack = [0] ∧
      s.nodeBuf.Index = 1 ∧ (s.nodeBuf.node 0).RL = (nodeBuf.node 0).RL := by
  have hvr : nodeBuf.Reset.Valid := by
    simp only [NodeBufType.Valid, NodeBufType.Reset]
    exact ⟨le_refl _, by omega⟩
  obtain ⟨nbg, hget, hidx, hvg, hlen, hsame⟩ := nodeBuf.Reset.GetNode_spec hvr
  have hri : nodeBuf.Reset.Index.toNat = 0 := rfl
  rw [hri] at hget hlen
  have hlg : ∀ n ∈ nbg.Buf, P n :=
    NodeBufType.GetNode_all hz hget (by simpa [NodeBufType.Reset] using hpool)
  have hidx1 : nbg.Index = 1 := by rw [hidx]; rfl
  have hnode0 : nbg.node 0 = nodeBuf.node 0 := by rw [hsame]; rfl
  unfold seedRoot at h
  simp only [hget, bind, Except.bind, pure, Except.pure, NodeBufType.update_update,
    NodeBufType.node_update_self _ _ _ hlen, Val.GetKind, if_true, Val.Elem, List.nil_append] at h
  have key : ∀ (w : Val) (f : Node → Node), (∀ x, f x = { x with Val := w, PathMap := sh.PathMap }) →
      w.size + 1 ≤ (Val.iface record).size →
      (State.mk (nbg.update 0 f) [0] res).Inv P TR TD ∧
        recordFuel (State.mk (nbg.update 0 f) [0] res) ≤ (Val.iface record).size ∧
        (State.mk (nbg.update 0 f) [0] res).res = res ∧
        (State.mk (nbg.update 0 f) [0] res).stack = [0] ∧
        (State.mk (nbg.update 0 f) [0] res).nodeBuf.Index = 1 ∧
        ((State.mk (nbg.update 0 f) [0] res).nodeBuf.node 0).RL = (nodeBuf.node 0).RL := by
    intro w f hf hw
    refine ⟨⟨NodeBufType.update_valid _ _ _ hvg, ?_, List.nodup_singleton _, ?_, hres⟩, ?_,
      rfl, rfl, ?_, ?_⟩
    · intro p hp
      simp only [List.mem_singleton] at hp
      subst hp
      simp [hidx1]
    · exact NodeBufType.update_all_at _ _ _
        (fun hx => by rw [hf, hnode0]; rw [hnode0] at hx; exact hroot w hx) hlg
    · simp only [recordFuel, List.getLast?_singleton, NodeBufType.node_update_self _ _ _ hlen,
        hf]
      exact hw
    · simp only [NodeBufType.update_Index, hidx1]
    · simp only [NodeBufType.node_update_self _ _ _ hlen, hf, hnode0]
  cases record with
  | none =>
    simp only at h
    split at h
    · simp at h
    · cases h
      exact key Val.invalid _ (fun _ => rfl) (by simp [Val.size])
  | some v =>
    simp only at h
    split at h
    · split at h
      · cases h
      · rename_i w hw
        cases h
        have := Val.size_elem hw
        exact key w _ (fun _ => rfl) (by simp only [Val.size]; omega)
    · cases h
      exact key v _ (fun _ => rfl) (by simp only [Val.size]; omega)

theorem marshalRecords_bounded (c : Collaborators) (sh : SchemaHandler) (keys : List String)
    (hwf : ∀ pm, sh.PathMap = some pm → pm.WF sh keys) (records : List AnyVal) :
    ∀ (B : Int) (nodeBuf nodeBuf1 : NodeBufType) (res res1 : TableMap), 0 ≤ B →
      B + ((records.map fun r => (Val.iface r).size).sum : Nat) ≤ 2147483647 →
      (∀ n ∈ nodeBuf.Buf, n.Bounded sh keys B) → (nodeBuf.node 0).RL = 0 →
      res.Levels (RepetitionBound sh keys) (DefinitionBound B) →
      marshalRecords c sh records nodeBuf res = some (.ok (nodeBuf1, res1)) →
      res1.Levels (RepetitionBound sh keys)
        (DefinitionBound (B + ((records.map fun r => (Val.iface r).size).sum : Nat))) := by
  induction records with
  | nil =>
    intro B nb nb1 res res1 _ _ _ _ hres h
    simp only [marshalRecords] at h
    cases h
    simpa using hres
  | cons r rest ih =>
    intro B nb nb1 res res1 hB hsum hpool hr0 hres h
    simp only [marshalRecords] at h
    split at h
    · cases h
    · rename_i s hs
      split at h
      · cases h
      · cases h
      · rename_i s1 hs1
        have hroot : ∀ v, (nb.node 0).Bounded sh keys B →
            Node.Bounded sh keys B { nb.node 0 with Val := v, PathMap := sh.PathMap } := by
          intro v hx
          refine ⟨hx.1, ?_⟩
          intro pm hpm
          simp only at hpm
          have hw := hwf pm hpm
          simp only [hr0]
          exact ⟨hw, le_refl _, (PathMapType.wf_self hw).1⟩
        obtain ⟨hinv, hfuel, _, _, hidx, hrl⟩ := seedRoot_inv c sh
          (show Node.Bounded sh keys B zeroNode from
            ⟨⟨le_refl _, hB⟩, fun pm hpm => by cases hpm⟩) hroot hpool hres hs
        simp only [List.map_cons, List.sum_cons] at hsum ⊢
        generalize (rest.map fun r => (Val.iface r).size).sum = S at hsum ih ⊢
        generalize (Val.iface r).size = a at hsum hfuel ⊢
        obtain ⟨hinv1, _, hr1⟩ := traverse_bounded c sh keys (recordFuel s) B s s1 hB
          (by push_cast at hsum; omega) hinv (by rw [hidx]; decide) (by rw [hrl, hr0]) hs1
        have hinv2 : s1.Inv (Node.Bounded sh keys (B + (a : Nat))) (RepetitionBound sh keys)
            (DefinitionBound (B + (a : Nat))) :=
          State.inv_mono hinv1 (Node.bounded_mono (by omega)) (definitionBound_mono (by omega))
        have := ih (B + (a : Nat)) s1.nodeBuf nb1 s1.res res1 (by omega)
          (by push_cast at hsum ⊢; omega) hinv2.levels hr1 hinv2.tables h
        have e : B + (a : Nat) + (S : Int) = B + ((a + S : Nat) : Int) := by
          push_cast; omega
        rw [← e]
        exact this

/-! ## Coverage of a column -/

theorem TableMap.entries_of_extends {res res1 : TableMap} (h : res.Extends res1)
    (key : String) :
    ((res.get? key).isSome → (res1.get? key).isSome) ∧ res.entries key ≤ res1.entries key := by
  unfold TableMap.Extends at h
  induction h with
  | nil => exact ⟨id, le_refl _⟩
  | @cons a b l l1 hab _ ih =>
    obtain ⟨ka, ta⟩ := a
    obtain ⟨kb, tb⟩ := b
    obtain ⟨hk, vs, dls, rls, _, _, ht⟩ := hab
    simp only at hk ht
    subst hk
    simp only [TableMap.entries, TableMap.get?] at ih ⊢
    by_cases hkey : ka = key
    · simp only [hkey, if_true, Option.isSome_some, implies_true, true_and]
      rw [ht]
      simp
    · simp only [hkey, if_false]
      exact ih

theorem TableMap.entries_appendAt {res res1 : TableMap} {path : String} {v : AnyVal}
    {dl rl : Int} (h : res.appendAt path v dl rl = .ok res1) :
    res1.entries path = res.entries path + 1 := by
  induction res generalizing res1 with
  | nil => simp [TableMap.appendAt] at h
  | cons a r ih =>
    obtain ⟨k, t⟩ := a
    simp only [TableMap.appendAt] at h
    split at h
    · rename_i hk
      cases h
      simp [TableMap.entries, TableMap.get?, hk, Table.append]
    · rename_i hk
      split at h
      · rename_i r1 hr
        cases h
        have := ih hr
        simp only [TableMap.entries, TableMap.get?, hk, if_false] at this ⊢
        exact this
      · cases h

theorem TableMap.get?_cons (kt : String × Table) (r : TableMap) (key : String) :
    TableMap.get? (kt :: r) key = if kt.1 = key then some kt.2 else TableMap.get? r key := by
  obtain ⟨k, t⟩ := kt
  rfl

theorem TableMap.entries_appendNullBelow (res : TableMap) {path key : String} (dl rl : Int)
    (hc : IsChildPath path key = true) (hk : (res.get? key).isSome) :
    (res.appendNullBelow path dl rl).entries key = res.entries key + 1 := by
  induction res with
  | nil => simp [TableMap.get?] at hk
  | cons a r ih =>
    obtain ⟨k, t⟩ := a
    simp only [TableMap.appendNullBelow, List.map_cons, TableMap.entries,
      TableMap.get?_cons] at ih hk ⊢
    by_cases hkey : k = key
    · subst hkey
      simp [hc, Table.append]
    · simp only [hkey, if_false] at hk
      have := ih hk
      by_cases hck : IsChildPath path k = true
      · simp only [hck, if_true, hkey, if_false]
        exact this
      · simp only [hck, Bool.false_eq_true, if_false, hkey]
        exact this

theorem propagateNull_reaches {sh : SchemaHandler} {node : Node} {pm : PathMapType}
    {key : String} {res res1 : TableMap} (hpm : node.PathMap = some pm)
    (hr : NullReaches sh pm key) (hk : (res.get? key).isSome)
    (h : propagateNull sh node res = .ok res1) :
    res1.entries key = res.entries key + 1 := by
  obtain ⟨e, he, hcase⟩ := hr
  unfold propagateNull at h
  simp only [hpm, he, bind, Except.bind, pure, Except.pure] at h
  split at h
  · rename_i hpos
    cases h
    rw [if_pos hpos] at hcase
    exact TableMap.entries_appendNullBelow res _ _ hcase hk
  · rename_i hpos
    rw [if_neg hpos] at hcase
    subst hcase
    exact TableMap.entries_appendAt h

theorem emitLeaf_entries {c : Collaborators} {sh : SchemaHandler} {node : Node}
    {pm : PathMapType} {res res1 : TableMap} (hpm : node.PathMap = some pm)
    (h : emitLeaf c sh node res = .ok res1) :
    res1.entries pm.Path = res.entries pm.Path + 1 := by
  unfold emitLeaf at h
  simp only [hpm, bind, Except.bind, pure, Except.pure] at h
  repeat' split at h
  all_goals
    first
    | exact TableMap.entries_appendAt h
    | cases h

theorem classify_iface (sh : SchemaHandler) (node : Node) (e : Option Val)
    (h : node.Val = .iface e) : classify sh node = .ok (some .ParquetInterface) := by
  unfold classify
  simp [h, Val.IsValid, Val.TypeKind, Val.GetKind, Val.elemIsUint8, bind, Except.bind, pure,
    Except.pure]

theorem classify_struct (sh : SchemaHandler) (node : Node) (fs : List (String × Val))
    (h : node.Val = .struct fs) : classify sh node = .ok (some .ParquetStruct) := by
  unfold classify
  simp [h, Val.IsValid, Val.TypeKind, Val.GetKind, Val.elemIsUint8, bind, Except.bind, pure,
    Except.pure]

theorem structChildren_nil (c : Collaborators) (pm : PathMapType) (r d : Int)
    (fs : List (String × Val))
    (h : ∀ f ∈ fs, c.IsInternalField f.1 = true ∨ pm.child f.1 = none) :
    structChildren c (some pm) r d fs = [] := by
  induction fs with
  | nil => rfl
  | cons a rest ih =>
    obtain ⟨name, v⟩ := a
    have hrest := ih fun f hf => h f (List.mem_cons_of_mem _ hf)
    rcases h (name, v) (List.mem_cons_self _ _) with hi | hn
    · simp only at hi
      simp [structChildren, hi, hrest]
    · simp only at hn
      simp only [structChildren, Option.some_bind, hn, hrest]
      split <;> rfl

theorem structChildren_mem (c : Collaborators) (pm child : PathMapType) (r d : Int)
    (fs : List (String × Val)) (name : String) (v : Val) (hmem : (name, v) ∈ fs)
    (hint : c.IsInternalField name = false) (hch : pm.child name = some child) :
    Node.mk v (some child) r d ∈ structChildren c (some pm) r d fs := by
  induction fs with
  | nil => cases hmem
  | cons a rest ih =>
    obtain ⟨name1, v1⟩ := a
    rcases List.mem_cons.1 hmem with heq | hin
    · cases heq
      simp [structChildren, hint, hch]
    · have := ih hin
      simp only [structChildren, Option.some_bind]
      split
      · exact this
      · split
        · exact this
        · exact List.mem_cons_of_mem _ this

theorem sliceChildren_mem (pathMap : Option PathMapType) (rlNow r d : Int) (es : List Val)
    (j i : Nat) (hi : i < j) :
    ∃ n ∈ sliceChildren pathMap rlNow r d es j,
      n.Val = es.getD i Val.invalid ∧ n.PathMap = pathMap := by
  induction j with
  | zero => omega
  | succ k ih =>
    simp only [sliceChildren]
    by_cases hik : i = k
    · subst hik
      exact ⟨_, List.mem_cons_self _ _, rfl, rfl⟩
    · obtain ⟨n, hn, h1, h2⟩ := ih (by omega)
      exact ⟨n, List.mem_cons_of_mem _ hn, h1, h2⟩


theorem leaf_paths_are_keys {c : Collaborators} {sh : SchemaHandler}
    {srcInterface : List AnyVal} {res : TableMap}
    (h : MarshalStruct c srcInterface sh = some { tb := some res, err := none }) :
    ∀ k, k ∈ res.keys ↔ sh.IsLeafPath k := by
  obtain ⟨nb, res0, nb1, h0, h1⟩ := MarshalStruct_ok h
  obtain ⟨i1, _, _, _⟩ := InitMarshal_spec h0
  intro k
  rw [TableMap.keys_of_extends (marshalRecords_extends _ h1)]
  exact i1 k

/-- C7 (amended): for a schema whose path tree is well formed for its leaf
paths (every node's child has the node's path extended by its name, and the
maximum repetition level is not negative and does not decrease from a node to
its children and to the leaf paths below it) and a batch whose values have at
most `2^31 - 1` constructors in total, every entry of every column of a
successful `MarshalStruct` has a repetition level between 0 and the maximum
repetition level of the column's path, and a definition level between 0 and
the number of constructors of the batch.  The bound of a definition level by
the maximum definition level of its path is not part of what the traversal
guarantees. -/
theorem levels_within_bounds (c : Collaborators) (sh : SchemaHandler)
    (srcInterface : List AnyVal) (res : TableMap) (keys : List String)
    (hkeys : ∀ k, sh.IsLeafPath k → k ∈ keys)
    (hwf : ∀ pm, sh.PathMap = some pm → pm.WF sh keys)
    (hsize : (srcInterface.map fun r => (Val.iface r).size).sum ≤ 2147483647)
    (h : MarshalStruct c srcInterface sh = some { tb := some res, err := none }) :
    ∀ kt ∈ res,
      (∀ dl ∈ kt.2.DefinitionLevels, 0 ≤ dl ∧
        dl ≤ ((srcInterface.map fun r => (Val.iface r).size).sum : Nat)) ∧
      (∀ rl ∈ kt.2.RepetitionLevels, 0 ≤ rl ∧
        rl ≤ sh.MaxRepetitionLevel (StrToPath kt.1)) := by
  obtain ⟨nb, res0, nb1, h0, h1⟩ := MarshalStruct_ok h
  obtain ⟨_, _, hfresh, hnb⟩ := InitMarshal_spec h0
  have hpool : ∀ n ∈ nb.Buf, n.Bounded sh keys 0 := by
    intro n hn
    rw [hnb] at hn
    simp only [List.mem_singleton] at hn
    rw [hn]
    exact ⟨⟨le_refl _, le_refl _⟩, fun pm hpm => by cases hpm⟩
  have hres0 : res0.Levels (RepetitionBound sh keys) (DefinitionBound 0) := by
    intro kt hkt
    obtain ⟨_, h2, h3, _⟩ := hfresh kt hkt
    rw [h2, h3]
    simp
  have hfin := marshalRecords_bounded c sh keys hwf srcInterface 0 nb nb1 res0 res (le_refl _)
    (by omega) hpool (by rw [hnb]; rfl) hres0 h1
  intro kt hkt
  obtain ⟨hd, hr⟩ := hfin kt hkt
  have hmem : kt.1 ∈ keys := hkeys _ ((leaf_paths_are_keys h kt.1).1
    (List.mem_map_of_mem Prod.fst hkt))
  refine ⟨fun dl hdl => ?_, fun rl hrl => ⟨(hr rl hrl).1, (hr rl hrl).2 hmem⟩⟩
  have := hd dl hdl
  simpa [DefinitionBound] using this

theorem pathMapA_wf : pathMapA.WF schemaA
    (tablesOf (MarshalStruct scenarioCollaborators batchA schemaA)).keys := by
  rw [show (tablesOf (MarshalStruct scenarioCollaborators batchA schemaA)).keys =
    ["Parquet_go_root/Name", "Parquet_go_root/Tags/List/Element"] from rfl]
  simp only [pathMapA, pathMapATags, pathMapAElement, PathMapType.WF, PathMapType.WFChildren,
    PathMapType.Path, List.forall_mem_cons, List.not_mem_nil, false_implies, implies_true,
    and_true]
  decide

/-- Witness of `levels_within_bounds` on scenario A, whose path tree is well
formed for its two leaf paths and whose batch has 11 constructors. -/
theorem levels_within_bounds_witness :
    (tablesOf (MarshalStruct scenarioCollaborators batchA schemaA)).Levels
      (fun key rl => 0 ≤ rl ∧ rl ≤ schemaA.MaxRepetitionLevel (StrToPath key))
      (fun dl => 0 ≤ dl ∧ dl ≤ ((batchA.map fun r => (Val.iface r).size).sum : Nat)) :=
  levels_within_bounds scenarioCollaborators schemaA batchA
    (tablesOf (MarshalStruct scenarioCollaborators batchA schemaA))
    (tablesOf (MarshalStruct scenarioCollaborators batchA schemaA)).keys
    (fun k hk => (leaf_paths_are_keys
      (show MarshalStruct scenarioCollaborators batchA schemaA = some
        (MarshalResult.mk (some (tablesOf (MarshalStruct scenarioCollaborators batchA schemaA)))
          none) from rfl) k).2 hk)
    (fun pm hpm => by
      cases hpm
      exact pathMapA_wf)
    (by decide) rfl

/-- C7 (counterexample): under the schema of scenario A, whose leaf `Name` has
the maximum definition level 0, a record whose `Name` is a non-nil pointer to
a string is marshalled without error and puts an entry with definition level
1 into the column of `Name`. -/
theorem definition_level_above_maximum :
    Marshal scenarioCollaborators batchNamePtr schemaA =
      some { tb := some (tablesOf (Marshal scenarioCollaborators batchNamePtr schemaA)),
             err := none } ∧
    columnNamePtr ∈ tablesOf (Marshal scenarioCollaborators batchNamePtr schemaA) ∧
    columnNamePtr.1 = "Parquet_go_root/Name" ∧
    (1 : Int) ∈ columnNamePtr.2.DefinitionLevels ∧
    columnNamePtr.2.MaxDefinitionLevel = 0 ∧
    schemaA.MaxDefinitionLevel (StrToPath columnNamePtr.1) = 0 ∧
    ¬ ((1 : Int) ≤ schemaA.MaxDefinitionLevel (StrToPath columnNamePtr.1)) :=
  ⟨rfl, List.mem_of_mem_head? (show columnNamePtr ∈
      (tablesOf (Marshal scenarioCollaborators batchNamePtr schemaA)).head? from rfl),
    rfl, (show (1 : Int) ∈ [1] from List.mem_singleton_self 1), rfl, rfl,
    by rw [show schemaA.MaxDefinitionLevel (StrToPath columnNamePtr.1) = 0 from rfl]; decide⟩

/-! ## The node pool under sequences of calls -/

theorem NodeBufType.reset_valid (nbt : NodeBufType) : nbt.Reset.Valid := by
  simp only [NodeBufType.Valid, NodeBufType.Reset]
  exact ⟨le_refl _, by omega⟩

theorem NodeBufType.GetNode_grow (nbt : NodeBufType) (h : nbt.Valid) :
    ∃ nbt1, nbt.GetNode = .ok (nbt1, nbt.Index.toNat) ∧ nbt1.Index = nbt.Index + 1 ∧
      nbt1.Valid ∧ nbt.Index.toNat < nbt1.Buf.length ∧
      nbt1.Buf = (if nbt.Index = nbt.Buf.length then nbt.Buf ++ [zeroNode] else nbt.Buf) := by
  obtain ⟨h0, h1⟩ := h
  unfold NodeBufType.GetNode
  by_cases hge : nbt.Index ≥ nbt.Buf.length
  · have heq : nbt.Index = nbt.Buf.length := le_antisymm h1 hge
    refine ⟨{ Index := nbt.Index + 1, Buf := nbt.Buf ++ [zeroNode] }, ?_, rfl, ?_, ?_, ?_⟩
    · simp [hge, heq]
    · constructor
      · simp only; omega
      · simp only [List.length_append, List.length_singleton]; push_cast; omega
    · simp only [List.length_append, List.length_singleton]; omega
    · simp [heq]
  · have hlt : nbt.Index < nbt.Buf.length := by omega
    have hne : nbt.Index ≠ nbt.Buf.length := by omega
    refine ⟨{ Index := nbt.Index + 1, Buf := nbt.Buf }, ?_, rfl, ?_, ?_, ?_⟩
    · simp only [hge, if_false]
      have e : nbt.Index + 1 - 1 = nbt.Index := by omega
      simp only [e]
      rw [if_pos ⟨h0, hlt⟩]
    · constructor
      · simp only; omega
      · simp only; omega
    · simp only; omega
    · simp [hne]

theorem runPoolCalls_spec (calls : List PoolCall) :
    ∀ (nbt : NodeBufType) (handed : List Nat), nbt.Valid →
      handed = List.range handed.length → nbt.Index = handed.length →
      ∃ nbt1 handed1, runPoolCalls nbt handed calls = .ok (nbt1, handed1) ∧ nbt1.Valid ∧
        handed1 = List.range handed1.length ∧ nbt1.Index = handed1.length ∧
        nbt.Buf.length ≤ nbt1.Buf.length := by
  induction calls with
  | nil =>
    intro nbt handed hv hh hi
    exact ⟨nbt, handed, rfl, hv, hh, hi, le_refl _⟩
  | cons call rest ih =>
    intro nbt handed hv hh hi
    cases call with
    | GetNode =>
      obtain ⟨nbt1, hget, hidx, hv1, hlen, hbuf⟩ := nbt.GetNode_grow hv
      simp only [runPoolCalls, hget]
      have hslot : nbt.Index.toNat = handed.length := by rw [hi]; simp
      obtain ⟨nbt2, handed2, hrun, hv2, hh2, hi2, hle⟩ := ih nbt1 (handed ++ [nbt.Index.toNat]) hv1
        (by
          rw [List.length_append, List.length_singleton, List.range_succ, ← hh, hslot])
        (by rw [hidx, hi]; simp)
      refine ⟨nbt2, handed2, hrun, hv2, hh2, hi2, le_trans ?_ hle⟩
      rw [hbuf]
      split
      · simp
      · exact le_refl _
    | Reset =>
      simp only [runPoolCalls]
      obtain ⟨nbt2, handed2, hrun, hv2, hh2, hi2, hle⟩ := ih nbt.Reset [] nbt.reset_valid rfl rfl
      exact ⟨nbt2, handed2, hrun, hv2, hh2, hi2, hle⟩

/-- C19: a pool made by `NewNodeBuf(n)` with `n ≥ 0` has the cursor 0 and `n`
slots, and after every sequence of `GetNode` and `Reset` calls on it no call
has panicked, the cursor lies between 0 and the length of `Buf`, and the slots
returned since the last `Reset` are `0, 1, ..., k - 1` in this order, `k`
being the cursor, hence pairwise distinct.  On any pool whose cursor lies
within its buffer, `GetNode` returns the slot at the cursor, which lies inside
the buffer it leaves, advances the cursor by one and appends one fresh slot to
`Buf` exactly when the cursor had reached the length of `Buf`; `Reset` sets
the cursor to 0 and leaves `Buf` unchanged. -/
theorem pool_calls_invariant (n : Int) (hn : 0 ≤ n) (calls : List PoolCall) :
    (∃ nbt0, NewNodeBuf n = .ok nbt0 ∧ nbt0.Index = 0 ∧ nbt0.Buf.length = n.toNat ∧
      ∃ nbt handed, runPoolCalls nbt0 [] calls = .ok (nbt, handed) ∧
        (0 ≤ nbt.Index ∧ nbt.Index ≤ nbt.Buf.length) ∧
        handed = List.range handed.length ∧ nbt.Index = handed.length ∧ handed.Nodup) ∧
    (∀ nbt : NodeBufType, 0 ≤ nbt.Index ∧ nbt.Index ≤ nbt.Buf.length →
      ∃ nbt1, nbt.GetNode = .ok (nbt1, nbt.Index.toNat) ∧ nbt1.Index = nbt.Index + 1 ∧
        (0 ≤ nbt1.Index ∧ nbt1.Index ≤ nbt1.Buf.length) ∧
        nbt.Index.toNat < nbt1.Buf.length ∧
        nbt1.Buf = (if nbt.Index = nbt.Buf.length then nbt.Buf ++ [zeroNode]
          else nbt.Buf)) ∧
    (∀ nbt : NodeBufType, nbt.Reset.Index = 0 ∧ nbt.Reset.Buf = nbt.Buf) := by
  refine ⟨?_, fun nbt h => nbt.GetNode_grow h, fun nbt => ⟨rfl, rfl⟩⟩
  have hnew : NewNodeBuf n = .ok { Index := 0, Buf := List.replicate n.toNat zeroNode } := by
    unfold NewNodeBuf
    rw [if_neg (by omega)]
  refine ⟨_, hnew, rfl, by simp, ?_⟩
  obtain ⟨nbt, handed, hrun, hv, hh, hi, _⟩ :=
    runPoolCalls_spec calls { Index := 0, Buf := List.replicate n.toNat zeroNode } []
      ⟨le_refl _, by simp⟩ rfl rfl
  refine ⟨nbt, handed, hrun, hv, hh, hi, ?_⟩
  rw [hh]
  exact List.nodup_range _

/-- Witness of `pool_calls_invariant`: a pool of one slot and the calls
`GetNode, GetNode, Reset, GetNode`. -/
theorem pool_calls_invariant_witness :
    runPoolCalls (NodeBufType.mk 0 [zeroNode]) []
        [PoolCall.GetNode, PoolCall.GetNode, PoolCall.Reset, PoolCall.GetNode] =
      .ok (NodeBufType.mk 1 [zeroNode, zeroNode], [0]) ∧
    (∃ nbt0, NewNodeBuf 1 = .ok nbt0 ∧ nbt0.Index = 0 ∧ nbt0.Buf.length = (1 : Int).toNat ∧
      ∃ nbt handed, runPoolCalls nbt0 []
          [PoolCall.GetNode, PoolCall.GetNode, PoolCall.Reset, PoolCall.GetNode] =
          .ok (nbt, handed) ∧
        (0 ≤ nbt.Index ∧ nbt.Index ≤ nbt.Buf.length) ∧
        handed = List.range handed.length ∧ nbt.Index = handed.length ∧ handed.Nodup) :=
  ⟨rfl, (pool_calls_invariant 1 (by decide)
    [PoolCall.GetNode, PoolCall.GetNode, PoolCall.Reset, PoolCall.GetNode]).1⟩

/-! ## The pointer, interface and struct variants -/

theorem ParquetPtr.ptr_marshal_some (p : Nat) (nodeBuf : NodeBufType) (stack : List Nat) (w : Val)
    (pm : Option PathMapType) (r d : Int)
    (hnode : nodeBuf.node p = Node.mk (.ptr (some w)) pm r d) :
    ParquetPtr.Marshal p nodeBuf stack =
      .ok (nodeBuf.update p fun _ => Node.mk w pm r (wrapInt32 (d + 1)), stack ++ [p]) := by
  simp only [ParquetPtr.Marshal, hnode, Val.IsNil, Val.Elem, bind, Except.bind, pure,
    Except.pure, Option.isNone_some, NodeBufType.update_update, Bool.false_eq_true, if_false]
  rw [NodeBufType.update_congr _ p _ (fun _ => Node.mk w pm r (wrapInt32 (d + 1)))
    (by rw [hnode])]

theorem ParquetInterface.iface_marshal_some (p : Nat) (nodeBuf : NodeBufType) (stack : List Nat)
    (w : Val) (pm : Option PathMapType) (r d : Int)
    (hnode : nodeBuf.node p = Node.mk (.iface (some w)) pm r d) :
    ParquetInterface.Marshal p nodeBuf stack =
      .ok (nodeBuf.update p fun _ => Node.mk w pm r d, stack ++ [p]) := by
  simp only [ParquetInterface.Marshal, hnode, Val.IsNil, Val.Elem, bind, Except.bind, pure,
    Except.pure, Option.isNone_some, Bool.false_eq_true, if_false]
  rw [NodeBufType.update_congr _ p _ (fun _ => Node.mk w pm r d) (by rw [hnode])]

/-- C15: on a node holding a nil pointer `(*ParquetPtr).Marshal` returns the
pool and the stack unchanged, and so does `(*ParquetInterface).Marshal` on a
node holding a nil interface.  On a node holding a non-nil pointer to `w` at
the levels `(d, r)`, `(*ParquetPtr).Marshal` returns the stack extended by that
one node, which now holds `w`, the same path tree node, the same repetition
level and the definition level `d + 1` (in `int32` arithmetic, which is
`d + 1` below the largest `int32`); `(*ParquetInterface).Marshal` on a non-nil
interface does the same with the definition level `d` unchanged.  No other
node of the pool changes. -/
theorem pointer_and_interface_unwrap (p : Nat) (nodeBuf : NodeBufType) (stack : List Nat)
    (pm : Option PathMapType) (r d : Int) :
    (nodeBuf.node p = Node.mk (.ptr none) pm r d →
      ParquetPtr.Marshal p nodeBuf stack = .ok (nodeBuf, stack)) ∧
    (nodeBuf.node p = Node.mk (.iface none) pm r d →
      ParquetInterface.Marshal p nodeBuf stack = .ok (nodeBuf, stack)) ∧
    (∀ w, nodeBuf.node p = Node.mk (.ptr (some w)) pm r d →
      ∃ nodeBuf1, ParquetPtr.Marshal p nodeBuf stack = .ok (nodeBuf1, stack ++ [p]) ∧
        nodeBuf1.node p = Node.mk w pm r (wrapInt32 (d + 1)) ∧
        (-2147483648 ≤ d → d < 2147483647 → wrapInt32 (d + 1) = d + 1) ∧
        nodeBuf1.Index = nodeBuf.Index ∧ ∀ q, q ≠ p → nodeBuf1.node q = nodeBuf.node q) ∧
    (∀ w, nodeBuf.node p = Node.mk (.iface (some w)) pm r d →
      ∃ nodeBuf1, ParquetInterface.Marshal p nodeBuf stack = .ok (nodeBuf1, stack ++ [p]) ∧
        nodeBuf1.node p = Node.mk w pm r d ∧
        nodeBuf1.Index = nodeBuf.Index ∧ ∀ q, q ≠ p → nodeBuf1.node q = nodeBuf.node q) := by
  refine ⟨?_, ?_, ?_, ?_⟩
  · intro hnode
    simp [ParquetPtr.Marshal, hnode, Val.IsNil, bind, Except.bind, pure, Except.pure]
  · intro hnode
    simp [ParquetInterface.Marshal, hnode, Val.IsNil, bind, Except.bind, pure, Except.pure]
  · intro w hnode
    have hlt : p < nodeBuf.Buf.length := NodeBufType.lt_length_of_node hnode rfl
    exact ⟨_, ParquetPtr.ptr_marshal_some p nodeBuf stack w pm r d hnode,
      NodeBufType.node_update_self _ _ _ hlt, fun h1 h2 => wrapInt32_eq (by omega) (by omega),
      rfl, fun q hq => NodeBufType.node_update_ne _ _ _ _ hq⟩
  · intro w hnode
    have hlt : p < nodeBuf.Buf.length := NodeBufType.lt_length_of_node hnode rfl
    exact ⟨_, ParquetInterface.iface_marshal_some p nodeBuf stack w pm r d hnode,
      NodeBufType.node_update_self _ _ _ hlt, rfl,
      fun q hq => NodeBufType.node_update_ne _ _ _ _ hq⟩

/-- Witness of `pointer_and_interface_unwrap` on a pool of one slot whose node
holds a pointer to the string "a" at the levels `(0, 0)`. -/
theorem pointer_and_interface_unwrap_witness :
    ∃ nodeBuf1, ParquetPtr.Marshal 0
        (NodeBufType.mk 1 [Node.mk (.ptr (some (.str "a"))) none 0 0]) [] =
        .ok (nodeBuf1, [] ++ [0]) ∧
      nodeBuf1.node 0 = Node.mk (.str "a") none 0 (wrapInt32 (0 + 1)) ∧
      (-2147483648 ≤ (0 : Int) → (0 : Int) < 2147483647 → wrapInt32 (0 + 1) = 0 + 1) ∧
      nodeBuf1.Index = (NodeBufType.mk 1 [Node.mk (.ptr (some (.str "a"))) none 0 0]).Index ∧
      ∀ q, q ≠ 0 → nodeBuf1.node q =
        (NodeBufType.mk 1 [Node.mk (.ptr (some (.str "a"))) none 0 0]).node q :=
  (pointer_and_interface_unwrap 0 (NodeBufType.mk 1 [Node.mk (.ptr (some (.str "a"))) none 0 0])
    [] none 0 0).2.2.1 (.str "a") rfl

theorem ParquetStruct.struct_loop_total (c : Collaborators) (p : Nat)
    (fs : List (String × Val)) (pm : PathMapType) (r d : Int) (n : Nat) :
    ∀ (j : Nat) (nodeBuf : NodeBufType) (stack : List Nat), nodeBuf.Valid →
      p < nodeBuf.Index.toNat →
      nodeBuf.node p = Node.mk (.struct fs) (some pm) r d → j + n = fs.length →
      ∃ res, ParquetStruct.loop c p n j nodeBuf stack = .ok res := by
  induction n with
  | zero =>
    intro j nb stack _ _ _ _
    exact ⟨_, rfl⟩
  | succ n ih =>
    intro j nb stack hv hp hN hj
    have hjlt : j < fs.length := by omega
    obtain ⟨⟨name, v⟩, hf⟩ : ∃ nv, fs[j] = nv := ⟨_, rfl⟩
    have hget? : fs[j]? = some (name, v) := by rw [List.getElem?_eq_getElem hjlt, hf]
    simp only [ParquetStruct.loop, hN, Val.FieldName, hget?, bind, Except.bind]
    split
    · exact ih (j + 1) nb stack hv hp hN (by omega)
    · obtain ⟨nbg, hget, hidx, hvg, hlen, hsame⟩ := nb.GetNode_spec hv
      have hne : p ≠ nb.Index.toNat := by omega
      have h0 := hv.1
      simp only [hget, hsame, hN]
      cases hch : pm.child name with
      | none =>
        simp only
        exact ih (j + 1) _ stack (NodeBufType.update_valid _ _ _ hvg)
          (by simp only [NodeBufType.update_Index, hidx]; omega)
          (by rw [NodeBufType.node_update_ne _ _ _ _ hne, hsame, hN]) (by omega)
      | some child =>
        simp only [NodeBufType.node_update_ne _ _ _ _ hne, hsame, hN, Val.Field, hget?,
          NodeBufType.update_update]
        exact ih (j + 1) _ _ (NodeBufType.update_valid _ _ _ hvg)
          (by simp only [NodeBufType.update_Index, hidx]; omega)
          (by rw [NodeBufType.node_update_ne _ _ _ _ hne, hsame, hN]) (by omega)

theorem structChildren_eq_filterMap (c : Collaborators) (pm : PathMapType) (r d : Int)
    (fs : List (String × Val)) :
    structChildren c (some pm) r d fs = fs.filterMap fun f =>
      if c.IsInternalField f.1 then none
      else (pm.child f.1).map fun child => Node.mk f.2 (some child) r d := by
  induction fs with
  | nil => rfl
  | cons a rest ih =>
    obtain ⟨name, v⟩ := a
    simp only [structChildren, Option.some_bind, List.filterMap_cons]
    by_cases hint : c.IsInternalField name = true
    · simp only [hint, if_true]
      exact ih
    · simp only [hint, Bool.false_eq_true, if_false]
      cases hch : pm.child name with
      | none => simpa using ih
      | some child => simp [ih]

/-- C16: on a node of the pool that holds a struct with the fields `fs`, the
path tree node `pm` and the levels `(d, r)`, `(*ParquetStruct).Marshal` does
not panic and returns the input stack extended by one fresh slot for every
field whose name is not internal and is a child of `pm`, in the order of the
fields; the node in each of these slots holds the value of its field, the
child of `pm` of that name, and the levels `(d, r)`.  A field whose name is
not a child of `pm` pushes nothing.  The nodes that were in use before the
call, those of the input stack among them, are unchanged. -/
theorem struct_fields_pushed (c : Collaborators) (p : Nat) (nodeBuf : NodeBufType)
    (stack : List Nat) (fs : List (String × Val)) (pm : PathMapType) (r d : Int)
    (hv : nodeBuf.Valid) (hp : p < nodeBuf.Index.toNat)
    (hnode : nodeBuf.node p = Node.mk (.struct fs) (some pm) r d) :
    ∃ nodeBuf1 slots, ParquetStruct.Marshal c p nodeBuf stack = .ok (nodeBuf1, stack ++ slots) ∧
      slots.map nodeBuf1.node = (fs.filterMap fun f =>
        if c.IsInternalField f.1 then none
        else (pm.child f.1).map fun child => Node.mk f.2 (some child) r d) ∧
      slots.Pairwise (· < ·) ∧
      (∀ q ∈ slots, nodeBuf.Index.toNat ≤ q ∧ q < nodeBuf1.Index.toNat) ∧
      (∀ q, q < nodeBuf.Index.toNat → nodeBuf1.node q = nodeBuf.node q) := by
  obtain ⟨⟨nb1, stack1⟩, hloop⟩ := ParquetStruct.struct_loop_total c p fs pm r d fs.length 0
    nodeBuf stack hv hp hnode (by simp)
  have hpu := ParquetStruct.struct_loop_pushes c (fun _ => True) trivial (fun _ _ => trivial) p
    fs (some pm) r d (fun _ _ _ _ _ _ => trivial) fs.length 0 nodeBuf stack nb1 stack1 hv hp
    hnode (by simp) hloop
  obtain ⟨slots, hs, hmap, hpw, hr⟩ := hpu.slots
  refine ⟨nb1, slots, ?_, ?_, hpw, hr, hpu.frame⟩
  · simp only [ParquetStruct.Marshal, hnode, Val.NumField, bind, Except.bind]
    rw [hloop, hs]
  · rw [hmap, List.drop_zero, structChildren_eq_filterMap]

/-- Witness of `struct_fields_pushed` on the root struct of the first record
of scenario A. -/
theorem struct_fields_pushed_witness :
    ∃ nodeBuf1 slots, ParquetStruct.Marshal scenarioCollaborators 0 stateA0.nodeBuf [] =
        .ok (nodeBuf1, [] ++ slots) ∧
      slots.map nodeBuf1.node =
        ([("Name", Val.str "a"), ("Tags", Val.ptr (some (.slice [.str "x", .str "y"])))].filterMap
          fun f =>
            if scenarioCollaborators.IsInternalField f.1 then none
            else (pathMapA.child f.1).map fun child => Node.mk f.2 (some child) 0 0) ∧
      slots.Pairwise (· < ·) ∧
      (∀ q ∈ slots, stateA0.nodeBuf.Index.toNat ≤ q ∧ q < nodeBuf1.Index.toNat) ∧
      (∀ q, q < stateA0.nodeBuf.Index.toNat → nodeBuf1.node q = stateA0.nodeBuf.node q) :=
  struct_fields_pushed scenarioCollaborators 0 stateA0.nodeBuf []
    [("Name", Val.str "a"), ("Tags", Val.ptr (some (.slice [.str "x", .str "y"])))]
    pathMapA 0 0 ⟨by decide, by decide⟩ (by decide) rfl

/-! ## Null propagation -/

theorem TableMap.get?_appendNullBelow (res : TableMap) (path key : String) (dl rl : Int) :
    (res.appendNullBelow path dl rl).get? key =
      (res.get? key).map fun t => if IsChildPath path key = true then t.append none dl rl
        else t := by
  induction res with
  | nil => rfl
  | cons a rest ih =>
    obtain ⟨k, t⟩ := a
    simp only [TableMap.appendNullBelow, List.map_cons, TableMap.get?_cons] at ih ⊢
    by_cases hk : k = key
    · subst hk
      by_cases hc : IsChildPath path k = true
      · simp [hc]
      · simp [hc]
    · by_cases hc : IsChildPath path k = true
      · simp only [hc, if_true, hk, if_false]
        exact ih
      · simp only [hc, Bool.false_eq_true, if_false, hk]
        exact ih

theorem step_nothing_pushed (c : Collaborators) (sh : SchemaHandler) {s : State}
    {rest : List Nat} {p : Nat} {m : Marshaler} {nodeBuf1 : NodeBufType} {stack1 : List Nat}
    (hstack : s.stack = rest ++ [p])
    (hcls : classify sh (s.nodeBuf.node p) = .ok (some m))
    (hm : m.Marshal c sh p s.nodeBuf rest = .ok (nodeBuf1, stack1))
    (hlen : stack1.length = rest.length) :
    step c sh s = (propagateNull sh (nodeBuf1.node p) s.res).map fun res1 =>
      State.mk nodeBuf1 stack1 res1 := by
  unfold step
  rw [hstack, List.getLast?_concat]
  simp only [List.dropLast_concat, bind, Except.bind, pure, Except.pure, hcls, hm, hlen,
    if_true]
  cases propagateNull sh (nodeBuf1.node p) s.res <;> rfl

/-- C14: the null propagation.  A node of the pool at the path tree node `pm`
and the levels `(d, r)` is popped and dispatched to a variant, which returns
without a child pushed; the schema element of the path of `pm` is `e`.  Then
the iteration succeeds, provided the column of the path exists when `e` has no
children, and leaves the stack below the node.  When `e` has children, every
column whose key is a child path of the path of `pm` has gained exactly the
entry `(null, d, r)` and every other column is as before; when `e` has no
children, the column of the path has gained exactly the entry `(null, d, r)`
and every other column is as before.  The variants push no child for a nil
pointer, which keeps its level `d` (the increment comes after the test), for
a nil interface, for an empty slice whose element path resolves, and for an
empty map. -/
theorem null_propagation (c : Collaborators) (sh : SchemaHandler) (s : State)
    (rest : List Nat) (p : Nat) (v : Val) (pm : PathMapType) (r d : Int) (e : SchemaElement) :
    (∀ (m : Marshaler) (nodeBuf1 : NodeBufType) (stack1 : List Nat),
      s.stack = rest ++ [p] → s.nodeBuf.Valid → p < s.nodeBuf.Index.toNat →
      s.nodeBuf.node p = Node.mk v (some pm) r d →
      classify sh (s.nodeBuf.node p) = .ok (some m) →
      m.Marshal c sh p s.nodeBuf rest = .ok (nodeBuf1, stack1) →
      stack1.length = rest.length →
      sh.element (sh.mapIndex pm.Path) = .ok e →
      (¬ e.GetNumChildren > 0 → (s.res.get? pm.Path).isSome = true) →
      ∃ s1, step c sh s = .ok s1 ∧ s1.stack = rest ∧
        (e.GetNumChildren > 0 → ∀ key, s1.res.get? key = (s.res.get? key).map fun t =>
          if IsChildPath pm.Path key = true then t.append none d r else t) ∧
        (¬ e.GetNumChildren > 0 →
          s1.res.get? pm.Path = (s.res.get? pm.Path).map (fun t => t.append none d r) ∧
          ∀ key, key ≠ pm.Path → s1.res.get? key = s.res.get? key)) ∧
    (s.nodeBuf.node p = Node.mk (.ptr none) (some pm) r d →
      ParquetPtr.Marshal p s.nodeBuf rest = .ok (s.nodeBuf, rest)) ∧
    (s.nodeBuf.node p = Node.mk (.iface none) (some pm) r d →
      ParquetInterface.Marshal p s.nodeBuf rest = .ok (s.nodeBuf, rest)) ∧
    (s.nodeBuf.node p = Node.mk (.slice []) (some pm) r d →
      ∀ x, ParquetSlice.resolve sh pm = .ok x →
        ParquetSlice.Marshal sh p s.nodeBuf rest = .ok (s.nodeBuf, rest)) ∧
    (s.nodeBuf.node p = Node.mk (.map []) (some pm) r d →
      ParquetMap.Marshal sh p s.nodeBuf rest = .ok (s.nodeBuf, rest) ∧
      ParquetMapStruct.Marshal sh p s.nodeBuf rest = .ok (s.nodeBuf, rest)) := by
  refine ⟨?_, ?_, ?_, ?_, ?_⟩
  · intro m nb1 stack1 hstack hvalid hp hnode hcls hm hlen he hleaf
    have hd := Marshal_dispatched c sh (nodeRule_trivial sh) hvalid hp (fun _ _ => trivial)
      hcls hm
    obtain ⟨added, hadd, _, _, _, hempty⟩ := hd.added
    have hadd0 : added = [] := by
      rw [hadd, List.length_append] at hlen
      exact List.length_eq_zero.1 (by omega)
    have hsame : nb1.node p = Node.mk v (some pm) r d := by rw [hempty hadd0, hnode]
    have hst : stack1 = rest := by rw [hadd, hadd0, List.append_nil]
    rw [step_nothing_pushed c sh hstack hcls hm hlen, hsame, hst]
    simp only [propagateNull, he, bind, Except.bind, pure, Except.pure]
    by_cases hpos : e.GetNumChildren > 0
    · simp only [hpos, if_true, Except.map]
      refine ⟨_, rfl, rfl, fun _ key => TableMap.get?_appendNullBelow _ _ _ _ _,
        fun h => absurd trivial h⟩
    · obtain ⟨t, ht⟩ := Option.isSome_iff_exists.1 (hleaf hpos)
      simp only [hpos, if_false, TableMap.appendAt_of_get? ht, Except.map]
      refine ⟨_, rfl, rfl, fun h => h.elim, fun _ => ⟨?_, ?_⟩⟩
      · simp [TableMap.get?_modifyAt_self, ht]
      · intro key hkey
        exact TableMap.get?_modifyAt_ne _ _ _ _ hkey
  · intro hnode
    simp [ParquetPtr.Marshal, hnode, Val.IsNil, bind, Except.bind, pure, Except.pure]
  · intro hnode
    simp [ParquetInterface.Marshal, hnode, Val.IsNil, bind, Except.bind, pure, Except.pure]
  · intro hnode x hx
    simp [ParquetSlice.Marshal, hnode, Val.Len, hx, bind, Except.bind, pure, Except.pure]
  · intro hnode
    constructor
    · simp [ParquetMap.Marshal, hnode, Val.MapKeys, bind, Except.bind, pure, Except.pure]
    · simp [ParquetMapStruct.Marshal, hnode, Val.MapKeys, bind, Except.bind, pure,
        Except.pure]

/-- Witness of `null_propagation` on the second record of scenario A: the
empty slice of `Tags`, at the levels `(1, 0)`, pushes no child, and the column
of the element leaf below `Tags` gains the entry `(null, 1, 0)`. -/
theorem null_propagation_witness :
    ∃ s1, step scenarioCollaborators schemaA stateAEmpty = .ok s1 ∧ s1.stack = [1] ∧
      ((SchemaElement.mk none (some .OPTIONAL) (some 1) (some 3)).GetNumChildren > 0 →
        ∀ key, s1.res.get? key = (stateAEmpty.res.get? key).map fun t =>
          if IsChildPath pathMapATags.Path key = true then t.append none 1 0 else t) ∧
      (¬ (SchemaElement.mk none (some .OPTIONAL) (some 1) (some 3)).GetNumChildren > 0 →
        s1.res.get? pathMapATags.Path =
          (stateAEmpty.res.get? pathMapATags.Path).map (fun t => t.append none 1 0) ∧
        ∀ key, key ≠ pathMapATags.Path → s1.res.get? key = stateAEmpty.res.get? key) :=
  (null_propagation scenarioCollaborators schemaA stateAEmpty [1] 2 (.slice []) pathMapATags 0 1
    (SchemaElement.mk none (some .OPTIONAL) (some 1) (some 3))).1 .ParquetSlice
    stateAEmpty.nodeBuf [1] rfl ⟨by decide, by decide⟩ (by decide) rfl rfl rfl rfl rfl
    (fun h => absurd (by decide) h)

/-! ## The logical map variant -/

theorem ParquetMap.map_loop_spec (p : Nat) (rlNow : Int) (es : List (Val × Val))
    (pm kv : PathMapType) (r d : Int) (hkv : pm.child "Key_value" = some kv) (j : Nat) :
    ∀ (nodeBuf : NodeBufType) (stack : List Nat), nodeBuf.Valid → p < nodeBuf.Index.toNat →
      nodeBuf.node p = Node.mk (.map es) (some pm) r d → j ≤ es.length →
      ∃ nodeBuf1 stack1,
        ParquetMap.loop p (es.map Prod.fst) rlNow j nodeBuf stack = .ok (nodeBuf1, stack1) ∧
        Pushes (fun _ => True) nodeBuf stack nodeBuf1 stack1 (mapChildren kv rlNow r d es j) := by
  induction j with
  | zero =>
    intro nb stack hv hp hN _
    exact ⟨nb, stack, rfl, Pushes.pushes_refl _ nb stack hv⟩
  | succ j ih =>
    intro nb stack hv hp hN hj
    obtain ⟨nbg, hget, hidx, hvg, hlen, hsame⟩ := nb.GetNode_spec hv
    have hne : p ≠ nb.Index.toNat := by omega
    have h0 := hv.1
    have hjlt : j < es.length := by omega
    obtain ⟨⟨key, value⟩, he⟩ : ∃ e, es[j] = e := ⟨_, rfl⟩
    have he? : es[j]? = some (key, value) := by rw [List.getElem?_eq_getElem hjlt, he]
    have hk? : (es.map Prod.fst)[j]? = some key := by simp [he?]
    have hgetD : es.getD j (Val.invalid, Val.invalid) = (key, value) := by
      rw [List.getD_eq_getElem?_getD, he?]; rfl
    simp only [ParquetMap.loop, bind, Except.bind, pure, Except.pure, hN, Val.MapIndexOfKey, hk?,
      he?, hget, hsame, hkv, NodeBufType.node_update_ne _ _ _ _ hne, NodeBufType.update_update]
    have h1 := Pushes.pushed (P := fun _ => True) trivial stack hv hget hidx hvg hlen hsame
      (fun _ => Node.mk key (kv.child "Key") (if j = 0 then r else rlNow) (wrapInt32 (d + 1)))
      (fun _ _ => trivial)
    have hN2 : (nbg.update nb.Index.toNat fun _ =>
        Node.mk key (kv.child "Key") (if j = 0 then r else rlNow) (wrapInt32 (d + 1))).node p =
        Node.mk (.map es) (some pm) r d := by
      rw [NodeBufType.node_update_ne _ _ _ _ hne, hsame, hN]
    obtain ⟨nbg2, hget2, hidx2, hvg2, hlen2, hsame2⟩ := NodeBufType.GetNode_spec _ h1.valid
    have hne2 : p ≠ (nbg.update nb.Index.toNat fun _ =>
        Node.mk key (kv.child "Key") (if j = 0 then r else rlNow)
          (wrapInt32 (d + 1))).Index.toNat := by
      simp only [NodeBufType.update_Index, hidx]
      omega
    simp only [hget2, hsame2, hN2, hkv, NodeBufType.node_update_ne _ _ _ _ hne2,
      NodeBufType.update_update]
    have h2 := Pushes.pushed (P := fun _ => True) trivial (stack ++ [nb.Index.toNat]) h1.valid
      hget2 hidx2 hvg2 hlen2 hsame2
      (fun _ => Node.mk value (kv.child "Value") (if j = 0 then r else rlNow)
        (wrapInt32 (d + 1)))
      (fun _ _ => trivial)
    obtain ⟨nb3, stack3, hloop, h3⟩ := ih _ _ h2.valid
      (by simp only [NodeBufType.update_Index, hidx2, hidx]; omega)
      (by rw [NodeBufType.node_update_ne _ _ _ _ hne2, hsame2, hN2]) (by omega)
    refine ⟨nb3, stack3, hloop, ?_⟩
    have h4 := Pushes.trans hv (Pushes.trans hv h1 h2) h3
    simp only [mapChildren, hgetD]
    simpa using h4

theorem classify_map (sh : SchemaHandler) (node : Node) (es : List (Val × Val))
    (pm : PathMapType) (sele : SchemaElement) (h : node.Val = .map es)
    (hpm : node.PathMap = some pm) (hsele : sh.element (sh.mapIndex pm.Path) = .ok sele) :
    classify sh node = .ok (some (if sele.IsSetConvertedType then Marshaler.ParquetMap
      else Marshaler.ParquetMapStruct)) := by
  unfold classify
  simp only [h, hpm, hsele, Val.IsValid, Val.TypeKind, Val.GetKind, Val.elemIsUint8, bind,
    Except.bind, pure, Except.pure, if_true]
  cases sele.IsSetConvertedType <;> simp

theorem steps_add (c : Collaborators) (sh : SchemaHandler) (a b : Nat) :
    ∀ s s1, steps c sh a s = .ok s1 → steps c sh (a + b) s = steps c sh b s1 := by
  induction a with
  | zero =>
    intro s s1 h
    simp only [steps] at h
    cases h
    simp
  | succ a ih =>
    intro s s1 h
    simp only [steps] at h
    split at h
    · cases h
    · rename_i s2 hs2
      rw [show a + 1 + b = (a + b) + 1 by omega, steps_succ_of_step hs2]
      exact ih s2 s1 h

theorem TableMap.modifyAt_comm (res : TableMap) (a b : String) (f g : Table → Table)
    (h : a ≠ b) : (res.modifyAt a f).modifyAt b g = (res.modifyAt b g).modifyAt a f := by
  induction res with
  | nil => rfl
  | cons x r ih =>
    obtain ⟨k, t⟩ := x
    by_cases ha : k = a
    · have hb : ¬ k = b := fun hb => h (ha.symm.trans hb)
      simp [TableMap.modifyAt, ha, hb, h]
    · by_cases hb : k = b
      · simp [TableMap.modifyAt, ha, hb, Ne.symm h]
      · simp [TableMap.modifyAt, ha, hb, ih]

/-- The columns after the first `j` entries of a map have been emitted. -/
theorem map_run (c : Collaborators) (sh : SchemaHandler) {kv pk pv : PathMapType}
    {sek sev : SchemaElement} {nodeBuf : NodeBufType} (rlNow r d : Int)
    (es : List (Val × Val)) (cvs : List (AnyVal × AnyVal))
    (hpk : kv.child "Key" = some pk) (hpv : kv.child "Value" = some pv)
    (hne : pk.Path ≠ pv.Path)
    (hsek : sh.element (sh.mapIndex pk.Path) = .ok sek)
    (hsev : sh.element (sh.mapIndex pv.Path) = .ok sev)
    (hcv : List.Forall₂ (fun e cv => e.1.IsTerminal = true ∧ e.2.IsTerminal = true ∧
      leafValue c e.1 sek = .ok cv.1 ∧ leafValue c e.2 sev = .ok cv.2) es cvs)
    (res : TableMap) (hk : (res.get? pk.Path).isSome = true)
    (hv : (res.get? pv.Path).isSome = true) (j : Nat) :
    j ≤ es.length → ∀ (slots rest : List Nat),
      slots.map nodeBuf.node = mapChildren kv rlNow r d es j →
      steps c sh (2 * j) (State.mk nodeBuf (rest ++ slots) res) =
        .ok (State.mk nodeBuf rest
          ((res.modifyAt pk.Path fun t => t.appendAll ((cvs.take j).map (·.1))
              (List.replicate j (wrapInt32 (d + 1)))
              ((List.range j).map fun i => if i = 0 then r else rlNow)).modifyAt pv.Path
            fun t => t.appendAll ((cvs.take j).map (·.2))
              (List.replicate j (wrapInt32 (d + 1)))
              ((List.range j).map fun i => if i = 0 then r else rlNow))) ∧
      ∀ fuel, traverse c sh (fuel + 2 * j) (State.mk nodeBuf (rest ++ slots) res) =
        traverse c sh fuel (State.mk nodeBuf rest
          ((res.modifyAt pk.Path fun t => t.appendAll ((cvs.take j).map (·.1))
              (List.replicate j (wrapInt32 (d + 1)))
              ((List.range j).map fun i => if i = 0 then r else rlNow)).modifyAt pv.Path
            fun t => t.appendAll ((cvs.take j).map (·.2))
              (List.replicate j (wrapInt32 (d + 1)))
              ((List.range j).map fun i => if i = 0 then r else rlNow))) := by
  induction j with
  | zero =>
    intro _ slots rest hs
    simp only [mapChildren, List.map_eq_nil_iff] at hs
    subst hs
    have hid : ∀ (x : TableMap) (path : String),
        x.modifyAt path (fun t => t.appendAll [] [] []) = x :=
      fun x path => TableMap.modifyAt_id _ _ _ (by intro t; simp [Table.appendAll])
    simp only [List.take_zero, List.map_nil, List.replicate_zero, List.range_zero, hid,
      Nat.mul_zero, steps, List.append_nil, Nat.add_zero]
    exact ⟨trivial, fun _ => trivial⟩
  | succ j ih =>
    intro hj slots rest hs
    have hjlt : j < es.length := by omega
    have hlen := hcv.length_eq
    obtain ⟨⟨key, value⟩, he⟩ : ∃ e, es[j] = e := ⟨_, rfl⟩
    have hjc : j < cvs.length := by omega
    obtain ⟨⟨kcv, vcv⟩, hc⟩ : ∃ cv, cvs[j] = cv := ⟨_, rfl⟩
    have hgetD : es.getD j (Val.invalid, Val.invalid) = (key, value) := by
      rw [List.getD_eq_getElem?_getD, List.getElem?_eq_getElem hjlt, he]; rfl
    have hrel := List.Forall₂.get hcv hjlt hjc
    simp only [List.get_eq_getElem, he, hc] at hrel
    obtain ⟨htk, htv, hlk, hlv⟩ := hrel
    simp only [mapChildren, hgetD] at hs
    obtain ⟨qk, slots1, rfl, hqk, hs1⟩ := List.map_eq_cons_iff.1 hs
    obtain ⟨qv, slots2, rfl, hqv, hs2⟩ := List.map_eq_cons_iff.1 hs1
    rw [hpk] at hqk
    rw [hpv] at hqv
    obtain ⟨ih1, ih2⟩ := ih (by omega) slots2 (rest ++ [qk, qv]) hs2
    generalize hresj : ((res.modifyAt pk.Path fun t => t.appendAll ((cvs.take j).map (·.1))
        (List.replicate j (wrapInt32 (d + 1)))
        ((List.range j).map fun i => if i = 0 then r else rlNow)).modifyAt pv.Path
      fun t => t.appendAll ((cvs.take j).map (·.2))
        (List.replicate j (wrapInt32 (d + 1)))
        ((List.range j).map fun i => if i = 0 then r else rlNow)) = resj at ih1 ih2
    have hstk : rest ++ qk :: qv :: slots2 = (rest ++ [qk, qv]) ++ slots2 := by simp
    obtain ⟨tv1, htv1⟩ : ∃ t, resj.get? pv.Path = some t := by
      rw [← hresj, TableMap.get?_modifyAt_self, TableMap.get?_modifyAt_ne _ _ _ _ (Ne.symm hne)]
      obtain ⟨t, ht⟩ := Option.isSome_iff_exists.1 hv
      exact ⟨_, by rw [ht]; rfl⟩
    have hstep1 := step_terminal c sh (State.mk nodeBuf (rest ++ [qk, qv]) resj)
      (show (rest ++ [qk, qv] : List Nat) = (rest ++ [qk]) ++ [qv] by simp) hqv htv hsev hlv htv1
    obtain ⟨tk1, htk1⟩ : ∃ t, (resj.modifyAt pv.Path fun x =>
        x.append vcv (wrapInt32 (d + 1)) (if j = 0 then r else rlNow)).get? pk.Path = some t := by
      rw [TableMap.get?_modifyAt_ne _ _ _ _ hne, ← hresj,
        TableMap.get?_modifyAt_ne _ _ _ _ hne, TableMap.get?_modifyAt_self]
      obtain ⟨t, ht⟩ := Option.isSome_iff_exists.1 hk
      exact ⟨_, by rw [ht]; rfl⟩
    have hstep2 := step_terminal c sh (State.mk nodeBuf (rest ++ [qk])
        (resj.modifyAt pv.Path fun x =>
          x.append vcv (wrapInt32 (d + 1)) (if j = 0 then r else rlNow)))
      (show (rest ++ [qk] : List Nat) = rest ++ [qk] from rfl) hqk htk hsek hlk htk1
    have hfinal : ((resj.modifyAt pv.Path fun x =>
          x.append vcv (wrapInt32 (d + 1)) (if j = 0 then r else rlNow)).modifyAt pk.Path
        fun x => x.append kcv (wrapInt32 (d + 1)) (if j = 0 then r else rlNow)) =
        ((res.modifyAt pk.Path fun t => t.appendAll ((cvs.take (j + 1)).map (·.1))
          (List.replicate (j + 1) (wrapInt32 (d + 1)))
          ((List.range (j + 1)).map fun i => if i = 0 then r else rlNow)).modifyAt pv.Path
        fun t => t.appendAll ((cvs.take (j + 1)).map (·.2))
          (List.replicate (j + 1) (wrapInt32 (d + 1)))
          ((List.range (j + 1)).map fun i => if i = 0 then r else rlNow)) := by
      have htake : cvs.take (j + 1) = cvs.take j ++ [(kcv, vcv)] := by
        rw [List.take_succ, List.getElem?_eq_getElem hjc, hc]
        rfl
      rw [← hresj, TableMap.modifyAt_modifyAt, TableMap.modifyAt_comm _ _ _ _ _ (Ne.symm hne),
        TableMap.modifyAt_modifyAt]
      simp only [htake, List.map_append, List.map_cons, List.map_nil, List.replicate_succ',
        List.range_succ, Table.appendAll, Table.append, List.append_assoc]
    rw [hfinal] at hstep2
    simp only at hstep1 hstep2
    constructor
    · rw [show 2 * (j + 1) = 2 * j + 2 by omega, hstk, steps_add c sh (2 * j) 2 _ _ ih1,
        steps_succ_of_step hstep1, steps_succ_of_step hstep2]
      rfl
    · intro fuel
      rw [show fuel + 2 * (j + 1) = (fuel + 2) + 2 * j by omega, hstk, ih2 (fuel + 2),
        traverse_of_step (by simp) hstep1 (fuel + 1), traverse_of_step (by simp) hstep2 fuel]

/-- C11: a logical map node with `k ≥ 1` entries at levels `(d, r)`, whose
keys and values are terminal, is dispatched and its entries are emitted in the
next `2k + 1` iterations of the traversal loop: the stack below the node is
left as it was, the column of the key leaf gains exactly `k` entries, the
coerced keys in the order of the entries, and the column of the value leaf
gains exactly `k` entries, the coerced values in the same order; in both
columns every entry has the definition level `d + 1` (in `int32` arithmetic),
the first has the repetition level `r` and the later ones have the maximum
repetition level of the `Key_value` path; no other column changes. -/
theorem map_entries_emitted (c : Collaborators) (sh : SchemaHandler) (s : State)
    (rest : List Nat) (n : Nat) (es : List (Val × Val)) (pm kv pk pv : PathMapType)
    (r d : Int) (sele sek sev : SchemaElement) (cvs : List (AnyVal × AnyVal)) (tk tv : Table)
    (hstack : s.stack = rest ++ [n]) (hvalid : s.nodeBuf.Valid)
    (hn : n < s.nodeBuf.Index.toNat)
    (hnode : s.nodeBuf.node n = Node.mk (.map es) (some pm) r d)
    (hk : 1 ≤ es.length)
    (hsele : sh.element (sh.mapIndex pm.Path) = .ok sele)
    (hconv : sele.IsSetConvertedType = true)
    (hkv : pm.child "Key_value" = some kv)
    (hpk : kv.child "Key" = some pk) (hpv : kv.child "Value" = some pv)
    (hne : pk.Path ≠ pv.Path)
    (hsek : sh.element (sh.mapIndex pk.Path) = .ok sek)
    (hsev : sh.element (sh.mapIndex pv.Path) = .ok sev)
    (hcv : List.Forall₂ (fun e cv => e.1.IsTerminal = true ∧ e.2.IsTerminal = true ∧
      leafValue c e.1 sek = .ok cv.1 ∧ leafValue c e.2 sev = .ok cv.2) es cvs)
    (htk : s.res.get? pk.Path = some tk) (htv : s.res.get? pv.Path = some tv) :
    ∃ s1, steps c sh (2 * es.length + 1) s = .ok s1 ∧
      (∀ fuel, traverse c sh (fuel + (2 * es.length + 1)) s = traverse c sh fuel s1) ∧
      s1.stack = rest ∧
      s1.res.get? pk.Path = some (tk.appendAll (cvs.map (·.1))
        (List.replicate es.length (wrapInt32 (d + 1)))
        (r :: List.replicate (es.length - 1) (sh.MaxRepetitionLevel
          (StrToPath (pm.Path ++ PAR_GO_PATH_DELIMITER ++ "Key_value"))))) ∧
      s1.res.get? pv.Path = some (tv.appendAll (cvs.map (·.2))
        (List.replicate es.length (wrapInt32 (d + 1)))
        (r :: List.replicate (es.length - 1) (sh.MaxRepetitionLevel
          (StrToPath (pm.Path ++ PAR_GO_PATH_DELIMITER ++ "Key_value"))))) ∧
      (∀ key, key ≠ pk.Path → key ≠ pv.Path → s1.res.get? key = s.res.get? key) := by
  set rlNow := sh.MaxRepetitionLevel (StrToPath (pm.Path ++ PAR_GO_PATH_DELIMITER ++ "Key_value"))
    with hrl
  obtain ⟨nb1, stack1, hloop, hpu⟩ := ParquetMap.map_loop_spec n rlNow es pm kv r d hkv es.length
    s.nodeBuf rest hvalid hn hnode (le_refl _)
  obtain ⟨slots, hs, hmap, _, _⟩ := hpu.slots
  subst hs
  have hslen : slots.length = 2 * es.length := by
    have := congrArg List.length hmap
    rw [List.length_map] at this
    rw [this]
    clear this hmap hpu hloop
    generalize es.length = k
    induction k with
    | zero => rfl
    | succ k ih => simp only [mapChildren, List.length_cons, ih]; omega
  have hstep : step c sh s = .ok (State.mk nb1 (rest ++ slots) s.res) := by
    unfold step
    rw [hstack, List.getLast?_concat]
    simp only [List.dropLast_concat, bind, Except.bind, pure, Except.pure]
    rw [classify_map sh _ es pm sele (by rw [hnode]) (by rw [hnode]) hsele]
    have hpos : ¬ es.length ≤ 0 := by omega
    simp only [hconv, if_true, Marshaler.Marshal, ParquetMap.Marshal, hnode, Val.MapKeys, bind,
      Except.bind, pure, Except.pure, List.length_map, hpos, if_false, ← hrl, hloop]
    have hlen : ¬ (rest ++ slots).length = rest.length := by
      rw [List.length_append]; omega
    simp only [hlen, if_false]
  have hlen2 := hcv.length_eq
  obtain ⟨r1, r2⟩ := map_run c sh rlNow r d es cvs hpk hpv hne hsek hsev hcv s.res
    (by rw [htk]; rfl) (by rw [htv]; rfl) es.length (le_refl _) slots rest hmap
  have htake : cvs.take es.length = cvs := List.take_of_length_le (by omega)
  rw [htake, range_map_first es.length r rlNow hk] at r1 r2
  have hne0 : s.stack ≠ [] := by rw [hstack]; simp
  refine ⟨_, (steps_succ_of_step hstep (2 * es.length)).trans r1, ?_, ?_, ?_, ?_, ?_⟩
  · intro fuel
    rw [← Nat.add_assoc, traverse_of_step hne0 hstep]
    exact r2 fuel
  · rfl
  · simp only
    rw [TableMap.get?_modifyAt_ne _ _ _ _ hne, TableMap.get?_modifyAt_self, htk]
    rfl
  · simp only
    rw [TableMap.get?_modifyAt_self, TableMap.get?_modifyAt_ne _ _ _ _ (Ne.symm hne), htv]
    rfl
  · intro key h1 h2
    simp only
    rw [TableMap.get?_modifyAt_ne _ _ _ _ h2, TableMap.get?_modifyAt_ne _ _ _ _ h1]

/-- Witness of `map_entries_emitted` on the logical map scenario: the map
`{"a": 1, "b": 2}` at the levels `(0, 0)`. -/
theorem map_entries_emitted_witness :
    ∃ s1, steps scenarioCollaborators schemaM
        (2 * [(Val.str "a", Val.int 1), (Val.str "b", Val.int 2)].length + 1) stateM = .ok s1 ∧
      (∀ fuel, traverse scenarioCollaborators schemaM
          (fuel + (2 * [(Val.str "a", Val.int 1), (Val.str "b", Val.int 2)].length + 1)) stateM =
        traverse scenarioCollaborators schemaM fuel s1) ∧
      s1.stack = [] ∧
      s1.res.get? pathMapMKey.Path = some ((tableM pathMapMKey.Path).appendAll
        ([(some (Val.str "a"), some (Val.int 1)), (some (Val.str "b"), some (Val.int 2))].map
          (·.1))
        (List.replicate [(Val.str "a", Val.int 1), (Val.str "b", Val.int 2)].length
          (wrapInt32 (0 + 1)))
        (0 :: List.replicate ([(Val.str "a", Val.int 1), (Val.str "b", Val.int 2)].length - 1)
          (schemaM.MaxRepetitionLevel
            (StrToPath (pathMapMProps.Path ++ PAR_GO_PATH_DELIMITER ++ "Key_value"))))) ∧
      s1.res.get? pathMapMValue.Path = some ((tableM pathMapMValue.Path).appendAll
        ([(some (Val.str "a"), some (Val.int 1)), (some (Val.str "b"), some (Val.int 2))].map
          (·.2))
        (List.replicate [(Val.str "a", Val.int 1), (Val.str "b", Val.int 2)].length
          (wrapInt32 (0 + 1)))
        (0 :: List.replicate ([(Val.str "a", Val.int 1), (Val.str "b", Val.int 2)].length - 1)
          (schemaM.MaxRepetitionLevel
            (StrToPath (pathMapMProps.Path ++ PAR_GO_PATH_DELIMITER ++ "Key_value"))))) ∧
      (∀ key, key ≠ pathMapMKey.Path → key ≠ pathMapMValue.Path →
        s1.res.get? key = stateM.res.get? key) :=
  map_entries_emitted scenarioCollaborators schemaM stateM [] 1
    [(Val.str "a", Val.int 1), (Val.str "b", Val.int 2)]
    pathMapMProps pathMapMKeyValue pathMapMKey pathMapMValue 0 0
    (SchemaElement.mk none (some .REQUIRED) (some 1) (some 1))
    (SchemaElement.mk (some .BYTE_ARRAY) (some .REQUIRED) none (some 0))
    (SchemaElement.mk (some .INT64) (some .REQUIRED) none none)
    [(some (Val.str "a"), some (Val.int 1)), (some (Val.str "b"), some (Val.int 2))]
    (tableM pathMapMKey.Path) (tableM pathMapMValue.Path)
    rfl ⟨by decide, by decide⟩ (by decide) rfl (by decide) rfl rfl rfl rfl rfl (by decide)
    rfl rfl
    (List.Forall₂.cons ⟨rfl, rfl, rfl, rfl⟩ (List.Forall₂.cons ⟨rfl, rfl, rfl, rfl⟩
      List.Forall₂.nil))
    rfl rfl

/-! ## The struct-shaped map variant -/

theorem ParquetMapStruct.loop_succ_present (sh : SchemaHandler) (p : Nat)
    (es : List (Val × Val)) (pm child : PathMapType) (r d : Int) (j : Nat) (key v : Val)
    (nodeBuf : NodeBufType) (stack : List Nat) (missingKeys : List (String × Bool))
    (hv : nodeBuf.Valid) (hp : p < nodeBuf.Index.toNat)
    (hN : nodeBuf.node p = Node.mk (.map es) (some pm) r d)
    (he : es[j]? = some (key, v)) (hch : pm.child key.KeyString = some child) :
    ∃ nbg, nodeBuf.GetNode = .ok (nbg, nodeBuf.Index.toNat) ∧
      ParquetMapStruct.loop sh p (es.map Prod.fst) (j + 1) nodeBuf stack missingKeys =
        match mapStructChild sh child r d v with
        | .error e => .error e
        | .ok n => ParquetMapStruct.loop sh p (es.map Prod.fst) j
            (nbg.update nodeBuf.Index.toNat fun _ => n) (stack ++ [nodeBuf.Index.toNat])
            (setMissing missingKeys key.KeyString false) := by
  obtain ⟨nbg, hget, hidx, hvg, hlen, hsame⟩ := nodeBuf.GetNode_spec hv
  have hne : p ≠ nodeBuf.Index.toNat := by omega
  have hk? : (es.map Prod.fst)[j]? = some key := by simp [he]
  refine ⟨nbg, hget, ?_⟩
  simp only [ParquetMapStruct.loop, bind, Except.bind, pure, Except.pure, hk?, hget, hsame, hN,
    hch, NodeBufType.node_update_ne _ _ _ _ hne, NodeBufType.update_update,
    NodeBufType.node_update_self _ _ _ hlen, Val.MapIndexOfKey, he, mapStructChild]
  cases v <;> simp [Val.TypeKind, Val.IsValid, Val.GetKind, Val.Elem]
  case iface e =>
    cases e with
    | none => simp [Val.IsValid]
    | some w =>
      cases hel : sh.element (sh.mapIndex child.Path) with
      | error err => cases w <;> simp
      | ok e1 =>
        cases hrt : e1.RepetitionType with
        | none => cases w <;> simp [hrt]
        | some rt =>
          by_cases hreq : rt = FieldRepetitionType.REQUIRED <;> cases w <;> simp [hrt, hreq]

theorem ParquetMapStruct.loop_succ_absent (sh : SchemaHandler) (p : Nat)
    (es : List (Val × Val)) (pm : PathMapType) (r d : Int) (j : Nat) (key v : Val)
    (nodeBuf : NodeBufType) (stack : List Nat) (missingKeys : List (String × Bool))
    (hv : nodeBuf.Valid)
    (hN : nodeBuf.node p = Node.mk (.map es) (some pm) r d)
    (he : es[j]? = some (key, v)) (hch : pm.child key.KeyString = none) :
    ∃ nbg, nodeBuf.GetNode = .ok (nbg, nodeBuf.Index.toNat) ∧
      ParquetMapStruct.loop sh p (es.map Prod.fst) (j + 1) nodeBuf stack missingKeys =
        ParquetMapStruct.loop sh p (es.map Prod.fst) j
          (nbg.update nodeBuf.Index.toNat fun x => { x with PathMap := none }) stack
          missingKeys := by
  obtain ⟨nbg, hget, hidx, hvg, hlen, hsame⟩ := nodeBuf.GetNode_spec hv
  have hk? : (es.map Prod.fst)[j]? = some key := by simp [he]
  refine ⟨nbg, hget, ?_⟩
  simp only [ParquetMapStruct.loop, bind, Except.bind, pure, Except.pure, hk?, hget, hsame, hN,
    hch]

theorem presentEntries_succ (pm : PathMapType) (es : List (Val × Val)) (j : Nat)
    (e : Val × Val) (he : es[j]? = some e) :
    presentEntries pm es (j + 1) =
      (match pm.child e.1.KeyString with
        | some child => [(e, child)]
        | none => []) ++ presentEntries pm es j := by
  simp only [presentEntries, List.take_succ, he, Option.toList, List.reverse_append,
    List.reverse_cons, List.reverse_nil, List.nil_append, List.singleton_append,
    List.filterMap_cons]
  cases pm.child e.1.KeyString <;> rfl

theorem ParquetMapStruct.loop_content (sh : SchemaHandler) (p : Nat) (es : List (Val × Val))
    (pm : PathMapType) (r d : Int) (j : Nat) :
    ∀ (nodeBuf : NodeBufType) (stack : List Nat) (missingKeys : List (String × Bool))
      (nodeBuf1 : NodeBufType) (stack1 : List Nat) (missingKeys1 : List (String × Bool)),
      nodeBuf.Valid → p < nodeBuf.Index.toNat → j ≤ es.length →
      nodeBuf.node p = Node.mk (.map es) (some pm) r d →
      ParquetMapStruct.loop sh p (es.map Prod.fst) j nodeBuf stack missingKeys =
        .ok (nodeBuf1, stack1, missingKeys1) →
      ∃ content, Pushes (fun _ => True) nodeBuf stack nodeBuf1 stack1 content ∧
        List.Forall₂ (fun ec n => mapStructChild sh ec.2 r d ec.1.2 = .ok n)
          (presentEntries pm es j) content ∧
        missingKeys1 = (presentEntries pm es j).foldl
          (fun m ec => setMissing m ec.1.1.KeyString false) missingKeys := by
  induction j with
  | zero =>
    intro nb stack mk nb1 stack1 mk1 hv hp _ hN h
    simp only [ParquetMapStruct.loop] at h
    cases h
    exact ⟨[], Pushes.pushes_refl _ nb stack hv, by simp [presentEntries],
      by simp [presentEntries]⟩
  | succ j ih =>
    intro nb stack mk nb1 stack1 mk1 hv hp hj hN h
    have hjlt : j < es.length := by omega
    obtain ⟨⟨key, v⟩, he⟩ : ∃ e, es[j] = e := ⟨_, rfl⟩
    have he? : es[j]? = some (key, v) := by rw [List.getElem?_eq_getElem hjlt, he]
    have hne : p ≠ nb.Index.toNat := by omega
    have h0 := hv.1
    rw [presentEntries_succ pm es j (key, v) he?]
    cases hch : pm.child key.KeyString with
    | none =>
      obtain ⟨nbg, hget, hloop⟩ := ParquetMapStruct.loop_succ_absent sh p es pm r d j key v nb
        stack mk hv hN he? hch
      obtain ⟨_, _, hidx, hvg, hlen, hsame⟩ := NodeBufType.GetNode_ok hv hget
      rw [hloop] at h
      have h1 := Pushes.skipped (P := fun _ => True) trivial stack hv hget hidx hvg hsame
        (fun x => { x with PathMap := none }) (fun _ _ => trivial)
      obtain ⟨c2, h2, hf, hmk⟩ := ih _ stack mk nb1 stack1 mk1 h1.valid
        (by simp only [NodeBufType.update_Index, hidx]; omega) (by omega)
        (by rw [NodeBufType.node_update_ne _ _ _ _ hne, hsame, hN]) h
      refine ⟨c2, ?_, ?_, ?_⟩
      · simpa using Pushes.trans hv h1 h2
      · simpa using hf
      · simpa using hmk
    | some child =>
      obtain ⟨nbg, hget, hloop⟩ := ParquetMapStruct.loop_succ_present sh p es pm child r d j key
        v nb stack mk hv hp hN he? hch
      obtain ⟨_, _, hidx, hvg, hlen, hsame⟩ := NodeBufType.GetNode_ok hv hget
      rw [hloop] at h
      cases hmc : mapStructChild sh child r d v with
      | error err => simp [hmc] at h
      | ok n =>
        simp only [hmc] at h
        have h1 := Pushes.pushed (P := fun _ => True) trivial stack hv hget hidx hvg hlen hsame
          (fun _ => n) (fun _ _ => trivial)
        obtain ⟨c2, h2, hf, hmk⟩ := ih _ _ _ nb1 stack1 mk1 h1.valid
          (by simp only [NodeBufType.update_Index, hidx]; omega) (by omega)
          (by rw [NodeBufType.node_update_ne _ _ _ _ hne, hsame, hN]) h
        refine ⟨n :: c2, ?_, ?_, ?_⟩
        · simpa using Pushes.trans hv h1 h2
        · simp only [List.singleton_append]
          exact List.Forall₂.cons hmc hf
        · simpa using hmk

theorem ParquetMapStruct.fill_spec (p : Nat) (v : Val) (pm : PathMapType) (r d : Int)
    (missingKeys : List (String × Bool)) :
    ∀ (nodeBuf : NodeBufType) (stack : List Nat), nodeBuf.Valid → p < nodeBuf.Index.toNat →
      nodeBuf.node p = Node.mk v (some pm) r d →
      ∃ nodeBuf1 stack1, ParquetMapStruct.fill p missingKeys nodeBuf stack =
          .ok (nodeBuf1, stack1) ∧
        Pushes (fun _ => True) nodeBuf stack nodeBuf1 stack1
          (missingChildren pm r d missingKeys) := by
  induction missingKeys with
  | nil =>
    intro nb stack hv hp hN
    exact ⟨nb, stack, rfl, Pushes.pushes_refl _ nb stack hv⟩
  | cons a rest ih =>
    obtain ⟨k, isMissing⟩ := a
    intro nb stack hv hp hN
    simp only [ParquetMapStruct.fill, missingChildren, bind, Except.bind]
    cases isMissing with
    | false =>
      simp only [Bool.false_eq_true, if_false]
      exact ih nb stack hv hp hN
    | true =>
      simp only [if_true]
      obtain ⟨nbg, hget, hidx, hvg, hlen, hsame⟩ := nb.GetNode_spec hv
      have hne : p ≠ nb.Index.toNat := by omega
      have h0 := hv.1
      simp only [hget, hsame, hN, NodeBufType.node_update_ne _ _ _ _ hne,
        NodeBufType.update_update]
      have h1 := Pushes.pushed (P := fun _ => True) trivial stack hv hget hidx hvg hlen hsame
        (fun _ => Node.mk Val.invalid (pm.child k) r d) (fun _ _ => trivial)
      obtain ⟨nb2, stack2, hfill, h2⟩ := ih _ (stack ++ [nb.Index.toNat]) h1.valid
        (by simp only [NodeBufType.update_Index, hidx]; omega)
        (by rw [NodeBufType.node_update_ne _ _ _ _ hne, hsame, hN])
      refine ⟨nb2, stack2, hfill, ?_⟩
      simpa using Pushes.trans hv h1 h2

/-! ## The map of missing keys -/

theorem setMissing_keys (mk : List (String × Bool)) (k : String) (b : Bool) (k1 : String) :
    k1 ∈ (setMissing mk k b).map Prod.fst ↔ k1 = k ∨ k1 ∈ mk.map Prod.fst := by
  induction mk with
  | nil => simp [setMissing]
  | cons a rest ih =>
    obtain ⟨k0, b0⟩ := a
    simp only [setMissing]
    split
    · rename_i h
      subst h
      simp only [List.map_cons, List.mem_cons]
      tauto
    · simp only [List.map_cons, List.mem_cons, ih]
      tauto

theorem setMissing_nodup (mk : List (String × Bool)) (k : String) (b : Bool)
    (h : (mk.map Prod.fst).Nodup) : ((setMissing mk k b).map Prod.fst).Nodup := by
  induction mk with
  | nil => simp [setMissing]
  | cons a rest ih =>
    obtain ⟨k0, b0⟩ := a
    simp only [List.map_cons, List.nodup_cons] at h
    simp only [setMissing]
    split
    · simp only [List.map_cons, List.nodup_cons]
      exact h
    · rename_i hne
      simp only [List.map_cons, List.nodup_cons]
      refine ⟨?_, ih h.2⟩
      rw [setMissing_keys]
      intro hmem
      rcases hmem with rfl | hmem
      · exact hne rfl
      · exact h.1 hmem

theorem mem_setMissing (mk : List (String × Bool)) (k : String) (b : Bool)
    (h : (mk.map Prod.fst).Nodup) (k1 : String) (b1 : Bool) :
    (k1, b1) ∈ setMissing mk k b ↔ (k1 = k ∧ b1 = b) ∨ (k1 ≠ k ∧ (k1, b1) ∈ mk) := by
  induction mk with
  | nil => simp [setMissing]
  | cons a rest ih =>
    obtain ⟨k0, b0⟩ := a
    simp only [List.map_cons, List.nodup_cons] at h
    simp only [setMissing]
    split
    · rename_i heq
      subst heq
      simp only [List.mem_cons, Prod.mk.injEq]
      constructor
      · rintro (⟨rfl, rfl⟩ | hmem)
        · exact Or.inl ⟨rfl, rfl⟩
        · refine Or.inr ⟨?_, Or.inr hmem⟩
          rintro rfl
          exact h.1 (List.mem_map_of_mem Prod.fst hmem)
      · rintro (⟨rfl, rfl⟩ | ⟨hne, hmem⟩)
        · exact Or.inl ⟨rfl, rfl⟩
        · rcases hmem with ⟨rfl, _⟩ | hmem
          · exact absurd rfl hne
          · exact Or.inr hmem
    · rename_i hne
      simp only [List.mem_cons, Prod.mk.injEq, ih h.2]
      constructor
      · rintro (⟨rfl, rfl⟩ | ⟨rfl, rfl⟩ | ⟨hne1, hmem⟩)
        · exact Or.inr ⟨hne, Or.inl ⟨rfl, rfl⟩⟩
        · exact Or.inl ⟨rfl, rfl⟩
        · exact Or.inr ⟨hne1, Or.inr hmem⟩
      · rintro (⟨rfl, rfl⟩ | ⟨hne1, ⟨rfl, rfl⟩ | hmem⟩)
        · exact Or.inr (Or.inl ⟨rfl, rfl⟩)
        · exact Or.inl ⟨rfl, rfl⟩
        · exact Or.inr (Or.inr ⟨hne1, hmem⟩)

theorem initMissing_spec (children : List (String × PathMapType)) :
    ∀ mk : List (String × Bool), (mk.map Prod.fst).Nodup → (∀ x ∈ mk, x.2 = true) →
      ((ParquetMapStruct.initMissing children mk).map Prod.fst).Nodup ∧
      (∀ x ∈ ParquetMapStruct.initMissing children mk, x.2 = true) ∧
      ∀ k, k ∈ (ParquetMapStruct.initMissing children mk).map Prod.fst ↔
        k ∈ mk.map Prod.fst ∨ ∃ typ, (k, typ) ∈ children ∧ typ.Children.length = 0 := by
  induction children with
  | nil =>
    intro mk hnd hall
    refine ⟨hnd, hall, fun k => ?_⟩
    simp [ParquetMapStruct.initMissing]
  | cons a rest ih =>
    obtain ⟨k0, typ0⟩ := a
    intro mk hnd hall
    simp only [ParquetMapStruct.initMissing]
    split
    · rename_i hleaf
      have hall1 : ∀ x ∈ setMissing mk k0 true, x.2 = true := by
        intro x hx
        obtain ⟨k1, b1⟩ := x
        rcases (mem_setMissing mk k0 true hnd k1 b1).1 hx with ⟨_, rfl⟩ | ⟨_, hmem⟩
        · rfl
        · exact hall _ hmem
      obtain ⟨i1, i2, i3⟩ := ih (setMissing mk k0 true) (setMissing_nodup mk k0 true hnd) hall1
      refine ⟨i1, i2, fun k => ?_⟩
      rw [i3, setMissing_keys]
      simp only [List.mem_cons, Prod.mk.injEq]
      constructor
      · rintro ((rfl | h) | ⟨typ, h1, h2⟩)
        · exact Or.inr ⟨typ0, Or.inl ⟨rfl, rfl⟩, hleaf⟩
        · exact Or.inl h
        · exact Or.inr ⟨typ, Or.inr h1, h2⟩
      · rintro (h | ⟨typ, ⟨rfl, rfl⟩ | h1, h2⟩)
        · exact Or.inl (Or.inr h)
        · exact Or.inl (Or.inl rfl)
        · exact Or.inr ⟨typ, h1, h2⟩
    · rename_i hleaf
      obtain ⟨i1, i2, i3⟩ := ih mk hnd hall
      refine ⟨i1, i2, fun k => ?_⟩
      rw [i3]
      simp only [List.mem_cons, Prod.mk.injEq]
      constructor
      · rintro (h | ⟨typ, h1, h2⟩)
        · exact Or.inl h
        · exact Or.inr ⟨typ, Or.inr h1, h2⟩
      · rintro (h | ⟨typ, ⟨rfl, rfl⟩ | h1, h2⟩)
        · exact Or.inl h
        · exact absurd h2 hleaf
        · exact Or.inr ⟨typ, h1, h2⟩

theorem foldl_setMissing_spec (names : List String) :
    ∀ mk : List (String × Bool), (mk.map Prod.fst).Nodup →
      ((names.foldl (fun m k => setMissing m k false) mk).map Prod.fst).Nodup ∧
      ∀ k, (k, true) ∈ names.foldl (fun m k => setMissing m k false) mk ↔
        (k, true) ∈ mk ∧ k ∉ names := by
  induction names with
  | nil =>
    intro mk hnd
    simp [hnd]
  | cons a rest ih =>
    intro mk hnd
    simp only [List.foldl_cons]
    obtain ⟨i1, i2⟩ := ih (setMissing mk a false) (setMissing_nodup mk a false hnd)
    refine ⟨i1, fun k => ?_⟩
    rw [i2, mem_setMissing mk a false hnd]
    simp only [List.mem_cons, not_or]
    constructor
    · rintro ⟨⟨_, h⟩ | ⟨hne, hmem⟩, hr⟩
      · cases h
      · exact ⟨hmem, hne, hr⟩
    · rintro ⟨hmem, hne, hr⟩
      exact ⟨Or.inr ⟨hne, hmem⟩, hr⟩

theorem missingChildren_eq_map (pm : PathMapType) (r d : Int) (mk : List (String × Bool)) :
    missingChildren pm r d mk =
      ((mk.filter fun kb => kb.2).map Prod.fst).map fun k =>
        Node.mk Val.invalid (pm.child k) r d := by
  induction mk with
  | nil => rfl
  | cons a rest ih =>
    obtain ⟨k, b⟩ := a
    cases b <;> simp [missingChildren, List.filter_cons, ih]

theorem lookup_of_mem_nodup {α : Type} (l : List (String × α)) (h : (l.map Prod.fst).Nodup)
    (k : String) (a : α) : l.lookup k = some a ↔ (k, a) ∈ l := by
  induction l with
  | nil => simp
  | cons x rest ih =>
    obtain ⟨k0, a0⟩ := x
    simp only [List.map_cons, List.nodup_cons] at h
    simp only [List.lookup_cons, List.mem_cons, Prod.mk.injEq]
    by_cases hk : k = k0
    · subst hk
      simp only [beq_self_eq_true, Option.some.injEq, true_and]
      constructor
      · intro h1; exact Or.inl h1.symm
      · rintro (h1 | h1)
        · exact h1.symm
        · exact absurd (List.mem_map_of_mem Prod.fst h1) h.1
    · have : (k == k0) = false := by simpa using hk
      simp only [this, ih h.2, hk, false_and, false_or]

theorem ParquetMapStruct.loop_total (sh : SchemaHandler) (p : Nat) (es : List (Val × Val))
    (pm : PathMapType) (r d : Int) (j : Nat) :
    ∀ (nodeBuf : NodeBufType) (stack : List Nat) (missingKeys : List (String × Bool)),
      nodeBuf.Valid → p < nodeBuf.Index.toNat → j ≤ es.length →
      nodeBuf.node p = Node.mk (.map es) (some pm) r d →
      (∀ ec ∈ presentEntries pm es j, ∃ n, mapStructChild sh ec.2 r d ec.1.2 = .ok n) →
      ∃ res, ParquetMapStruct.loop sh p (es.map Prod.fst) j nodeBuf stack missingKeys =
        .ok res := by
  induction j with
  | zero =>
    intro nb stack mk _ _ _ _ _
    exact ⟨_, rfl⟩
  | succ j ih =>
    intro nb stack mk hv hp hj hN hok
    have hjlt : j < es.length := by omega
    obtain ⟨⟨key, v⟩, he⟩ : ∃ e, es[j] = e := ⟨_, rfl⟩
    have he? : es[j]? = some (key, v) := by rw [List.getElem?_eq_getElem hjlt, he]
    have hne : p ≠ nb.Index.toNat := by omega
    have h0 := hv.1
    rw [presentEntries_succ pm es j (key, v) he?] at hok
    cases hch : pm.child key.KeyString with
    | none =>
      obtain ⟨nbg, hget, hloop⟩ := ParquetMapStruct.loop_succ_absent sh p es pm r d j key v nb
        stack mk hv hN he? hch
      obtain ⟨_, _, hidx, hvg, hlen, hsame⟩ := NodeBufType.GetNode_ok hv hget
      rw [hloop]
      have h1 := Pushes.skipped (P := fun _ => True) trivial stack hv hget hidx hvg hsame
        (fun x => { x with PathMap := none }) (fun _ _ => trivial)
      exact ih _ stack mk h1.valid
        (by simp only [NodeBufType.update_Index, hidx]; omega) (by omega)
        (by rw [NodeBufType.node_update_ne _ _ _ _ hne, hsame, hN])
        (fun ec hec => hok ec (List.mem_append_right _ hec))
    | some child =>
      obtain ⟨nbg, hget, hloop⟩ := ParquetMapStruct.loop_succ_present sh p es pm child r d j key
        v nb stack mk hv hp hN he? hch
      obtain ⟨_, _, hidx, hvg, hlen, hsame⟩ := NodeBufType.GetNode_ok hv hget
      rw [hloop]
      obtain ⟨n, hmc⟩ := hok ((key, v), child) (by simp [hch])
      simp only [hmc]
      have h1 := Pushes.pushed (P := fun _ => True) trivial stack hv hget hidx hvg hlen hsame
        (fun _ => n) (fun _ _ => trivial)
      exact ih _ _ _ h1.valid
        (by simp only [NodeBufType.update_Index, hidx]; omega) (by omega)
        (by rw [NodeBufType.node_update_ne _ _ _ _ hne, hsame, hN])
        (fun ec hec => hok ec (List.mem_append_right _ hec))

theorem ParquetMapStruct.marshal_content (sh : SchemaHandler) (p : Nat) (nodeBuf : NodeBufType)
    (stack : List Nat) (es : List (Val × Val)) (pm : PathMapType) (r d : Int)
    (nodeBuf1 : NodeBufType) (stack1 : List Nat)
    (hv : nodeBuf.Valid) (hp : p < nodeBuf.Index.toNat)
    (hnode : nodeBuf.node p = Node.mk (.map es) (some pm) r d) (hne : es ≠ [])
    (h : ParquetMapStruct.Marshal sh p nodeBuf stack = .ok (nodeBuf1, stack1)) :
    ∃ present missing, stack1 = stack ++ present ++ missing ∧
      List.Forall₂ (fun ec q => mapStructChild sh ec.2 r d ec.1.2 = .ok (nodeBuf1.node q))
        (presentEntries pm es es.length) present ∧
      missing.map nodeBuf1.node = missingChildren pm r d
        ((presentEntries pm es es.length).foldl
          (fun m ec => setMissing m ec.1.1.KeyString false)
          (ParquetMapStruct.initMissing pm.Children [])) ∧
      (present ++ missing).Pairwise (· < ·) ∧
      (∀ q ∈ present ++ missing, nodeBuf.Index.toNat ≤ q ∧ q < nodeBuf1.Index.toNat) ∧
      (∀ q, q < nodeBuf.Index.toNat → nodeBuf1.node q = nodeBuf.node q) ∧ nodeBuf1.Valid := by
  have hlen : ¬ es.length ≤ 0 := by
    cases es with
    | nil => exact absurd rfl hne
    | cons a t => simp
  simp only [ParquetMapStruct.Marshal, hnode, Val.MapKeys, bind, Except.bind, pure, Except.pure,
    List.length_map, hlen, if_false] at h
  cases hloop : ParquetMapStruct.loop sh p (es.map Prod.fst) es.length nodeBuf stack
      (ParquetMapStruct.initMissing pm.Children []) with
  | error err => simp [hloop] at h
  | ok res =>
    obtain ⟨nb2, stack2, mk2⟩ := res
    simp only [hloop] at h
    obtain ⟨content, h1, hf, hmk⟩ := ParquetMapStruct.loop_content sh p es pm r d es.length
      nodeBuf stack _ nb2 stack2 mk2 hv hp (le_refl _) hnode hloop
    have hp2 : p < nb2.Index.toNat := by
      have := h1.index_le; omega
    have hn2 : nb2.node p = Node.mk (.map es) (some pm) r d := by rw [h1.frame p hp, hnode]
    obtain ⟨nb3, stack3, hfill, h2⟩ := ParquetMapStruct.fill_spec p (.map es) pm r d mk2 nb2
      stack2 h1.valid hp2 hn2
    rw [hfill] at h
    cases h
    obtain ⟨slots1, hs1, hm1, hpw1, hr1⟩ := h1.slots
    obtain ⟨slots2, hs2, hm2, hpw2, hr2⟩ := h2.slots
    have hsame : slots1.map nodeBuf1.node = slots1.map nb2.node :=
      List.map_congr_left fun q hq => h2.frame q (hr1 q hq).2
    have hi1 := h1.index_le
    have hi2 := h2.index_le
    refine ⟨slots1, slots2, by rw [hs2, hs1], ?_, ?_, ?_, ?_, ?_, h2.valid⟩
    · rw [← hm1, ← hsame] at hf
      exact (List.forall₂_map_right_iff (f := nodeBuf1.node)
        (R := fun (ec : (Val × Val) × PathMapType) n =>
          mapStructChild sh ec.2 r d ec.1.2 = .ok n)).1 hf
    · rw [hm2, hmk]
    · rw [List.pairwise_append]
      refine ⟨hpw1, hpw2, fun a ha b hb => ?_⟩
      have := (hr1 a ha).2
      have := (hr2 b hb).1
      omega
    · intro q hq
      rcases List.mem_append.1 hq with hq | hq
      · have := hr1 q hq; omega
      · have := hr2 q hq; omega
    · intro q hq
      rw [h2.frame q (by omega), h1.frame q hq]

theorem ParquetMapStruct.marshal_total (sh : SchemaHandler) (p : Nat) (nodeBuf : NodeBufType)
    (stack : List Nat) (es : List (Val × Val)) (pm : PathMapType) (r d : Int)
    (hv : nodeBuf.Valid) (hp : p < nodeBuf.Index.toNat)
    (hnode : nodeBuf.node p = Node.mk (.map es) (some pm) r d) (hne : es ≠ [])
    (hok : ∀ ec ∈ presentEntries pm es es.length,
      ∃ n, mapStructChild sh ec.2 r d ec.1.2 = .ok n) :
    ∃ res, ParquetMapStruct.Marshal sh p nodeBuf stack = .ok res := by
  have hlen : ¬ es.length ≤ 0 := by
    cases es with
    | nil => exact absurd rfl hne
    | cons a t => simp
  simp only [ParquetMapStruct.Marshal, hnode, Val.MapKeys, bind, Except.bind, pure, Except.pure,
    List.length_map, hlen, if_false]
  obtain ⟨⟨nb2, stack2, mk2⟩, hloop⟩ := ParquetMapStruct.loop_total sh p es pm r d es.length
    nodeBuf stack (ParquetMapStruct.initMissing pm.Children []) hv hp (le_refl _) hnode hok
  obtain ⟨content, h1, hf, hmk⟩ := ParquetMapStruct.loop_content sh p es pm r d es.length
    nodeBuf stack _ nb2 stack2 mk2 hv hp (le_refl _) hnode hloop
  have hp2 : p < nb2.Index.toNat := by
    have := h1.index_le; omega
  have hn2 : nb2.node p = Node.mk (.map es) (some pm) r d := by rw [h1.frame p hp, hnode]
  obtain ⟨nb3, stack3, hfill, h2⟩ := ParquetMapStruct.fill_spec p (.map es) pm r d mk2 nb2
    stack2 h1.valid hp2 hn2
  rw [hloop]
  exact ⟨_, hfill⟩

theorem mem_presentEntries (pm : PathMapType) (es : List (Val × Val))
    (ec : (Val × Val) × PathMapType) :
    ec ∈ presentEntries pm es es.length ↔ ec.1 ∈ es ∧ pm.child ec.1.1.KeyString = some ec.2 := by
  obtain ⟨e, child⟩ := ec
  simp only [presentEntries, List.take_length, List.mem_filterMap, List.mem_reverse]
  constructor
  · rintro ⟨a, ha, hmap⟩
    cases hc : pm.child a.1.KeyString with
    | none => simp [hc] at hmap
    | some c1 =>
      simp only [hc, Option.map_some', Option.some.injEq, Prod.mk.injEq] at hmap
      obtain ⟨rfl, rfl⟩ := hmap
      exact ⟨ha, hc⟩
  · rintro ⟨he, hc⟩
    exact ⟨e, he, by simp [hc]⟩

theorem missing_names_spec (pm : PathMapType) (es : List (Val × Val))
    (hnd : (pm.Children.map Prod.fst).Nodup) :
    ((((presentEntries pm es es.length).foldl
        (fun m ec => setMissing m ec.1.1.KeyString false)
        (ParquetMapStruct.initMissing pm.Children [])).filter fun kb => kb.2).map
          Prod.fst).Nodup ∧
      ∀ k, k ∈ (((presentEntries pm es es.length).foldl
          (fun m ec => setMissing m ec.1.1.KeyString false)
          (ParquetMapStruct.initMissing pm.Children [])).filter fun kb => kb.2).map Prod.fst ↔
        (∃ child, pm.child k = some child ∧ child.Children.length = 0) ∧
          ∀ e ∈ es, e.1.KeyString ≠ k := by
  obtain ⟨i1, i2, i3⟩ := initMissing_spec pm.Children [] (by simp) (by simp)
  have hfold : (presentEntries pm es es.length).foldl
      (fun m ec => setMissing m ec.1.1.KeyString false)
      (ParquetMapStruct.initMissing pm.Children []) =
      ((presentEntries pm es es.length).map fun ec => ec.1.1.KeyString).foldl
        (fun m k => setMissing m k false) (ParquetMapStruct.initMissing pm.Children []) := by
    rw [List.foldl_map]
  rw [hfold]
  obtain ⟨f1, f2⟩ := foldl_setMissing_spec
    ((presentEntries pm es es.length).map fun ec => ec.1.1.KeyString) _ i1
  refine ⟨(f1.sublist ((List.filter_sublist _).map Prod.fst)), fun k => ?_⟩
  have hmem : k ∈ ((((presentEntries pm es es.length).map fun ec => ec.1.1.KeyString).foldl
      (fun m k => setMissing m k false) (ParquetMapStruct.initMissing pm.Children [])).filter
        fun kb => kb.2).map Prod.fst ↔
      (k, true) ∈ ((presentEntries pm es es.length).map fun ec => ec.1.1.KeyString).foldl
        (fun m k => setMissing m k false) (ParquetMapStruct.initMissing pm.Children []) := by
    simp only [List.mem_map, List.mem_filter, Prod.exists]
    constructor
    · rintro ⟨a, b, ⟨hm, hb⟩, rfl⟩
      have hb1 : b = true := hb
      subst hb1
      exact hm
    · intro hm
      exact ⟨k, true, ⟨hm, rfl⟩, rfl⟩
  rw [hmem, f2]
  have hinit : (k, true) ∈ ParquetMapStruct.initMissing pm.Children [] ↔
      ∃ child, pm.child k = some child ∧ child.Children.length = 0 := by
    constructor
    · intro hm
      have hk := (i3 k).1 (List.mem_map_of_mem Prod.fst hm)
      simp only [List.map_nil, List.not_mem_nil, false_or] at hk
      obtain ⟨typ, ht, hl⟩ := hk
      exact ⟨typ, (lookup_of_mem_nodup pm.Children hnd k typ).2 ht, hl⟩
    · rintro ⟨child, hc, hl⟩
      have hk := (i3 k).2 (Or.inr ⟨child, (lookup_of_mem_nodup pm.Children hnd k child).1 hc, hl⟩)
      obtain ⟨⟨k1, b⟩, hm, hk1⟩ := List.mem_map.1 hk
      have hk2 : k1 = k := hk1
      subst hk2
      have hb : b = true := i2 _ hm
      subst hb
      exact hm
  rw [hinit]
  constructor
  · rintro ⟨⟨child, hc, hl⟩, hnot⟩
    refine ⟨⟨child, hc, hl⟩, fun e he hk => hnot ?_⟩
    exact List.mem_map.2 ⟨(e, child),
      (mem_presentEntries pm es (e, child)).2 ⟨he, by rw [hk]; exact hc⟩, hk⟩
  · rintro ⟨hc, hnot⟩
    refine ⟨hc, fun hm => ?_⟩
    obtain ⟨ec, hec, hk⟩ := List.mem_map.1 hm
    exact hnot ec.1 ((mem_presentEntries pm es ec).1 hec).1 hk

theorem mapStructChild_spec {sh : SchemaHandler} {child : PathMapType} {r d : Int} {v : Val}
    {n : Node} (h : mapStructChild sh child r d v = .ok n) :
    n.PathMap = some child ∧ n.RL = r ∧
      (∀ w, v = .iface (some w) → w.IsValid = true → n.Val = w ∧
        ∃ e rt, sh.element (sh.mapIndex child.Path) = .ok e ∧ e.RepetitionType = some rt ∧
          n.DL = if rt ≠ FieldRepetitionType.REQUIRED then wrapInt32 (d + 1) else d) ∧
      (∀ w, v = .iface (some w) → w.IsValid = false → n.Val = w ∧ n.DL = d) ∧
      (v = .iface none → n.Val = Val.invalid ∧ n.DL = d) ∧
      (v.GetKind ≠ Kind.Interface → n.Val = v ∧ n.DL = d) := by
  unfold mapStructChild at h
  simp only [bind, Except.bind, pure, Except.pure] at h
  cases hk : v.TypeKind with
  | error err => simp [hk] at h
  | ok kind =>
    have hvalid : v.IsValid = true := by
      unfold Val.TypeKind at hk
      by_contra hc
      simp [hc] at hk
    have hkind : kind = v.GetKind := by
      unfold Val.TypeKind at hk
      simp only [hvalid, if_true] at hk
      cases hk
      rfl
    subst hkind
    simp only [hk] at h
    by_cases hi : v.GetKind = Kind.Interface
    · simp only [hi, if_true] at h
      cases v <;> simp [Val.GetKind] at hi
      rename_i e
      cases e with
      | none =>
        simp only [Val.Elem, Val.IsValid] at h
        cases h
        simp [Val.GetKind]
      | some w =>
        simp only [Val.Elem] at h
        by_cases hw : w.IsValid = true
        · simp only [hw, if_true] at h
          cases hel : sh.element (sh.mapIndex child.Path) with
          | error err => simp [hel] at h
          | ok e1 =>
            simp only [hel] at h
            cases hrt : e1.RepetitionType with
            | none => simp [hrt] at h
            | some rt =>
              simp only [hrt] at h
              by_cases hreq : rt = FieldRepetitionType.REQUIRED
              · simp only [hreq, ne_eq, not_true_eq_false, if_false] at h
                cases h
                refine ⟨rfl, rfl, ?_, ?_, ?_, ?_⟩
                · intro w1 hw1 _
                  cases hw1
                  exact ⟨rfl, e1, rt, rfl, hrt, by simp [hreq]⟩
                · intro w1 hw1 hf
                  cases hw1
                  rw [hw] at hf
                  cases hf
                · intro hc; cases hc
                · intro hc; simp [Val.GetKind] at hc
              · simp only [ne_eq, hreq, not_false_eq_true, if_true] at h
                cases h
                refine ⟨rfl, rfl, ?_, ?_, ?_, ?_⟩
                · intro w1 hw1 _
                  cases hw1
                  exact ⟨rfl, e1, rt, rfl, hrt, by simp [hreq]⟩
                · intro w1 hw1 hf
                  cases hw1
                  rw [hw] at hf
                  cases hf
                · intro hc; cases hc
                · intro hc; simp [Val.GetKind] at hc
        · simp only [hw] at h
          cases h
          refine ⟨rfl, rfl, ?_, ?_, ?_, ?_⟩
          · intro w1 hw1 ht
            cases hw1
            exact absurd ht hw
          · intro w1 hw1 _
            cases hw1
            exact ⟨rfl, rfl⟩
          · intro hc; cases hc
          · intro hc; simp [Val.GetKind] at hc
    · simp only [hi, if_false] at h
      cases h
      refine ⟨rfl, rfl, ?_, ?_, ?_, fun _ => ⟨rfl, rfl⟩⟩
      · intro w hw _
        subst hw
        simp [Val.GetKind] at hi
      · intro w hw _
        subst hw
        simp [Val.GetKind] at hi
      · intro hw
        subst hw
        simp [Val.GetKind] at hi

/-- C17: a call of `(*ParquetMapStruct).Marshal` on a node that holds a
non-empty map `es`, the path tree node `pm` (whose children have distinct
names) and the levels `(d, r)`, in which the node of every present key is
built without a fault, returns the stack extended by two runs of fresh slots,
`present` and `missing`.  The slots of `missing` hold exactly one node for
every name in `names`, each with the zero Value, the child of `pm` of that
name and the levels `(d, r)`; `names` has no repetition and consists of the
names `k` that are a child of `pm` without children of its own and that are
the key of no entry of the map.  The slots of `present` hold the nodes of the
entries whose key is a child of `pm`, one for each in the order of the loop,
so that a key that is not a child of `pm` pushes nothing. -/
theorem missing_keys_synthesised (sh : SchemaHandler) (p : Nat) (nodeBuf : NodeBufType)
    (stack : List Nat) (es : List (Val × Val)) (pm : PathMapType) (r d : Int)
    (hv : nodeBuf.Valid) (hp : p < nodeBuf.Index.toNat)
    (hnode : nodeBuf.node p = Node.mk (.map es) (some pm) r d) (hne : es ≠ [])
    (hnd : (pm.Children.map Prod.fst).Nodup)
    (hok : ∀ ec ∈ presentEntries pm es es.length,
      ∃ n, mapStructChild sh ec.2 r d ec.1.2 = .ok n) :
    ∃ (nodeBuf1 : NodeBufType) (present missing : List Nat) (names : List String),
      ParquetMapStruct.Marshal sh p nodeBuf stack =
        .ok (nodeBuf1, stack ++ present ++ missing) ∧
      missing.map nodeBuf1.node = names.map (fun k => Node.mk Val.invalid (pm.child k) r d) ∧
      names.Nodup ∧
      (∀ k, k ∈ names ↔ (∃ child, pm.child k = some child ∧ child.Children.length = 0) ∧
        ∀ e ∈ es, e.1.KeyString ≠ k) ∧
      List.Forall₂ (fun ec q => mapStructChild sh ec.2 r d ec.1.2 = .ok (nodeBuf1.node q))
        (presentEntries pm es es.length) present ∧
      (present ++ missing).Pairwise (· < ·) ∧
      (∀ q ∈ present ++ missing, nodeBuf.Index.toNat ≤ q ∧ q < nodeBuf1.Index.toNat) ∧
      (∀ q, q < nodeBuf.Index.toNat → nodeBuf1.node q = nodeBuf.node q) := by
  obtain ⟨⟨nb1, stack1⟩, hm⟩ := ParquetMapStruct.marshal_total sh p nodeBuf stack es pm r d hv hp
    hnode hne hok
  obtain ⟨present, missing, hs, hf, hmiss, hpw, hfresh, hframe, _⟩ :=
    ParquetMapStruct.marshal_content sh p nodeBuf stack es pm r d nb1 stack1 hv hp hnode hne hm
  obtain ⟨n1, n2⟩ := missing_names_spec pm es hnd
  refine ⟨nb1, present, missing, _, by rw [hm, hs], ?_, n1, n2, hf, hpw, hfresh, hframe⟩
  rw [hmiss, missingChildren_eq_map]

/-- Witness of `missing_keys_synthesised` on the map `{"A": 1}` of scenario B,
whose path tree node has the leaf children `A` and `B`. -/
theorem missing_keys_synthesised_witness :
    ∃ (nodeBuf1 : NodeBufType) (present missing : List Nat) (names : List String),
      ParquetMapStruct.Marshal schemaB 1 stateBMap.nodeBuf [] =
        .ok (nodeBuf1, [] ++ present ++ missing) ∧
      missing.map nodeBuf1.node =
        names.map (fun k => Node.mk Val.invalid (pathMapBProps.child k) 0 0) ∧
      names.Nodup ∧
      (∀ k, k ∈ names ↔
        (∃ child, pathMapBProps.child k = some child ∧ child.Children.length = 0) ∧
        ∀ e ∈ [(Val.str "A", Val.int 1)], e.1.KeyString ≠ k) ∧
      List.Forall₂ (fun ec q => mapStructChild schemaB ec.2 0 0 ec.1.2 = .ok (nodeBuf1.node q))
        (presentEntries pathMapBProps [(Val.str "A", Val.int 1)]
          [(Val.str "A", Val.int 1)].length) present ∧
      (present ++ missing).Pairwise (· < ·) ∧
      (∀ q ∈ present ++ missing, stateBMap.nodeBuf.Index.toNat ≤ q ∧
        q < nodeBuf1.Index.toNat) ∧
      (∀ q, q < stateBMap.nodeBuf.Index.toNat →
        nodeBuf1.node q = stateBMap.nodeBuf.node q) :=
  missing_keys_synthesised schemaB 1 stateBMap.nodeBuf [] [(Val.str "A", Val.int 1)]
    pathMapBProps 0 0 ⟨by decide, by decide⟩ (by decide) rfl (by simp) (by decide)
    (fun ec hec => by
      have hpe : presentEntries pathMapBProps [(Val.str "A", Val.int 1)]
          [(Val.str "A", Val.int 1)].length =
          [((Val.str "A", Val.int 1), PathMapType.mk "Parquet_go_root/Props/A" [])] := rfl
      rw [hpe] at hec
      simp only [List.mem_singleton] at hec
      subst hec
      exact ⟨_, rfl⟩)

/-- C18 (as the code has it): a call of `(*ParquetMapStruct).Marshal` on a
node that holds a non-empty map `es`, the path tree node `pm` and the levels
`(d, r)`, in which the node of every present key is built without a fault,
returns the stack extended by one fresh slot for every entry whose key is a
child of `pm`, followed by the slots of the missing keys.  The node of such an
entry has the matched child as its path tree node and the repetition level
`r`.  When the stored value is an interface that holds a valid value, the node
holds that value, and its definition level is `d + 1` (as a 32-bit integer)
when the repetition type of the schema element of the matched child's path is
not `REQUIRED`, and `d` when it is `REQUIRED`.  When the stored value is a nil
interface the node holds the zero Value at the definition level `d`, and when
it is not an interface the node holds the stored value at the definition
level `d`. -/
theorem dynamic_value_level (sh : SchemaHandler) (p : Nat) (nodeBuf : NodeBufType)
    (stack : List Nat) (es : List (Val × Val)) (pm : PathMapType) (r d : Int)
    (hv : nodeBuf.Valid) (hp : p < nodeBuf.Index.toNat)
    (hnode : nodeBuf.node p = Node.mk (.map es) (some pm) r d) (hne : es ≠ [])
    (hok : ∀ ec ∈ presentEntries pm es es.length,
      ∃ n, mapStructChild sh ec.2 r d ec.1.2 = .ok n) :
    (∃ nodeBuf1 present missing,
      ParquetMapStruct.Marshal sh p nodeBuf stack =
        .ok (nodeBuf1, stack ++ present ++ missing) ∧
      List.Forall₂ (fun ec q =>
          (nodeBuf1.node q).PathMap = some ec.2 ∧ (nodeBuf1.node q).RL = r ∧
          (∀ w, ec.1.2 = .iface (some w) → w.IsValid = true → (nodeBuf1.node q).Val = w ∧
            ∃ e rt, sh.element (sh.mapIndex ec.2.Path) = .ok e ∧ e.RepetitionType = some rt ∧
              (nodeBuf1.node q).DL =
                if rt ≠ FieldRepetitionType.REQUIRED then wrapInt32 (d + 1) else d) ∧
          (ec.1.2 = .iface none →
            (nodeBuf1.node q).Val = Val.invalid ∧ (nodeBuf1.node q).DL = d) ∧
          (ec.1.2.GetKind ≠ Kind.Interface →
            (nodeBuf1.node q).Val = ec.1.2 ∧ (nodeBuf1.node q).DL = d))
        (presentEntries pm es es.length) present) ∧
      (-2147483648 ≤ d → d < 2147483647 → wrapInt32 (d + 1) = d + 1) := by
  obtain ⟨⟨nb1, stack1⟩, hm⟩ := ParquetMapStruct.marshal_total sh p nodeBuf stack es pm r d hv hp
    hnode hne hok
  obtain ⟨present, missing, hs, hf, _⟩ :=
    ParquetMapStruct.marshal_content sh p nodeBuf stack es pm r d nb1 stack1 hv hp hnode hne hm
  refine ⟨⟨nb1, present, missing, by rw [hm, hs], ?_⟩, ?_⟩
  · refine hf.imp fun ec q h => ?_
    obtain ⟨h1, h2, h3, _, h5, h6⟩ := mapStructChild_spec h
    exact ⟨h1, h2, h3, h5, h6⟩
  · intro h1 h2
    unfold wrapInt32
    omega

/-- Witness of `dynamic_value_level` on the map `{"A": 1, "B": nil}` of type
`map[string]interface{}` under the schema of scenario B. -/
theorem dynamic_value_level_witness :
    (∃ nodeBuf1 present missing,
      ParquetMapStruct.Marshal schemaB 1 stateBDyn.nodeBuf [] =
        .ok (nodeBuf1, [] ++ present ++ missing) ∧
      List.Forall₂ (fun ec q =>
          (nodeBuf1.node q).PathMap = some ec.2 ∧ (nodeBuf1.node q).RL = 0 ∧
          (∀ w, ec.1.2 = .iface (some w) → w.IsValid = true → (nodeBuf1.node q).Val = w ∧
            ∃ e rt, schemaB.element (schemaB.mapIndex ec.2.Path) = .ok e ∧
              e.RepetitionType = some rt ∧
              (nodeBuf1.node q).DL =
                if rt ≠ FieldRepetitionType.REQUIRED then wrapInt32 (0 + 1) else 0) ∧
          (ec.1.2 = .iface none →
            (nodeBuf1.node q).Val = Val.invalid ∧ (nodeBuf1.node q).DL = 0) ∧
          (ec.1.2.GetKind ≠ Kind.Interface →
            (nodeBuf1.node q).Val = ec.1.2 ∧ (nodeBuf1.node q).DL = 0))
        (presentEntries pathMapBProps
          [(Val.str "A", Val.iface (some (Val.int 1))), (Val.str "B", Val.iface none)]
          [(Val.str "A", Val.iface (some (Val.int 1))), (Val.str "B", Val.iface none)].length)
        present) ∧
      (-2147483648 ≤ (0 : Int) → (0 : Int) < 2147483647 → wrapInt32 (0 + 1) = 0 + 1) :=
  dynamic_value_level schemaB 1 stateBDyn.nodeBuf []
    [(Val.str "A", Val.iface (some (Val.int 1))), (Val.str "B", Val.iface none)]
    pathMapBProps 0 0 ⟨by decide, by decide⟩ (by decide) rfl (by simp)
    (fun ec hec => by
      have hpe : presentEntries pathMapBProps
          [(Val.str "A", Val.iface (some (Val.int 1))), (Val.str "B", Val.iface none)]
          [(Val.str "A", Val.iface (some (Val.int 1))), (Val.str "B", Val.iface none)].length =
          [((Val.str "B", Val.iface none), PathMapType.mk "Parquet_go_root/Props/B" []),
            ((Val.str "A", Val.iface (some (Val.int 1))),
              PathMapType.mk "Parquet_go_root/Props/A" [])] := rfl
      rw [hpe] at hec
      simp only [List.mem_cons, List.mem_singleton, List.not_mem_nil, or_false] at hec
      rcases hec with rfl | rfl <;> exact ⟨_, rfl⟩)

/-- C18, counterexample: under the schema of scenario B the element of the
map's own path `Parquet_go_root/Props` is `REQUIRED` and that of the child
`Parquet_go_root/Props/A` is `OPTIONAL`.  For the map node at the levels
`(0, 0)` that holds `{"A": 1, "B": nil}` with interface values, the node
pushed for the key `A` has the definition level 1, one above that of the
map. -/
theorem level_read_from_child_path :
    (schemaB.element (schemaB.mapIndex pathMapBProps.Path)).toOption.map
        (fun e => e.RepetitionType) = some (some FieldRepetitionType.REQUIRED) ∧
      (schemaB.element (schemaB.mapIndex "Parquet_go_root/Props/A")).toOption.map
        (fun e => e.RepetitionType) = some (some FieldRepetitionType.OPTIONAL) ∧
      stateBDyn.nodeBuf.node 1 = Node.mk
        (.map [(Val.str "A", Val.iface (some (Val.int 1))), (Val.str "B", Val.iface none)])
        (some pathMapBProps) 0 0 ∧
      (ParquetMapStruct.Marshal schemaB 1 stateBDyn.nodeBuf []).toOption.map
        (fun x => (x.2, x.1.node 3)) =
        some ([2, 3], Node.mk (.int 1) (some (.mk "Parquet_go_root/Props/A" [])) 0 1) :=
  ⟨rfl, rfl, rfl, rfl⟩

/-! ## Termination of the traversal loop -/

theorem sumSizes_append (nb : NodeBufType) (a b : List Nat) :
    sumSizes nb (a ++ b) = sumSizes nb a + sumSizes nb b := by
  simp [sumSizes]

theorem sumSizes_congr {nb nb1 : NodeBufType} {stack : List Nat}
    (h : ∀ q ∈ stack, nb1.node q = nb.node q) : sumSizes nb1 stack = sumSizes nb stack := by
  unfold sumSizes
  congr 1
  exact List.map_congr_left fun q hq => by rw [h q hq]

theorem Pushes.size {P : Node → Prop} {nb nb1 : NodeBufType} {rest stack1 : List Nat}
    {content : List Node} (h : Pushes P nb rest nb1 stack1 content)
    (hrest : ∀ q ∈ rest, q < nb.Index.toNat) :
    sumSizes nb1 stack1 = sumSizes nb rest + contentSize content := by
  obtain ⟨slots, hs, hm, _, _⟩ := h.slots
  rw [hs, sumSizes_append, sumSizes_congr fun q hq => h.frame q (hrest q hq)]
  congr 1
  rw [← hm]
  simp [sumSizes, contentSize, List.map_map, Function.comp_def]

theorem Val.size_pos {v : Val} (h : v ≠ Val.invalid) : 0 < v.size := by
  cases v with
  | invalid => exact absurd rfl h
  | ptr e => cases e <;> simp [Val.size]
  | iface e => cases e <;> simp [Val.size]
  | _ => simp [Val.size]

theorem contentSize_structChildren (c : Collaborators) (pm : Option PathMapType) (r d : Int)
    (fs : List (String × Val)) : contentSize (structChildren c pm r d fs) ≤ sizeFields fs := by
  induction fs with
  | nil => simp [structChildren, contentSize, sizeFields]
  | cons a rest ih =>
    obtain ⟨name, v⟩ := a
    simp only [structChildren, sizeFields]
    split
    · omega
    · split
      · omega
      · simp only [contentSize, List.map_cons, List.sum_cons] at ih ⊢
        omega

theorem sizeElems_eq (es : List Val) : sizeElems es = (es.map Val.size).sum := by
  induction es with
  | nil => rfl
  | cons a rest ih => simp [sizeElems, ih]

theorem sizeEntries_eq (es : List (Val × Val)) :
    sizeEntries es = (es.map fun e => e.1.size + e.2.size).sum := by
  induction es with
  | nil => rfl
  | cons a rest ih =>
    obtain ⟨k, v⟩ := a
    simp [sizeEntries, ih]

theorem sum_take_le (l : List Nat) (j : Nat) : (l.take j).sum ≤ l.sum := by
  induction l generalizing j with
  | nil => simp
  | cons a rest ih =>
    cases j with
    | zero => simp
    | succ j =>
      simp only [List.take_succ_cons, List.sum_cons]
      have := ih j
      omega

theorem contentSize_sliceChildren (pathMap : Option PathMapType) (rlNow r d : Int)
    (elems : List Val) (j : Nat) (hj : j ≤ elems.length) :
    contentSize (sliceChildren pathMap rlNow r d elems j) = ((elems.take j).map Val.size).sum := by
  induction j with
  | zero => simp [sliceChildren, contentSize]
  | succ j ih =>
    have hjlt : j < elems.length := by omega
    have hget : elems[j]? = some elems[j] := List.getElem?_eq_getElem hjlt
    have hgetD : elems.getD j Val.invalid = elems[j] := by
      simp [List.getD, hget]
    have ih1 := ih (by omega)
    simp only [sliceChildren, contentSize, List.map_cons, List.sum_cons, hgetD] at ih1 ⊢
    rw [ih1, List.take_succ, hget]
    simp only [Option.toList, List.map_append, List.sum_append, List.map_cons, List.map_nil,
      List.sum_cons, List.sum_nil]
    omega

theorem contentSize_mapChildren (kv : PathMapType) (rlNow r d : Int)
    (es : List (Val × Val)) (j : Nat) (hj : j ≤ es.length) :
    contentSize (mapChildren kv rlNow r d es j) =
      ((es.take j).map fun e => e.1.size + e.2.size).sum := by
  induction j with
  | zero => simp [mapChildren, contentSize]
  | succ j ih =>
    have hjlt : j < es.length := by omega
    have hget : es[j]? = some es[j] := List.getElem?_eq_getElem hjlt
    have hgetD : es.getD j (Val.invalid, Val.invalid) = es[j] := by
      simp [List.getD, hget]
    have ih1 := ih (by omega)
    simp only [mapChildren, contentSize, List.map_cons, List.sum_cons, hgetD] at ih1 ⊢
    rw [ih1, List.take_succ, hget]
    simp only [Option.toList, List.map_append, List.sum_append, List.map_cons, List.map_nil,
      List.sum_cons, List.sum_nil]
    omega

theorem contentSize_missingChildren (pm : PathMapType) (r d : Int)
    (mk : List (String × Bool)) : contentSize (missingChildren pm r d mk) = 0 := by
  induction mk with
  | nil => rfl
  | cons a rest ih =>
    obtain ⟨k, b⟩ := a
    cases b
    · simpa [missingChildren] using ih
    · simp only [missingChildren, if_true, contentSize, List.map_cons, List.sum_cons,
        Val.size] at ih ⊢
      omega

theorem mapStructChild_size {sh : SchemaHandler} {child : PathMapType} {r d : Int} {v : Val}
    {n : Node} (h : mapStructChild sh child r d v = .ok n) : n.Val.size ≤ v.size := by
  obtain ⟨_, _, h3, h4, h5, h6⟩ := mapStructChild_spec h
  cases v with
  | iface e =>
    cases e with
    | none =>
      rw [(h5 rfl).1]
      simp [Val.size]
    | some w =>
      by_cases hw : w.IsValid = true
      · rw [(h3 w rfl hw).1]
        simp [Val.size]
      · rw [(h4 w rfl (by simpa using hw)).1]
        simp [Val.size]
  | _ => rw [(h6 (by simp [Val.GetKind])).1]

theorem contentSize_present (sh : SchemaHandler) (r d : Int)
    (l : List ((Val × Val) × PathMapType)) (content : List Node)
    (h : List.Forall₂ (fun ec n => mapStructChild sh ec.2 r d ec.1.2 = .ok n) l content) :
    contentSize content ≤ (l.map fun ec => ec.1.1.size + ec.1.2.size).sum := by
  induction h with
  | nil => simp [contentSize]
  | cons hab _ ih =>
    have := mapStructChild_size hab
    simp only [contentSize, List.map_cons, List.sum_cons] at ih ⊢
    omega

theorem sum_presentEntries_le (pm : PathMapType) (es : List (Val × Val)) (j : Nat) :
    ((presentEntries pm es j).map fun ec => ec.1.1.size + ec.1.2.size).sum ≤
      ((es.take j).map fun e => e.1.size + e.2.size).sum := by
  have key : ∀ l : List (Val × Val),
      ((l.filterMap fun e => (pm.child e.1.KeyString).map fun child => (e, child)).map
        fun ec => ec.1.1.size + ec.1.2.size).sum ≤ (l.map fun e => e.1.size + e.2.size).sum := by
    intro l
    induction l with
    | nil => simp
    | cons a rest ih =>
      simp only [List.filterMap_cons, List.map_cons, List.sum_cons]
      cases pm.child a.1.KeyString with
      | none =>
        simp only [Option.map_none']
        omega
      | some child =>
        simp only [Option.map_some', List.map_cons, List.sum_cons]
        omega
  have h := key (es.take j).reverse
  simp only [List.map_reverse, List.sum_reverse] at h
  exact h

theorem sumSizes_update_rest (nb : NodeBufType) (p : Nat) (f : Node → Node) (rest : List Nat)
    (hpn : p ∉ rest) : sumSizes (nb.update p f) rest = sumSizes nb rest :=
  sumSizes_congr fun q hq => NodeBufType.node_update_ne nb p q f (fun hc => hpn (hc ▸ hq))

theorem sumSizes_in_place (nb : NodeBufType) (p : Nat) (n : Node) (rest : List Nat)
    (hpn : p ∉ rest) (hplen : p < nb.Buf.length) :
    sumSizes (nb.update p fun _ => n) (rest ++ [p]) = sumSizes nb rest + n.Val.size := by
  rw [sumSizes_append, sumSizes_update_rest nb p _ rest hpn]
  simp [sumSizes, NodeBufType.node_update_self _ _ _ hplen]

theorem ParquetMap.loop_no_key_value (p : Nat) (rlNow : Int) (es : List (Val × Val))
    (pm : PathMapType) (r d : Int) (hkv : pm.child "Key_value" = none) (j : Nat)
    (nodeBuf : NodeBufType) (stack : List Nat) (hv : nodeBuf.Valid)
    (hN : nodeBuf.node p = Node.mk (.map es) (some pm) r d) (hj : j < es.length) :
    ∃ err, ParquetMap.loop p (es.map Prod.fst) rlNow (j + 1) nodeBuf stack = .error err := by
  obtain ⟨nbg, hget, hidx, hvg, hlen, hsame⟩ := nodeBuf.GetNode_spec hv
  obtain ⟨⟨key, value⟩, he⟩ : ∃ e, es[j] = e := ⟨_, rfl⟩
  have he? : es[j]? = some (key, value) := by rw [List.getElem?_eq_getElem hj, he]
  have hk? : (es.map Prod.fst)[j]? = some key := by simp [he?]
  simp only [ParquetMap.loop, bind, Except.bind, pure, Except.pure, hN, Val.MapIndexOfKey, hk?,
    he?, hget, hsame, hkv]
  exact ⟨_, rfl⟩

theorem Marshal_size (c : Collaborators) (sh : SchemaHandler) {m : Marshaler} {p : Nat}
    {nb nb1 : NodeBufType} {rest stack1 : List Nat} (hv : nb.Valid) (hp : p < nb.Index.toNat)
    (hrest : ∀ q ∈ rest, q < nb.Index.toNat) (hpn : p ∉ rest)
    (hcls : classify sh (nb.node p) = .ok (some m))
    (h : m.Marshal c sh p nb rest = .ok (nb1, stack1)) :
    sumSizes nb1 stack1 < sumSizes nb rest + (nb.node p).Val.size := by
  have hplen : p < nb.Buf.length := by
    have := hv.2; have := hv.1; omega
  have hval := classify_some_val hcls
  obtain ⟨⟨v, pm, r, d⟩, hN⟩ : ∃ N, nb.node p = N := ⟨_, rfl⟩
  rw [hN] at hval ⊢
  simp only at hval ⊢
  cases m with
  | ParquetPtr =>
    simp only [Marshaler.Accepts] at hval
    simp only [Marshaler.Marshal] at h
    rcases hval with ⟨e, rfl⟩ | ⟨b, rfl⟩ | ⟨n, rfl⟩
    · cases e with
      | none =>
        simp only [ParquetPtr.Marshal, hN, Val.IsNil, bind, Except.bind, pure, Except.pure,
          Option.isNone_none, if_true] at h
        cases h
        simp [Val.size]
      | some w =>
        rw [ParquetPtr.ptr_marshal_some p nb rest w pm r d hN] at h
        cases h
        rw [sumSizes_in_place nb p _ rest hpn hplen]
        simp [Val.size]
    · cases b with
      | true =>
        simp only [ParquetPtr.Marshal, hN, Val.IsNil, bind, Except.bind, pure, Except.pure,
          if_true] at h
        cases h
        simp [Val.size]
      | false =>
        simp [ParquetPtr.Marshal, hN, Val.IsNil, Val.Elem, bind, Except.bind, pure,
          Except.pure] at h
    · simp [ParquetPtr.Marshal, hN, Val.IsNil, bind, Except.bind] at h
  | ParquetStruct =>
    simp only [Marshaler.Accepts] at hval
    obtain ⟨fs, rfl⟩ := hval
    simp only [Marshaler.Marshal, ParquetStruct.Marshal, hN, Val.NumField, bind,
      Except.bind] at h
    have hpu := ParquetStruct.struct_loop_pushes c (fun _ => True) trivial (fun _ _ => trivial) p
      fs pm r d (fun _ _ _ _ _ _ => trivial) fs.length 0 nb rest nb1 stack1 hv hp
      hN (by simp) h
    rw [hpu.size hrest, List.drop_zero]
    have := contentSize_structChildren c pm r d fs
    simp only [Val.size]
    omega
  | ParquetSlice =>
    simp only [Marshaler.Accepts] at hval
    obtain ⟨es, rfl⟩ := hval
    simp only [Marshaler.Marshal, ParquetSlice.Marshal, hN, Val.Len, bind, Except.bind, pure,
      Except.pure] at h
    cases pm with
    | none => simp at h
    | some npm =>
      simp only at h
      cases hres : ParquetSlice.resolve sh npm with
      | error err => simp [hres] at h
      | ok res =>
        obtain ⟨pathMap, path⟩ := res
        simp only [hres] at h
        by_cases hlen : es.length ≤ 0
        · simp only [hlen, if_true] at h
          cases h
          simp [Val.size]
        · simp only [hlen, if_false] at h
          have hpu := ParquetSlice.slice_loop_pushes (fun _ => True) trivial p pathMap
            (sh.MaxRepetitionLevel (StrToPath path)) es (some npm) r d (fun _ _ _ => trivial)
            es.length nb rest nb1 stack1 hv hp hN h
          rw [hpu.size hrest, contentSize_sliceChildren _ _ _ _ es es.length (le_refl _),
            List.take_length, ← sizeElems_eq]
          simp only [Val.size]
          omega
  | ParquetMapStruct =>
    simp only [Marshaler.Accepts] at hval
    obtain ⟨es, rfl⟩ := hval
    simp only [Marshaler.Marshal] at h
    by_cases hes : es = []
    · subst hes
      simp only [ParquetMapStruct.Marshal, hN, Val.MapKeys, bind, Except.bind, pure,
        Except.pure, List.map_nil, List.length_nil, le_refl, if_true] at h
      cases h
      simp [Val.size]
    · have hlen : ¬ es.length ≤ 0 := by
        cases es with
        | nil => exact absurd rfl hes
        | cons a t => simp
      cases pm with
      | none =>
        simp [ParquetMapStruct.Marshal, hN, Val.MapKeys, bind, Except.bind, pure,
          Except.pure, hlen] at h
      | some npm =>
        obtain ⟨present, missing, hs, hf, hmiss, _, hfresh, hframe, _⟩ :=
          ParquetMapStruct.marshal_content sh p nb rest es npm r d nb1 stack1 hv hp hN hes h
        rw [hs, sumSizes_append, sumSizes_append,
          sumSizes_congr fun q hq => hframe q (hrest q hq)]
        have h1 : sumSizes nb1 missing = 0 := by
          have : sumSizes nb1 missing = contentSize (missing.map nb1.node) := by
            simp [sumSizes, contentSize, List.map_map, Function.comp_def]
          rw [this, hmiss, contentSize_missingChildren]
        have h2 : sumSizes nb1 present ≤ sizeEntries es := by
          have e1 : sumSizes nb1 present = contentSize (present.map nb1.node) := by
            simp [sumSizes, contentSize, List.map_map, Function.comp_def]
          have hf1 : List.Forall₂ (fun (ec : (Val × Val) × PathMapType) n =>
              mapStructChild sh ec.2 r d ec.1.2 = .ok n) (presentEntries npm es es.length)
              (present.map nb1.node) :=
            (List.forall₂_map_right_iff (f := nb1.node)
              (R := fun (ec : (Val × Val) × PathMapType) n =>
                mapStructChild sh ec.2 r d ec.1.2 = .ok n)).2 hf
          have e2 := contentSize_present sh r d _ _ hf1
          have e3 := sum_presentEntries_le npm es es.length
          rw [List.take_length, ← sizeEntries_eq] at e3
          omega
        simp only [Val.size]
        omega
  | ParquetMap =>
    simp only [Marshaler.Accepts] at hval
    obtain ⟨es, rfl⟩ := hval
    simp only [Marshaler.Marshal, ParquetMap.Marshal, hN, Val.MapKeys, bind, Except.bind, pure,
      Except.pure] at h
    cases pm with
    | none => simp at h
    | some npm =>
      simp only [List.length_map] at h
      by_cases hlen : es.length ≤ 0
      · simp only [hlen, if_true] at h
        cases h
        simp [Val.size]
      · simp only [hlen, if_false] at h
        cases hkv : npm.child "Key_value" with
        | none =>
          obtain ⟨j, hj⟩ : ∃ j, es.length = j + 1 := ⟨es.length - 1, by omega⟩
          obtain ⟨err, herr⟩ := ParquetMap.loop_no_key_value p
            (sh.MaxRepetitionLevel (StrToPath (npm.Path ++ PAR_GO_PATH_DELIMITER ++ "Key_value")))
            es npm r d hkv j nb rest hv hN (by omega)
          rw [hj, herr] at h
          cases h
        | some kv =>
          obtain ⟨nb2, stack2, hloop, hpu⟩ := ParquetMap.map_loop_spec p
            (sh.MaxRepetitionLevel (StrToPath (npm.Path ++ PAR_GO_PATH_DELIMITER ++ "Key_value")))
            es npm kv r d hkv es.length nb rest hv hp hN (le_refl _)
          rw [hloop] at h
          cases h
          rw [hpu.size hrest, contentSize_mapChildren _ _ _ _ es es.length (le_refl _),
            List.take_length, ← sizeEntries_eq]
          simp only [Val.size]
          omega
  | ParquetInterface =>
    simp only [Marshaler.Accepts] at hval
    simp only [Marshaler.Marshal] at h
    rcases hval with ⟨e, rfl⟩ | rfl
    · cases e with
      | none =>
        simp only [ParquetInterface.Marshal, hN, Val.IsNil, bind, Except.bind, pure,
          Except.pure, Option.isNone_none, if_true] at h
        cases h
        simp [Val.size]
      | some w =>
        rw [ParquetInterface.iface_marshal_some p nb rest w pm r d hN] at h
        cases h
        rw [sumSizes_in_place nb p _ rest hpn hplen]
        simp [Val.size]
    · simp [ParquetInterface.Marshal, hN, Val.IsNil, bind, Except.bind] at h

theorem classify_none_valid {sh : SchemaHandler} {node : Node}
    (h : classify sh node = .ok none) : node.Val ≠ Val.invalid := by
  intro hc
  unfold classify at h
  simp [hc, Val.IsValid, bind, Except.bind, pure, Except.pure] at h

theorem step_size {c : Collaborators} {sh : SchemaHandler} {s s1 : State} {rest : List Nat}
    {p : Nat} (hstack : s.stack = rest ++ [p]) (hv : s.nodeBuf.Valid)
    (hb : ∀ q ∈ s.stack, q < s.nodeBuf.Index.toNat) (hnd : s.stack.Nodup)
    (h : step c sh s = .ok s1) : stackSize s1 < stackSize s := by
  have hp : p < s.nodeBuf.Index.toNat := hb p (by rw [hstack]; simp)
  have hrest : ∀ q ∈ rest, q < s.nodeBuf.Index.toNat := fun q hq =>
    hb q (by rw [hstack]; exact List.mem_append_left _ hq)
  have hnd1 : (rest ++ [p]).Nodup := by rw [← hstack]; exact hnd
  have hpn : p ∉ rest := by
    intro hmem
    exact (List.nodup_append.1 hnd1).2.2 hmem (List.mem_singleton_self p)
  have hs : stackSize s = sumSizes s.nodeBuf rest + (s.nodeBuf.node p).Val.size := by
    simp [stackSize, hstack, sumSizes]
  rw [hs]
  rcases step_cases hstack h with ⟨hcls, res1, _, rfl⟩ | ⟨m, nb1, stack1, hcls, hm, hcase⟩
  · have := Val.size_pos (classify_none_valid hcls)
    simp only [stackSize]
    omega
  · have hlt := Marshal_size c sh hv hp hrest hpn hcls hm
    rcases hcase with ⟨_, res1, _, rfl⟩ | ⟨_, rfl⟩ <;> exact hlt

theorem traverse_total (c : Collaborators) (sh : SchemaHandler) (fuel : Nat) :
    ∀ s : State, s.nodeBuf.Valid → (∀ q ∈ s.stack, q < s.nodeBuf.Index.toNat) → s.stack.Nodup →
      stackSize s < fuel →
      ∃ r, traverse c sh fuel s = some r ∧ ∀ s1, r = .ok s1 → s1.stack = [] := by
  induction fuel with
  | zero =>
    intro s _ _ _ hlt
    omega
  | succ n ih =>
    intro s hv hb hnd hlt
    simp only [traverse]
    by_cases hst : s.stack = []
    · simp only [hst, if_true]
      exact ⟨_, rfl, fun s1 h1 => by cases h1; exact hst⟩
    · simp only [hst, if_false]
      cases hstep : step c sh s with
      | error e => exact ⟨_, rfl, fun s1 h1 => by cases h1⟩
      | ok s1 =>
        simp only
        obtain ⟨rest, p, hstack⟩ : ∃ rest p, s.stack = rest ++ [p] :=
          ⟨s.stack.dropLast, s.stack.getLast hst, (List.dropLast_append_getLast hst).symm⟩
        have hinv : s.Inv (fun _ => True) (fun _ _ => True) (fun _ => True) :=
          ⟨hv, hb, hnd, fun _ _ => trivial, fun _ _ => ⟨fun _ _ => trivial, fun _ _ => trivial⟩⟩
        obtain ⟨hinv1, _⟩ := step_inv c sh (nodeRule_trivial sh) (fun _ h => h) hstack hinv hstep
        have hlt1 := step_size hstack hv hb hnd hstep
        exact ih s1 hinv1.valid hinv1.below hinv1.nodup (by omega)

theorem seedRoot_fuel {c : Collaborators} {sh : SchemaHandler} {record : AnyVal}
    {nodeBuf : NodeBufType} {res : TableMap} {s : State}
    (h : seedRoot c sh record nodeBuf res = .ok s) :
    s.nodeBuf.Valid ∧ (∀ q ∈ s.stack, q < s.nodeBuf.Index.toNat) ∧ s.stack.Nodup ∧
      recordFuel s = stackSize s + 1 := by
  have hpool : ∀ n ∈ nodeBuf.Buf, (fun _ : Node => True) n := fun _ _ => trivial
  have hres : res.Levels (fun _ _ => True) (fun _ => True) :=
    fun _ _ => ⟨fun _ _ => trivial, fun _ _ => trivial⟩
  obtain ⟨hinv, _, _, hst, _, _⟩ :=
    @seedRoot_inv c sh (fun _ => True) (fun _ _ => True) (fun _ => True) trivial _ _ _ _
      (fun _ _ => trivial) hpool hres h
  refine ⟨hinv.valid, hinv.below, hinv.nodup, ?_⟩
  simp [recordFuel, stackSize, sumSizes, hst]

theorem marshalRecords_total (c : Collaborators) (sh : SchemaHandler) (records : List AnyVal) :
    ∀ (nodeBuf : NodeBufType) (res : TableMap),
      ∃ r, marshalRecords c sh records nodeBuf res = some r := by
  induction records with
  | nil =>
    intro nb res
    exact ⟨_, rfl⟩
  | cons record rest ih =>
    intro nb res
    simp only [marshalRecords]
    cases hs : seedRoot c sh record nb res with
    | error e => exact ⟨_, rfl⟩
    | ok s =>
      obtain ⟨hv, hb, hnd, hfuel⟩ := seedRoot_fuel hs
      obtain ⟨r, hr, _⟩ := traverse_total c sh (recordFuel s) s hv hb hnd (by omega)
      simp only [hr]
      cases r with
      | error e => exact ⟨_, rfl⟩
      | ok s1 => exact ih s1.nodeBuf s1.res

/-- C20: the traversal loop of one record terminates.  After the root of any
record has been seeded, the fuel of the record is one more than the measure of
the state (the total size of the values of the nodes on the stack), and the
loop run with that fuel does not run out of it: it ends with a fault or with
the stack empty.  From any state whose stack holds distinct slots below the
cursor of a valid pool, the loop run with more fuel than the measure ends with
a fault or with the stack empty; and one iteration without a fault on a
non-empty stack pops the top node, which is either classified as a terminal
node and emitted, leaving the rest of the stack, or dispatched to a variant,
leaving the rest of the stack extended by what the variant pushed; the
measure then is strictly smaller and the distinctness and the bounds of the
stack are kept. -/
theorem traversal_terminates (c : Collaborators) (sh : SchemaHandler) :
    (∀ (record : AnyVal) (nodeBuf : NodeBufType) (res : TableMap) (s : State),
      seedRoot c sh record nodeBuf res = .ok s →
        recordFuel s = stackSize s + 1 ∧
        ∃ r, traverse c sh (recordFuel s) s = some r ∧ ∀ s1, r = .ok s1 → s1.stack = []) ∧
    (∀ s : State, s.nodeBuf.Valid → (∀ q ∈ s.stack, q < s.nodeBuf.Index.toNat) →
      s.stack.Nodup →
        (∀ fuel, stackSize s < fuel →
          ∃ r, traverse c sh fuel s = some r ∧ ∀ s1, r = .ok s1 → s1.stack = []) ∧
        ∀ rest p s1, s.stack = rest ++ [p] → step c sh s = .ok s1 →
          stackSize s1 < stackSize s ∧
          ((classify sh (s.nodeBuf.node p) = .ok none ∧ s1.stack = rest) ∨
            ∃ m added, classify sh (s.nodeBuf.node p) = .ok (some m) ∧
              s1.stack = rest ++ added) ∧
          s1.nodeBuf.Valid ∧ (∀ q ∈ s1.stack, q < s1.nodeBuf.Index.toNat) ∧ s1.stack.Nodup) := by
  refine ⟨fun record nodeBuf res s hs => ?_, fun s hv hb hnd => ⟨fun fuel hlt => ?_, ?_⟩⟩
  · obtain ⟨hv, hb, hnd, hfuel⟩ := seedRoot_fuel hs
    exact ⟨hfuel, traverse_total c sh (recordFuel s) s hv hb hnd (by omega)⟩
  · exact traverse_total c sh fuel s hv hb hnd hlt
  · intro rest p s1 hstack hstep
    have hinv : s.Inv (fun _ => True) (fun _ _ => True) (fun _ => True) :=
      ⟨hv, hb, hnd, fun _ _ => trivial, fun _ _ => ⟨fun _ _ => trivial, fun _ _ => trivial⟩⟩
    obtain ⟨hinv1, _, ⟨added, hadd⟩, _⟩ :=
      step_inv c sh (nodeRule_trivial sh) (fun _ h => h) hstack hinv hstep
    refine ⟨step_size hstack hv hb hnd hstep, ?_, hinv1.valid, hinv1.below, hinv1.nodup⟩
    rcases step_cases hstack hstep with ⟨hcls, res1, _, rfl⟩ | ⟨m, nb1, stack1, hcls, _, _⟩
    · exact Or.inl ⟨hcls, rfl⟩
    · exact Or.inr ⟨m, added, hcls, hadd⟩

/-! ## The two shapes of the result -/

theorem marshalRecords_append (c : Collaborators) (sh : SchemaHandler) (pre post : List AnyVal) :
    ∀ (nodeBuf nodeBuf1 : NodeBufType) (res res1 : TableMap),
      marshalRecords c sh pre nodeBuf res = some (.ok (nodeBuf1, res1)) →
      marshalRecords c sh (pre ++ post) nodeBuf res = marshalRecords c sh post nodeBuf1 res1 := by
  induction pre with
  | nil =>
    intro nb nb1 res res1 h
    simp only [marshalRecords] at h
    cases h
    rfl
  | cons r rest ih =>
    intro nb nb1 res res1 h
    simp only [marshalRecords, List.cons_append] at h ⊢
    cases hs : seedRoot c sh r nb res with
    | error p => simp [hs] at h
    | ok s =>
      simp only [hs] at h ⊢
      cases ht : traverse c sh (recordFuel s) s with
      | none => simp [ht] at h
      | some x =>
        cases x with
        | error p => simp [ht] at h
        | ok s1 =>
          simp only [ht] at h ⊢
          exact ih _ _ _ _ h

/-- C12: `MarshalStruct` returns, and what it returns has one of two shapes: a
table map and no error, or no table map and an error.  When `InitMarshal`
raises the fault `p`, or when, after the records before it have been
traversed without a fault, the seeding or the traversal of a record raises the
fault `p`, the result is no table map and the error recovered from `p`; when
no fault is raised the result is the table map and no error.  The error
recovered from a fault that carries a string is the error with that message,
that of a fault that carries an error is this error, and that of any other
fault is the error `unkown error`. -/
theorem marshal_result_shape (c : Collaborators) (sh : SchemaHandler)
    (srcInterface : List AnyVal) :
    (∃ r, MarshalStruct c srcInterface sh = some r ∧
      ((∃ res, r = MarshalResult.mk (some res) none) ∨
        ∃ e, r = MarshalResult.mk none (some e))) ∧
    (∀ p, InitMarshal srcInterface sh = .error p →
      MarshalStruct c srcInterface sh = some (MarshalResult.mk none (some (recoverError p)))) ∧
    (∀ nodeBuf res pre record post nodeBuf1 res1 p,
      InitMarshal srcInterface sh = .ok (nodeBuf, res) → srcInterface = pre ++ record :: post →
      marshalRecords c sh pre nodeBuf res = some (.ok (nodeBuf1, res1)) →
      (seedRoot c sh record nodeBuf1 res1 = .error p ∨
        ∃ s, seedRoot c sh record nodeBuf1 res1 = .ok s ∧
          traverse c sh (recordFuel s) s = some (.error p)) →
      MarshalStruct c srcInterface sh = some (MarshalResult.mk none (some (recoverError p)))) ∧
    (∀ nodeBuf res nodeBuf1 res1, InitMarshal srcInterface sh = .ok (nodeBuf, res) →
      marshalRecords c sh srcInterface nodeBuf res = some (.ok (nodeBuf1, res1)) →
      MarshalStruct c srcInterface sh = some (MarshalResult.mk (some res1) none)) ∧
    (∀ x, recoverError (.str x) = GoError.mk x) ∧ (∀ e, recoverError (.err e) = e) ∧
    recoverError .other = GoError.mk "unkown error" := by
  refine ⟨?_, ?_, ?_, ?_, fun _ => rfl, fun _ => rfl, rfl⟩
  · unfold MarshalStruct
    cases hinit : InitMarshal srcInterface sh with
    | error p => exact ⟨_, rfl, Or.inr ⟨_, rfl⟩⟩
    | ok x =>
      obtain ⟨nb, res⟩ := x
      obtain ⟨r, hr⟩ := marshalRecords_total c sh srcInterface nb res
      simp only [hr]
      cases r with
      | error p => exact ⟨_, rfl, Or.inr ⟨_, rfl⟩⟩
      | ok y => exact ⟨_, rfl, Or.inl ⟨_, rfl⟩⟩
  · intro p hinit
    simp only [MarshalStruct, hinit]
  · intro nb res pre record post nb1 res1 p hinit hsrc hpre hfault
    have hrec : marshalRecords c sh srcInterface nb res = some (.error p) := by
      rw [hsrc, marshalRecords_append c sh pre (record :: post) nb nb1 res res1 hpre]
      simp only [marshalRecords]
      rcases hfault with hseed | ⟨s, hseed, htr⟩
      · simp only [hseed]
      · simp only [hseed, htr]
    simp only [MarshalStruct, hinit, hrec]
  · intro nb res nb1 res1 hinit hrec
    simp only [MarshalStruct, hinit, hrec]

/-! ## Independence of the order of the table map -/

theorem TableMap.get?_iff_mem {res : TableMap} (h : res.keys.Nodup) (k : String) (t : Table) :
    res.get? k = some t ↔ (k, t) ∈ res := by
  induction res with
  | nil => simp [TableMap.get?]
  | cons a r ih =>
    obtain ⟨k0, t0⟩ := a
    simp only [TableMap.keys, List.map_cons, List.nodup_cons] at h
    simp only [TableMap.get?, List.mem_cons, Prod.mk.injEq]
    by_cases hk : k0 = k
    · subst hk
      simp only [if_true, Option.some.injEq, true_and]
      constructor
      · intro h1; exact Or.inl h1.symm
      · rintro (h1 | h1)
        · exact h1.symm
        · exact absurd (List.mem_map_of_mem Prod.fst h1) h.1
    · have hk1 : ¬ k = k0 := fun hc => hk hc.symm
      simp only [hk, if_false, hk1, false_and, false_or]
      exact ih h.2

theorem TableMap.SameTables.nodup_right {res res1 : TableMap} (h : res.SameTables res1) :
    res1.keys.Nodup :=
  ((h.1.map Prod.fst).nodup_iff).1 h.2

theorem TableMap.SameTables.get?_eq {res res1 : TableMap} (h : res.SameTables res1)
    (k : String) : res.get? k = res1.get? k := by
  apply Option.ext
  intro t
  show res.get? k = some t ↔ res1.get? k = some t
  rw [TableMap.get?_iff_mem h.2, TableMap.get?_iff_mem h.nodup_right]
  exact h.1.mem_iff

theorem TableMap.SameTables.map_same {res res1 : TableMap} (h : res.SameTables res1)
    (g : String × Table → String × Table) (hg : ∀ kt, (g kt).1 = kt.1) :
    TableMap.SameTables (res.map g) (res1.map g) := by
  refine ⟨h.1.map g, ?_⟩
  have : (List.map g res).map Prod.fst = res.map Prod.fst := by
    rw [List.map_map]
    exact List.map_congr_left fun kt _ => hg kt
  simp only [TableMap.keys]
  rw [this]
  exact h.2

theorem TableMap.appendAt_eq_map {res : TableMap} (h : res.keys.Nodup) (path : String)
    (v : AnyVal) (dl rl : Int) :
    res.appendAt path v dl rl =
      if (res.get? path).isSome then
        .ok (res.map fun kt => if kt.1 = path then (kt.1, kt.2.append v dl rl) else kt)
      else .error nilDereference := by
  induction res with
  | nil => simp [TableMap.appendAt, TableMap.get?]
  | cons a r ih =>
    obtain ⟨k0, t0⟩ := a
    simp only [TableMap.keys, List.map_cons, List.nodup_cons] at h
    simp only [TableMap.appendAt, TableMap.get?, List.map_cons]
    by_cases hk : k0 = path
    · subst hk
      simp only [if_true, Option.isSome_some]
      congr 2
      symm
      calc List.map (fun kt => if kt.1 = k0 then (kt.1, kt.2.append v dl rl) else kt) r
          = List.map id r := List.map_congr_left fun kt hkt => by
            have : kt.1 ≠ k0 := fun hc => h.1 (hc ▸ List.mem_map_of_mem Prod.fst hkt)
            simp [this]
        _ = r := List.map_id r
    · simp only [hk, if_false]
      rw [ih h.2]
      by_cases hg : (TableMap.get? r path).isSome = true
      · rw [if_pos hg, if_pos hg]
      · rw [if_neg hg, if_neg hg]

theorem TableMap.SameTables.appendAt_same {res res1 : TableMap} (h : res.SameTables res1)
    (path : String) (v : AnyVal) (dl rl : Int) :
    (∀ r, res.appendAt path v dl rl = .ok r →
      ∃ r1, res1.appendAt path v dl rl = .ok r1 ∧ r.SameTables r1) ∧
    ∀ p, res.appendAt path v dl rl = .error p → res1.appendAt path v dl rl = .error p := by
  rw [TableMap.appendAt_eq_map h.2, TableMap.appendAt_eq_map h.nodup_right, ← h.get?_eq]
  split
  · refine ⟨fun r hr => ?_, fun p hp => by cases hp⟩
    cases hr
    exact ⟨_, rfl, h.map_same _ fun kt => by split <;> rfl⟩
  · exact ⟨fun r hr => (by cases hr), fun p hp => hp⟩

theorem TableMap.SameTables.appendNullBelow_same {res res1 : TableMap}
    (h : res.SameTables res1) (path : String) (dl rl : Int) :
    TableMap.SameTables (res.appendNullBelow path dl rl) (res1.appendNullBelow path dl rl) :=
  h.map_same _ fun kt => by split <;> rfl

theorem emitLeaf_same (c : Collaborators) (sh : SchemaHandler) (node : Node)
    {res res1 : TableMap} (h : res.SameTables res1) :
    (∀ r, emitLeaf c sh node res = .ok r →
      ∃ r1, emitLeaf c sh node res1 = .ok r1 ∧ r.SameTables r1) ∧
    ∀ p, emitLeaf c sh node res = .error p → emitLeaf c sh node res1 = .error p := by
  unfold emitLeaf
  cases node.PathMap with
  | none => exact ⟨fun r hr => (by cases hr), fun p hp => hp⟩
  | some pathMap =>
    dsimp only [bind, Except.bind]
    cases sh.element (sh.mapIndex pathMap.Path) with
    | error e => exact ⟨fun r hr => (by cases hr), fun p hp => hp⟩
    | ok sd =>
      dsimp only
      cases leafValue c node.Val sd with
      | error e => exact ⟨fun r hr => (by cases hr), fun p hp => hp⟩
      | ok value => exact h.appendAt_same _ _ _ _

theorem propagateNull_same (sh : SchemaHandler) (node : Node)
    {res res1 : TableMap} (h : res.SameTables res1) :
    (∀ r, propagateNull sh node res = .ok r →
      ∃ r1, propagateNull sh node res1 = .ok r1 ∧ r.SameTables r1) ∧
    ∀ p, propagateNull sh node res = .error p → propagateNull sh node res1 = .error p := by
  unfold propagateNull
  cases node.PathMap with
  | none => exact ⟨fun r hr => (by cases hr), fun p hp => hp⟩
  | some pathMap =>
    dsimp only [bind, Except.bind, pure, Except.pure]
    cases sh.element (sh.mapIndex pathMap.Path) with
    | error e => exact ⟨fun r hr => (by cases hr), fun p hp => hp⟩
    | ok el =>
      dsimp only
      split
      · refine ⟨fun r hr => ?_, fun p hp => by cases hp⟩
        cases hr
        exact ⟨_, rfl, h.appendNullBelow_same _ _ _⟩
      · exact h.appendAt_same _ _ _ _

theorem step_same (c : Collaborators) (sh : SchemaHandler) (nodeBuf : NodeBufType)
    (stack : List Nat) {res res1 : TableMap} (h : res.SameTables res1) :
    (∀ s1, step c sh (State.mk nodeBuf stack res) = .ok s1 →
      ∃ r1, step c sh (State.mk nodeBuf stack res1) = .ok (State.mk s1.nodeBuf s1.stack r1) ∧
        s1.res.SameTables r1) ∧
    ∀ p, step c sh (State.mk nodeBuf stack res) = .error p →
      step c sh (State.mk nodeBuf stack res1) = .error p := by
  unfold step
  dsimp only
  cases stack.getLast? with
  | none =>
    refine ⟨fun s1 hs1 => ?_, fun p hp => by cases hp⟩
    cases hs1
    exact ⟨res1, rfl, h⟩
  | some node =>
    dsimp only [bind, Except.bind, pure, Except.pure]
    cases classify sh (nodeBuf.node node) with
    | error e => exact ⟨fun r hr => (by cases hr), fun p hp => hp⟩
    | ok cls =>
      cases cls with
      | none =>
        dsimp only
        obtain ⟨e1, e2⟩ := emitLeaf_same c sh (nodeBuf.node node) h
        cases hem : emitLeaf c sh (nodeBuf.node node) res with
        | error e =>
          rw [e2 e hem]
          exact ⟨fun r hr => (by cases hr), fun p hp => hp⟩
        | ok r =>
          obtain ⟨r1, hr1, hsame⟩ := e1 r hem
          rw [hr1]
          refine ⟨fun s1 hs1 => ?_, fun p hp => by cases hp⟩
          cases hs1
          exact ⟨r1, rfl, hsame⟩
      | some m =>
        dsimp only
        cases m.Marshal c sh node nodeBuf stack.dropLast with
        | error e => exact ⟨fun r hr => (by cases hr), fun p hp => hp⟩
        | ok x =>
          obtain ⟨nb1, stack1⟩ := x
          dsimp only
          split
          · obtain ⟨e1, e2⟩ := propagateNull_same sh (nb1.node node) h
            cases hpn : propagateNull sh (nb1.node node) res with
            | error e =>
              rw [e2 e hpn]
              exact ⟨fun r hr => (by cases hr), fun p hp => hp⟩
            | ok r =>
              obtain ⟨r1, hr1, hsame⟩ := e1 r hpn
              rw [hr1]
              refine ⟨fun s1 hs1 => ?_, fun p hp => by cases hp⟩
              cases hs1
              exact ⟨r1, rfl, hsame⟩
          · refine ⟨fun s1 hs1 => ?_, fun p hp => by cases hp⟩
            cases hs1
            exact ⟨res1, rfl, h⟩

theorem traverse_same (c : Collaborators) (sh : SchemaHandler) (fuel : Nat) :
    ∀ (nodeBuf : NodeBufType) (stack : List Nat) (res res1 : TableMap), res.SameTables res1 →
      (traverse c sh fuel (State.mk nodeBuf stack res) = none →
        traverse c sh fuel (State.mk nodeBuf stack res1) = none) ∧
      (∀ p, traverse c sh fuel (State.mk nodeBuf stack res) = some (.error p) →
        traverse c sh fuel (State.mk nodeBuf stack res1) = some (.error p)) ∧
      ∀ s1, traverse c sh fuel (State.mk nodeBuf stack res) = some (.ok s1) →
        ∃ r1, traverse c sh fuel (State.mk nodeBuf stack res1) =
            some (.ok (State.mk s1.nodeBuf s1.stack r1)) ∧ s1.res.SameTables r1 := by
  induction fuel with
  | zero =>
    intro nb stack res res1 h
    unfold traverse
    dsimp only
    by_cases hst : stack = []
    · rw [if_pos hst, if_pos hst]
      refine ⟨fun hc => (by cases hc), fun p hp => (by cases hp), fun s1 hs1 => ?_⟩
      cases hs1
      exact ⟨res1, rfl, h⟩
    · rw [if_neg hst, if_neg hst]
      exact ⟨fun _ => rfl, fun p hp => (by cases hp), fun s1 hs1 => (by cases hs1)⟩
  | succ n ih =>
    intro nb stack res res1 h
    unfold traverse
    dsimp only
    by_cases hst : stack = []
    · rw [if_pos hst, if_pos hst]
      refine ⟨fun hc => (by cases hc), fun p hp => (by cases hp), fun s1 hs1 => ?_⟩
      cases hs1
      exact ⟨res1, rfl, h⟩
    · rw [if_neg hst, if_neg hst]
      obtain ⟨e1, e2⟩ := step_same c sh nb stack h
      cases hstep : step c sh (State.mk nb stack res) with
      | error e =>
        rw [e2 e hstep]
        exact ⟨fun hc => (by cases hc), fun p hp => hp, fun s1 hs1 => (by cases hs1)⟩
      | ok s2 =>
        obtain ⟨r2, hr2, hsame⟩ := e1 s2 hstep
        rw [hr2]
        obtain ⟨nb2, stack2, res2⟩ := s2
        exact ih nb2 stack2 res2 r2 hsame

theorem seedRoot_tables (c : Collaborators) (sh : SchemaHandler) (record : AnyVal)
    (nodeBuf : NodeBufType) (res res1 : TableMap) :
    (∀ s, seedRoot c sh record nodeBuf res = .ok s → s.res = res ∧
      seedRoot c sh record nodeBuf res1 = .ok (State.mk s.nodeBuf s.stack res1)) ∧
    ∀ p, seedRoot c sh record nodeBuf res = .error p →
      seedRoot c sh record nodeBuf res1 = .error p := by
  unfold seedRoot
  dsimp only [bind, Except.bind, pure, Except.pure]
  cases nodeBuf.Reset.GetNode with
  | error e => exact ⟨fun s hs => (by cases hs), fun p hp => hp⟩
  | ok x =>
    obtain ⟨nb, node⟩ := x
    dsimp only
    repeat' split
    all_goals first
      | exact ⟨fun s hs => (by cases hs), fun p hp => hp⟩
      | exact ⟨fun s hs => (by cases hs; exact ⟨rfl, rfl⟩), fun p hp => (by cases hp)⟩

theorem marshalRecords_same (c : Collaborators) (sh : SchemaHandler) (records : List AnyVal) :
    ∀ (nodeBuf : NodeBufType) (res res1 : TableMap), res.SameTables res1 →
      SameOutcome (marshalRecords c sh records nodeBuf res)
        (marshalRecords c sh records nodeBuf res1) := by
  induction records with
  | nil =>
    intro nb res res1 h
    exact ⟨rfl, h⟩
  | cons record rest ih =>
    intro nb res res1 h
    unfold marshalRecords
    obtain ⟨e1, e2⟩ := seedRoot_tables c sh record nb res res1
    cases hs : seedRoot c sh record nb res with
    | error e =>
      rw [e2 e hs]
      exact rfl
    | ok s =>
      obtain ⟨hres, hs1⟩ := e1 s hs
      rw [hs1]
      dsimp only
      obtain ⟨snb, sstack, sres⟩ := s
      simp only at hres
      subst hres
      have hfuel : recordFuel (State.mk snb sstack res1) = recordFuel (State.mk snb sstack sres) :=
        rfl
      rw [hfuel]
      obtain ⟨t1, t2, t3⟩ := traverse_same c sh (recordFuel (State.mk snb sstack sres)) snb sstack
        sres res1 h
      cases ht : traverse c sh (recordFuel (State.mk snb sstack sres))
          (State.mk snb sstack sres) with
      | none =>
        rw [t1 ht]
        exact trivial
      | some x =>
        cases x with
        | error e =>
          rw [t2 e ht]
          exact rfl
        | ok s2 =>
          obtain ⟨r2, hr2, hsame⟩ := t3 s2 ht
          rw [hr2]
          exact ih s2.nodeBuf s2.res r2 hsame

/-- Witness of `traversal_terminates` on the first record of scenario A. -/
theorem traversal_terminates_witness :
    seedRoot scenarioCollaborators schemaA batchA.head?.join initA.1 initA.2 = .ok stateA0 ∧
      recordFuel stateA0 = stackSize stateA0 + 1 ∧
      ∃ r, traverse scenarioCollaborators schemaA (recordFuel stateA0) stateA0 = some r ∧
        ∀ s1, r = .ok s1 → s1.stack = [] :=
  ⟨rfl, (traversal_terminates scenarioCollaborators schemaA).1 batchA.head?.join initA.1 initA.2
    stateA0 rfl⟩

/-- Witness of `marshal_result_shape` on scenario B, where the traversal of the
only record raises a fault. -/
theorem marshal_result_shape_witness :
    InitMarshal batchB schemaB = .ok (initB.1, initB.2) ∧
      (∃ s, seedRoot scenarioCollaborators schemaB (some (.struct [("Props",
          .map [(.str "A", .int 1)])])) initB.1 initB.2 = .ok s ∧
        traverse scenarioCollaborators schemaB (recordFuel s) s =
          some (.error (valueError "reflect.Value.IsNil" "zero"))) ∧
      MarshalStruct scenarioCollaborators batchB schemaB = some (MarshalResult.mk none
        (some (recoverError (valueError "reflect.Value.IsNil" "zero")))) :=
  ⟨rfl, ⟨_, rfl, rfl⟩,
    (marshal_result_shape scenarioCollaborators schemaB batchB).2.2.1 initB.1 initB.2 []
      (some (.struct [("Props", .map [(.str "A", .int 1)])])) [] initB.1 initB.2
      (valueError "reflect.Value.IsNil" "zero") rfl rfl rfl (Or.inr ⟨_, rfl, rfl⟩)⟩

/-- C13 (as the code has it): the loop over the records does not depend on the
order in which `range` visits the table map.  Started from two table maps that
hold the same tables under the same keys, each key once, in any two orders,
it raises the same fault in both runs, or it ends in both with the same node
pool and with table maps that again hold the same tables under the same keys,
so that every path has the same column in both.  The table map that
`InitMarshal` builds holds each key once. -/
theorem columns_independent_of_table_order (c : Collaborators) (sh : SchemaHandler)
    (records : List AnyVal) (nodeBuf : NodeBufType) (res res1 : TableMap)
    (hperm : res.Perm res1) (hnd : res.keys.Nodup) :
    SameOutcome (marshalRecords c sh records nodeBuf res)
      (marshalRecords c sh records nodeBuf res1) ∧
    (∀ nodeBuf2 res2 nodeBuf3 res3,
      marshalRecords c sh records nodeBuf res = some (.ok (nodeBuf2, res2)) →
      marshalRecords c sh records nodeBuf res1 = some (.ok (nodeBuf3, res3)) →
      nodeBuf2 = nodeBuf3 ∧ ∀ key, res2.get? key = res3.get? key) ∧
    (∀ nodeBuf0 res0, InitMarshal records sh = .ok (nodeBuf0, res0) → res0.keys.Nodup) := by
  have hsame := marshalRecords_same c sh records nodeBuf res res1 ⟨hperm, hnd⟩
  refine ⟨hsame, fun nb2 res2 nb3 res3 h2 h3 => ?_, fun nb0 res0 h0 => (InitMarshal_spec h0).2.1⟩
  rw [h2, h3] at hsame
  exact ⟨hsame.1, fun key => hsame.2.get?_eq key⟩

/-- Witness of `columns_independent_of_table_order` on scenario A, with the
table map of `InitMarshal` and the same table map in the reverse order. -/
theorem columns_independent_of_table_order_witness :
    SameOutcome (marshalRecords scenarioCollaborators schemaA batchA initA.1 initA.2)
      (marshalRecords scenarioCollaborators schemaA batchA initA.1 initA.2.reverse) ∧
    (∀ nodeBuf2 res2 nodeBuf3 res3,
      marshalRecords scenarioCollaborators schemaA batchA initA.1 initA.2 =
        some (.ok (nodeBuf2, res2)) →
      marshalRecords scenarioCollaborators schemaA batchA initA.1 initA.2.reverse =
        some (.ok (nodeBuf3, res3)) →
      nodeBuf2 = nodeBuf3 ∧ ∀ key, res2.get? key = res3.get? key) ∧
    (∀ nodeBuf0 res0, InitMarshal batchA schemaA = .ok (nodeBuf0, res0) → res0.keys.Nodup) :=
  columns_independent_of_table_order scenarioCollaborators schemaA batchA initA.1 initA.2
    initA.2.reverse (List.reverse_perm _).symm (by decide)

/-- C13, counterexample: the map `{"a": 1, "b": 2}` of the logical map
scenario, marshalled once with its keys returned in the order `a`, `b` and
once with the same keys returned in the order `b`, `a`, yields two different
key columns. -/
theorem key_order_changes_columns :
    column (MarshalStruct scenarioCollaborators batchM schemaM)
        "Parquet_go_root/Props/Key_value/Key" =
      some ([some (.str "a"), some (.str "b")], [1, 1], [0, 1]) ∧
    column (MarshalStruct scenarioCollaborators batchMSwapped schemaM)
        "Parquet_go_root/Props/Key_value/Key" =
      some ([some (.str "b"), some (.str "a")], [1, 1], [0, 1]) :=
  ⟨rfl, rfl⟩

/-! ## Definition levels behind optional references -/

theorem step_ptr_nil_group (c : Collaborators) (sh : SchemaHandler) {s : State}
    {rest : List Nat} {p : Nat} {pg : PathMapType} {rl dl : Int} {sg : SchemaElement}
    (hstack : s.stack = rest ++ [p])
    (hnode : s.nodeBuf.node p = Node.mk (.ptr none) (some pg) rl dl)
    (hsg : sh.element (sh.mapIndex pg.Path) = .ok sg) (hgroup : sg.GetNumChildren > 0) :
    step c sh s = .ok (State.mk s.nodeBuf rest (s.res.appendNullBelow pg.Path dl rl)) := by
  unfold step
  rw [hstack, List.getLast?_concat]
  simp only [List.dropLast_concat, bind, Except.bind, pure, Except.pure]
  rw [classify_ptr sh _ none (by rw [hnode])]
  simp only [Marshaler.Marshal, ParquetPtr.Marshal, hnode, Val.IsNil, bind,
    Except.bind, pure, Except.pure, Option.isNone_none, if_true, propagateNull, hsg, hgroup]

theorem ptrChain_absent_group_run {c : Collaborators} {sh : SchemaHandler} {rest : List Nat}
    {p : Nat} {pg : PathMapType} {r : Int} {sg : SchemaElement}
    (hsg : sh.element (sh.mapIndex pg.Path) = .ok sg) (hgroup : sg.GetNumChildren > 0)
    (j : Nat) :
    ∀ (s : State) (d : Int), s.stack = rest ++ [p] →
      s.nodeBuf.node p = Node.mk (ptrChain j (.ptr none)) (some pg) r d →
      -2147483648 ≤ d → d + j ≤ 2147483647 →
      ∃ s1, steps c sh (j + 1) s = .ok s1 ∧
        (∀ fuel, traverse c sh (fuel + (j + 1)) s = traverse c sh fuel s1) ∧
        s1.stack = rest ∧
        s1.res = s.res.appendNullBelow pg.Path (d + j) r := by
  induction j with
  | zero =>
    intro s d hstack hnode _ _
    have hstep := step_ptr_nil_group c sh hstack hnode hsg hgroup
    have hne : s.stack ≠ [] := by rw [hstack]; simp
    refine ⟨_, by rw [steps_succ_of_step hstep]; rfl, ?_, rfl, ?_⟩
    · intro fuel
      exact traverse_of_step hne hstep fuel
    · simp
  | succ n ih =>
    intro s d hstack hnode h1 h2
    have hstep := step_ptr c sh hstack hnode
    have hlt : p < s.nodeBuf.Buf.length := NodeBufType.lt_length_of_node hnode rfl
    have hne : s.stack ≠ [] := by rw [hstack]; simp
    have hw : wrapInt32 (d + 1) = d + 1 := wrapInt32_eq (by omega) (by push_cast at h2; omega)
    obtain ⟨s1, hs1, htr, hst, hres⟩ := ih (State.mk
      (s.nodeBuf.update p fun _ => Node.mk (ptrChain n (.ptr none)) (some pg) r (wrapInt32 (d + 1)))
      (rest ++ [p]) s.res) (d + 1) rfl (by
      simp only [NodeBufType.node_update_self _ _ _ hlt, hw]) (by omega)
      (by push_cast at h2; omega)
    refine ⟨s1, by rw [steps_succ_of_step hstep]; exact hs1, ?_, hst, ?_⟩
    · intro fuel
      rw [← Nat.add_assoc, traverse_of_step hne hstep]
      exact htr fuel
    · rw [hres]
      simp only
      congr 1
      push_cast
      omega

/-- C6 (as the code has it): the definition level of an entry counts the
references that the traversal went through, whatever the schema declares.  A
node at the definition level `d` holds a value behind `n` references
(pointers).  When all `n` are non-nil and the value is a scalar, the `n + 1`
next iterations append one entry to the column of the node's path: the coerced
value at the definition level `d + n`.  When the first `j < n` references are
non-nil and the next one is nil, the `j + 1` next iterations append a null at
the definition level `d + n` minus the `n - j` references that were skipped,
`d + j`: to the column of the node's path when that path is a leaf, and to
every column whose key is a child path of the node's path when the nil
reference stands at a group, an ancestor of the leaf.  In every case the stack
below the node and every other column are left as they were. -/
theorem optional_leaf_levels (c : Collaborators) (sh : SchemaHandler) (s : State)
    (rest : List Nat) (p : Nat) (pe : PathMapType) (r d : Int) (n : Nat) (se : SchemaElement)
    (hstack : s.stack = rest ++ [p])
    (hse : sh.element (sh.mapIndex pe.Path) = .ok se)
    (hlow : -2147483648 ≤ d) (hhigh : d + n ≤ 2147483647) :
    (∀ v cv t, s.nodeBuf.node p = Node.mk (ptrChain n v) (some pe) r d →
      v.IsTerminal = true → leafValue c v se = .ok cv → s.res.get? pe.Path = some t →
      ∃ s1, steps c sh (n + 1) s = .ok s1 ∧
        (∀ fuel, traverse c sh (fuel + (n + 1)) s = traverse c sh fuel s1) ∧
        s1.stack = rest ∧
        s1.res.get? pe.Path = some (t.append cv (d + n) r) ∧
        ∀ key, key ≠ pe.Path → s1.res.get? key = s.res.get? key) ∧
    (∀ j t, j < n → s.nodeBuf.node p = Node.mk (ptrChain j (.ptr none)) (some pe) r d →
      se.GetNumChildren = 0 → s.res.get? pe.Path = some t →
      ∃ s1, steps c sh (j + 1) s = .ok s1 ∧
        (∀ fuel, traverse c sh (fuel + (j + 1)) s = traverse c sh fuel s1) ∧
        s1.stack = rest ∧
        s1.res.get? pe.Path = some (t.append none (d + n - ((n - j : Nat) : Int)) r) ∧
        d + n - ((n - j : Nat) : Int) = d + j ∧
        ∀ key, key ≠ pe.Path → s1.res.get? key = s.res.get? key) ∧
    (∀ j, j < n → s.nodeBuf.node p = Node.mk (ptrChain j (.ptr none)) (some pe) r d →
      se.GetNumChildren > 0 →
      ∃ s1, steps c sh (j + 1) s = .ok s1 ∧
        (∀ fuel, traverse c sh (fuel + (j + 1)) s = traverse c sh fuel s1) ∧
        s1.stack = rest ∧
        ∀ key, s1.res.get? key = (s.res.get? key).map fun t =>
          if IsChildPath pe.Path key = true then t.append none (d + j) r else t) := by
  refine ⟨?_, ?_, ?_⟩
  · intro v cv t hnode hterm hcv ht
    have hsome : (s.res.get? pe.Path).isSome = true := by rw [ht]; rfl
    obtain ⟨s1, h1, h2, h3, h4⟩ :=
      ptrChain_present_run hterm hse hcv n s d hstack hnode hsome hlow hhigh
    refine ⟨s1, h1, h2, h3, ?_, fun key hkey => ?_⟩
    · rw [h4, TableMap.get?_modifyAt_self, ht]
      rfl
    · rw [h4, TableMap.get?_modifyAt_ne _ _ _ _ hkey]
  · intro j t hj hnode hleaf ht
    have hsome : (s.res.get? pe.Path).isSome = true := by rw [ht]; rfl
    have hdl : d + n - ((n - j : Nat) : Int) = d + j := by omega
    obtain ⟨s1, h1, h2, h3, h4⟩ :=
      ptrChain_absent_run hse hleaf j s d hstack hnode hsome hlow (by omega)
    refine ⟨s1, h1, h2, h3, ?_, hdl, fun key hkey => ?_⟩
    · rw [h4, TableMap.get?_modifyAt_self, ht, hdl]
      rfl
    · rw [h4, TableMap.get?_modifyAt_ne _ _ _ _ hkey]
  · intro j hj hnode hgroup
    obtain ⟨s1, h1, h2, h3, h4⟩ :=
      ptrChain_absent_group_run hse hgroup j s d hstack hnode hlow (by omega)
    refine ⟨s1, h1, h2, h3, fun key => ?_⟩
    rw [h4, TableMap.get?_appendNullBelow]

/-- Witness of `optional_leaf_levels`.  On the optional leaf `Note` behind one
reference: present, the entry is the value at the definition level 1; nil, the
entry is a null at the definition level 0.  On the optional group `Tags` of
scenario A behind one reference that is nil: the column of the element leaf
below it gains a null at the definition level 0, and the column of `Name`
stays as it was.  The batch of the two records of `Note` yields the column
`["n", null]` with the definition levels `[1, 0]`. -/
theorem optional_leaf_levels_witness :
    (∃ s1, steps scenarioCollaborators schemaNote 2
        (stateNote (some (.struct [("Note", .ptr (some (.str "n")))]))) = .ok s1 ∧
      s1.stack = [] ∧
      s1.res.get? "Parquet_go_root/Note" = some (tableNote.append (some (.str "n")) 1 0)) ∧
    (∃ s1, steps scenarioCollaborators schemaNote 1
        (stateNote (some (.struct [("Note", .ptr none)]))) = .ok s1 ∧
      s1.stack = [] ∧
      s1.res.get? "Parquet_go_root/Note" = some (tableNote.append none 0 0)) ∧
    (∃ s1, steps scenarioCollaborators schemaA 1 stateATagsNil = .ok s1 ∧
      s1.stack = [1] ∧
      s1.res.get? "Parquet_go_root/Tags/List/Element" =
        (stateATagsNil.res.get? "Parquet_go_root/Tags/List/Element").map
          (fun t => t.append none 0 0) ∧
      s1.res.get? "Parquet_go_root/Name" = stateATagsNil.res.get? "Parquet_go_root/Name") ∧
    column (Marshal scenarioCollaborators batchNote schemaNote) "Parquet_go_root/Note" =
      some ([some (.str "n"), none], [1, 0], [0, 0]) := by
  refine ⟨?_, ?_, ?_, rfl⟩
  · obtain ⟨s1, h1, _, h3, h4, _⟩ :=
      (optional_leaf_levels scenarioCollaborators schemaNote
        (stateNote (some (.struct [("Note", .ptr (some (.str "n")))]))) [] 1 pathMapNote 0 0 1
        ⟨some .BYTE_ARRAY, some .OPTIONAL, none, some 0⟩ rfl rfl
        (by decide) (by decide)).1 (.str "n") (some (.str "n")) tableNote rfl rfl rfl rfl
    exact ⟨s1, h1, h3, h4⟩
  · obtain ⟨s1, h1, _, h3, h4, _⟩ :=
      (optional_leaf_levels scenarioCollaborators schemaNote
        (stateNote (some (.struct [("Note", .ptr none)]))) [] 1 pathMapNote 0 0 1
        ⟨some .BYTE_ARRAY, some .OPTIONAL, none, some 0⟩ rfl rfl
        (by decide) (by decide)).2.1 0 tableNote (by decide) rfl rfl rfl
    exact ⟨s1, h1, h3, h4⟩
  · obtain ⟨s1, h1, _, h3, h4⟩ :=
      (optional_leaf_levels scenarioCollaborators schemaA stateATagsNil [1] 2 pathMapATags 0 0 1
        ⟨none, some .OPTIONAL, some 1, some 3⟩ rfl rfl
        (by decide) (by decide)).2.2 0 (by decide) rfl (by decide)
    refine ⟨s1, h1, h3, ?_, ?_⟩
    · rw [h4 "Parquet_go_root/Tags/List/Element"]
      rfl
    · rw [h4 "Parquet_go_root/Name"]
      cases hg : stateATagsNil.res.get? "Parquet_go_root/Name" <;> rfl

/-- C6, counterexample: a present optional leaf whose entry is below the
maximum definition level of its path.  Under the optional-leaf schema, `Note`
is `OPTIONAL` with the maximum definition level 1; a record whose field `Note`
holds a string itself is marshalled without error, and its entry has the
definition level 0.  Under the schema of scenario B, the leaf `Props/A` is
`OPTIONAL` with the maximum definition level 1; the struct-shaped map
`{"A": 1, "B": 2}` is marshalled without error, and the entry of `A` has the
definition level 0. -/
theorem present_optional_leaf_below_maximum :
    (schemaNote.element (schemaNote.mapIndex "Parquet_go_root/Note")).toOption.map
        (fun e => e.RepetitionType) = some (some FieldRepetitionType.OPTIONAL) ∧
      schemaNote.MaxDefinitionLevel (StrToPath "Parquet_go_root/Note") = 1 ∧
      column (MarshalStruct scenarioCollaborators batchNotePlain schemaNote)
        "Parquet_go_root/Note" = some ([some (.str "n")], [0], [0]) ∧
      (schemaB.element (schemaB.mapIndex "Parquet_go_root/Props/A")).toOption.map
        (fun e => e.RepetitionType) = some (some FieldRepetitionType.OPTIONAL) ∧
      schemaB.MaxDefinitionLevel (StrToPath "Parquet_go_root/Props/A") = 1 ∧
      column (MarshalStruct scenarioCollaborators batchBBoth schemaB)
        "Parquet_go_root/Props/A" = some ([some (.int 1)], [0], [0]) :=
  ⟨rfl, rfl, rfl, rfl, rfl, rfl⟩
theorem classify_unsafePointer (sh : SchemaHandler) (node : Node) (b : Bool)
    (h : node.Val = .UnsafePointer b) : classify sh node = .ok (some .ParquetPtr) := by
  unfold classify
  simp [h, Val.IsValid, Val.TypeKind, Val.GetKind, bind, Except.bind, pure, Except.pure]

theorem mapChildren_mem (kv : PathMapType) (rlNow r d : Int) (es : List (Val × Val))
    (j i : Nat) (hi : i < j) :
    (∃ n ∈ mapChildren kv rlNow r d es j,
      n.Val = (es.getD i (Val.invalid, Val.invalid)).1 ∧ n.PathMap = kv.child "Key") ∧
    ∃ n ∈ mapChildren kv rlNow r d es j,
      n.Val = (es.getD i (Val.invalid, Val.invalid)).2 ∧ n.PathMap = kv.child "Value" := by
  induction j with
  | zero => omega
  | succ k ih =>
    simp only [mapChildren]
    by_cases hik : i = k
    · subst hik
      exact ⟨⟨_, List.mem_cons_self _ _, rfl, rfl⟩,
        ⟨_, List.mem_cons_of_mem _ (List.mem_cons_self _ _), rfl, rfl⟩⟩
    · obtain ⟨⟨n, hn, h1, h2⟩, ⟨n1, hn1, h3, h4⟩⟩ := ih (by omega)
      exact ⟨⟨n, List.mem_cons_of_mem _ (List.mem_cons_of_mem _ hn), h1, h2⟩,
        ⟨n1, List.mem_cons_of_mem _ (List.mem_cons_of_mem _ hn1), h3, h4⟩⟩

theorem forall₂_of_mem_left {α β : Type} {R : α → β → Prop} {l1 : List α} {l2 : List β}
    (h : List.Forall₂ R l1 l2) {a : α} (ha : a ∈ l1) : ∃ b ∈ l2, R a b := by
  induction h with
  | nil => cases ha
  | cons hab _ ih =>
    rcases List.mem_cons.1 ha with rfl | hin
    · exact ⟨_, List.mem_cons_self _ _, hab⟩
    · obtain ⟨b, hb, hr⟩ := ih hin
      exact ⟨b, List.mem_cons_of_mem _ hb, hr⟩

theorem initMissing_no_leaf (children : List (String × PathMapType))
    (h : ∀ kc ∈ children, kc.2.Children.length ≠ 0) (mk : List (String × Bool)) :
    ParquetMapStruct.initMissing children mk = mk := by
  induction children generalizing mk with
  | nil => rfl
  | cons a rest ih =>
    obtain ⟨k, typ⟩ := a
    have h1 : typ.Children.length ≠ 0 := h (k, typ) (List.mem_cons_self _ _)
    simp only [ParquetMapStruct.initMissing, h1, if_false]
    exact ih (fun kc hkc => h kc (List.mem_cons_of_mem _ hkc)) mk

theorem presentEntries_none (pm : PathMapType) (es : List (Val × Val))
    (h : ∀ e ∈ es, pm.child e.1.KeyString = none) :
    presentEntries pm es es.length = [] := by
  apply List.eq_nil_iff_forall_not_mem.2
  intro ec hec
  obtain ⟨hmem, hch⟩ := (mem_presentEntries pm es ec).1 hec
  rw [h ec.1 hmem] at hch
  cases hch

theorem step_covers (c : Collaborators) (sh : SchemaHandler) (key : String) {s s1 : State}
    {rest : List Nat} {p : Nat} (hstack : s.stack = rest ++ [p])
    (hinv : s.Inv (fun _ => True) (fun _ _ => True) (fun _ => True)) (hk : (s.res.get? key).isSome)
    (hcov : Covers c sh key (s.nodeBuf.node p).Val (s.nodeBuf.node p).PathMap)
    (h : step c sh s = .ok s1) :
    s.res.entries key + 1 ≤ s1.res.entries key ∨
      ∃ q ∈ s1.stack, Covers c sh key (s1.nodeBuf.node q).Val (s1.nodeBuf.node q).PathMap := by
  have hp : p < s.nodeBuf.Index.toNat := hinv.below p (by rw [hstack]; simp)
  have hv := hinv.valid
  have hplen : p < s.nodeBuf.Buf.length := by
    have := hv.2; have := hv.1; omega
  obtain ⟨⟨v, pm, r, d⟩, hN⟩ : ∃ N, s.nodeBuf.node p = N := ⟨_, rfl⟩
  rw [hN] at hcov
  simp only at hcov
  have hnull : ∀ (pmv : PathMapType) (nb1 : NodeBufType) (stack1 : List Nat) (m : Marshaler),
      pm = some pmv → NullReaches sh pmv key → nb1.node p = s.nodeBuf.node p →
      stack1.length = rest.length →
      ((stack1.length = rest.length ∧
          ∃ res1, propagateNull sh (nb1.node p) s.res = .ok res1 ∧
            s1 = State.mk nb1 stack1 res1) ∨
        (stack1.length ≠ rest.length ∧ s1 = State.mk nb1 stack1 s.res)) →
      s.res.entries key + 1 ≤ s1.res.entries key := by
    intro pmv nb1 stack1 m hpm hr hnode hlen hcase
    rcases hcase with ⟨_, res1, hres, rfl⟩ | ⟨hne, _⟩
    · rw [hnode] at hres
      have := propagateNull_reaches (by rw [hN]; exact hpm) hr hk hres
      simp only
      omega
    · exact absurd hlen hne
  have hpush : ∀ (nb1 : NodeBufType) (stack1 : List Nat) (q : Nat),
      q ∈ stack1 → stack1.length ≠ rest.length →
      Covers c sh key (nb1.node q).Val (nb1.node q).PathMap →
      ((stack1.length = rest.length ∧
          ∃ res1, propagateNull sh (nb1.node p) s.res = .ok res1 ∧
            s1 = State.mk nb1 stack1 res1) ∨
        (stack1.length ≠ rest.length ∧ s1 = State.mk nb1 stack1 s.res)) →
      ∃ q ∈ s1.stack, Covers c sh key (s1.nodeBuf.node q).Val (s1.nodeBuf.node q).PathMap := by
    intro nb1 stack1 q hq hlen hc hcase
    rcases hcase with ⟨hl, _⟩ | ⟨_, rfl⟩
    · exact absurd hl hlen
    · exact ⟨q, hq, hc⟩
  rcases step_cases hstack h with ⟨hcls, res1, hres, rfl⟩ | ⟨m, nb1, stack1, hcls, hm, hcase⟩
  · left
    rw [hN] at hcls
    cases hcov with
    | scalar v pmv hterm hpath =>
      subst hpath
      have := emitLeaf_entries (by rw [hN]) hres
      simp only
      omega
    | nilPtr pmv hr => rw [classify_ptr sh _ none rfl] at hcls; cases hcls
    | nilIface pmv hr => rw [classify_iface sh _ none rfl] at hcls; cases hcls
    | ptr w pmv hw => rw [classify_ptr sh _ (some w) rfl] at hcls; cases hcls
    | iface w pmv hw => rw [classify_iface sh _ (some w) rfl] at hcls; cases hcls
    | noField fs pmv hf hr => rw [classify_struct sh _ fs rfl] at hcls; cases hcls
    | field fs pmv child name w hmem hint hch hw =>
      rw [classify_struct sh _ fs rfl] at hcls; cases hcls
    | emptySlice pmv hr => rw [classify_slice sh _ [] rfl] at hcls; cases hcls
    | elem es pmv pathMap path w hres hmem hw =>
      rw [classify_slice sh _ es rfl] at hcls; cases hcls
    | nilUnsafePointer pmv hr =>
      rw [classify_unsafePointer sh _ true rfl] at hcls; cases hcls
    | emptyMap pmv hr =>
      obtain ⟨e, he, _⟩ := hr
      rw [classify_map sh _ [] pmv e rfl rfl he] at hcls; cases hcls
    | mapKey es pmv kv sele k w hsele hconv hkv hmem hw =>
      rw [classify_map sh _ es pmv sele rfl rfl hsele] at hcls; cases hcls
    | mapValue es pmv kv sele k w hsele hconv hkv hmem hw =>
      rw [classify_map sh _ es pmv sele rfl rfl hsele] at hcls; cases hcls
    | mapEntry es pmv child sele k w hsele hconv hmem hch hkind hw =>
      rw [classify_map sh _ es pmv sele rfl rfl hsele] at hcls; cases hcls
    | mapEntryDynamic es pmv child sele k w hsele hconv hmem hch hw =>
      rw [classify_map sh _ es pmv sele rfl rfl hsele] at hcls; cases hcls
    | mapNoEntry es pmv sele hsele hconv hnone hnoleaf hr =>
      rw [classify_map sh _ es pmv sele rfl rfl hsele] at hcls; cases hcls
  · rw [hN] at hcls
    cases hcov with
    | scalar v pmv hterm hpath =>
      rw [classify_terminal sh _ hterm] at hcls; cases hcls
    | nilPtr pmv hr =>
      rw [classify_ptr sh _ none rfl] at hcls
      cases hcls
      simp only [Marshaler.Marshal, ParquetPtr.Marshal, hN, Val.IsNil, bind, Except.bind, pure,
        Except.pure, Option.isNone_none, if_true] at hm
      cases hm
      exact Or.inl (hnull pmv _ _ .ParquetPtr rfl hr rfl rfl hcase)
    | nilIface pmv hr =>
      rw [classify_iface sh _ none rfl] at hcls
      cases hcls
      simp only [Marshaler.Marshal, ParquetInterface.Marshal, hN, Val.IsNil, bind, Except.bind,
        pure, Except.pure, Option.isNone_none, if_true] at hm
      cases hm
      exact Or.inl (hnull pmv _ _ .ParquetInterface rfl hr rfl rfl hcase)
    | ptr w pmv hw =>
      rw [classify_ptr sh _ (some w) rfl] at hcls
      cases hcls
      simp only [Marshaler.Marshal, ParquetPtr.Marshal, hN, Val.IsNil, Val.Elem, bind,
        Except.bind, pure, Except.pure, Option.isNone_some, NodeBufType.update_update,
        Bool.false_eq_true, if_false] at hm
      cases hm
      refine Or.inr (hpush _ _ p (by simp) (by simp) ?_ hcase)
      rw [NodeBufType.node_update_self _ _ _ hplen, hN]
      exact hw
    | iface w pmv hw =>
      rw [classify_iface sh _ (some w) rfl] at hcls
      cases hcls
      simp only [Marshaler.Marshal, ParquetInterface.Marshal, hN, Val.IsNil, Val.Elem, bind,
        Except.bind, pure, Except.pure, Option.isNone_some, NodeBufType.update_update,
        Bool.false_eq_true, if_false] at hm
      cases hm
      refine Or.inr (hpush _ _ p (by simp) (by simp) ?_ hcase)
      rw [NodeBufType.node_update_self _ _ _ hplen, hN]
      exact hw
    | noField fs pmv hf hr =>
      rw [classify_struct sh _ fs rfl] at hcls
      cases hcls
      simp only [Marshaler.Marshal, ParquetStruct.Marshal, hN, Val.NumField, bind,
        Except.bind] at hm
      have hpu := ParquetStruct.struct_loop_pushes c (fun _ => True) trivial (fun _ _ => trivial) p fs (some pmv) r d
        (fun _ _ _ _ _ _ => trivial)
        fs.length 0 s.nodeBuf rest nb1 stack1 hv hp hN (by simp) hm
      rw [List.drop_zero, structChildren_nil c pmv r d fs hf] at hpu
      obtain ⟨slots, hs, hmap, _, _⟩ := hpu.slots
      have hs0 : slots = [] := List.map_eq_nil_iff.1 hmap
      subst hs0
      rw [List.append_nil] at hs
      subst hs
      exact Or.inl (hnull pmv _ _ .ParquetStruct rfl hr (hpu.frame p hp) rfl hcase)
    | field fs pmv child name w hmem hint hch hw =>
      rw [classify_struct sh _ fs rfl] at hcls
      cases hcls
      simp only [Marshaler.Marshal, ParquetStruct.Marshal, hN, Val.NumField, bind,
        Except.bind] at hm
      have hpu := ParquetStruct.struct_loop_pushes c (fun _ => True) trivial (fun _ _ => trivial) p fs (some pmv) r d
        (fun _ _ _ _ _ _ => trivial)
        fs.length 0 s.nodeBuf rest nb1 stack1 hv hp hN (by simp) hm
      rw [List.drop_zero] at hpu
      obtain ⟨slots, hs, hmap, _, _⟩ := hpu.slots
      have hin := structChildren_mem c pmv child r d fs name w hmem hint hch
      rw [← hmap] at hin
      obtain ⟨q, hq, hnq⟩ := List.mem_map.1 hin
      subst hs
      refine Or.inr (hpush _ _ q (List.mem_append_right _ hq) ?_ ?_ hcase)
      · rw [List.length_append]
        have := List.length_pos_of_mem hq
        omega
      · rw [hnq]
        exact hw
    | emptySlice pmv hr =>
      rw [classify_slice sh _ [] rfl] at hcls
      cases hcls
      simp only [Marshaler.Marshal, ParquetSlice.Marshal, hN, Val.Len, bind, Except.bind, pure,
        Except.pure] at hm
      split at hm
      · cases hm
      · simp only [List.length_nil, Nat.cast_zero, le_refl, if_true] at hm
        cases hm
        exact Or.inl (hnull pmv _ _ .ParquetSlice rfl hr rfl rfl hcase)
    | elem es pmv pathMap path w hres hmem hw =>
      rw [classify_slice sh _ es rfl] at hcls
      cases hcls
      obtain ⟨i, hi, hget⟩ := List.getElem_of_mem hmem
      simp only [Marshaler.Marshal, ParquetSlice.Marshal, hN, Val.Len, hres, bind, Except.bind,
        pure, Except.pure] at hm
      split at hm
      · rename_i hle
        have : 0 < es.length := by omega
        omega
      · have hpu := ParquetSlice.slice_loop_pushes (fun _ => True) trivial p pathMap _ es
          (some pmv) r d (fun _ _ _ => trivial) es.length s.nodeBuf rest nb1 stack1 hv hp hN hm
        obtain ⟨slots, hs, hmap, _, _⟩ := hpu.slots
        obtain ⟨n, hn, hnv, hnp⟩ := sliceChildren_mem pathMap
          (sh.MaxRepetitionLevel (StrToPath path)) r d es es.length i hi
        rw [← hmap] at hn
        obtain ⟨q, hq, hnq⟩ := List.mem_map.1 hn
        subst hs
        refine Or.inr (hpush _ _ q (List.mem_append_right _ hq) ?_ ?_ hcase)
        · rw [List.length_append]
          have := List.length_pos_of_mem hq
          omega
        · rw [hnq, hnv, hnp, List.getD_eq_getElem _ _ hi, hget]
          exact hw
    | nilUnsafePointer pmv hr =>
      rw [classify_unsafePointer sh _ true rfl] at hcls
      cases hcls
      simp only [Marshaler.Marshal, ParquetPtr.Marshal, hN, Val.IsNil, bind, Except.bind, pure,
        Except.pure, if_true] at hm
      cases hm
      exact Or.inl (hnull pmv _ _ .ParquetPtr rfl hr rfl rfl hcase)
    | emptyMap pmv hr =>
      obtain ⟨e, he, hre⟩ := hr
      rw [classify_map sh _ [] pmv e rfl rfl he] at hcls
      cases hcls
      cases hconv : e.IsSetConvertedType
      · simp only [hconv, Bool.false_eq_true, if_false, Marshaler.Marshal,
          ParquetMapStruct.Marshal, hN, Val.MapKeys, bind, Except.bind, pure, Except.pure,
          List.map_nil, List.length_nil, le_refl, if_true] at hm
        cases hm
        exact Or.inl (hnull pmv _ _ .ParquetMapStruct rfl ⟨e, he, hre⟩ rfl rfl hcase)
      · simp only [hconv, if_true, Marshaler.Marshal, ParquetMap.Marshal, hN, Val.MapKeys, bind,
          Except.bind, pure, Except.pure, List.map_nil, List.length_nil, le_refl] at hm
        cases hm
        exact Or.inl (hnull pmv _ _ .ParquetMap rfl ⟨e, he, hre⟩ rfl rfl hcase)
    | mapKey es pmv kv sele k w hsele hconv hkv hmem hw =>
      rw [classify_map sh _ es pmv sele rfl rfl hsele] at hcls
      cases hcls
      obtain ⟨i, hi, hget⟩ := List.getElem_of_mem hmem
      have hlen : ¬ es.length ≤ 0 := by omega
      simp only [hconv, if_true, Marshaler.Marshal, ParquetMap.Marshal, hN, Val.MapKeys, bind,
        Except.bind, pure, Except.pure, List.length_map, hlen, if_false] at hm
      obtain ⟨nb2, stack2, hloop, hpu⟩ := ParquetMap.map_loop_spec p
        (sh.MaxRepetitionLevel (StrToPath (pmv.Path ++ PAR_GO_PATH_DELIMITER ++ "Key_value")))
        es pmv kv r d hkv es.length s.nodeBuf rest hv hp hN (le_refl _)
      rw [hloop] at hm
      cases hm
      obtain ⟨slots, hs, hmap, _, _⟩ := hpu.slots
      obtain ⟨⟨n, hn, hnv, hnp⟩, _⟩ := mapChildren_mem kv
        (sh.MaxRepetitionLevel (StrToPath (pmv.Path ++ PAR_GO_PATH_DELIMITER ++ "Key_value")))
        r d es es.length i hi
      rw [← hmap] at hn
      obtain ⟨q, hq, hnq⟩ := List.mem_map.1 hn
      subst hs
      refine Or.inr (hpush _ _ q (List.mem_append_right _ hq) ?_ ?_ hcase)
      · rw [List.length_append]
        have := List.length_pos_of_mem hq
        omega
      · rw [hnq, hnv, hnp, List.getD_eq_getElem _ _ hi, hget]
        exact hw
    | mapValue es pmv kv sele k w hsele hconv hkv hmem hw =>
      rw [classify_map sh _ es pmv sele rfl rfl hsele] at hcls
      cases hcls
      obtain ⟨i, hi, hget⟩ := List.getElem_of_mem hmem
      have hlen : ¬ es.length ≤ 0 := by omega
      simp only [hconv, if_true, Marshaler.Marshal, ParquetMap.Marshal, hN, Val.MapKeys, bind,
        Except.bind, pure, Except.pure, List.length_map, hlen, if_false] at hm
      obtain ⟨nb2, stack2, hloop, hpu⟩ := ParquetMap.map_loop_spec p
        (sh.MaxRepetitionLevel (StrToPath (pmv.Path ++ PAR_GO_PATH_DELIMITER ++ "Key_value")))
        es pmv kv r d hkv es.length s.nodeBuf rest hv hp hN (le_refl _)
      rw [hloop] at hm
      cases hm
      obtain ⟨slots, hs, hmap, _, _⟩ := hpu.slots
      obtain ⟨_, ⟨n, hn, hnv, hnp⟩⟩ := mapChildren_mem kv
        (sh.MaxRepetitionLevel (StrToPath (pmv.Path ++ PAR_GO_PATH_DELIMITER ++ "Key_value")))
        r d es es.length i hi
      rw [← hmap] at hn
      obtain ⟨q, hq, hnq⟩ := List.mem_map.1 hn
      subst hs
      refine Or.inr (hpush _ _ q (List.mem_append_right _ hq) ?_ ?_ hcase)
      · rw [List.length_append]
        have := List.length_pos_of_mem hq
        omega
      · rw [hnq, hnv, hnp, List.getD_eq_getElem _ _ hi, hget]
        exact hw
    | mapEntry es pmv child sele k w hsele hconv hmem hch hkind hw =>
      rw [classify_map sh _ es pmv sele rfl rfl hsele] at hcls
      cases hcls
      simp only [hconv, Bool.false_eq_true, if_false, Marshaler.Marshal] at hm
      have hes : es ≠ [] := List.ne_nil_of_mem hmem
      obtain ⟨present, missing, hs, hf, _⟩ :=
        ParquetMapStruct.marshal_content sh p s.nodeBuf rest es pmv r d nb1 stack1 hv hp hN hes hm
      obtain ⟨q, hq, hmc⟩ := forall₂_of_mem_left hf
        ((mem_presentEntries pmv es ((k, w), child)).2 ⟨hmem, hch⟩)
      obtain ⟨h1, _, _, _, _, h6⟩ := mapStructChild_spec hmc
      subst hs
      refine Or.inr (hpush _ _ q
        (List.mem_append_left _ (List.mem_append_right _ hq)) ?_ ?_ hcase)
      · simp only [List.length_append]
        have := List.length_pos_of_mem hq
        omega
      · rw [h1, (h6 hkind).1]
        exact hw
    | mapEntryDynamic es pmv child sele k w hsele hconv hmem hch hw =>
      rw [classify_map sh _ es pmv sele rfl rfl hsele] at hcls
      cases hcls
      simp only [hconv, Bool.false_eq_true, if_false, Marshaler.Marshal] at hm
      have hes : es ≠ [] := List.ne_nil_of_mem hmem
      obtain ⟨present, missing, hs, hf, _⟩ :=
        ParquetMapStruct.marshal_content sh p s.nodeBuf rest es pmv r d nb1 stack1 hv hp hN hes hm
      obtain ⟨q, hq, hmc⟩ := forall₂_of_mem_left hf
        ((mem_presentEntries pmv es ((k, .iface (some w)), child)).2 ⟨hmem, hch⟩)
      obtain ⟨h1, _, h3, h4, _, _⟩ := mapStructChild_spec hmc
      have hval : (nb1.node q).Val = w := by
        by_cases hwv : w.IsValid = true
        · exact (h3 w rfl hwv).1
        · exact (h4 w rfl (by simpa using hwv)).1
      subst hs
      refine Or.inr (hpush _ _ q
        (List.mem_append_left _ (List.mem_append_right _ hq)) ?_ ?_ hcase)
      · simp only [List.length_append]
        have := List.length_pos_of_mem hq
        omega
      · rw [h1, hval]
        exact hw
    | mapNoEntry es pmv sele hsele hconv hnone hnoleaf hr =>
      rw [classify_map sh _ es pmv sele rfl rfl hsele] at hcls
      cases hcls
      simp only [hconv, Bool.false_eq_true, if_false, Marshaler.Marshal] at hm
      by_cases hes : es = []
      · subst hes
        simp only [ParquetMapStruct.Marshal, hN, Val.MapKeys, bind, Except.bind, pure,
          Except.pure, List.map_nil, List.length_nil, le_refl, if_true] at hm
        cases hm
        exact Or.inl (hnull pmv _ _ .ParquetMapStruct rfl hr rfl rfl hcase)
      · obtain ⟨present, missing, hs, hf, hmiss, _, _, hframe, _⟩ :=
          ParquetMapStruct.marshal_content sh p s.nodeBuf rest es pmv r d nb1 stack1 hv hp hN
            hes hm
        rw [presentEntries_none pmv es hnone] at hf hmiss
        cases hf
        simp only [List.foldl_nil, initMissing_no_leaf pmv.Children hnoleaf, missingChildren,
          List.map_eq_nil_iff] at hmiss
        subst hmiss
        simp only [List.append_nil] at hs
        subst hs
        exact Or.inl (hnull pmv _ _ .ParquetMapStruct rfl hr (hframe p hp) rfl hcase)

theorem traverse_covers (c : Collaborators) (sh : SchemaHandler) (key : String) (fuel : Nat) :
    ∀ (s s1 : State), s.Inv (fun _ => True) (fun _ _ => True) (fun _ => True) → (s.res.get? key).isSome →
      (∃ q ∈ s.stack, Covers c sh key (s.nodeBuf.node q).Val (s.nodeBuf.node q).PathMap) →
      traverse c sh fuel s = some (.ok s1) →
      s.res.entries key + 1 ≤ s1.res.entries key := by
  induction fuel with
  | zero =>
    intro s s1 _ _ hq h
    obtain ⟨q, hq, _⟩ := hq
    simp only [traverse] at h
    split at h
    · rename_i he
      rw [he] at hq
      cases hq
    · cases h
  | succ n ih =>
    intro s s1 hinv hk hcov h
    obtain ⟨q, hq, hc⟩ := hcov
    simp only [traverse] at h
    split at h
    · rename_i he
      rw [he] at hq
      cases hq
    · rename_i hne
      split at h
      · cases h
      · rename_i s2 hs2
        obtain ⟨rest, p, hstack⟩ : ∃ rest p, s.stack = rest ++ [p] :=
          ⟨s.stack.dropLast, s.stack.getLast hne, (List.dropLast_append_getLast hne).symm⟩
        obtain ⟨hinv2, hframe, ⟨added, hadd⟩, _, _⟩ :=
          step_inv c sh (nodeRule_trivial sh) (fun _ _ => trivial) hstack hinv hs2
        have hext := TableMap.entries_of_extends (step_extends hs2) key
        have hk2 := hext.1 hk
        rw [hstack] at hq
        rcases List.mem_append.1 hq with hqr | hqp
        · have := ih s2 s1 hinv2 hk2
            ⟨q, by rw [hadd]; exact List.mem_append_left _ hqr, by rw [hframe q hqr]; exact hc⟩ h
          have := hext.2
          omega
        · simp only [List.mem_singleton] at hqp
          subst hqp
          rcases step_covers c sh key hstack hinv hk hc hs2 with hdone | hnext
          · have := (TableMap.entries_of_extends (traverse_extends n h) key).2
            omega
          · have := ih s2 s1 hinv2 hk2 hnext h
            have := hext.2
            omega

theorem seedRoot_root (c : Collaborators) (sh : SchemaHandler) {record : AnyVal}
    {nodeBuf : NodeBufType} {res : TableMap} {s : State}
    (h : seedRoot c sh record nodeBuf res = .ok s) :
    ∃ v, rootValue c record = .ok v ∧ (s.nodeBuf.node 0).Val = v ∧
      (s.nodeBuf.node 0).PathMap = sh.PathMap := by
  have hvr : nodeBuf.Reset.Valid := by
    simp only [NodeBufType.Valid, NodeBufType.Reset]
    exact ⟨le_refl _, by omega⟩
  obtain ⟨nbg, hget, hidx, hvg, hlen, hsame⟩ := nodeBuf.Reset.GetNode_spec hvr
  have hri : nodeBuf.Reset.Index.toNat = 0 := rfl
  rw [hri] at hget hlen
  unfold seedRoot at h
  simp only [hget, bind, Except.bind, pure, Except.pure, NodeBufType.update_update,
    NodeBufType.node_update_self _ _ _ hlen, Val.GetKind, if_true, Val.Elem, List.nil_append] at h
  unfold rootValue
  simp only [bind, Except.bind, pure, Except.pure, Val.GetKind, if_true, Val.Elem]
  cases record with
  | none =>
    simp only at h ⊢
    split at h
    · cases h
    · rename_i hptr
      cases h
      rw [if_neg hptr]
      exact ⟨_, rfl, by simp only [NodeBufType.node_update_self _ _ _ hlen],
        by simp only [NodeBufType.node_update_self _ _ _ hlen]⟩
  | some v =>
    simp only at h ⊢
    split at h
    · rename_i hptr
      split at h
      · cases h
      · rename_i w hw
        cases h
        simp only [NodeBufType.node_update_self _ _ _ hlen]
        simp [hptr, hw]
    · rename_i hptr
      cases h
      simp only [NodeBufType.node_update_self _ _ _ hlen]
      simp [hptr]

theorem marshalRecords_covers (c : Collaborators) (sh : SchemaHandler) (key : String)
    (records : List AnyVal) :
    ∀ (nodeBuf nodeBuf1 : NodeBufType) (res res1 : TableMap),
      (∀ record ∈ records, ∃ v, rootValue c record = .ok v ∧ Covers c sh key v sh.PathMap) →
      (res.get? key).isSome →
      marshalRecords c sh records nodeBuf res = some (.ok (nodeBuf1, res1)) →
      res.entries key + records.length ≤ res1.entries key := by
  induction records with
  | nil =>
    intro nb nb1 res res1 _ _ h
    simp only [marshalRecords] at h
    cases h
    simp
  | cons r rest ih =>
    intro nb nb1 res res1 hcov hk h
    simp only [marshalRecords] at h
    split at h
    · cases h
    · rename_i s hs
      split at h
      · cases h
      · cases h
      · rename_i s1 hs1
        obtain ⟨hinv, _, hres, hst, _, _⟩ :=
          @seedRoot_inv c sh (fun _ => True) (fun _ _ => True) (fun _ => True) trivial _ _ _ _
            (fun _ _ => trivial) (fun _ _ => trivial)
            (fun _ _ => ⟨fun _ _ => trivial, fun _ _ => trivial⟩) hs
        obtain ⟨v, hv, hval, hpm⟩ := seedRoot_root c sh hs
        obtain ⟨v1, hv1, hc⟩ := hcov r (List.mem_cons_self _ _)
        rw [hv] at hv1
        cases hv1
        have h1 := traverse_covers c sh key (recordFuel s) s s1 hinv (by rw [hres]; exact hk)
          ⟨0, by rw [hst]; simp, by rw [hval, hpm]; exact hc⟩ hs1
        have hk1 := (TableMap.entries_of_extends (traverse_extends _ hs1) key).1
          (by rw [hres]; exact hk)
        have h2 := ih s1.nodeBuf nb1 s1.res res1
          (fun x hx => hcov x (List.mem_cons_of_mem _ hx)) hk1 h
        rw [hres] at h1
        simp only [List.length_cons]
        omega

theorem TableMap.get?_of_mem_keys {res : TableMap} {key : String} (h : key ∈ res.keys) :
    ∃ t, res.get? key = some t := by
  induction res with
  | nil => cases h
  | cons a r ih =>
    obtain ⟨k, t⟩ := a
    simp only [TableMap.get?]
    by_cases hk : k = key
    · exact ⟨t, by simp [hk]⟩
    · simp only [hk, if_false]
      apply ih
      simp only [TableMap.keys, List.map_cons, List.mem_cons] at h
      rcases h with h | h
      · exact absurd h.symm hk
      · exact h

/-- C4 (amended): when `MarshalStruct` succeeds on a batch of `N` records, the
column of every leaf path of the schema that each record covers has at least
`N` entries.  A record covers a column when the walk from its stripped root
value down the schema path tree, through non-nil pointers and interfaces,
through struct fields that the runtime struct has and the schema declares,
through slice elements, through the keys and values of the entries of a
logical map, and through the values of the entries of a struct-shaped map
whose key is a schema child, ends in a scalar at the column's own path or in a
nil pointer, a nil interface, an empty slice, an empty map or a struct or
struct-shaped map for which nothing is pushed, from which the null propagation
reaches the column.  A column below a schema child for which the runtime
struct has no field is not covered. -/
theorem covered_column_has_entry_per_record (c : Collaborators) (sh : SchemaHandler)
    (srcInterface : List AnyVal) (res : TableMap) (key : String)
    (h : MarshalStruct c srcInterface sh = some { tb := some res, err := none })
    (hleaf : sh.IsLeafPath key)
    (hcov : ∀ record ∈ srcInterface,
      ∃ v, rootValue c record = .ok v ∧ Covers c sh key v sh.PathMap) :
    ∃ t, res.get? key = some t ∧ srcInterface.length ≤ t.Values.length := by
  obtain ⟨nb, res0, nb1, h0, h1⟩ := MarshalStruct_ok h
  obtain ⟨hkeys, _, _, _⟩ := InitMarshal_spec h0
  obtain ⟨t0, ht0⟩ := TableMap.get?_of_mem_keys ((hkeys key).2 hleaf)
  have hk0 : (res0.get? key).isSome := by rw [ht0]; rfl
  have hk := (TableMap.entries_of_extends (marshalRecords_extends _ h1) key).1 hk0
  obtain ⟨t, ht⟩ := Option.isSome_iff_exists.1 hk
  have := marshalRecords_covers c sh key srcInterface nb nb1 res0 res hcov hk0 h1
  refine ⟨t, ht, ?_⟩
  simp only [TableMap.entries, ht] at this
  omega

/-- Witness of `covered_column_has_entry_per_record`.  In scenario A the
first record covers the element leaf of `Tags` through the field `Tags`, its
pointer and the element `"x"`, the second through the field `Tags`, its
pointer and the empty slice.  In the logical map scenario the record covers
the key leaf through the field `Props` and the key of the entry `a`.  Under
the schema of scenario B the record with both keys covers the leaf `A`
through the field `Props` and the value of the entry `A` of the struct-shaped
map. -/
theorem covered_column_has_entry_per_record_witness :
    (∃ t, (tablesOf (MarshalStruct scenarioCollaborators batchA schemaA)).get?
        "Parquet_go_root/Tags/List/Element" = some t ∧ batchA.length ≤ t.Values.length) ∧
    (∃ t, (tablesOf (MarshalStruct scenarioCollaborators batchM schemaM)).get?
        "Parquet_go_root/Props/Key_value/Key" = some t ∧ batchM.length ≤ t.Values.length) ∧
    ∃ t, (tablesOf (MarshalStruct scenarioCollaborators batchBBoth schemaB)).get?
        "Parquet_go_root/Props/A" = some t ∧ batchBBoth.length ≤ t.Values.length :=
  ⟨covered_column_has_entry_per_record scenarioCollaborators schemaA batchA
    (tablesOf (MarshalStruct scenarioCollaborators batchA schemaA))
    "Parquet_go_root/Tags/List/Element" rfl ⟨4, _, rfl, rfl, rfl⟩
    (by
      intro record hmem
      simp only [batchA, List.mem_cons, List.mem_singleton, List.not_mem_nil, or_false] at hmem
      rcases hmem with rfl | rfl
      · refine ⟨_, rfl, ?_⟩
        exact Covers.field _ pathMapA pathMapATags "Tags" _
          (List.mem_cons_of_mem _ (List.mem_cons_self _ _)) rfl rfl
          (Covers.ptr _ _ (Covers.elem _ pathMapATags (some pathMapAElement)
            "Parquet_go_root/Tags/List/Element" (.str "x") rfl (List.mem_cons_self _ _)
            (Covers.scalar _ pathMapAElement rfl rfl)))
      · refine ⟨_, rfl, ?_⟩
        exact Covers.field _ pathMapA pathMapATags "Tags" _
          (List.mem_cons_of_mem _ (List.mem_cons_self _ _)) rfl rfl
          (Covers.ptr _ _ (Covers.emptySlice pathMapATags ⟨_, rfl, rfl⟩))),
   covered_column_has_entry_per_record scenarioCollaborators schemaM batchM
    (tablesOf (MarshalStruct scenarioCollaborators batchM schemaM))
    "Parquet_go_root/Props/Key_value/Key" rfl ⟨3, _, rfl, rfl, rfl⟩
    (by
      intro record hmem
      simp only [batchM, List.mem_singleton] at hmem
      subst hmem
      refine ⟨_, rfl, ?_⟩
      exact Covers.field _ pathMapM pathMapMProps "Props" _ (List.mem_cons_self _ _) rfl rfl
        (Covers.mapKey _ pathMapMProps pathMapMKeyValue ⟨none, some .REQUIRED, some 1, some 1⟩
          (.str "a") (.int 1) rfl rfl rfl (List.mem_cons_self _ _)
          (Covers.scalar _ pathMapMKey rfl rfl))),
   covered_column_has_entry_per_record scenarioCollaborators schemaB batchBBoth
    (tablesOf (MarshalStruct scenarioCollaborators batchBBoth schemaB))
    "Parquet_go_root/Props/A" rfl ⟨2, _, rfl, rfl, rfl⟩
    (by
      intro record hmem
      simp only [batchBBoth, List.mem_singleton] at hmem
      subst hmem
      refine ⟨_, rfl, ?_⟩
      exact Covers.field _ pathMapB pathMapBProps "Props" _ (List.mem_cons_self _ _) rfl rfl
        (Covers.mapEntry _ pathMapBProps (.mk "Parquet_go_root/Props/A" [])
          ⟨none, some .REQUIRED, some 2, none⟩ (.str "A") (.int 1) rfl rfl
          (List.mem_cons_self _ _) rfl (by decide) (Covers.scalar _ _ rfl rfl)))⟩

/-- C4 (counterexample): under the schema of scenario A, a batch of one record
whose struct has the field `Name` but no field `Tags` is marshalled without
error, and the column of the element leaf of `Tags`, a leaf path of the
schema, has no entry, fewer than the one record of the batch. -/
theorem column_without_entry :
    Marshal scenarioCollaborators batchNoTags schemaA =
      some { tb := some (tablesOf (Marshal scenarioCollaborators batchNoTags schemaA)),
             err := none } ∧
    schemaA.IsLeafPath "Parquet_go_root/Tags/List/Element" ∧
    column (Marshal scenarioCollaborators batchNoTags schemaA)
      "Parquet_go_root/Tags/List/Element" = some ([], [], []) ∧
    column (Marshal scenarioCollaborators batchNoTags schemaA)
      "Parquet_go_root/Name" = some ([some (.str "a")], [0], [0]) ∧
    batchNoTags.length = 1 ∧
    ¬ (batchNoTags.length ≤ (tablesOf (Marshal scenarioCollaborators batchNoTags schemaA)).entries
      "Parquet_go_root/Tags/List/Element") :=
  ⟨rfl, ⟨4, _, rfl, rfl, rfl⟩, rfl, rfl, rfl, by
    rw [show (tablesOf (Marshal scenarioCollaborators batchNoTags schemaA)).entries
      "Parquet_go_root/Tags/List/Element" = 0 from rfl]
    decide⟩

end marshal
